import Mathlib

/-!
# A disk-resident B+ tree (`bpt.cpp`): shallow embedding and verification

The development follows `src/data_generation_alt/bpt.cpp`:

* `LRUCache`      the bounded page cache (`std::list` + `std::unordered_map`);
* `MemoryRiver`   the pager: an 8-byte header (two 32-bit slots) followed by 4096-byte pages;
* `BPTNode`       one page image of the tree;
* `BPT`           the tree: `insert`, `remove`, `find` and their recursive workers.

Modelling conventions.

* A key is a 64-byte buffer; `memcmp` compares all 64 bytes as unsigned bytes.
* The entry arrays of a node are modelled by their valid prefix `[0, count)`: `count` is the
  length of the entry list selected by `is_leaf`.  Slots at index `count` and above hold stale
  data in the source and are not tracked.  Every access the source makes outside the valid prefix
  or outside the array is reported as an error instead of being given a made-up meaning.
* Stateful code passes the state explicitly; code that can leave the modelled behaviour returns
  `Except Err`.
* Recursion over the page graph is bounded by a depth counter; the public operations take it from
  the number of pages of the file, which bounds the height of every acyclic page graph.
-/

namespace BPTree

/-! ## Constants -/

/-- The macro `BLOCK_SIZE`. -/
def BLOCK_SIZE : Nat := 4096

/-- The macro `M`: split threshold of internal nodes. -/
def M : Nat := 58

/-- The macro `L`: split threshold of leaves. -/
def L : Nat := 48

/-- The member `HEADER_SIZE` of `MemoryRiver`: `2 * sizeof(unsigned int)`. -/
def HEADER_SIZE : Nat := 2 * 4

/-- Size of `struct Value` (`char[8]`, `char[8]`, `int`, declared before `#pragma pack`). -/
def sizeof_Value : Nat := 8 + 8 + 4

/-- Size of the packed node header: `bool`, `int`, two `unsigned int`. -/
def sizeof_node_header : Nat := 1 + 4 + 2 * 4

/-- Size of the packed `LeafEntry`: a 64-byte key and a `Value`. -/
def sizeof_LeafEntry : Nat := 64 + sizeof_Value

/-- Size of the packed `InternalEntry`: a 64-byte key and an `unsigned int`. -/
def sizeof_InternalEntry : Nat := 64 + 4

/-- Number of slots of the array `leaf_entries`. -/
def leaf_slots : Nat := (BLOCK_SIZE - sizeof_node_header) / sizeof_LeafEntry

/-- Number of slots of the array `internal_entries`. -/
def internal_slots : Nat := (BLOCK_SIZE - sizeof_node_header) / sizeof_InternalEntry

/-! ## Keys -/

/-- Lexicographic comparison of two byte strings of the same length, as `memcmp` does it:
negative, zero or positive.  Only the sign is used by the tree. -/
def memcmpBytes : List Nat → List Nat → Int
  | [], [] => 0
  | [], _ :: _ => -1
  | _ :: _, [] => 1
  | a :: as, b :: bs => if a < b then -1 else if b < a then 1 else memcmpBytes as bs

/-- A key: the 64 bytes of a `char[64]` buffer. -/
structure Key where
  bytes : List Nat
  size : bytes.length = 64
deriving DecidableEq

/-- The call `memcmp(a, b, 64)` on two keys. -/
def memcmp (a b : Key) : Int := memcmpBytes a.bytes b.bytes

/-- The key produced by `memset(index, 0, 64)`. -/
def zero_key : Key := ⟨List.replicate 64 0, by simp⟩

/-- The key the driver builds from a word: `char index_buf[64] = {0}; strncpy(index_buf, s, 64)`. -/
def key_of (s : List Nat) : Key :=
  ⟨(s ++ List.replicate 64 0).take 64, by simp⟩

/-! ## Errors -/

/-- The ways an execution can leave the modelled behaviour. -/
inductive Err where
  /-- A write to an entry slot beyond the end of the array (undefined behaviour in the source). -/
  | overflow
  /-- A read of an entry slot at index `count` or above, or through the other union member. -/
  | stale
  /-- A page access outside the file, at page id 0, or a read of a page whose first bytes were
  overwritten by `delete_page`. -/
  | io
  /-- The depth counter of a recursive worker ran out. -/
  | depth
deriving DecidableEq, Repr

/-! ## LRUCache -/

/-- The class `LRUCache`: `cache_list` holds the nodes, most recently used first.  The member `map`
is the index of `cache_list` by page id and is not stored separately. -/
structure LRUCache (PageType : Type) where
  cache_list : List (Nat × PageType)
  capacity : Nat

namespace LRUCache

variable {PageType : Type}

/-- The result of `map.find(page_id)`: the list node stored under `page_id`. -/
def lookup (c : LRUCache PageType) (page_id : Nat) : Option (Nat × PageType) :=
  c.cache_list.find? (fun e => e.1 == page_id)

/-- The call `cache_list.splice(cache_list.begin(), cache_list, it)` followed by nothing else: the
node under `page_id` is unlinked and `e` is linked at the front. -/
def splice_front (c : LRUCache PageType) (page_id : Nat) (e : Nat × PageType) :
    LRUCache PageType :=
  { c with cache_list := e :: c.cache_list.eraseP (fun x => x.1 == page_id) }

/-- The method `LRUCache::get`: `none` is the result `false`; `some (out, c)` is the result `true`
with the page copied to `out`. -/
def get (c : LRUCache PageType) (page_id : Nat) : Option (PageType × LRUCache PageType) :=
  match c.lookup page_id with
  | none => none
  | some e => some (e.2, c.splice_front page_id e)

/-- The method `LRUCache::put`.  (With `capacity = 0` the source calls `back()` on an empty list;
the tree always uses capacity 128.) -/
def put (c : LRUCache PageType) (page_id : Nat) (p : PageType) : LRUCache PageType :=
  match c.lookup page_id with
  | some _ => c.splice_front page_id (page_id, p)
  | none =>
    let l := if c.cache_list.length = c.capacity then c.cache_list.dropLast else c.cache_list
    { c with cache_list := (page_id, p) :: l }

/-- The page ids currently cached, most recently used first. -/
def ids (c : LRUCache PageType) : List Nat := c.cache_list.map Prod.fst

end LRUCache

/-! ## Nodes -/

/-- The struct `BPTNode::LeafEntry`. -/
structure LeafEntry (Value : Type) where
  index : Key
  value : Value
deriving DecidableEq

/-- The struct `BPTNode::InternalEntry`. -/
structure InternalEntry where
  index : Key
  child : Nat
deriving DecidableEq

/-- The struct `BPTNode`.  The two entry lists are the valid prefixes of the two members of the
union; only the one selected by `is_leaf` is in use.  The default value is the node built by the
constructor `BPTNode()`. -/
structure BPTNode (Value : Type) where
  is_leaf : Bool := false
  parent : Nat := 0
  next_leaf : Nat := 0
  leaf_entries : List (LeafEntry Value) := []
  internal_entries : List InternalEntry := []
deriving DecidableEq

namespace BPTNode

variable {Value : Type}

/-- The field `count`: the number of valid entries. -/
def count (n : BPTNode Value) : Nat :=
  if n.is_leaf then n.leaf_entries.length else n.internal_entries.length

/-- The 32-bit little-endian word in the first four bytes of the packed image: the byte `is_leaf`
followed by the three low bytes of `count`. -/
def first_word (n : BPTNode Value) : Nat :=
  (if n.is_leaf then 1 else 0) + 256 * (n.count % 2 ^ 24)

end BPTNode

/-! ## MemoryRiver -/

/-- One 4096-byte block of the file. -/
inductive Page (Value : Type) where
  /-- A block written by `write_page` or `update_page`: the node image, zero padded. -/
  | image (t : BPTNode Value)
  /-- A block whose first four bytes were overwritten by `delete_page` with `next`; the other
  bytes are still those of `t`. -/
  | freed (next : Nat) (t : BPTNode Value)
deriving DecidableEq

/-- The 32-bit word in the first four bytes of a block. -/
def Page.first_word {Value : Type} : Page Value → Nat
  | .image t => t.first_word
  | .freed next _ => next

/-- The file behind a `MemoryRiver`: the two header slots and the pages; page `i` (1-based) is
`pages[i - 1]`.  The members `root_page` and `free_list_head` of the class are scratch copies that
are re-read from the header before every use. -/
structure MemoryRiver (Value : Type) where
  slot1 : Nat
  slot2 : Nat
  pages : List (Page Value)

namespace MemoryRiver

variable {Value : Type}

/-- The size of the file in bytes (`file.tellp()` after `seekp(0, end)`). -/
def file_size (f : MemoryRiver Value) : Nat := HEADER_SIZE + BLOCK_SIZE * f.pages.length

/-- The file left by the method that writes a fresh header on a file that did not exist:
both slots zero and no page. -/
def fresh : MemoryRiver Value := { slot1 := 0, slot2 := 0, pages := [] }

/-- The method `get_info(tmp, index)`. -/
def get_info (f : MemoryRiver Value) (index : Nat) : Nat :=
  if index = 1 then f.slot1 else f.slot2

/-- The method `write_info(tmp, index)`. -/
def write_info (f : MemoryRiver Value) (tmp : Nat) (index : Nat) : MemoryRiver Value :=
  if index = 1 then { f with slot1 := tmp } else { f with slot2 := tmp }

/-- The block at page id `page_num`, if the file has it. -/
def block (f : MemoryRiver Value) (page_num : Nat) : Option (Page Value) :=
  if page_num = 0 then none else f.pages[page_num - 1]?

/-- The seek-and-write of one whole block at page id `page_num`, which is either an existing page
or the first page after the end of the file. -/
def put_block (f : MemoryRiver Value) (page_num : Nat) (p : Page Value) :
    Except Err (MemoryRiver Value) :=
  if page_num = 0 then .error .io
  else if page_num - 1 < f.pages.length then
    .ok { f with pages := f.pages.set (page_num - 1) p }
  else if page_num - 1 = f.pages.length then
    .ok { f with pages := f.pages ++ [p] }
  else .error .io

/-- The method `write_page`: returns the allocated page id and the new file. -/
def write_page (f : MemoryRiver Value) (t : BPTNode Value) :
    Except Err (Nat × MemoryRiver Value) :=
  let free_list_head := f.get_info 2
  if free_list_head ≠ 0 then
    let page_num := free_list_head
    match f.block page_num with
    | none => .error .io
    | some b =>
      let next_free_page := b.first_word
      let f1 := f.write_info next_free_page 2
      match f1.put_block page_num (.image t) with
      | .error e => .error e
      | .ok f2 => .ok (page_num, f2)
  else
    let page_num := (f.file_size - HEADER_SIZE) / BLOCK_SIZE + 1
    match f.put_block page_num (.image t) with
    | .error e => .error e
    | .ok f2 => .ok (page_num, f2)

/-- The method `delete_page`. -/
def delete_page (f : MemoryRiver Value) (page_num : Nat) : Except Err (MemoryRiver Value) :=
  let free_list_head := f.get_info 2
  match f.block page_num with
  | none => .error .io
  | some (.image t) | some (.freed _ t) =>
    match f.put_block page_num (.freed free_list_head t) with
    | .error e => .error e
    | .ok f1 => .ok (f1.write_info page_num 2)

/-- The method `read_page`. -/
def read_page (f : MemoryRiver Value) (page_num : Nat) : Except Err (BPTNode Value) :=
  match f.block page_num with
  | some (.image t) => .ok t
  | _ => .error .io

/-- The method `update_page`. -/
def update_page (f : MemoryRiver Value) (t : BPTNode Value) (page_num : Nat) :
    Except Err (MemoryRiver Value) :=
  f.put_block page_num (.image t)

end MemoryRiver

/-! ## BPT: the state and the cached page operations -/

/-- The class `BPT`: the pager, the member `root_page` and the page cache. -/
structure BPT (Value : Type) where
  file : MemoryRiver Value
  root_page : Nat
  cache : LRUCache (BPTNode Value)

variable {Value : Type}

/-- The method `disk_read`: the node is taken from the cache, or read from the file and cached. -/
def disk_read (t : BPT Value) (page : Nat) : Except Err (BPTNode Value × BPT Value) :=
  match t.cache.get page with
  | some (node, c) => .ok (node, { t with cache := c })
  | none =>
    match t.file.read_page page with
    | .error e => .error e
    | .ok node => .ok (node, { t with cache := t.cache.put page node })

/-- The method `disk_write`. -/
def disk_write (t : BPT Value) (node : BPTNode Value) (page : Nat) : Except Err (BPT Value) :=
  match t.file.update_page node page with
  | .error e => .error e
  | .ok f => .ok { t with file := f, cache := t.cache.put page node }

/-- The method `disk_delete`: the cache is left alone. -/
def disk_delete (t : BPT Value) (page : Nat) : Except Err (BPT Value) :=
  match t.file.delete_page page with
  | .error e => .error e
  | .ok f => .ok { t with file := f }

/-- The method `disk_alloc`. -/
def disk_alloc (t : BPT Value) (node : BPTNode Value) : Except Err (Nat × BPT Value) :=
  match t.file.write_page node with
  | .error e => .error e
  | .ok (pg, f) => .ok (pg, { t with file := f, cache := t.cache.put pg node })

/-- The method `initialize_new_tree`. -/
def initialize_new_tree (t : BPT Value) : Except Err (BPT Value) := do
  let leaf_node : BPTNode Value := { is_leaf := true, next_leaf := 0 }
  let (leaf_page, t) ← disk_alloc t leaf_node
  let root_node : BPTNode Value :=
    { is_leaf := false, parent := 0, next_leaf := 0,
      internal_entries := [{ index := zero_key, child := leaf_page }] }
  let (root_page, t) ← disk_alloc t root_node
  let t := { t with root_page := root_page }
  let leaf_node := { leaf_node with parent := root_page }
  let t ← disk_write t leaf_node leaf_page
  let t := { t with file := t.file.write_info root_page 1 }
  let t := { t with file := t.file.write_info 0 2 }
  let (_, t) ← disk_read t leaf_page
  return t

/-- The constructor `BPT(filename)` on a file with the contents `f`: the cache is empty with
capacity 128, `root_page` is read from header slot 1, and a tree is built when it is 0. -/
def BPT.open (f : MemoryRiver Value) : Except Err (BPT Value) :=
  let t : BPT Value :=
    { file := f, root_page := f.get_info 1, cache := { cache_list := [], capacity := 128 } }
  if t.root_page = 0 then initialize_new_tree t else .ok t

/-! ## Searching inside a node -/

/-- The key of internal entry `i`; outside the valid prefix the value is not used. -/
def key_at (es : List InternalEntry) (i : Nat) : Key :=
  match es[i]? with
  | some e => e.index
  | none => zero_key

/-- The binary search of `insert`: `left` is the variable `left`, `hi` is `right + 1` (so that
`left <= right` reads `left < hi` and `right = mid - 1` reads `hi := mid`), `i` is the variable
`i`.  The first argument bounds the number of iterations; `hi - left` is enough, because every
iteration makes `hi - left` smaller. -/
def search_ge (index : Key) (es : List InternalEntry) : Nat → Nat → Nat → Nat → Nat
  | 0, _, _, i => i
  | n + 1, left, hi, i =>
    if left < hi then
      let mid := (left + (hi - 1)) / 2
      if memcmp index (key_at es mid) ≥ 0 then search_ge index es n (mid + 1) hi mid
      else search_ge index es n left mid i
    else i

/-- The binary search of `remove` and `find_all`: as `search_ge`, with `> 0` for `>= 0`. -/
def search_gt (index : Key) (es : List InternalEntry) : Nat → Nat → Nat → Nat → Nat
  | 0, _, _, i => i
  | n + 1, left, hi, i =>
    if left < hi then
      let mid := (left + (hi - 1)) / 2
      if memcmp index (key_at es mid) > 0 then search_gt index es n (mid + 1) hi mid
      else search_gt index es n left mid i
    else i

/-- The index `i` with which `insert` leaves its binary search in a node with entries `es`. -/
def insert_child_index (index : Key) (es : List InternalEntry) : Nat :=
  search_ge index es es.length 0 es.length 0

/-- The index `i` with which `remove` and `find_all` leave their binary search. -/
def scan_start_index (index : Key) (es : List InternalEntry) : Nat :=
  search_gt index es es.length 0 es.length 0

/-- The backward loop of the leaf case of `insert`: the argument is `j + 1`, the result is the
final `j + 1`, the slot the new entry is written to. -/
def insert_slot (index : Key) (es : List (LeafEntry Value)) : Nat → Nat
  | 0 => 0
  | j + 1 =>
    match es[j]? with
    | some e => if memcmp index e.index ≥ 0 then j + 1 else insert_slot index es j
    | none => j + 1

/-- The forward loop of the leaf case of `remove`: the first `j` from the argument on with equal
key and equal value, or `count`. -/
def remove_slot [BEq Value] (index : Key) (value : Value) :
    List (LeafEntry Value) → Nat → Nat
  | [], j => j
  | e :: es, j =>
    if memcmp index e.index = 0 && e.value == value then j else remove_slot index value es (j + 1)

/-! ## BPT: insertion -/

/-- The entries of a node, whichever member of the union is in use, cut to `[0, n)`: the effect of
the assignment `count = n` on a node with at least `n` entries. -/
def BPTNode.truncate (node : BPTNode Value) (n : Nat) : BPTNode Value :=
  if node.is_leaf then { node with leaf_entries := node.leaf_entries.take n }
  else { node with internal_entries := node.internal_entries.take n }

/-- The key of entry 0 of a node (`leaf_entries[0].index` or `internal_entries[0].index`). -/
def BPTNode.first_key (node : BPTNode Value) : Except Err Key :=
  if node.is_leaf then
    match node.leaf_entries with
    | e :: _ => .ok e.index
    | [] => .error .stale
  else
    match node.internal_entries with
    | e :: _ => .ok e.index
    | [] => .error .stale

/-- The block `if (child_node.count >= limit) { ... }` of the recursive `insert`: the child at
entry `i` of `now_node` is split and the separator of the new sibling is inserted at `i + 1`. -/
def split_child (now_node : BPTNode Value) (now_page : Nat) (i : Nat)
    (child_node : BPTNode Value) (child_page : Nat) (t : BPT Value) :
    Except Err (BPTNode Value × BPT Value) := do
  let limit := if child_node.is_leaf then L else M
  let new_child_node : BPTNode Value :=
    { is_leaf := child_node.is_leaf
      parent := child_node.parent
      next_leaf := child_node.next_leaf
      leaf_entries := if child_node.is_leaf then child_node.leaf_entries.drop (limit / 2) else []
      internal_entries :=
        if child_node.is_leaf then [] else child_node.internal_entries.drop (limit / 2) }
  let (new_child_page, t) ← disk_alloc t new_child_node
  let child_node := { child_node.truncate (limit / 2) with next_leaf := new_child_page }
  let t ← disk_write t child_node child_page
  let key ← new_child_node.first_key
  if internal_slots ≤ now_node.internal_entries.length then .error .overflow
  else
    let now_node :=
      { now_node with
        internal_entries :=
          now_node.internal_entries.take (i + 1) ++
            { index := key, child := new_child_page } :: now_node.internal_entries.drop (i + 1) }
    let t ← disk_write t now_node now_page
    return (now_node, t)

/-- The recursive `insert(index, value, now_node, now_page)`.  The node behind the pointer
`now_node` is returned with the new state.  The first argument is the depth counter. -/
def insert_rec (index : Key) (value : Value) :
    Nat → BPTNode Value → Nat → BPT Value → Except Err (BPTNode Value × BPT Value)
  | 0, _, _, _ => .error .depth
  | d + 1, now_node, now_page, t =>
    if now_node.is_leaf then
      if leaf_slots ≤ now_node.leaf_entries.length then .error .overflow
      else
        let j := insert_slot index now_node.leaf_entries now_node.leaf_entries.length
        let now_node :=
          { now_node with
            leaf_entries :=
              now_node.leaf_entries.take j ++
                { index := index, value := value } :: now_node.leaf_entries.drop j }
        match disk_write t now_node now_page with
        | .error e => .error e
        | .ok t => .ok (now_node, t)
    else
      let i := insert_child_index index now_node.internal_entries
      match now_node.internal_entries[i]? with
      | none => .error .stale
      | some e =>
        let child_page := e.child
        match disk_read t child_page with
        | .error e => .error e
        | .ok (child_node, t) =>
          match insert_rec index value d child_node child_page t with
          | .error e => .error e
          | .ok (child_node, t) =>
            let limit := if child_node.is_leaf then L else M
            if limit ≤ child_node.count then
              split_child now_node now_page i child_node child_page t
            else .ok (now_node, t)

/-- The block `if (root_node.count >= M) { ... }` of the public `insert`: the root is split and a
new root is put above the two halves. -/
def grow_root (root_node : BPTNode Value) (t : BPT Value) : Except Err (BPT Value) := do
  if root_node.is_leaf then .error .stale
  else
    let new_child_node : BPTNode Value :=
      { is_leaf := false, parent := 0, next_leaf := 0 }
    let (new_child_page, t) ← disk_alloc t new_child_node
    let new_child_node :=
      { new_child_node with internal_entries := root_node.internal_entries.drop (M / 2) }
    let root_node := { root_node with internal_entries := root_node.internal_entries.take (M / 2) }
    let key0 ← root_node.first_key
    let key1 ← new_child_node.first_key
    let new_root_node : BPTNode Value :=
      { is_leaf := false, parent := 0, next_leaf := 0,
        internal_entries :=
          [{ index := key0, child := t.root_page }, { index := key1, child := new_child_page }] }
    let old_root_page := t.root_page
    let (root_page, t) ← disk_alloc t new_root_node
    let t := { t with root_page := root_page }
    let root_node := { root_node with parent := root_page, next_leaf := new_child_page }
    let t ← disk_write t root_node old_root_page
    let new_child_node := { new_child_node with parent := root_page }
    let t ← disk_write t new_child_node new_child_page
    return { t with file := t.file.write_info root_page 1 }

/-- The depth given to the recursive workers by the public operations: the number of pages of
the file. -/
def BPT.depth (t : BPT Value) : Nat := t.file.pages.length

/-- The public `insert(index, value)`. -/
def BPT.insert (t : BPT Value) (index : Key) (value : Value) : Except Err (BPT Value) := do
  let depth := t.depth
  let (root_node, t) ← disk_read t t.root_page
  let (root_node, t) ← insert_rec index value depth root_node t.root_page t
  if M ≤ root_node.count then grow_root root_node t else return t

/-! ## BPT: removal -/

/-- The entries of `a` followed by those of `b`, in the member of the union selected by `a`:
the loops `a.entries[a.count++] = b.entries[j]` of the merge. -/
def BPTNode.append (a b : BPTNode Value) : BPTNode Value :=
  if a.is_leaf then { a with leaf_entries := a.leaf_entries ++ b.leaf_entries }
  else { a with internal_entries := a.internal_entries ++ b.internal_entries }

/-- The node without its entry 0, the others shifted left by one. -/
def BPTNode.drop_first (a : BPTNode Value) : BPTNode Value :=
  if a.is_leaf then { a with leaf_entries := a.leaf_entries.tail }
  else { a with internal_entries := a.internal_entries.tail }

/-- The node without its last entry (`count--`). -/
def BPTNode.drop_last (a : BPTNode Value) : BPTNode Value :=
  if a.is_leaf then { a with leaf_entries := a.leaf_entries.dropLast }
  else { a with internal_entries := a.internal_entries.dropLast }

/-- The assignment `memcpy(node.internal_entries[i].index, key, 64)`. -/
def BPTNode.set_key (node : BPTNode Value) (i : Nat) (key : Key) : Except Err (BPTNode Value) :=
  match node.internal_entries[i]? with
  | none => .error .stale
  | some e =>
    .ok { node with internal_entries := node.internal_entries.set i { e with index := key } }

/-- The borrow from the left sibling: the entries of the child are shifted right by one and the
last entry of the sibling becomes entry 0 of the child.  Returns the child and the sibling. -/
def borrow_left (child_node sibling_node : BPTNode Value) :
    Except Err (BPTNode Value × BPTNode Value) :=
  if child_node.is_leaf then
    if leaf_slots ≤ child_node.leaf_entries.length then .error .overflow
    else
      match sibling_node.leaf_entries.getLast? with
      | none => .error .stale
      | some e =>
        .ok ({ child_node with leaf_entries := e :: child_node.leaf_entries },
          sibling_node.drop_last)
  else
    if internal_slots ≤ child_node.internal_entries.length then .error .overflow
    else
      match sibling_node.internal_entries.getLast? with
      | none => .error .stale
      | some e =>
        .ok ({ child_node with internal_entries := e :: child_node.internal_entries },
          sibling_node.drop_last)

/-- The borrow from the right sibling: entry 0 of the sibling is appended to the child and the
entries of the sibling are shifted left by one.  Returns the child and the sibling. -/
def borrow_right (child_node sibling_node : BPTNode Value) :
    Except Err (BPTNode Value × BPTNode Value) :=
  if child_node.is_leaf then
    if leaf_slots ≤ child_node.leaf_entries.length then .error .overflow
    else
      match sibling_node.leaf_entries with
      | [] => .error .stale
      | e :: _ =>
        .ok ({ child_node with leaf_entries := child_node.leaf_entries ++ [e] },
          sibling_node.drop_first)
  else
    if internal_slots ≤ child_node.internal_entries.length then .error .overflow
    else
      match sibling_node.internal_entries with
      | [] => .error .stale
      | e :: _ =>
        .ok ({ child_node with internal_entries := child_node.internal_entries ++ [e] },
          sibling_node.drop_first)

/-- The block `if (child_node.count < limit / 2 && now_node->count > 1) { ... }` of the recursive
`remove`: merge with, or borrow from, the left sibling (`i > 0`) or the right sibling (`i = 0`). -/
def rebalance (now_node : BPTNode Value) (now_page : Nat) (i : Nat)
    (child_node : BPTNode Value) (child_page : Nat) (t : BPT Value) :
    Except Err (BPTNode Value × BPT Value) := do
  let limit := if child_node.is_leaf then L else M
  let sibling_index := if 0 < i then i - 1 else i + 1
  match now_node.internal_entries[sibling_index]? with
  | none => .error .stale
  | some se =>
    let sibling_page := se.child
    let (sibling_node, t) ← disk_read t sibling_page
    if sibling_node.is_leaf ≠ child_node.is_leaf then .error .stale
    else if sibling_node.count + child_node.count ≤ limit then
      if 0 < i then
        let sibling_node :=
          { sibling_node.append child_node with next_leaf := child_node.next_leaf }
        let t ← disk_write t sibling_node sibling_page
        let now_node :=
          { now_node with internal_entries := now_node.internal_entries.eraseIdx i }
        let t ← disk_write t now_node now_page
        let t ← disk_delete t child_page
        return (now_node, t)
      else
        let child_node := child_node.append sibling_node
        let t ← disk_write t child_node child_page
        let now_node :=
          { now_node with internal_entries := now_node.internal_entries.eraseIdx (i + 1) }
        let t ← disk_write t now_node now_page
        let t ← disk_delete t sibling_page
        return (now_node, t)
    else
      if 0 < i then
        let (child_node, sibling_node) ← borrow_left child_node sibling_node
        let key ← child_node.first_key
        let now_node ← now_node.set_key i key
        let t ← disk_write t child_node child_page
        let t ← disk_write t sibling_node sibling_page
        let t ← disk_write t now_node now_page
        return (now_node, t)
      else
        let (child_node, sibling_node) ← borrow_right child_node sibling_node
        let key ← sibling_node.first_key
        let now_node ← now_node.set_key (i + 1) key
        let t ← disk_write t child_node child_page
        let t ← disk_write t sibling_node sibling_page
        let t ← disk_write t now_node now_page
        return (now_node, t)

/-- The loop `for (; i < count && memcmp(index, entries[i].index, 64) >= 0; ++i)` of the
recursive `remove`; `worker` is the recursive call on a child.  The first argument bounds the
number of iterations (`count - i` is enough). -/
def remove_scan (index : Key)
    (worker : BPTNode Value → Nat → BPT Value → Except Err (Bool × BPTNode Value × BPT Value)) :
    Nat → Nat → BPTNode Value → Nat → BPT Value → Except Err (Bool × BPTNode Value × BPT Value)
  | 0, _, now_node, _, t => .ok (false, now_node, t)
  | n + 1, i, now_node, now_page, t =>
    match now_node.internal_entries[i]? with
    | none => .ok (false, now_node, t)
    | some e =>
      if memcmp index e.index ≥ 0 then
        let child_page := e.child
        match disk_read t child_page with
        | .error err => .error err
        | .ok (child_node, t) =>
          match worker child_node child_page t with
          | .error err => .error err
          | .ok (flag, child_node, t) =>
            if !flag then remove_scan index worker n (i + 1) now_node now_page t
            else if child_node.count < (if child_node.is_leaf then L else M) / 2
                && 1 < now_node.count then
              match rebalance now_node now_page i child_node child_page t with
              | .error err => .error err
              | .ok (now_node, t) => .ok (true, now_node, t)
            else .ok (true, now_node, t)
      else .ok (false, now_node, t)

/-- The recursive `remove(index, value, now_node, now_page)`: the returned flag, the node behind
the pointer `now_node`, and the new state. -/
def remove_rec [BEq Value] (index : Key) (value : Value) :
    Nat → BPTNode Value → Nat → BPT Value → Except Err (Bool × BPTNode Value × BPT Value)
  | 0, _, _, _ => .error .depth
  | d + 1, now_node, now_page, t =>
    if now_node.is_leaf then
      let j := remove_slot index value now_node.leaf_entries 0
      if j = now_node.leaf_entries.length then .ok (false, now_node, t)
      else
        let now_node := { now_node with leaf_entries := now_node.leaf_entries.eraseIdx j }
        match disk_write t now_node now_page with
        | .error e => .error e
        | .ok t => .ok (true, now_node, t)
    else
      let i := scan_start_index index now_node.internal_entries
      remove_scan index (remove_rec index value d)
        (now_node.internal_entries.length - i) i now_node now_page t

/-- The block `if (root_node.count == 1) { ... }` of the public `remove`. -/
def shrink_root (root_node : BPTNode Value) (t : BPT Value) : Except Err (BPT Value) := do
  if root_node.is_leaf then .error .stale
  else
    match root_node.internal_entries with
    | [] => .error .stale
    | e :: _ =>
      let (child_node, t) ← disk_read t e.child
      if child_node.is_leaf then return t
      else
        let t ← disk_delete t t.root_page
        let t := { t with root_page := e.child }
        return { t with file := t.file.write_info t.root_page 1 }

/-- The public `remove(index, value)`. -/
def BPT.remove [BEq Value] (t : BPT Value) (index : Key) (value : Value) :
    Except Err (BPT Value) := do
  let depth := t.depth
  let (root_node, t) ← disk_read t t.root_page
  let (_, root_node, t) ← remove_rec index value depth root_node t.root_page t
  if root_node.count = 1 then shrink_root root_node t else return t

/-! ## BPT: lookup -/

/-- The loop `while (i < count && memcmp(index, entries[i].index, 64) >= 0)` of `find_all`;
`worker` is the recursive call on a child, `values` the output buffer filled so far. -/
def find_scan (index : Key)
    (worker : List Value → BPTNode Value → BPT Value → Except Err (List Value × BPT Value)) :
    Nat → Nat → List Value → BPTNode Value → BPT Value → Except Err (List Value × BPT Value)
  | 0, _, values, _, t => .ok (values, t)
  | n + 1, i, values, now_node, t =>
    match now_node.internal_entries[i]? with
    | none => .ok (values, t)
    | some e =>
      if memcmp index e.index ≥ 0 then
        match disk_read t e.child with
        | .error err => .error err
        | .ok (child_node, t) =>
          match worker values child_node t with
          | .error err => .error err
          | .ok (values, t) => find_scan index worker n (i + 1) values now_node t
      else .ok (values, t)

/-- The method `find_all(index, values, count, now_node)`: the buffer `values[0 .. count)` is the
list `values`; matches are appended. -/
def find_all (index : Key) :
    Nat → List Value → BPTNode Value → BPT Value → Except Err (List Value × BPT Value)
  | 0, _, _, _ => .error .depth
  | d + 1, values, now_node, t =>
    if now_node.count = 0 then .ok (values, t)
    else if now_node.is_leaf then
      .ok (values ++
        (now_node.leaf_entries.filter (fun e => memcmp index e.index = 0)).map (·.value), t)
    else
      let i := scan_start_index index now_node.internal_entries
      find_scan index (find_all index d) (now_node.internal_entries.length - i) i values
        now_node t

/-- The public `find(index, values, count)` called with an empty buffer (`count = 0`). -/
def BPT.find (t : BPT Value) (index : Key) : Except Err (List Value × BPT Value) := do
  let depth := t.depth
  let (root_node, t) ← disk_read t t.root_page
  find_all index depth [] root_node t

/-! ## Histories of cache operations

The claims about the cache speak of the image most recently put under an id and of the id least
recently touched.  A run of `get` and `put` calls is replayed with a clock; the replay records,
next to the cache itself, the time of the last touch of every id (a `get` that hits, or a `put`)
and the image of its last `put`. -/

/-- One call on the cache. -/
inductive CacheOp (PageType : Type) where
  | get (page_id : Nat)
  | put (page_id : Nat) (p : PageType)

/-- A cache together with the record of its history. -/
structure CacheRun (PageType : Type) where
  cache : LRUCache PageType
  clock : Nat
  touched_at : Nat → Nat
  last_put : Nat → Option PageType

namespace CacheRun

variable {PageType : Type}

/-- The empty cache of capacity `cap` at time 1; time 0 stands for never touched. -/
def start (cap : Nat) : CacheRun PageType :=
  { cache := { cache_list := [], capacity := cap }, clock := 1,
    touched_at := fun _ => 0, last_put := fun _ => none }

/-- One call: the cache does what `LRUCache::get` or `LRUCache::put` does, the record is kept. -/
def step (s : CacheRun PageType) : CacheOp PageType → CacheRun PageType
  | .get page_id =>
    match s.cache.get page_id with
    | some (_, c) =>
      { s with cache := c, clock := s.clock + 1,
               touched_at := fun x => if x = page_id then s.clock else s.touched_at x }
    | none => { s with clock := s.clock + 1 }
  | .put page_id p =>
    { cache := s.cache.put page_id p, clock := s.clock + 1,
      touched_at := fun x => if x = page_id then s.clock else s.touched_at x,
      last_put := fun x => if x = page_id then some p else s.last_put x }

/-- A sequence of calls on the empty cache of capacity `cap`. -/
def run (cap : Nat) (ops : List (CacheOp PageType)) : CacheRun PageType :=
  ops.foldl step (start cap)

end CacheRun

namespace CacheRun

variable {PageType : Type}

/-- The invariant of a replayed run: every cached image is the last one put under its id, every
cached id was touched before now, and the list is ordered by the time of the last touch, most
recent first. -/
def Inv (s : CacheRun PageType) : Prop :=
  (∀ e ∈ s.cache.cache_list, s.last_put e.1 = some e.2) ∧
  (∀ e ∈ s.cache.cache_list, s.touched_at e.1 < s.clock) ∧
  s.cache.cache_list.Pairwise (fun a b => s.touched_at b.1 < s.touched_at a.1) ∧
  (1 ≤ s.cache.capacity → s.cache.cache_list.length ≤ s.cache.capacity)

end CacheRun

/-! ## Small concrete inputs used to instantiate the theorems -/

/-- A file with two pages, as `initialize_new_tree` leaves it on a new file. -/
def demo_file : MemoryRiver Nat :=
  { slot1 := 2, slot2 := 0,
    pages := [.image { is_leaf := true, parent := 2 },
              .image { internal_entries := [{ index := zero_key, child := 1 }] }] }

/-! ## Reading the file as a map from page ids to nodes -/

/-- The node image held by a block, whether or not its first bytes were overwritten. -/
def Page.node : Page Value → BPTNode Value
  | .image t => t
  | .freed _ t => t

/-- The node stored at a page: defined when the page exists and is intact. -/
def MemoryRiver.node_at (f : MemoryRiver Value) (p : Nat) : Option (BPTNode Value) :=
  match f.block p with
  | some (.image t) => some t
  | _ => none

/-- Write-through: every cached image is the node image of its page in the file. -/
def BPT.coherent (t : BPT Value) : Prop :=
  ∀ p e, t.cache.lookup p = some e → ∃ b, t.file.block p = some b ∧ b.node = e.2

/-- The free list can serve two allocations from different pages: it is empty, or its head is
an existing page whose link is 0 or another existing page. -/
def MemoryRiver.two_pages_available (f : MemoryRiver Value) : Prop :=
  f.get_info 2 = 0 ∨
    ∃ b, f.block (f.get_info 2) = some b ∧
      (b.first_word = 0 ∨ (b.first_word ≠ f.get_info 2 ∧ (f.block b.first_word).isSome))

/-! ## The order of keys and the shape of a tree

The file is read as a map from page ids to nodes (`MemoryRiver.node_at`).  The predicates below
describe a subtree of a given height in such a map: the pages it occupies, the leaf entries it
holds from left to right, and the conditions under which `insert` and `find_all` work on it. -/

/-- Byte-wise order of keys: `a ≤ b` when `memcmp(a, b, 64) <= 0`. -/
instance : LE Key := ⟨fun a b => memcmp a b ≤ 0⟩

/-- Strict byte-wise order of keys: `a < b` when `memcmp(a, b, 64) < 0`. -/
instance : LT Key := ⟨fun a b => memcmp a b < 0⟩

/-- A key respects an optional upper bound. -/
def below (k : Key) : Option Key → Prop
  | none => True
  | some h => k ≤ h

/-- The upper bound of the child of an entry: the key of the next entry, or the bound of the
node for the last entry. -/
def next_key (rest : List InternalEntry) (hi : Option Key) : Option Key :=
  match rest with
  | [] => hi
  | e :: _ => some e.index

/-- The children of an internal node, from left to right: the child of every entry satisfies `P`
between the key of its entry and the key of the next entry, and the keys do not decrease. -/
def kids (P : Nat → Key → Option Key → Prop) : List InternalEntry → Option Key → Prop
  | [], _ => True
  | e :: rest, hi =>
    P e.child e.index (next_key rest hi) ∧ below e.index (next_key rest hi) ∧ kids P rest hi

/-- The split threshold of a node: `L` for a leaf, `M` for an internal node. -/
def BPTNode.limit (n : BPTNode Value) : Nat := if n.is_leaf then L else M

/-- The count of a node is below its limit plus `slack`, and at least half the limit when `low`
is set. -/
def BPTNode.sized (n : BPTNode Value) (low : Bool) (slack : Nat) : Prop :=
  n.count < n.limit + slack ∧ (low = true → n.limit / 2 ≤ n.count)

/-- The pages of the subtree of height `h` at page `p`, the root first. -/
def subtree (m : Nat → Option (BPTNode Value)) : Nat → Nat → List Nat
  | 0, p => [p]
  | h + 1, p =>
    p :: match m p with
      | some n => n.internal_entries.flatMap (fun e => subtree m h e.child)
      | none => []

/-- The leaf entries of the subtree of height `h` at page `p`, from left to right. -/
def contents (m : Nat → Option (BPTNode Value)) : Nat → Nat → List (LeafEntry Value)
  | 0, p =>
    match m p with
    | some n => n.leaf_entries
    | none => []
  | h + 1, p =>
    match m p with
    | some n => n.internal_entries.flatMap (fun e => contents m h e.child)
    | none => []

/-- A well-formed subtree of height `h` at page `p` (height 0 is a leaf) with all keys between
`lo` and `hi`: leaves hold their entries in non-decreasing key order; the first key of an internal
node is `lo`, its keys do not decrease, and the subtree of every entry lies between the key of the
entry and the next key.  `low` asks for the lower bound on the count of the node at `p`,
`lowkids` for that of its children (deeper nodes always have it); `slack` is 1 for a node that may
have reached its limit and waits to be split. -/
def ordered (m : Nat → Option (BPTNode Value)) :
    Nat → Nat → Key → Option Key → Bool → Bool → Nat → Prop
  | 0, p, lo, hi, low, _, slack =>
    ∃ n, m p = some n ∧ n.is_leaf = true ∧ n.sized low slack ∧
      n.leaf_entries.Pairwise (fun a b => a.index ≤ b.index) ∧
      ∀ e ∈ n.leaf_entries, lo ≤ e.index ∧ below e.index hi
  | h + 1, p, lo, hi, low, lowkids, slack =>
    ∃ n, m p = some n ∧ n.is_leaf = false ∧ n.sized low slack ∧
      (∃ e rest, n.internal_entries = e :: rest ∧ e.index = lo) ∧
      kids (fun c k hi1 => ordered m h c k hi1 lowkids true 0) n.internal_entries hi

/-! ## Sequences of public operations -/

/-- One public call on the tree. -/
inductive Op (Value : Type) where
  | insert (index : Key) (value : Value)
  | remove (index : Key) (value : Value)

/-- One public call. -/
def BPT.apply [BEq Value] (t : BPT Value) : Op Value → Except Err (BPT Value)
  | .insert index value => t.insert index value
  | .remove index value => t.remove index value

/-- A sequence of public calls, stopping at the first one that fails. -/
def BPT.run [BEq Value] (t : BPT Value) : List (Op Value) → Except Err (BPT Value)
  | [] => .ok t
  | op :: ops =>
    match t.apply op with
    | .error e => .error e
    | .ok t1 => t1.run ops

/-- A sequence of public calls on a tree constructed on a new file. -/
def session [BEq Value] (ops : List (Op Value)) : Except Err (BPT Value) :=
  match BPT.open MemoryRiver.fresh with
  | .error e => .error e
  | .ok t => t.run ops

/-- The error with which a computation stopped, if it did. -/
def failure {α : Type} : Except Err α → Option Err
  | .error e => some e
  | .ok _ => none

/-- Forty-eight inserts that fill and split the first leaf, one more insert into its left half,
one remove from its right half that merges the halves into one leaf of 48 entries, and one more
insert. -/
def overflow_ops : List (Op Nat) :=
  (List.range 48).map (fun i => Op.insert (key_of [i + 1]) i) ++
    [Op.insert (key_of [0]) 0, Op.remove (key_of [48]) 47, Op.insert (key_of [9]) 9]

/-- The node map with page `p` set to `n`. -/
def set_node (m : Nat → Option (BPTNode Value)) (p : Nat) (n : BPTNode Value) :
    Nat → Option (BPTNode Value) :=
  fun q => if q = p then some n else m q

/-- What every step of a tree operation keeps, in a file without free pages: the cache is
write-through, the free list stays empty, header slot 1 and the member `root_page` are kept. -/
structure Step (t t1 : BPT Value) : Prop where
  coherent : t1.coherent
  slot2 : t1.file.slot2 = 0
  slot1 : t1.file.slot1 = t.file.slot1
  root : t1.root_page = t.root_page

/-- The new sibling built by the split step: the entries from `limit / 2` on. -/
def BPTNode.right_half (c : BPTNode Value) : BPTNode Value :=
  { is_leaf := c.is_leaf
    parent := c.parent
    next_leaf := c.next_leaf
    leaf_entries := if c.is_leaf then c.leaf_entries.drop (c.limit / 2) else []
    internal_entries := if c.is_leaf then [] else c.internal_entries.drop (c.limit / 2) }

/-- The node left behind by the split step: the entries before `limit / 2`, linked to the new
sibling at page `q`. -/
def BPTNode.left_half (c : BPTNode Value) (q : Nat) : BPTNode Value :=
  { c.truncate (c.limit / 2) with next_leaf := q }

/-- The values of the entries of `l` whose key equals `k` byte for byte, in the order of `l`. -/
def matching (k : Key) (l : List (LeafEntry Value)) : List Value :=
  (l.filter (fun e => memcmp k e.index = 0)).map (·.value)

/-- The state of a tree built by inserts alone: the cache is write-through, the free list is
empty, header slot 1 names the root, and the pages reachable from the root form a well-formed
tree of height `h + 1` whose leaf entries are `items` in some order.  The children of the root
are exempt from the lower bound on the count while the root has a single entry. -/
def BPT.good (t : BPT Value) (h : Nat) (items : List (LeafEntry Value)) : Prop :=
  t.coherent ∧ t.file.slot2 = 0 ∧ t.file.slot1 = t.root_page ∧
    ∃ n, t.file.node_at t.root_page = some n ∧
      ordered t.file.node_at (h + 1) t.root_page zero_key none false (decide (2 ≤ n.count)) 0 ∧
      (subtree t.file.node_at (h + 1) t.root_page).Nodup ∧
      (contents t.file.node_at (h + 1) t.root_page).Perm items

/-- The inserts of a list of pairs, in order. -/
def inserts (pairs : List (Key × Value)) : List (Op Value) :=
  pairs.map (fun p => Op.insert p.1 p.2)

/-! ## The shape of a tree and the free list

What `insert`, `remove` and `find` rely on, whatever the keys and the counts: the pages reachable
from the root are intact and form a tree with all leaves at the same height, and the pages on
the free list are the others. -/

/-- A subtree of height `h` at page `p`: its pages are intact, the nodes at height 0 are leaves,
the others are internal nodes with at least one entry. -/
def shaped (m : Nat → Option (BPTNode Value)) : Nat → Nat → Prop
  | 0, p => ∃ n, m p = some n ∧ n.is_leaf = true
  | h + 1, p =>
    ∃ n, m p = some n ∧ n.is_leaf = false ∧ n.internal_entries ≠ [] ∧
      ∀ e ∈ n.internal_entries, shaped m h e.child

/-- A node that can stand at height `h` above the subtrees of the map `m`. -/
def fits (m : Nat → Option (BPTNode Value)) : Nat → BPTNode Value → Prop
  | 0, n => n.is_leaf = true
  | h + 1, n =>
    n.is_leaf = false ∧ n.internal_entries ≠ [] ∧ ∀ e ∈ n.internal_entries, shaped m h e.child

/-- The pages below a node that stands at height `h`. -/
def under (m : Nat → Option (BPTNode Value)) : Nat → BPTNode Value → List Nat
  | 0, _ => []
  | h + 1, n => n.internal_entries.flatMap (fun e => subtree m h e.child)

/-- The free list from the head `hd`: `l` lists the pages met by following the links stored in
the first four bytes of the freed blocks until the link 0. -/
def MemoryRiver.free_chain (f : MemoryRiver Value) : Nat → List Nat → Prop
  | hd, [] => hd = 0
  | hd, x :: l => hd = x ∧ ∃ nx n, f.block x = some (.freed nx n) ∧ f.free_chain nx l

/-- The subtree of height `h` at page `p` and the free list `fl` in the state `t`: the cache is
write-through, the subtree is well shaped, `fl` is the free list, and no page occurs twice in the
subtree and the free list together. -/
structure Owned (t : BPT Value) (h p : Nat) (fl : List Nat) : Prop where
  coherent : t.coherent
  chain : t.file.free_chain t.file.slot2 fl
  shape : shaped t.file.node_at h p
  nodup : (subtree t.file.node_at h p ++ fl).Nodup

/-- The effect of a step of `insert` or `remove` on the subtree of height `h` at page `p`, from
the state `t` with free list `fl` to the state `t1` with free list `fl1`: the node at `p` is
`n1`, the subtree is well shaped, its pages and the free pages are those of before and the pages
added at the end of the file, and every other page is untouched. -/
structure Reshaped (t t1 : BPT Value) (h p : Nat) (fl fl1 : List Nat) (n1 : BPTNode Value) :
    Prop where
  coherent : t1.coherent
  slot1 : t1.file.slot1 = t.file.slot1
  root : t1.root_page = t.root_page
  node : t1.file.node_at p = some n1
  shape : shaped t1.file.node_at h p
  len : t.file.pages.length ≤ t1.file.pages.length
  chain : t1.file.free_chain t1.file.slot2 fl1
  perm : (subtree t1.file.node_at h p ++ fl1).Perm
    (subtree t.file.node_at h p ++ fl ++
      List.range' (t.file.pages.length + 1) (t1.file.pages.length - t.file.pages.length))
  frame : ∀ q, q ∉ subtree t.file.node_at h p → q ∉ fl → q ≤ t.file.pages.length →
    t1.file.block q = t.file.block q

/-- The state of a tree between two public calls: the cache is write-through, header slot 1
names the root, the pages reachable from the root form a well-shaped tree of height `h + 1`,
`fl` is the free list, every page of the file is exactly once in the tree or on the free list,
and a root with a single entry has a leaf as its child. -/
def BPT.sound (t : BPT Value) (h : Nat) (fl : List Nat) : Prop :=
  t.coherent ∧ t.file.slot1 = t.root_page ∧ shaped t.file.node_at (h + 1) t.root_page ∧
    t.file.free_chain t.file.slot2 fl ∧
    (subtree t.file.node_at (h + 1) t.root_page ++ fl).Perm
      (List.range' 1 t.file.pages.length) ∧
    ∀ n, t.file.node_at t.root_page = some n → n.count = 1 → h = 0

/-- The effect of `disk_write` of the node `n` at page `p`. -/
structure Wrote (t t1 : BPT Value) (p : Nat) (n : BPTNode Value) : Prop where
  coherent : t1.coherent
  slot1 : t1.file.slot1 = t.file.slot1
  slot2 : t1.file.slot2 = t.file.slot2
  root : t1.root_page = t.root_page
  len : t1.file.pages.length = t.file.pages.length
  node : t1.file.node_at p = some n
  frame : ∀ q, q ≠ p → t1.file.block q = t.file.block q

/-- What `remove` does to the count of an internal node: it is kept, or two children were merged
and the node has a child that, when it is internal, holds at least two entries. -/
def merged_or_kept (m : Nat → Option (BPTNode Value)) (n n1 : BPTNode Value) : Prop :=
  n.count ≤ n1.count ∨
    ∃ e ∈ n1.internal_entries, ∃ c, m e.child = some c ∧ (c.is_leaf = false → 2 ≤ c.count)

/-- The number of levels of internal nodes on the leftmost path from page `p` down to a leaf.
The first argument bounds the length of the path. -/
def levels (m : Nat → Option (BPTNode Value)) : Nat → Nat → Nat
  | 0, _ => 0
  | d + 1, p =>
    match m p with
    | some n =>
      if n.is_leaf then 0
      else
        match n.internal_entries with
        | e :: _ => levels m d e.child + 1
        | [] => 0
    | none => 0

/-- The pages reachable from the root of the tree, the root first. -/
def BPT.pages (t : BPT Value) : List Nat :=
  subtree t.file.node_at (levels t.file.node_at t.depth t.root_page) t.root_page

/-- The leaf entries reachable from the root of the tree, from left to right. -/
def BPT.entries (t : BPT Value) : List (LeafEntry Value) :=
  contents t.file.node_at (levels t.file.node_at t.depth t.root_page) t.root_page

/-- Two inserts and the remove of the first pair. -/
def demo_ops : List (Op Nat) :=
  [Op.insert (key_of [1]) 7, Op.insert (key_of [2]) 8, Op.remove (key_of [1]) 7]

/-! ## The descent of `find_all` and small inputs for the searches -/

/-- The descent into the children of a list of entries, one after the other from left to right:
each child is read and handed to `worker` with the values found so far. -/
def descend
    (worker : List Value → BPTNode Value → BPT Value → Except Err (List Value × BPT Value)) :
    List InternalEntry → List Value → BPT Value → Except Err (List Value × BPT Value)
  | [], values, t => .ok (values, t)
  | e :: es, values, t =>
    match disk_read t e.child with
    | .error err => .error err
    | .ok (child_node, t) =>
      match worker values child_node t with
      | .error err => .error err
      | .ok (values, t) => descend worker es values t

/-- The entries of an internal node with the keys 1, 5, 5 (each padded with zero bytes). -/
def demo_entries : List InternalEntry :=
  [{ index := key_of [1], child := 1 }, { index := key_of [5], child := 2 },
    { index := key_of [5], child := 3 }]

/-- Forty-eight inserts with increasing keys, which split the first leaf into the pages 1 and 3,
and the remove of the first pair, after which `remove` merges page 3 into page 1. -/
def dangling_ops : List (Op Nat) :=
  (List.range 48).map (fun i => Op.insert (key_of [i + 1]) i) ++ [Op.remove (key_of [1]) 0]

/-- The order of keys is decided by `memcmp`. -/
instance Key.decLe (a b : Key) : Decidable (a ≤ b) :=
  inferInstanceAs (Decidable (memcmp a b ≤ 0))

/-- The strict order of keys is decided by `memcmp`. -/
instance Key.decLt (a b : Key) : Decidable (a < b) :=
  inferInstanceAs (Decidable (memcmp a b < 0))

/-- The keys of the subtree of height `h` at page `p` are in order between `lo` and `hi`: a leaf
holds its entries in non-decreasing key order, all between `lo` and `hi`; the first key of an
internal node is `lo`, its keys do not decrease, and the subtree of every entry lies between the
key of the entry and the next key. -/
def keyed (m : Nat → Option (BPTNode Value)) : Nat → Nat → Key → Option Key → Prop
  | 0, p, lo, hi =>
    ∃ n, m p = some n ∧ n.leaf_entries.Pairwise (fun a b => a.index ≤ b.index) ∧
      ∀ e ∈ n.leaf_entries, lo ≤ e.index ∧ below e.index hi
  | h + 1, p, lo, hi =>
    ∃ n, m p = some n ∧ (∃ e rest, n.internal_entries = e :: rest ∧ e.index = lo) ∧
      kids (fun c k hi1 => keyed m h c k hi1) n.internal_entries hi

/-- A node whose keys are in order between `lo` and `hi`, standing at height `h` above the
subtrees of the map `m`. -/
def keys_fit (m : Nat → Option (BPTNode Value)) : Nat → BPTNode Value → Key → Option Key → Prop
  | 0, n, lo, hi =>
    n.leaf_entries.Pairwise (fun a b => a.index ≤ b.index) ∧
      ∀ e ∈ n.leaf_entries, lo ≤ e.index ∧ below e.index hi
  | h + 1, n, lo, hi =>
    (∃ e rest, n.internal_entries = e :: rest ∧ e.index = lo) ∧
      kids (fun c k hi1 => keyed m h c k hi1) n.internal_entries hi

/-- The state of a tree between two public calls, with the keys in order: `BPT.sound`, and the
keys of the tree are in order from the all-zero key on. -/
def BPT.sorted (t : BPT Value) (h : Nat) (fl : List Nat) : Prop :=
  t.sound h fl ∧ keyed t.file.node_at (h + 1) t.root_page zero_key none

/-- The keys of the entries of a node, in the member of the union selected by `is_leaf`. -/
def BPTNode.keys (n : BPTNode Value) : List Key :=
  if n.is_leaf then n.leaf_entries.map (fun e => e.index)
  else n.internal_entries.map (fun e => e.index)

/-! ## The parent fields of the leaves -/

/-- Every leaf image in the file, on a page in use or on a freed page, has the parent field
`r`. -/
def BPT.leaves_point_to (t : BPT Value) (r : Nat) : Prop :=
  ∀ p b, t.file.block p = some b → b.node.is_leaf = true → b.node.parent = r

/-- The inserts of the pairs (key `i`, value `i`) for `i = 0, ..., 2679`, the key written as two
bytes and padded with zero bytes: more pairs than a root over leaves can hold. -/
def stale_ops : List (Op Nat) :=
  inserts ((List.range 2680).map (fun i => (key_of [i / 256, i % 256], i)))

/-! ## The driver: value records, `sort`, and the `find` command -/

/-- The struct `Value`: the bytes of the arrays `emoji` and `hanzi`, and the member `index`. -/
structure ValueRecord where
  emoji : List Nat
  hanzi : List Nat
  index : Int
deriving DecidableEq

/-- The zero-terminated string held by a `char` array: the bytes before the first zero byte.
An array without a zero byte is read to its end. -/
def c_str (s : List Nat) : List Nat := s.takeWhile (fun b => b ≠ 0)

/-- The call `strcmp(a, b)` on two `char` arrays: negative, zero or positive. -/
def strcmp (a b : List Nat) : Int := memcmpBytes (c_str a) (c_str b)

/-- The member `operator<` of `Value`. -/
def ValueRecord.lt (a b : ValueRecord) : Bool :=
  let cmp := strcmp a.emoji b.emoji
  if cmp ≠ 0 then decide (cmp < 0)
  else
    let cmp := strcmp a.hanzi b.hanzi
    if cmp ≠ 0 then decide (cmp < 0) else decide (a.index < b.index)

/-- The member `operator==` of `Value`. -/
def ValueRecord.eq (a b : ValueRecord) : Bool :=
  strcmp a.emoji b.emoji = 0 && strcmp a.hanzi b.hanzi = 0 && a.index = b.index

/-- The comparison `==` of the tree on value records is `operator==`. -/
instance : BEq ValueRecord := ⟨ValueRecord.eq⟩

/-- The call `strncpy(dst, s, 8)` into an array of 8 bytes: the first 8 bytes of `s`, padded
with zero bytes. -/
def strncpy8 (s : List Nat) : List Nat := (s ++ List.replicate 8 0).take 8

/-- The value record the driver builds from the three words of a command. -/
def ValueRecord.of_words (emoji hanzi : List Nat) (idx : Int) : ValueRecord :=
  { emoji := strncpy8 emoji, hanzi := strncpy8 hanzi, index := idx }

/-- A value record the struct can hold and whose two strings end inside their arrays: both
arrays have 8 bytes and hold a zero byte, and the number is a 32-bit `int`. -/
def ValueRecord.valid (v : ValueRecord) : Prop :=
  v.emoji.length = 8 ∧ v.hanzi.length = 8 ∧ (∀ b ∈ v.emoji, b < 256) ∧
    (∀ b ∈ v.hanzi, b < 256) ∧ 0 ∈ v.emoji ∧ 0 ∈ v.hanzi ∧
    -2147483648 ≤ v.index ∧ v.index ≤ 2147483647

instance (v : ValueRecord) : Decidable v.valid := by
  unfold ValueRecord.valid
  infer_instance

/-- The value a call passes to the tree. -/
def Op.value : Op Value → Value
  | .insert _ value => value
  | .remove _ value => value

section Quicksort

variable {T : Type}

/-- The call `std::swap(*i, *j)` on the array `a`. -/
def swap_at (a : List T) (i j : Nat) : List T :=
  match a[i]?, a[j]? with
  | some x, some y => (a.set i y).set j x
  | _, _ => a

/-- The loop `while (*i < pivot) i++` of `sort(l, r)`: the result is the final `i`.  A read
outside `[l, r)` stops the run.  The first argument bounds the number of iterations. -/
def scan_up (lt : T → T → Bool) (a : List T) (l r : Nat) (pivot : T) : Nat → Nat → Except Err Nat
  | 0, _ => .error .depth
  | n + 1, i =>
    if l ≤ i ∧ i < r then
      match a[i]? with
      | none => .error .stale
      | some x => if lt x pivot then scan_up lt a l r pivot n (i + 1) else .ok i
    else .error .stale

/-- The loop `while (pivot < *j) j--` of `sort(l, r)`: the argument and the result are `j + 1`.
A read outside `[l, r)` stops the run. -/
def scan_down (lt : T → T → Bool) (a : List T) (l r : Nat) (pivot : T) :
    Nat → Nat → Except Err Nat
  | 0, _ => .error .depth
  | n + 1, hi =>
    if l < hi ∧ hi ≤ r then
      match a[hi - 1]? with
      | none => .error .stale
      | some x => if lt pivot x then scan_down lt a l r pivot n (hi - 1) else .ok hi
    else .error .stale

/-- The loop `while (i <= j) { ... }` of `sort(l, r)`: the state is the array, `i` and `j + 1`.
The inner loops get as many iterations as the segment has elements, plus one. -/
def partition_loop (lt : T → T → Bool) (l r : Nat) (pivot : T) :
    Nat → List T → Nat → Nat → Except Err (List T × Nat × Nat)
  | 0, _, _, _ => .error .depth
  | n + 1, a, i, hi =>
    if i < hi then
      match scan_up lt a l r pivot (r - l + 1) i with
      | .error e => .error e
      | .ok i =>
        match scan_down lt a l r pivot (r - l + 1) hi with
        | .error e => .error e
        | .ok hi =>
          if i < hi then partition_loop lt l r pivot n (swap_at a i (hi - 1)) (i + 1) (hi - 1)
          else partition_loop lt l r pivot n a i hi
    else .ok (a, i, hi)

/-- The function `sort(l, r)` on the segment `[l, r)` of the array `a`; the pointers are indices
into `a`.  The first argument bounds the depth of the recursion. -/
def sort_rec (lt : T → T → Bool) : Nat → List T → Nat → Nat → Except Err (List T)
  | 0, _, _, _ => .error .depth
  | n + 1, a, l, r =>
    if r - l ≤ 1 then .ok a
    else
      match a[l + (r - l) / 2]? with
      | none => .error .stale
      | some pivot =>
        match partition_loop lt l r pivot (r - l + 1) a l r with
        | .error e => .error e
        | .ok (a, i, hi) =>
          match sort_rec lt n a l hi with
          | .error e => .error e
          | .ok a => sort_rec lt n a i r

/-- A strict weak order, the requirement of `sort` on `operator<`: irreflexive, transitive,
and with a transitive "not less than". -/
structure StrictWeak (lt : T → T → Bool) : Prop where
  irrefl : ∀ x, lt x x = false
  trans : ∀ x y z, lt x y = true → lt y z = true → lt x z = true
  neg_trans : ∀ x y z, lt x y = false → lt y z = false → lt x z = false

/-- The state of the loop `while (i <= j)` of `sort(l, r)` on the array `a0`: the array `a` is
a rearrangement of `a0` inside `[l, r)`, the elements of `[l, i)` are not greater than the
pivot and those of `[hi, r)` are not less. -/
structure Parting (lt : T → T → Bool) (a0 a : List T) (l r : Nat) (p : T) (i hi : Nat) :
    Prop where
  perm : a.Perm a0
  outside : ∀ k, k < l ∨ r ≤ k → a[k]? = a0[k]?
  inside : ∀ P : T → Prop, (∀ k x, l ≤ k → k < r → a0[k]? = some x → P x) →
    ∀ k x, l ≤ k → k < r → a[k]? = some x → P x
  li : l ≤ i
  ir : i ≤ r
  lh : l ≤ hi
  hr : hi ≤ r
  ra : r ≤ a.length
  left : ∀ k x, l ≤ k → k < i → a[k]? = some x → lt p x = false
  right : ∀ k x, hi ≤ k → k < r → a[k]? = some x → lt x p = false

end Quicksort

/-- The three value records ("b", "x", 2), ("a", "y", 10), ("a", "x", -3). -/
def demo_values : List ValueRecord :=
  [ValueRecord.of_words [98] [120] 2, ValueRecord.of_words [97] [121] 10,
    ValueRecord.of_words [97] [120] (-3)]

/-- The key of the pair number `i` of an ascending run: `i` written as two bytes, padded with
zero bytes. -/
def asc_key (i : Nat) : Key := key_of [i / 256, i % 256]

/-- The inserts of the pairs (key `i`, value `i`) for `i = 0, ..., n - 1`. -/
def asc_ops (n : Nat) : List (Op Nat) :=
  inserts ((List.range n).map (fun i => (asc_key i, i)))

/-- The page of leaf number `j` of `grown_file`, counted from the left: the first leaf is page
1, page 2 is the first root, and the leaves made by the splits follow. -/
def grown_leaf_page (j : Nat) : Nat := if j = 0 then 1 else j + 2

/-- Leaf number `j` of `grown_file`: the pairs `24 j, ..., 24 j + 23`. -/
def grown_leaf (j : Nat) : BPTNode Nat :=
  { is_leaf := true, parent := 2,
    next_leaf := if j = 57 then 0 else grown_leaf_page (j + 1),
    leaf_entries :=
      (List.range 24).map (fun k => { index := asc_key (24 * j + k), value := 24 * j + k }) }

/-- The entry of leaf number `j` in its parent. -/
def grown_entry (j : Nat) : InternalEntry :=
  { index := asc_key (24 * j), child := grown_leaf_page j }

/-- The first root, at page 2, after the growth: it keeps the entries of leaves 0 to 28. -/
def grown_left : BPTNode Nat :=
  { parent := 61, next_leaf := 60, internal_entries := (List.range 29).map grown_entry }

/-- The node made by the growth at page 60, with the entries of leaves 29 to 57. -/
def grown_right : BPTNode Nat :=
  { parent := 61, internal_entries := (List.range 29).map (fun j => grown_entry (j + 29)) }

/-- The root made by the growth, at page 61. -/
def grown_root : BPTNode Nat :=
  { internal_entries :=
      [{ index := asc_key 0, child := 2 }, { index := asc_key 696, child := 60 }] }

/-- The file of a tree whose root has grown once: 58 leaves of 24 pairs each under the two
internal nodes at pages 2 and 60, and the root at page 61; no freed page. -/
def grown_file : MemoryRiver Nat :=
  { slot1 := 61, slot2 := 0,
    pages := [.image (grown_leaf 0), .image grown_left] ++
      (List.range 57).map (fun j => Page.image (grown_leaf (j + 1))) ++
      [.image grown_right, .image grown_root] }

/-- The instance constructed on `grown_file`. -/
def grown_state : BPT Nat :=
  { file := grown_file, root_page := 61, cache := { cache_list := [], capacity := 128 } }

/-! ## The 32-bit arithmetic of the pager

The page operations `read_page`, `update_page`, `delete_page` and `write_page` above take page
ids as natural numbers and address a page by its id.  The source computes the seek offset
`HEADER_SIZE + (page_num - 1) * BLOCK_SIZE` in 32-bit arithmetic: in `int` in `read_page`,
`update_page` and `delete_page`, whose parameter is an `int`, and in `unsigned int` in
`write_page`, whose variable `page_num` is an `unsigned int`.  The definitions below add that
arithmetic.  They agree with the ones above while the file has at most `MAX_PAGES` pages. -/

/-- The largest value of an `int`. -/
def INT_MAX : Nat := 2147483647

/-- The largest page id whose seek offset fits an `int`: 524288, the last page of a file of
2 GiB and 8 bytes. -/
def MAX_PAGES : Nat := (INT_MAX - HEADER_SIZE) / BLOCK_SIZE + 1

/-- The value of a 32-bit word read as an `int`. -/
def to_int (n : Nat) : Int :=
  if n % 2 ^ 32 ≤ INT_MAX then (n % 2 ^ 32 : Nat) else (n % 2 ^ 32 : Nat) - 2 ^ 32

/-- The expression `HEADER_SIZE + (page_num - 1) * BLOCK_SIZE` with `page_num` an `int`: a
value outside the range of `int` is a signed overflow, and at a negative offset the seek
fails. -/
def int_offset (page_num : Nat) : Except Err Nat :=
  let offset : Int := (HEADER_SIZE : Int) + (to_int page_num - 1) * (BLOCK_SIZE : Int)
  if offset < -2147483648 ∨ (INT_MAX : Int) < offset then .error .overflow
  else if offset < 0 then .error .io
  else .ok offset.toNat

/-- The same expression with `page_num` an `unsigned int`: the value modulo `2 ^ 32`. -/
def unsigned_offset (page_num : Nat) : Nat :=
  (HEADER_SIZE + ((page_num + (2 ^ 32 - 1)) % 2 ^ 32) * BLOCK_SIZE) % 2 ^ 32

/-- The page id of the block that starts at a byte offset of the file. -/
def page_at (offset : Nat) : Nat := (offset - HEADER_SIZE) / BLOCK_SIZE + 1

namespace MemoryRiver

/-- The method `read_page` with its seek offset computed in `int`. -/
def read_page32 (f : MemoryRiver Value) (page_num : Nat) : Except Err (BPTNode Value) :=
  match int_offset page_num with
  | .error e => .error e
  | .ok offset =>
    match f.block (page_at offset) with
    | some (.image t) => .ok t
    | _ => .error .io

/-- The method `update_page` with its seek offset computed in `int`. -/
def update_page32 (f : MemoryRiver Value) (t : BPTNode Value) (page_num : Nat) :
    Except Err (MemoryRiver Value) :=
  match int_offset page_num with
  | .error e => .error e
  | .ok offset => f.put_block (page_at offset) (.image t)

/-- The method `delete_page` with its seek offset computed in `int`. -/
def delete_page32 (f : MemoryRiver Value) (page_num : Nat) : Except Err (MemoryRiver Value) :=
  let free_list_head := f.get_info 2
  match int_offset page_num with
  | .error e => .error e
  | .ok offset =>
    match f.block (page_at offset) with
    | none => .error .io
    | some (.image t) | some (.freed _ t) =>
      match f.put_block (page_at offset) (.freed free_list_head t) with
      | .error e => .error e
      | .ok f1 => .ok (f1.write_info page_num 2)

/-- The method `write_page` with `page_num` an `unsigned int` and its seek offsets computed in
`unsigned int`. -/
def write_page32 (f : MemoryRiver Value) (t : BPTNode Value) :
    Except Err (Nat × MemoryRiver Value) :=
  let free_list_head := f.get_info 2
  if free_list_head ≠ 0 then
    let page_num := free_list_head % 2 ^ 32
    match f.block (page_at (unsigned_offset page_num)) with
    | none => .error .io
    | some b =>
      let next_free_page := b.first_word
      let f1 := f.write_info next_free_page 2
      match f1.put_block (page_at (unsigned_offset page_num)) (.image t) with
      | .error e => .error e
      | .ok f2 => .ok (page_num, f2)
  else
    let page_num := ((f.file_size - HEADER_SIZE) / BLOCK_SIZE + 1) % 2 ^ 32
    match f.put_block (page_at (unsigned_offset page_num)) (.image t) with
    | .error e => .error e
    | .ok f2 => .ok (page_num, f2)

end MemoryRiver

/-- The number of pages of the file after the calls `ops` on a new file,
`(file_size - 8) / 4096`; 0 when the run stops. -/
def file_pages [BEq Value] (ops : List (Op Value)) : Nat :=
  match session ops with
  | .ok t => t.file.pages.length
  | .error _ => 0

/-- A file of `n` pages with an empty free list. -/
def plain_file (n : Nat) : MemoryRiver Nat :=
  { slot1 := 0, slot2 := 0, pages := List.replicate n (.image {}) }

/-- The file `demo_file` after `delete_page(1)`: page 1 is the only page of the free list. -/
def freed_file : MemoryRiver Nat :=
  { slot1 := 2, slot2 := 1,
    pages := [.freed 0 { is_leaf := true, parent := 2 },
              .image { internal_entries := [{ index := zero_key, child := 1 }] }] }

/-- The file `demo_file` with header slot 2 naming page 7, a page the file does not have. -/
def stray_head_file : MemoryRiver Nat := { demo_file with slot2 := 7 }

/-! ## `operator<` on the bytes of the struct

The definitions `c_str` and `strcmp` above read a `char` array up to its end.  The source hands
`strcmp` a pointer to the first byte of the array, and `strcmp` reads on from there until it
meets a zero byte: past an array without a zero byte it reads the members that follow the array
in the struct, and then past the struct.  The definitions below follow the bytes of the struct;
they agree with the ones above on the records whose two arrays hold a zero byte. -/

/-- The four bytes of an `int`, least significant first. -/
def int_bytes (i : Int) : List Nat :=
  let w := (i % 2 ^ 32).toNat
  [w % 256, w / 256 % 256, w / 65536 % 256, w / 16777216 % 256]

/-- The call `strcmp(a, b)` on two pointers into two objects, `a` and `b` being the bytes of the
objects from the pointers on: the bytes are compared in step until they differ or are both zero.
A read past the last byte of an object stops the run. -/
def strcmp_past : List Nat → List Nat → Except Err Int
  | x :: a, y :: b =>
    if x < y then .ok (-1)
    else if y < x then .ok 1
    else if x = 0 then .ok 0
    else strcmp_past a b
  | _, _ => .error .overflow

/-- The member `operator<` of `Value` on the bytes of the two structs: `emoji` is followed by
`hanzi` and `hanzi` by the four bytes of `index`. -/
def ValueRecord.less (a b : ValueRecord) : Except Err Bool :=
  match strcmp_past (a.emoji ++ (a.hanzi ++ int_bytes a.index))
      (b.emoji ++ (b.hanzi ++ int_bytes b.index)) with
  | .error e => .error e
  | .ok cmp =>
    if cmp ≠ 0 then .ok (decide (cmp < 0))
    else
      match strcmp_past (a.hanzi ++ int_bytes a.index) (b.hanzi ++ int_bytes b.index) with
      | .error e => .error e
      | .ok cmp => if cmp ≠ 0 then .ok (decide (cmp < 0)) else .ok (decide (a.index < b.index))

/-- A value record whose two arrays are full: eight bytes "a" and eight bytes "b". -/
def full_record (idx : Int) : ValueRecord :=
  { emoji := List.replicate 8 97, hanzi := List.replicate 8 98, index := idx }

/-- Ninety-six inserts with increasing keys, which leave four leaves of 24 entries on the pages
1, 3, 4 and 5, and the remove of the first pair, after which `remove` merges page 3 into
page 1 and frees page 3. -/
def mixed_ops : List (Op Nat) :=
  (List.range 96).map (fun i => Op.insert (key_of [i + 1]) i) ++ [Op.remove (key_of [1]) 0]

/-- Sixty inserts under three keys, twenty values each. -/
def demo_pairs : List (Key × Nat) :=
  (List.range 60).map (fun i => (key_of [i % 3], i))

/-- One insert more than 47 times 524288, all of the same pair: the leaves of the tree hold at
most 47 entries each after an insert, so the tree has more than 524288 leaves. -/
def flood (k : Key) (v : Nat) : List (Key × Nat) :=
  List.replicate (47 * MAX_PAGES + 1) (k, v)

/-! ## The counts of the nodes of a tree, with removes -/

/-- The count of a node is at most its limit, and at least half its limit when `low` is
set. -/
def BPTNode.within (n : BPTNode Value) (low : Bool) : Prop :=
  n.count ≤ n.limit ∧ (low = true → n.limit / 2 ≤ n.count)

/-- The counts in the subtree of height `h` at page `p`: the node at `p` has at most as many
entries as its limit and, when `low` is set, at least half as many; its children are at least
half full when `low` is set or the node has two entries or more, and so on down the tree: every
node below a node with two entries or more is at least half full. -/
def dense (m : Nat → Option (BPTNode Value)) : Nat → Nat → Bool → Prop
  | 0, p, low => ∃ n, m p = some n ∧ n.within low
  | h + 1, p, low =>
    ∃ n, m p = some n ∧ n.within low ∧
      ∀ e ∈ n.internal_entries, dense m h e.child (low || decide (2 ≤ n.count))

/-- The counts in the subtrees of the children of a node that stands at height `h` above the
subtrees of the map `m`; `low` asks the children to be at least half full. -/
def packed (m : Nat → Option (BPTNode Value)) : Nat → BPTNode Value → Bool → Prop
  | 0, _, _ => True
  | h + 1, n, low => ∀ e ∈ n.internal_entries, dense m h e.child low

/-- The state of a tree between two public calls, with the counts of its nodes: `BPT.sound`,
and every node is within its limit, and at least half full unless it is the root or the only
child of the root. -/
def BPT.compact (t : BPT Value) (h : Nat) (fl : List Nat) : Prop :=
  t.sound h fl ∧ dense t.file.node_at (h + 1) t.root_page false

/-- Twenty-four more inserts with increasing keys on the tree whose root has grown once, which
split the last leaf and give the internal node at page 60 a thirtieth entry, and the remove of
the first pair: `remove` merges the first two leaves, which leaves 28 entries in the internal
node at page 2, then merges the internal nodes of 28 and 30 entries, and replaces the root by
the merged node. -/
def grown_tail_ops : List (Op Nat) :=
  (List.range 24).map (fun i => Op.insert (asc_key (1392 + i)) (1392 + i)) ++
    [Op.remove (asc_key 0) 0]

/-! # Verification -/

/-! ## The cache -/

namespace LRUCache

variable {PageType : Type}

theorem find_eraseP_ne (l : List (Nat × PageType)) {x y : Nat} (h : x ≠ y) :
    (l.eraseP (fun e => e.1 == y)).find? (fun e => e.1 == x) =
      l.find? (fun e => e.1 == x) := by
  induction l with
  | nil => rfl
  | cons a l ih =>
    by_cases hy : a.1 = y
    · have hx : ¬ a.1 = x := fun hx => h (hx.symm.trans hy)
      have hy2 : (a.1 == y) = true := by simpa using hy
      have hx2 : (a.1 == x) = false := by simpa using hx
      simp only [List.eraseP_cons, hy2, List.find?_cons, hx2, cond_true]
    · have hy2 : (a.1 == y) = false := by simpa using hy
      by_cases hx : a.1 = x
      · have hx2 : (a.1 == x) = true := by simpa using hx
        simp only [List.eraseP_cons, hy2, List.find?_cons, hx2, cond_false]
      · have hx2 : (a.1 == x) = false := by simpa using hx
        simp only [List.eraseP_cons, hy2, List.find?_cons, hx2, cond_false, ih]

theorem find_some_key {l : List (Nat × PageType)} {x : Nat} {e : Nat × PageType}
    (h : l.find? (fun e => e.1 == x) = some e) : e.1 = x ∧ e ∈ l := by
  have h1 := List.find?_some h
  have h2 := List.mem_of_find?_eq_some h
  exact ⟨by simpa using h1, h2⟩

theorem find_none_iff {l : List (Nat × PageType)} {x : Nat} :
    l.find? (fun e => e.1 == x) = none ↔ x ∉ l.map Prod.fst := by
  induction l with
  | nil => simp
  | cons a l ih =>
    by_cases hx : a.1 = x
    · simp [List.find?_cons, hx]
    · have hx2 : ¬ x = a.1 := fun h => hx h.symm
      simp [List.find?_cons, hx, hx2] at ih ⊢
      exact ih

theorem find_dropLast (l : List (Nat × PageType)) {x : Nat}
    (h : ∀ e, l.getLast? = some e → e.1 ≠ x) :
    l.dropLast.find? (fun e => e.1 == x) = l.find? (fun e => e.1 == x) := by
  induction l with
  | nil => rfl
  | cons a l ih =>
    cases l with
    | nil =>
      have := h a (by simp)
      simp [List.find?_cons, this]
    | cons b l =>
      have ih2 := ih (fun e he => h e (by simpa [List.getLast?_cons_cons] using he))
      have hd : (a :: b :: l).dropLast = a :: (b :: l).dropLast := rfl
      rw [hd, List.find?_cons, List.find?_cons (a := a), ih2]

/-- With distinct keys, unlinking the node of a key leaves the nodes of the other keys. -/
theorem eraseP_eq_filter (l : List (Nat × PageType)) (y : Nat)
    (hn : (l.map Prod.fst).Nodup) :
    l.eraseP (fun e => e.1 == y) = l.filter (fun e => e.1 != y) := by
  induction l with
  | nil => rfl
  | cons a l ih =>
    have hn2 : (l.map Prod.fst).Nodup := (List.nodup_cons.mp (by simpa using hn)).2
    have hnot : a.1 ∉ l.map Prod.fst := (List.nodup_cons.mp (by simpa using hn)).1
    by_cases hy : a.1 = y
    · have hy2 : (a.1 == y) = true := by simpa using hy
      have hy3 : (a.1 != y) = false := by simp [hy]
      rw [List.eraseP_cons, hy2, List.filter_cons, hy3]
      simp only [cond_true, Bool.false_eq_true, if_false]
      symm
      rw [List.filter_eq_self]
      intro e he
      have : e.1 ∈ l.map Prod.fst := List.mem_map_of_mem _ he
      have hne : e.1 ≠ y := fun h => hnot (by rw [hy, ← h]; exact this)
      simpa using hne
    · have hy2 : (a.1 == y) = false := by simpa using hy
      have hy3 : (a.1 != y) = true := by simp [hy]
      rw [List.eraseP_cons, hy2, List.filter_cons, hy3, ih hn2]
      simp

theorem lookup_eq_none_iff (c : LRUCache PageType) (x : Nat) :
    c.lookup x = none ↔ x ∉ c.ids := find_none_iff

theorem get_eq_none_iff (c : LRUCache PageType) (x : Nat) :
    c.get x = none ↔ x ∉ c.ids := by
  rw [← lookup_eq_none_iff]
  unfold get
  cases c.lookup x <;> simp

/-- A hit of `get` leaves every lookup as it was. -/
theorem lookup_splice_front_same (c : LRUCache PageType) (y : Nat) (e : Nat × PageType)
    (h : c.lookup y = some e) (x : Nat) :
    (c.splice_front y e).lookup x = c.lookup x := by
  have hk := (find_some_key h).1
  unfold lookup splice_front at *
  by_cases hx : x = y
  · subst hx
    simp [List.find?_cons, hk, h]
  · have : (e.1 == x) = false := by simpa [hk] using fun h => hx h.symm
    simp only [List.find?_cons, this]
    exact find_eraseP_ne _ hx

theorem lookup_put_self (c : LRUCache PageType) (y : Nat) (p : PageType) :
    (c.put y p).lookup y = some (y, p) := by
  unfold put
  cases h : c.lookup y <;> simp [lookup, splice_front, List.find?_cons]

theorem lookup_put_of_mem (c : LRUCache PageType) (y : Nat) (p : PageType) {x : Nat}
    (hy : y ∈ c.ids) (hx : x ≠ y) : (c.put y p).lookup x = c.lookup x := by
  unfold put
  cases h : c.lookup y with
  | none => exact absurd hy ((lookup_eq_none_iff c y).mp h)
  | some e =>
    have : ((y, p).1 == x) = false := by simpa using fun h => hx h.symm
    simp only [lookup, splice_front, List.find?_cons, this]
    exact find_eraseP_ne _ hx

end LRUCache

namespace CacheRun

variable {PageType : Type}

theorem inv_start (cap : Nat) : (start cap : CacheRun PageType).Inv := by
  refine ⟨?_, ?_, ?_, ?_⟩ <;> simp [start]

theorem Inv.nodup {s : CacheRun PageType} (h : s.Inv) : s.cache.ids.Nodup := by
  unfold LRUCache.ids
  rw [List.Nodup, List.pairwise_map]
  exact h.2.2.1.imp (fun {a b} hab heq => by rw [heq] at hab; exact lt_irrefl _ hab)

/-- The shape shared by every touch: the touched id is linked at the front, before nodes that
were already there, none of them under the same id. -/
theorem inv_touch {s : CacheRun PageType} (hinv : s.Inv) (page_id : Nat) (q : PageType)
    (l : List (Nat × PageType)) (hsub : l.Sublist s.cache.cache_list)
    (hne : ∀ e ∈ l, e.1 ≠ page_id) (lp : Nat → Option PageType) (hlp : lp page_id = some q)
    (hlp2 : ∀ x, x ≠ page_id → lp x = s.last_put x)
    (hlen : 1 ≤ s.cache.capacity → l.length + 1 ≤ s.cache.capacity) :
    Inv { cache := { cache_list := (page_id, q) :: l, capacity := s.cache.capacity },
          clock := s.clock + 1,
          touched_at := fun x => if x = page_id then s.clock else s.touched_at x,
          last_put := lp } := by
  obtain ⟨h1, h2, h3, _⟩ := hinv
  refine ⟨?_, ?_, ?_, ?_⟩
  · intro e he
    rcases List.mem_cons.mp he with rfl | he
    · exact hlp
    · show lp e.1 = some e.2
      rw [hlp2 _ (hne e he)]
      exact h1 e (hsub.subset he)
  · intro e he
    rcases List.mem_cons.mp he with rfl | he
    · show (if page_id = page_id then s.clock else _) < s.clock + 1
      simp
    · show (if e.1 = page_id then s.clock else s.touched_at e.1) < s.clock + 1
      simp only [hne e he, if_false]
      exact Nat.lt_succ_of_lt (h2 e (hsub.subset he))
  · refine List.Pairwise.cons ?_ ?_
    · intro e he
      show (if e.1 = page_id then s.clock else s.touched_at e.1)
        < (if page_id = page_id then s.clock else s.touched_at page_id)
      simp only [hne e he, if_false, if_true]
      exact h2 e (hsub.subset he)
    · refine ((h3.sublist hsub).imp_of_mem ?_)
      intro a b ha hb hab
      show (if b.1 = page_id then s.clock else s.touched_at b.1)
        < (if a.1 = page_id then s.clock else s.touched_at a.1)
      simpa only [hne a ha, hne b hb, if_false] using hab
  · simpa using hlen

theorem inv_step {s : CacheRun PageType} (hinv : s.Inv) (op : CacheOp PageType) :
    (s.step op).Inv := by
  have hnd := hinv.nodup
  cases op with
  | get page_id =>
    cases hl : s.cache.lookup page_id with
    | none =>
      simp only [step, LRUCache.get, hl]
      obtain ⟨h1, h2, h3, h4⟩ := hinv
      exact ⟨h1, fun e he => Nat.lt_succ_of_lt (h2 e he), h3, h4⟩
    | some e =>
      simp only [step, LRUCache.get, hl]
      obtain ⟨hk, hmem⟩ := LRUCache.find_some_key hl
      have hlast := hinv.1 e hmem
      have := inv_touch hinv page_id e.2
        (s.cache.cache_list.eraseP (fun x => x.1 == page_id)) (List.eraseP_sublist _)
        (by
          intro x hx
          rw [LRUCache.eraseP_eq_filter _ _ hnd] at hx
          simpa using (List.mem_filter.mp hx).2)
        s.last_put (by rw [← hk]; exact hlast) (fun _ _ => rfl)
        (by
          intro hc
          have h4 := hinv.2.2.2 hc
          have : (s.cache.cache_list.eraseP (fun x => x.1 == page_id)).length
              = s.cache.cache_list.length - 1 :=
            List.length_eraseP_of_mem hmem (by simpa using hk)
          have hpos : 0 < s.cache.cache_list.length := List.length_pos_of_mem hmem
          omega)
      have he : e = (page_id, e.2) := by rw [← hk]
      simp only [LRUCache.splice_front]
      rw [he]
      exact this
  | put page_id p =>
    cases hl : s.cache.lookup page_id with
    | some e =>
      simp only [step, LRUCache.put, hl, LRUCache.splice_front]
      obtain ⟨hk, hmem⟩ := LRUCache.find_some_key hl
      exact inv_touch hinv page_id p
        (s.cache.cache_list.eraseP (fun x => x.1 == page_id)) (List.eraseP_sublist _)
        (by
          intro x hx
          rw [LRUCache.eraseP_eq_filter _ _ hnd] at hx
          simpa using (List.mem_filter.mp hx).2)
        _ (by simp) (fun x hx => by simp [hx])
        (by
          intro hc
          have h4 := hinv.2.2.2 hc
          have : (s.cache.cache_list.eraseP (fun x => x.1 == page_id)).length
              = s.cache.cache_list.length - 1 :=
            List.length_eraseP_of_mem hmem (by simpa using hk)
          have hpos : 0 < s.cache.cache_list.length := List.length_pos_of_mem hmem
          omega)
    | none =>
      simp only [step, LRUCache.put, hl]
      have hnot : page_id ∉ s.cache.ids := (LRUCache.lookup_eq_none_iff _ _).mp hl
      have hne : ∀ e ∈ s.cache.cache_list, e.1 ≠ page_id := by
        intro e he h
        exact hnot (by rw [← h]; exact List.mem_map_of_mem _ he)
      by_cases hfull : s.cache.cache_list.length = s.cache.capacity
      · simp only [hfull, if_true]
        exact inv_touch hinv page_id p s.cache.cache_list.dropLast (List.dropLast_sublist _)
          (fun e he => hne e ((List.dropLast_sublist _).subset he))
          _ (by simp) (fun x hx => by simp [hx])
          (by intro hc; rw [List.length_dropLast]; omega)
      · simp only [hfull, if_false]
        exact inv_touch hinv page_id p s.cache.cache_list (List.Sublist.refl _) hne
          _ (by simp) (fun x hx => by simp [hx])
          (by intro hc; have := hinv.2.2.2 hc; omega)

theorem inv_run (cap : Nat) (ops : List (CacheOp PageType)) : (run cap ops).Inv := by
  unfold run
  induction ops using List.reverseRecOn with
  | nil => exact inv_start cap
  | append_singleton ops op ih =>
    rw [List.foldl_append]
    exact inv_step ih op

theorem capacity_step (s : CacheRun PageType) (op : CacheOp PageType) :
    (s.step op).cache.capacity = s.cache.capacity := by
  cases op with
  | get page_id =>
    cases hl : s.cache.lookup page_id <;> simp [step, LRUCache.get, hl, LRUCache.splice_front]
  | put page_id p =>
    cases hl : s.cache.lookup page_id <;> simp [step, LRUCache.put, hl, LRUCache.splice_front]

theorem capacity_run (cap : Nat) (ops : List (CacheOp PageType)) :
    (run cap ops).cache.capacity = cap := by
  unfold run
  induction ops using List.reverseRecOn with
  | nil => rfl
  | append_singleton ops op ih =>
    rw [List.foldl_append]
    exact (capacity_step _ op).trans ih

end CacheRun

variable {PageType : Type}

theorem dropLast_eq_filter_ne (l : List Nat) (v : Nat) (hn : l.Nodup)
    (hl : l.getLast? = some v) : l.dropLast = l.filter (fun x => x ≠ v) := by
  have hsplit : l.dropLast ++ [v] = l := List.dropLast_append_getLast? v hl
  have hn2 : (l.dropLast ++ [v]).Nodup := by rw [hsplit]; exact hn
  have hnot : v ∉ l.dropLast := by
    intro hv
    have := (List.nodup_append.mp hn2).2.2
    exact this hv (List.mem_singleton_self v)
  conv_rhs => rw [← hsplit]
  rw [List.filter_append]
  have h1 : l.dropLast.filter (fun x => x ≠ v) = l.dropLast := by
    rw [List.filter_eq_self]
    intro a ha
    have : a ≠ v := fun h => hnot (h ▸ ha)
    simpa using this
  rw [h1]
  simp

theorem ids_filter (l : List (Nat × PageType)) (y : Nat) :
    (l.filter (fun e => e.1 != y)).map Prod.fst = (l.map Prod.fst).filter (fun x => x ≠ y) := by
  induction l with
  | nil => rfl
  | cons a l ih =>
    by_cases h : a.1 = y <;> simp [List.filter_cons, h, ih]

/-- C8. After any run of `get` and `put` calls on a cache of capacity at least 1: a `get` of a
cached id returns the image most recently put under that id, moves the id to the front of the
recency order, and changes neither the set of cached ids, nor their images, nor the order of the
other ids; a `get` of an id that is not cached reports a miss and has no new cache state. -/
theorem lru_get_hit_or_miss (cap : Nat) (hcap : 1 ≤ cap) (ops : List (CacheOp PageType))
    (page_id : Nat) :
    (page_id ∈ (CacheRun.run cap ops).cache.ids →
      ∃ p c, (CacheRun.run cap ops).cache.get page_id = some (p, c) ∧
        (CacheRun.run cap ops).last_put page_id = some p ∧
        c.ids = page_id :: (CacheRun.run cap ops).cache.ids.filter (fun x => x ≠ page_id) ∧
        (∀ x, c.lookup x = (CacheRun.run cap ops).cache.lookup x) ∧
        (∀ x, x ∈ c.ids ↔ x ∈ (CacheRun.run cap ops).cache.ids) ∧
        c.capacity = (CacheRun.run cap ops).cache.capacity) ∧
    (page_id ∉ (CacheRun.run cap ops).cache.ids →
      (CacheRun.run cap ops).cache.get page_id = none) := by
  have hinv := CacheRun.inv_run cap ops
  have _ := hcap
  generalize CacheRun.run cap ops = s at hinv ⊢
  refine ⟨?_, fun h => (LRUCache.get_eq_none_iff _ _).mpr h⟩
  intro hmem
  cases hl : s.cache.lookup page_id with
  | none => exact absurd hmem ((LRUCache.lookup_eq_none_iff _ _).mp hl)
  | some e =>
    obtain ⟨hk, he⟩ := LRUCache.find_some_key hl
    have hids : (s.cache.splice_front page_id e).ids
        = page_id :: s.cache.ids.filter (fun x => x ≠ page_id) := by
      simp only [LRUCache.splice_front, LRUCache.ids, List.map_cons, hk]
      rw [LRUCache.eraseP_eq_filter _ _ hinv.nodup, ids_filter]
    refine ⟨e.2, s.cache.splice_front page_id e, ?_, ?_, hids, ?_, ?_, rfl⟩
    · simp [LRUCache.get, hl]
    · rw [← hk]; exact hinv.1 e he
    · exact LRUCache.lookup_splice_front_same _ _ _ hl
    · intro x
      rw [hids]
      by_cases hx : x = page_id
      · simp [hx, hmem]
      · simp [hx]

/-- C9. After any run of `get` and `put` calls on a cache of capacity `cap >= 1` the cache holds
at most `cap` ids.  A `put` of an id that is not cached into a full cache removes exactly one id,
the one whose last touch (a `get` hit or a `put`) is older than that of every other cached id, and
then holds the new id with the new image, the other images unchanged.  A `put` of a cached id
replaces its image, moves it to the front and keeps every other id and image.  A `put` of a new id
into a cache that is not full keeps every id. -/
theorem lru_put_evicts_least_recent (cap : Nat) (hcap : 1 ≤ cap)
    (ops : List (CacheOp PageType)) (page_id : Nat) (p : PageType) :
    (CacheRun.run cap ops).cache.ids.length ≤ cap ∧
    (page_id ∉ (CacheRun.run cap ops).cache.ids →
      (CacheRun.run cap ops).cache.ids.length = cap →
      ∃ victim, victim ∈ (CacheRun.run cap ops).cache.ids ∧
        (∀ x ∈ (CacheRun.run cap ops).cache.ids, x ≠ victim →
          (CacheRun.run cap ops).touched_at victim < (CacheRun.run cap ops).touched_at x) ∧
        ((CacheRun.run cap ops).cache.put page_id p).ids
          = page_id :: (CacheRun.run cap ops).cache.ids.filter (fun x => x ≠ victim) ∧
        ((CacheRun.run cap ops).cache.put page_id p).lookup page_id = some (page_id, p) ∧
        (∀ x ∈ (CacheRun.run cap ops).cache.ids, x ≠ victim →
          ((CacheRun.run cap ops).cache.put page_id p).lookup x
            = (CacheRun.run cap ops).cache.lookup x)) ∧
    (page_id ∈ (CacheRun.run cap ops).cache.ids →
      ((CacheRun.run cap ops).cache.put page_id p).ids
        = page_id :: (CacheRun.run cap ops).cache.ids.filter (fun x => x ≠ page_id) ∧
      (∀ x, x ∈ ((CacheRun.run cap ops).cache.put page_id p).ids
        ↔ x ∈ (CacheRun.run cap ops).cache.ids) ∧
      ((CacheRun.run cap ops).cache.put page_id p).lookup page_id = some (page_id, p) ∧
      (∀ x, x ≠ page_id → ((CacheRun.run cap ops).cache.put page_id p).lookup x
        = (CacheRun.run cap ops).cache.lookup x)) ∧
    (page_id ∉ (CacheRun.run cap ops).cache.ids →
      (CacheRun.run cap ops).cache.ids.length < cap →
      ((CacheRun.run cap ops).cache.put page_id p).ids
        = page_id :: (CacheRun.run cap ops).cache.ids) := by
  have hinv := CacheRun.inv_run cap ops
  have hc := CacheRun.capacity_run cap ops
  generalize CacheRun.run cap ops = s at hinv hc ⊢
  have hnd := hinv.nodup
  have hlen : s.cache.ids.length ≤ cap := by
    have := hinv.2.2.2 (by rw [hc]; exact hcap)
    simpa [LRUCache.ids, hc] using this
  refine ⟨hlen, ?_, ?_, ?_⟩
  · intro hnot hfull
    have hl : s.cache.lookup page_id = none := (LRUCache.lookup_eq_none_iff _ _).mpr hnot
    have hfull2 : s.cache.cache_list.length = s.cache.capacity := by
      simpa [LRUCache.ids, hc] using hfull
    have hne : s.cache.cache_list ≠ [] := by
      intro h
      rw [h] at hfull2
      simp at hfull2
      omega
    obtain ⟨ev, hev⟩ : ∃ ev, s.cache.cache_list.getLast? = some ev :=
      ⟨_, List.getLast?_eq_getLast _ hne⟩
    have hsplit : s.cache.cache_list.dropLast ++ [ev] = s.cache.cache_list :=
      List.dropLast_append_getLast? ev hev
    have hevmem : ev ∈ s.cache.cache_list := by rw [← hsplit]; simp
    have hidlast : s.cache.ids.getLast? = some ev.1 := by
      simp [LRUCache.ids, List.getLast?_map, hev]
    have hput : (s.cache.put page_id p).cache_list
        = (page_id, p) :: s.cache.cache_list.dropLast := by
      simp [LRUCache.put, hl, hfull2]
    refine ⟨ev.1, List.mem_map_of_mem _ hevmem, ?_, ?_, LRUCache.lookup_put_self _ _ _, ?_⟩
    · intro x hx hxv
      obtain ⟨a, ha, rfl⟩ := List.mem_map.mp hx
      have hpw := hinv.2.2.1
      rw [← hsplit] at hpw ha
      have ha2 : a ∈ s.cache.cache_list.dropLast := by
        rcases List.mem_append.mp ha with h | h
        · exact h
        · exact absurd (by rw [List.mem_singleton.mp h]) hxv
      exact (List.pairwise_append.mp hpw).2.2 a ha2 ev (List.mem_singleton_self _)
    · simp only [LRUCache.ids, hput, List.map_cons]
      rw [List.map_dropLast]
      exact congrArg _ (dropLast_eq_filter_ne _ _ hnd hidlast)
    · intro x _ hxv
      have hxp : x ≠ page_id ∨ x = page_id := (em _).symm
      rcases hxp with hxp | hxp
      · have : ((page_id, p).1 == x) = false := by simpa using fun h => hxp h.symm
        simp only [LRUCache.lookup, hput, List.find?_cons, this]
        exact LRUCache.find_dropLast _ (fun e he => by
          rw [hev] at he
          cases he
          exact fun h => hxv h.symm)
      · subst hxp
        exact absurd ‹x ∈ s.cache.ids› hnot
  · intro hmem
    cases hl : s.cache.lookup page_id with
    | none => exact absurd hmem ((LRUCache.lookup_eq_none_iff _ _).mp hl)
    | some e =>
      have hids : (s.cache.put page_id p).ids
          = page_id :: s.cache.ids.filter (fun x => x ≠ page_id) := by
        simp only [LRUCache.put, hl, LRUCache.splice_front, LRUCache.ids, List.map_cons]
        rw [LRUCache.eraseP_eq_filter _ _ hnd, ids_filter]
      refine ⟨hids, ?_, LRUCache.lookup_put_self _ _ _,
        fun x hx => LRUCache.lookup_put_of_mem _ _ _ hmem hx⟩
      intro x
      rw [hids]
      by_cases hx : x = page_id
      · simp [hx, hmem]
      · simp [hx]
  · intro hnot hlt
    have hl : s.cache.lookup page_id = none := (LRUCache.lookup_eq_none_iff _ _).mpr hnot
    have hlt2 : s.cache.cache_list.length ≠ s.cache.capacity := by
      have : s.cache.cache_list.length < cap := by simpa [LRUCache.ids] using hlt
      omega
    simp [LRUCache.put, hl, hlt2, LRUCache.ids]

theorem lru_get_hit_or_miss_witness :
    1 ≤ 2 ∧
    ∃ p c, (CacheRun.run 2 [CacheOp.put 1 10, CacheOp.put 2 20, CacheOp.put 1 11,
        CacheOp.put 3 30]).cache.get 1 = some (p, c) ∧
      (CacheRun.run 2 [CacheOp.put 1 10, CacheOp.put 2 20, CacheOp.put 1 11,
        CacheOp.put 3 30]).last_put 1 = some p ∧ p = 11 ∧ c.ids = [1, 3] :=
  ⟨by decide,
    match (lru_get_hit_or_miss 2 (by decide)
      [CacheOp.put 1 10, CacheOp.put 2 20, CacheOp.put 1 11, CacheOp.put 3 30] 1).1
      (by decide) with
    | ⟨p, c, h1, h2, h3, _⟩ =>
      ⟨p, c, h1, h2, by
        have : (CacheRun.run 2 [CacheOp.put 1 10, CacheOp.put 2 20, CacheOp.put 1 11,
          CacheOp.put 3 30]).last_put 1 = some 11 := by decide
        rw [this] at h2
        exact (Option.some.inj h2).symm, by rw [h3]; decide⟩⟩

theorem lru_put_evicts_least_recent_witness :
    1 ≤ 2 ∧
    ∃ victim, victim ∈ (CacheRun.run 2 [CacheOp.put 1 10, CacheOp.put 2 20,
        CacheOp.get 1]).cache.ids ∧
      (∀ x ∈ (CacheRun.run 2 [CacheOp.put 1 10, CacheOp.put 2 20, CacheOp.get 1]).cache.ids,
        x ≠ victim →
        (CacheRun.run 2 [CacheOp.put 1 10, CacheOp.put 2 20, CacheOp.get 1]).touched_at victim
          < (CacheRun.run 2 [CacheOp.put 1 10, CacheOp.put 2 20, CacheOp.get 1]).touched_at x) ∧
      ((CacheRun.run 2 [CacheOp.put 1 10, CacheOp.put 2 20, CacheOp.get 1]).cache.put 3 30).ids
        = 3 :: (CacheRun.run 2 [CacheOp.put 1 10, CacheOp.put 2 20,
            CacheOp.get 1]).cache.ids.filter (fun x => x ≠ victim) :=
  ⟨by decide,
    match (lru_put_evicts_least_recent 2 (by decide)
      [CacheOp.put 1 10, CacheOp.put 2 20, CacheOp.get 1] 3 30).2.1 (by decide) (by decide) with
    | ⟨victim, h1, h2, h3, _⟩ => ⟨victim, h1, h2, h3⟩⟩

/-! ## The pager -/

namespace MemoryRiver

variable {Value : Type}

theorem block_eq_getElem (f : MemoryRiver Value) {p : Nat} (hp : p ≠ 0) :
    f.block p = f.pages[p - 1]? := by
  simp [block, hp]

theorem block_isSome_iff (f : MemoryRiver Value) (p : Nat) :
    (f.block p).isSome ↔ 1 ≤ p ∧ p ≤ f.pages.length := by
  unfold block
  by_cases hp : p = 0
  · simp [hp]
  · simp only [hp, if_false]
    rw [Option.isSome_iff_exists]
    constructor
    · rintro ⟨b, hb⟩
      have := (List.getElem?_eq_some_iff.mp hb).1
      omega
    · rintro ⟨_, h⟩
      exact ⟨_, List.getElem?_eq_getElem (by omega)⟩

/-- Writing a block over an existing page. -/
theorem put_block_existing (f : MemoryRiver Value) (p : Nat) (b : Page Value)
    (h : (f.block p).isSome) :
    f.put_block p b = .ok { f with pages := f.pages.set (p - 1) b } := by
  have := (block_isSome_iff f p).mp h
  have h1 : p ≠ 0 := by omega
  have h2 : p - 1 < f.pages.length := by omega
  simp [put_block, h1, h2]

/-- Writing a block right after the last page. -/
theorem put_block_append (f : MemoryRiver Value) (b : Page Value) :
    f.put_block (f.pages.length + 1) b = .ok { f with pages := f.pages ++ [b] } := by
  simp [put_block]

theorem block_set_self (f : MemoryRiver Value) (p : Nat) (b : Page Value)
    (h : (f.block p).isSome) :
    ({ f with pages := f.pages.set (p - 1) b } : MemoryRiver Value).block p = some b := by
  have := (block_isSome_iff f p).mp h
  have h1 : p ≠ 0 := by omega
  have h2 : p - 1 < f.pages.length := by omega
  simp [block, h1, h2]

theorem block_set_other (f : MemoryRiver Value) (p q : Nat) (b : Page Value) (hp : p ≠ 0)
    (hq : q ≠ p) :
    ({ f with pages := f.pages.set (p - 1) b } : MemoryRiver Value).block q = f.block q := by
  unfold block
  by_cases h0 : q = 0
  · simp [h0]
  · simp only [h0, if_false]
    rw [List.getElem?_set_ne (by omega)]

theorem block_append_self (f : MemoryRiver Value) (b : Page Value) :
    ({ f with pages := f.pages ++ [b] } : MemoryRiver Value).block (f.pages.length + 1)
      = some b := by
  simp [block]

theorem block_append_other (f : MemoryRiver Value) (q : Nat) (b : Page Value)
    (hq : q ≠ f.pages.length + 1) :
    ({ f with pages := f.pages ++ [b] } : MemoryRiver Value).block q = f.block q := by
  unfold block
  by_cases h0 : q = 0
  · simp [h0]
  · simp only [h0, if_false]
    by_cases hlt : q - 1 < f.pages.length
    · rw [List.getElem?_append_left hlt]
    · rw [List.getElem?_eq_none (by simp; omega), List.getElem?_eq_none (by omega)]

theorem file_size_page_num (f : MemoryRiver Value) :
    (f.file_size - HEADER_SIZE) / BLOCK_SIZE + 1 = f.pages.length + 1 := by
  simp [file_size, HEADER_SIZE, BLOCK_SIZE]

/-- What `write_page` does on a file whose free list is not empty, and on one whose free list
is empty. -/
theorem write_page_spec (f : MemoryRiver Value) (t : BPTNode Value) :
    (∀ b, f.get_info 2 ≠ 0 → f.block (f.get_info 2) = some b →
      ∃ g, f.write_page t = .ok (f.get_info 2, g) ∧
        g.get_info 2 = b.first_word ∧ g.get_info 1 = f.get_info 1 ∧
        g.file_size = f.file_size ∧
        g.read_page (f.get_info 2) = .ok t ∧
        ∀ p, p ≠ f.get_info 2 → g.block p = f.block p) ∧
    (f.get_info 2 = 0 →
      ∃ g, f.write_page t = .ok ((f.file_size - 8) / 4096 + 1, g) ∧
        g.get_info 2 = 0 ∧ g.get_info 1 = f.get_info 1 ∧
        g.file_size = f.file_size + 4096 ∧
        g.read_page ((f.file_size - 8) / 4096 + 1) = .ok t ∧
        ∀ p, p ≠ (f.file_size - 8) / 4096 + 1 → g.block p = f.block p) := by
  constructor
  · intro b h0 hb
    have hs : (f.block (f.get_info 2)).isSome := by simp [hb]
    have hs2 : ((f.write_info b.first_word 2).block (f.get_info 2)).isSome := by
      simpa [write_info, block] using hs
    refine ⟨{ f.write_info b.first_word 2 with
      pages := (f.write_info b.first_word 2).pages.set (f.get_info 2 - 1) (.image t) },
      ?_, ?_, ?_, ?_, ?_, ?_⟩
    · simp only [write_page, h0, ne_eq, not_false_eq_true, if_true, hb]
      rw [put_block_existing _ _ _ hs2]
    · simp [get_info, write_info]
    · simp [get_info, write_info]
    · simp [file_size, write_info]
    · simp only [read_page]
      rw [block_set_self _ _ _ hs2]
    · intro p hp
      rw [block_set_other _ _ _ _ h0 hp]
      simp [block, write_info]
  · intro h0
    have hn : (f.file_size - 8) / 4096 + 1 = f.pages.length + 1 := file_size_page_num f
    rw [hn]
    refine ⟨{ f with pages := f.pages ++ [.image t] }, ?_, ?_, ?_, ?_, ?_, ?_⟩
    · simp only [write_page, h0, ne_eq, not_true_eq_false, if_false, file_size_page_num]
      rw [put_block_append]
    · simpa [get_info] using h0
    · simp [get_info]
    · simp [file_size, BLOCK_SIZE]; ring
    · simp only [read_page]
      rw [block_append_self]
    · intro p hp
      exact block_append_other _ _ _ hp

end MemoryRiver

/-! ## The cached page operations -/

theorem LRUCache.find_dropLast_some {PageType : Type} (l : List (Nat × PageType)) {x : Nat}
    {e : Nat × PageType} (h : l.dropLast.find? (fun e => e.1 == x) = some e) :
    l.find? (fun e => e.1 == x) = some e := by
  induction l with
  | nil => simp at h
  | cons a l ih =>
    cases l with
    | nil => simp at h
    | cons b l =>
      have hd : (a :: b :: l).dropLast = a :: (b :: l).dropLast := rfl
      rw [hd, List.find?_cons] at h
      rw [List.find?_cons]
      cases hax : (a.1 == x) with
      | true => simpa [hax] using h
      | false =>
        simp only [hax] at h ⊢
        exact ih h

/-- What a lookup after `put` can return: the new image, or what was there before. -/
theorem LRUCache.lookup_put_cases {PageType : Type} (c : LRUCache PageType) (y : Nat)
    (p : PageType) (x : Nat) (e : Nat × PageType) (h : (c.put y p).lookup x = some e) :
    (x = y ∧ e = (y, p)) ∨ (x ≠ y ∧ c.lookup x = some e) := by
  by_cases hx : x = y
  · subst hx
    rw [LRUCache.lookup_put_self] at h
    exact Or.inl ⟨rfl, (Option.some.inj h).symm⟩
  · right
    refine ⟨hx, ?_⟩
    have hne : ((y, p).1 == x) = false := by simpa using fun h => hx h.symm
    cases hl : c.lookup y with
    | some e0 =>
      simp only [LRUCache.put, hl] at h
      simp only [LRUCache.lookup, LRUCache.splice_front, List.find?_cons, hne] at h
      rw [LRUCache.find_eraseP_ne _ hx] at h
      exact h
    | none =>
      simp only [LRUCache.put, hl] at h
      simp only [LRUCache.lookup, List.find?_cons, hne] at h
      by_cases hfull : c.cache_list.length = c.capacity
      · simp only [hfull, if_true] at h
        exact LRUCache.find_dropLast_some _ h
      · simp only [hfull, if_false] at h
        exact h

namespace MemoryRiver

variable {Value : Type}

theorem read_page_eq_ok (f : MemoryRiver Value) (p : Nat) (n : BPTNode Value) :
    f.read_page p = .ok n ↔ f.node_at p = some n := by
  unfold read_page node_at
  cases f.block p with
  | none => simp
  | some b => cases b <;> simp

theorem node_at_eq_some (f : MemoryRiver Value) (p : Nat) (n : BPTNode Value) :
    f.node_at p = some n ↔ f.block p = some (.image n) := by
  unfold node_at
  cases f.block p with
  | none => simp
  | some b => cases b <;> simp

theorem node_at_bound {f : MemoryRiver Value} {p : Nat} {n : BPTNode Value}
    (h : f.node_at p = some n) : 1 ≤ p ∧ p ≤ f.pages.length :=
  (block_isSome_iff f p).mp (by rw [(node_at_eq_some f p n).mp h]; rfl)

end MemoryRiver

variable {Value : Type}

/-- A read through the cache returns the node image of the page and leaves the file alone. -/
theorem disk_read_inv {t t1 : BPT Value} {p : Nat} {n : BPTNode Value}
    (h : disk_read t p = .ok (n, t1)) (hc : t.coherent) :
    t1.file = t.file ∧ t1.root_page = t.root_page ∧ t1.coherent ∧
      ∃ b, t.file.block p = some b ∧ b.node = n := by
  unfold disk_read at h
  cases hg : t.cache.get p with
  | some r =>
    obtain ⟨n0, c⟩ := r
    simp only [hg] at h
    cases h
    unfold LRUCache.get at hg
    cases hl : t.cache.lookup p with
    | none => simp [hl] at hg
    | some e =>
      simp only [hl, Option.some.injEq, Prod.mk.injEq] at hg
      obtain ⟨rfl, rfl⟩ := hg
      refine ⟨rfl, rfl, ?_, hc p e hl⟩
      intro q e1 hq
      rw [LRUCache.lookup_splice_front_same _ _ _ hl] at hq
      exact hc q e1 hq
  | none =>
    simp only [hg] at h
    cases hr : t.file.read_page p with
    | error e => simp [hr] at h
    | ok n0 =>
      simp only [hr, Except.ok.injEq, Prod.mk.injEq] at h
      obtain ⟨rfl, rfl⟩ := h
      have hb := (MemoryRiver.node_at_eq_some _ _ _).mp ((MemoryRiver.read_page_eq_ok _ _ _).mp hr)
      refine ⟨rfl, rfl, ?_, ⟨_, hb, rfl⟩⟩
      intro q e1 hq
      rcases LRUCache.lookup_put_cases _ _ _ _ _ hq with ⟨rfl, rfl⟩ | ⟨_, hq1⟩
      · exact ⟨_, hb, rfl⟩
      · exact hc q e1 hq1

/-- A read of an intact page through a coherent cache succeeds with the node of the file. -/
theorem disk_read_ok {t : BPT Value} {p : Nat} {n : BPTNode Value} (hc : t.coherent)
    (h : t.file.node_at p = some n) :
    ∃ t1, disk_read t p = .ok (n, t1) ∧ t1.file = t.file ∧ t1.root_page = t.root_page ∧
      t1.coherent := by
  have hb := (MemoryRiver.node_at_eq_some _ _ _).mp h
  have hex : ∃ r, disk_read t p = .ok r := by
    unfold disk_read
    cases hg : t.cache.get p with
    | some r => exact ⟨_, rfl⟩
    | none =>
      simp only [(MemoryRiver.read_page_eq_ok _ _ _).mpr h]
      exact ⟨_, rfl⟩
  obtain ⟨⟨n1, t1⟩, hr⟩ := hex
  obtain ⟨h1, h2, h3, b, hb1, hb2⟩ := disk_read_inv hr hc
  rw [hb] at hb1
  cases hb1
  have : n = n1 := hb2
  subst this
  exact ⟨t1, hr, h1, h2, h3⟩

/-- A write through the cache to an existing page. -/
theorem disk_write_ok (t : BPT Value) (n : BPTNode Value) (p : Nat)
    (hp : (t.file.block p).isSome) :
    ∃ t1, disk_write t n p = .ok t1 ∧
      t1.file = { t.file with pages := t.file.pages.set (p - 1) (.image n) } ∧
      t1.root_page = t.root_page ∧ (t.coherent → t1.coherent) := by
  have hp0 : p ≠ 0 := by have := (MemoryRiver.block_isSome_iff _ _).mp hp; omega
  refine ⟨{ t with file := { t.file with pages := t.file.pages.set (p - 1) (.image n) },
                   cache := t.cache.put p n }, ?_, rfl, rfl, ?_⟩
  · simp only [disk_write, MemoryRiver.update_page]
    rw [MemoryRiver.put_block_existing _ _ _ hp]
  · intro hc q e hq
    rcases LRUCache.lookup_put_cases _ _ _ _ _ hq with ⟨rfl, rfl⟩ | ⟨hne, hq1⟩
    · exact ⟨_, MemoryRiver.block_set_self _ _ _ hp, rfl⟩
    · obtain ⟨b, hb1, hb2⟩ := hc q e hq1
      exact ⟨b, by rw [MemoryRiver.block_set_other _ _ _ _ hp0 hne]; exact hb1, hb2⟩

/-- An allocation with an empty free list appends a page. -/
theorem disk_alloc_append (t : BPT Value) (n : BPTNode Value) (h0 : t.file.slot2 = 0) :
    ∃ t1, disk_alloc t n = .ok (t.file.pages.length + 1, t1) ∧
      t1.file = { t.file with pages := t.file.pages ++ [.image n] } ∧
      t1.root_page = t.root_page ∧ (t.coherent → t1.coherent) := by
  refine ⟨{ t with file := { t.file with pages := t.file.pages ++ [.image n] },
                   cache := t.cache.put (t.file.pages.length + 1) n }, ?_, rfl, rfl, ?_⟩
  · simp only [disk_alloc, MemoryRiver.write_page, MemoryRiver.get_info, h0]
    simp only [OfNat.ofNat_ne_one, if_false, ne_eq, not_true_eq_false,
      MemoryRiver.file_size_page_num]
    rw [MemoryRiver.put_block_append]
    simp [h0]
  · intro hc q e hq
    rcases LRUCache.lookup_put_cases _ _ _ _ _ hq with ⟨rfl, rfl⟩ | ⟨hne, hq1⟩
    · exact ⟨_, MemoryRiver.block_append_self _ _, rfl⟩
    · obtain ⟨b, hb1, hb2⟩ := hc q e hq1
      exact ⟨b, by rw [MemoryRiver.block_append_other _ _ _ hne]; exact hb1, hb2⟩

/-- An allocation served by the free list or by the end of the file. -/
theorem disk_alloc_ok (t : BPT Value) (n : BPTNode Value)
    (h : t.file.slot2 = 0 ∨ (t.file.block t.file.slot2).isSome) :
    ∃ pg t1, disk_alloc t n = .ok (pg, t1) ∧
      t1.file.block pg = some (.image n) ∧ (∀ q, q ≠ pg → t1.file.block q = t.file.block q) ∧
      t1.file.slot1 = t.file.slot1 ∧ t1.root_page = t.root_page ∧
      (t.coherent → t1.coherent) ∧
      (t.file.slot2 = 0 → pg = t.file.pages.length + 1 ∧ t1.file.slot2 = 0 ∧
        t1.file.pages.length = t.file.pages.length + 1) ∧
      (∀ b, t.file.slot2 ≠ 0 → t.file.block t.file.slot2 = some b →
        pg = t.file.slot2 ∧ t1.file.slot2 = b.first_word ∧
          t1.file.pages.length = t.file.pages.length) := by
  by_cases h0 : t.file.slot2 = 0
  · obtain ⟨t1, h1, h2, h3, h4⟩ := disk_alloc_append t n h0
    refine ⟨_, t1, h1, ?_, ?_, ?_, h3, h4, ?_, ?_⟩
    · rw [h2]; exact MemoryRiver.block_append_self _ _
    · intro q hq; rw [h2]; exact MemoryRiver.block_append_other _ _ _ hq
    · rw [h2]
    · intro _; rw [h2]; simp [h0]
    · intro b hb; exact absurd h0 hb
  · have hs : (t.file.block t.file.slot2).isSome := h.resolve_left h0
    obtain ⟨b, hb⟩ := Option.isSome_iff_exists.mp hs
    obtain ⟨g, hg1, hg2, hg3, hg4, hg5, hg6⟩ :=
      (MemoryRiver.write_page_spec t.file n).1 b h0 hb
    have e2 : t.file.get_info 2 = t.file.slot2 := rfl
    rw [e2] at hg1 hg5 hg6
    refine ⟨t.file.slot2, { t with file := g, cache := t.cache.put t.file.slot2 n },
      ?_, ?_, hg6, hg3, rfl, ?_, fun h => absurd h h0, ?_⟩
    · simp [disk_alloc, hg1]
    · exact (MemoryRiver.node_at_eq_some _ _ _).mp ((MemoryRiver.read_page_eq_ok _ _ _).mp hg5)
    · intro hc q e hq
      rcases LRUCache.lookup_put_cases _ _ _ _ _ hq with ⟨rfl, rfl⟩ | ⟨hne, hq1⟩
      · exact ⟨_, (MemoryRiver.node_at_eq_some _ _ _).mp
          ((MemoryRiver.read_page_eq_ok _ _ _).mp hg5), rfl⟩
      · obtain ⟨b1, hb1, hb2⟩ := hc q e hq1
        exact ⟨b1, by rw [hg6 q hne]; exact hb1, hb2⟩
    · intro b1 _ hb1
      rw [hb] at hb1
      cases hb1
      refine ⟨rfl, hg2, ?_⟩
      have := hg4
      simp only [MemoryRiver.file_size, BLOCK_SIZE, HEADER_SIZE] at this
      show g.pages.length = t.file.pages.length
      omega

theorem memcmpBytes_zero (l : List Nat) : 0 ≤ memcmpBytes l (List.replicate l.length 0) := by
  induction l with
  | nil => simp [memcmpBytes]
  | cons a l ih =>
    simp only [List.length_cons, List.replicate_succ, memcmpBytes, Nat.not_lt_zero, if_false]
    split
    · decide
    · exact ih

theorem memcmp_zero_key (k : Key) : 0 ≤ memcmp k zero_key := by
  have := memcmpBytes_zero k.bytes
  rw [k.size] at this
  exact this

theorem scan_start_index_single (k : Key) (e : InternalEntry) : scan_start_index k [e] = 0 := by
  simp only [scan_start_index, List.length_singleton, search_gt]
  simp only [Nat.lt_one_iff, if_true]
  split <;> rfl

theorem pages_write_info (f : MemoryRiver Value) (x i : Nat) :
    (f.write_info x i).pages = f.pages := by
  unfold MemoryRiver.write_info
  split <;> rfl

theorem block_write_info (f : MemoryRiver Value) (x i p : Nat) :
    (f.write_info x i).block p = f.block p := by
  simp only [MemoryRiver.block, pages_write_info]

theorem coherent_write_info {t : BPT Value} (hc : t.coherent) (x i : Nat) :
    ({ t with file := t.file.write_info x i } : BPT Value).coherent := by
  intro p e hp
  obtain ⟨b, hb1, hb2⟩ := hc p e hp
  refine ⟨b, ?_, hb2⟩
  show (t.file.write_info x i).block p = some b
  rw [block_write_info]
  exact hb1

theorem initialize_new_tree_spec (t : BPT Value) (hc : t.coherent)
    (h2 : t.file.two_pages_available) :
    ∃ t1 l0 r, initialize_new_tree t = .ok t1 ∧ l0 ≠ r ∧ t1.coherent ∧
      t1.file.node_at l0 = some { is_leaf := true, parent := r, next_leaf := 0 } ∧
      t1.file.node_at r = some
        { is_leaf := false, parent := 0, next_leaf := 0,
          internal_entries := [{ index := zero_key, child := l0 }] } ∧
      t1.root_page = r ∧ t1.file.get_info 1 = r ∧ t1.file.get_info 2 = 0 ∧
      (t.file.get_info 2 = 0 → l0 = t.file.pages.length + 1 ∧ r = t.file.pages.length + 2) ∧
      (∀ q, q ≠ l0 → q ≠ r → t1.file.block q = t.file.block q) := by
  -- first allocation
  have ha1 : t.file.slot2 = 0 ∨ (t.file.block t.file.slot2).isSome := by
    rcases h2 with h | ⟨b, hb, _⟩
    · exact Or.inl h
    · exact Or.inr (by rw [show t.file.slot2 = t.file.get_info 2 from rfl, hb]; rfl)
  obtain ⟨l0, t1, e1, b1, o1, _, _, c1, z1, n1⟩ :=
    disk_alloc_ok t { is_leaf := true, next_leaf := 0 } ha1
  -- second allocation
  have ha2 : (t1.file.slot2 = 0 ∨ (t1.file.block t1.file.slot2).isSome) ∧
      ((t1.file.slot2 = 0 → l0 ≠ t1.file.pages.length + 1) ∧
       (t1.file.slot2 ≠ 0 → l0 ≠ t1.file.slot2)) := by
    rcases h2 with h | ⟨b, hb, hw⟩
    · obtain ⟨rfl, hz, hl⟩ := z1 h
      exact ⟨Or.inl hz, fun _ => by omega, fun h => absurd hz h⟩
    · have e2 : t.file.get_info 2 = t.file.slot2 := rfl
      rw [e2] at hb hw
      by_cases h0 : t.file.slot2 = 0
      · obtain ⟨rfl, hz, hl⟩ := z1 h0
        exact ⟨Or.inl hz, fun _ => by omega, fun h => absurd hz h⟩
      · obtain ⟨rfl, hs, hl⟩ := n1 b h0 hb
        have hbound := (MemoryRiver.block_isSome_iff t.file t.file.slot2).mp (by rw [hb]; rfl)
        rcases hw with hw | ⟨hw1, hw2⟩
        · exact ⟨Or.inl (by rw [hs, hw]), fun _ => by omega, fun h => absurd (by rw [hs, hw]) h⟩
        · refine ⟨Or.inr ?_, fun _ => by omega, fun _ => by rw [hs]; exact fun h => hw1 h.symm⟩
          rw [hs, o1 _ hw1]
          exact hw2
  obtain ⟨r, t2, e2, b2, o2, _, _, c2, z2, n2⟩ :=
    disk_alloc_ok t1
      { is_leaf := false, parent := 0, next_leaf := 0,
        internal_entries := [{ index := zero_key, child := l0 }] } ha2.1
  have hne : l0 ≠ r := by
    by_cases h0 : t1.file.slot2 = 0
    · rw [(z2 h0).1]; exact ha2.2.1 h0
    · obtain ⟨b, hb⟩ := Option.isSome_iff_exists.mp (ha2.1.resolve_left h0)
      rw [(n2 b h0 hb).1]; exact ha2.2.2 h0
  -- rewrite of the leaf
  have hl0 : (({ t2 with root_page := r } : BPT Value).file.block l0).isSome := by
    show (t2.file.block l0).isSome
    rw [o2 l0 hne, b1]; rfl
  obtain ⟨t3, e3, f3, _, c3⟩ := disk_write_ok ({ t2 with root_page := r } : BPT Value)
    { is_leaf := true, next_leaf := 0, parent := r } l0 hl0
  have hl0' : l0 ≠ 0 := by
    have := (MemoryRiver.block_isSome_iff _ _).mp hl0
    omega
  have hcoh3 : t3.coherent := c3 (c2 (c1 hc))
  have hb3l : t3.file.block l0 = some (.image { is_leaf := true, next_leaf := 0, parent := r }) := by
    rw [f3]; exact MemoryRiver.block_set_self _ _ _ hl0
  have hb3o : ∀ q, q ≠ l0 → t3.file.block q = t2.file.block q := by
    intro q hq; rw [f3]; exact MemoryRiver.block_set_other _ _ _ _ hl0' hq
  -- the header and the final read
  have hcoh4 : ({ ({ t3 with file := t3.file.write_info r 1 } : BPT Value) with
      file := (t3.file.write_info r 1).write_info 0 2 } : BPT Value).coherent :=
    coherent_write_info (coherent_write_info hcoh3 r 1) 0 2
  have hn4 : ((t3.file.write_info r 1).write_info 0 2).node_at l0
      = some { is_leaf := true, next_leaf := 0, parent := r } := by
    rw [MemoryRiver.node_at_eq_some, block_write_info, block_write_info]; exact hb3l
  obtain ⟨t5, e5, f5, r5, c5⟩ := disk_read_ok hcoh4 hn4
  refine ⟨t5, l0, r, ?_, hne, c5, ?_, ?_, ?_, ?_, ?_, ?_, ?_⟩
  · simp only [initialize_new_tree, bind, Except.bind, e1, e2, e3, e5, pure, Except.pure]
  · rw [f5]; exact hn4
  · rw [f5, MemoryRiver.node_at_eq_some, block_write_info, block_write_info, hb3o r hne.symm]
    exact b2
  · rw [r5]
    show t3.root_page = r
    have := disk_write_ok ({ t2 with root_page := r } : BPT Value)
      { is_leaf := true, next_leaf := 0, parent := r } l0 hl0
    obtain ⟨t3', e3', _, hr, _⟩ := this
    rw [e3] at e3'
    cases e3'
    exact hr
  · rw [f5]; simp [MemoryRiver.get_info, MemoryRiver.write_info]
  · rw [f5]; simp [MemoryRiver.get_info, MemoryRiver.write_info]
  · intro h0
    obtain ⟨rfl, hz, hl⟩ := z1 h0
    obtain ⟨rfl, _, _⟩ := z2 hz
    exact ⟨rfl, by omega⟩
  · intro q hq1 hq2
    rw [f5, block_write_info, block_write_info, hb3o q hq1, o2 q hq2, o1 q hq1]

theorem coherent_empty (f : MemoryRiver Value) (r cap : Nat) :
    ({ file := f, root_page := r, cache := { cache_list := [], capacity := cap } } :
      BPT Value).coherent := by
  intro p e h
  simp [LRUCache.lookup] at h

/-- The tree built by the constructor on a file whose header slot 1 reads 0. -/
theorem open_spec (f : MemoryRiver Value) (h1 : f.get_info 1 = 0)
    (h2 : f.two_pages_available) :
    ∃ t l0 r, BPT.open f = .ok t ∧ l0 ≠ r ∧
      t.file.read_page l0 = .ok { is_leaf := true, parent := r, next_leaf := 0 } ∧
      t.file.read_page r = .ok
        { is_leaf := false, parent := 0, next_leaf := 0,
          internal_entries := [{ index := zero_key, child := l0 }] } ∧
      t.root_page = r ∧ t.file.get_info 1 = r ∧ t.file.get_info 2 = 0 ∧
      (f.get_info 2 = 0 → l0 = f.pages.length + 1 ∧ r = f.pages.length + 2) ∧
      (∀ q, q ≠ l0 → q ≠ r → t.file.block q = f.block q) ∧
      ∀ k, ∃ t1, t.find k = .ok ([], t1) := by
  obtain ⟨t, l0, r, e, hne, hc, hl, hr, hroot, hs1, hs2, hfresh, hoth⟩ :=
    initialize_new_tree_spec
      ({ file := f, root_page := f.get_info 1,
         cache := { cache_list := [], capacity := 128 } } : BPT Value)
      (coherent_empty _ _ _) h2
  refine ⟨t, l0, r, ?_, hne, (MemoryRiver.read_page_eq_ok _ _ _).mpr hl,
    (MemoryRiver.read_page_eq_ok _ _ _).mpr hr, hroot, hs1, hs2, hfresh, hoth, ?_⟩
  · simp only [BPT.open, h1, if_true]
    rw [← h1]
    exact e
  · intro k
    have hb1 := MemoryRiver.node_at_bound hl
    have hb2 := MemoryRiver.node_at_bound hr
    obtain ⟨d, hd⟩ : ∃ d, t.depth = d + 2 := ⟨t.file.pages.length - 2, by
      simp only [BPT.depth]; omega⟩
    rw [← hroot] at hr
    obtain ⟨t1, e1, f1, _, c1⟩ := disk_read_ok hc hr
    rw [← f1] at hl
    obtain ⟨t2, e2, _, _, _⟩ := disk_read_ok c1 hl
    refine ⟨t2, ?_⟩
    simp only [BPT.find, bind, Except.bind, e1, hd, find_all, BPTNode.count,
      scan_start_index_single]
    simp [find_scan, memcmp_zero_key, e2, find_all, BPTNode.count]

theorem memcmpBytes_range (a b : List Nat) :
    memcmpBytes a b = -1 ∨ memcmpBytes a b = 0 ∨ memcmpBytes a b = 1 := by
  induction a generalizing b with
  | nil => cases b <;> simp [memcmpBytes]
  | cons x a ih =>
    cases b with
    | nil => simp [memcmpBytes]
    | cons y b =>
      simp only [memcmpBytes]
      split
      · simp
      · split
        · simp
        · exact ih b

theorem memcmpBytes_self (a : List Nat) : memcmpBytes a a = 0 := by
  induction a with
  | nil => rfl
  | cons x a ih => simp [memcmpBytes, ih]

theorem memcmpBytes_eq_zero {a b : List Nat} (h : memcmpBytes a b = 0) : a = b := by
  induction a generalizing b with
  | nil => cases b <;> simp_all [memcmpBytes]
  | cons x a ih =>
    cases b with
    | nil => simp [memcmpBytes] at h
    | cons y b =>
      simp only [memcmpBytes] at h
      split at h
      · simp at h
      · split at h
        · simp at h
        · have : x = y := by omega
          rw [this, ih h]

theorem memcmpBytes_swap (a b : List Nat) : memcmpBytes b a = - memcmpBytes a b := by
  induction a generalizing b with
  | nil => cases b <;> simp [memcmpBytes]
  | cons x a ih =>
    cases b with
    | nil => simp [memcmpBytes]
    | cons y b =>
      simp only [memcmpBytes]
      by_cases h1 : x < y
      · have h2 : ¬ y < x := by omega
        simp [h1, h2]
      · by_cases h2 : y < x
        · simp [h1, h2]
        · simp [h1, h2, ih b]

theorem memcmpBytes_trans {a b c : List Nat} (h1 : memcmpBytes a b ≤ 0)
    (h2 : memcmpBytes b c ≤ 0) : memcmpBytes a c ≤ 0 := by
  induction a generalizing b c with
  | nil => cases c <;> simp [memcmpBytes]
  | cons x a ih =>
    cases b with
    | nil => simp [memcmpBytes] at h1
    | cons y b =>
      cases c with
      | nil => simp [memcmpBytes] at h2
      | cons z c =>
        simp only [memcmpBytes] at h1 h2 ⊢
        by_cases hxy : x < y
        · by_cases hyz : y < z
          · have : x < z := by omega
            simp [this]
          · by_cases hzy : z < y
            · simp [hyz, hzy] at h2
            · have : x < z := by omega
              simp [this]
        · by_cases hyx : y < x
          · simp [hxy, hyx] at h1
          · simp only [hxy, hyx, if_false] at h1
            have hxe : x = y := by omega
            subst hxe
            by_cases hyz : x < z
            · simp [hyz]
            · by_cases hzy : z < x
              · simp [hyz, hzy] at h2
              · simp only [hyz, hzy, if_false] at h2 ⊢
                exact ih h1 h2

namespace Key

theorem ext_bytes {a b : Key} (h : a.bytes = b.bytes) : a = b := by
  cases a; cases b; simp_all

theorem le_def (a b : Key) : a ≤ b ↔ memcmp a b ≤ 0 := Iff.rfl

theorem lt_def (a b : Key) : a < b ↔ memcmp a b < 0 := Iff.rfl

theorem memcmp_swap (a b : Key) : memcmp b a = - memcmp a b := memcmpBytes_swap _ _

theorem le_refl (a : Key) : a ≤ a := by
  rw [le_def, memcmp, memcmpBytes_self]

theorem le_trans {a b c : Key} (h1 : a ≤ b) (h2 : b ≤ c) : a ≤ c :=
  memcmpBytes_trans h1 h2

theorem le_total (a b : Key) : a ≤ b ∨ b ≤ a := by
  rw [le_def, le_def, memcmp_swap a b]
  omega

theorem le_antisymm {a b : Key} (h1 : a ≤ b) (h2 : b ≤ a) : a = b := by
  rw [le_def] at h1 h2
  rw [memcmp_swap a b] at h2
  exact ext_bytes (memcmpBytes_eq_zero (by unfold memcmp at h1 h2; omega))

theorem not_le {a b : Key} : ¬ a ≤ b ↔ b < a := by
  rw [le_def, lt_def, memcmp_swap a b]
  omega

theorem not_lt {a b : Key} : ¬ a < b ↔ b ≤ a := by
  rw [le_def, lt_def, memcmp_swap a b]
  omega

theorem le_of_lt {a b : Key} (h : a < b) : a ≤ b := by
  rw [lt_def] at h
  rw [le_def]
  omega

theorem lt_of_lt_of_le {a b c : Key} (h1 : a < b) (h2 : b ≤ c) : a < c := by
  rw [← not_le] at h1 ⊢
  exact fun h => h1 (le_trans h2 h)

theorem lt_of_le_of_lt {a b c : Key} (h1 : a ≤ b) (h2 : b < c) : a < c := by
  rw [← not_le] at h2 ⊢
  exact fun h => h2 (le_trans h h1)

theorem memcmp_eq_zero_iff (a b : Key) : memcmp a b = 0 ↔ a = b := by
  constructor
  · intro h
    exact ext_bytes (memcmpBytes_eq_zero h)
  · rintro rfl
    exact memcmpBytes_self _

theorem memcmp_nonneg_iff (a b : Key) : 0 ≤ memcmp a b ↔ b ≤ a := by
  rw [le_def, memcmp_swap a b]
  omega

theorem memcmp_pos_iff (a b : Key) : 0 < memcmp a b ↔ b < a := by
  rw [lt_def, memcmp_swap a b]
  omega

theorem zero_le (a : Key) : zero_key ≤ a :=
  (memcmp_nonneg_iff a zero_key).mp (memcmp_zero_key a)

end Key

/-! ## The file as a node map under writes -/

theorem node_at_set (f : MemoryRiver Value) (p : Nat) (n : BPTNode Value)
    (hp : (f.block p).isSome) :
    ({ f with pages := f.pages.set (p - 1) (.image n) } : MemoryRiver Value).node_at
      = set_node f.node_at p n := by
  have hp0 : p ≠ 0 := by have := (MemoryRiver.block_isSome_iff _ _).mp hp; omega
  funext q
  unfold set_node
  by_cases hq : q = p
  · subst hq
    simp only [if_true]
    rw [MemoryRiver.node_at_eq_some]
    exact MemoryRiver.block_set_self _ _ _ hp
  · simp only [hq, if_false]
    unfold MemoryRiver.node_at
    rw [MemoryRiver.block_set_other _ _ _ _ hp0 hq]

theorem node_at_append (f : MemoryRiver Value) (n : BPTNode Value) :
    ({ f with pages := f.pages ++ [.image n] } : MemoryRiver Value).node_at
      = set_node f.node_at (f.pages.length + 1) n := by
  funext q
  unfold set_node
  by_cases hq : q = f.pages.length + 1
  · subst hq
    simp only [if_true]
    rw [MemoryRiver.node_at_eq_some]
    exact MemoryRiver.block_append_self _ _
  · simp only [hq, if_false]
    unfold MemoryRiver.node_at
    rw [MemoryRiver.block_append_other _ _ _ hq]

theorem node_at_none_of_gt (f : MemoryRiver Value) {q : Nat} (h : f.pages.length < q) :
    f.node_at q = none := by
  cases hn : f.node_at q with
  | none => rfl
  | some n => have := MemoryRiver.node_at_bound hn; omega

/-- A write to a page that holds a node. -/
theorem write_node {t : BPT Value} (hc : t.coherent) (h0 : t.file.slot2 = 0)
    (n : BPTNode Value) {p : Nat} {n0 : BPTNode Value} (hp : t.file.node_at p = some n0) :
    ∃ t1, disk_write t n p = .ok t1 ∧ Step t t1 ∧
      t1.file.node_at = set_node t.file.node_at p n ∧
      t1.file.pages.length = t.file.pages.length := by
  have hs : (t.file.block p).isSome := by
    rw [(MemoryRiver.node_at_eq_some _ _ _).mp hp]; rfl
  obtain ⟨t1, h1, h2, h3, h4⟩ := disk_write_ok t n p hs
  refine ⟨t1, h1, ⟨h4 hc, ?_, ?_, h3⟩, ?_, ?_⟩
  · rw [h2]; exact h0
  · rw [h2]
  · rw [h2]; exact node_at_set _ _ _ hs
  · rw [h2]; simp

/-- An allocation with an empty free list. -/
theorem alloc_node {t : BPT Value} (hc : t.coherent) (h0 : t.file.slot2 = 0)
    (n : BPTNode Value) :
    ∃ t1, disk_alloc t n = .ok (t.file.pages.length + 1, t1) ∧ Step t t1 ∧
      t1.file.node_at = set_node t.file.node_at (t.file.pages.length + 1) n ∧
      t1.file.pages.length = t.file.pages.length + 1 := by
  obtain ⟨t1, h1, h2, h3, h4⟩ := disk_alloc_append t n h0
  refine ⟨t1, h1, ⟨h4 hc, ?_, ?_, h3⟩, ?_, ?_⟩
  · rw [h2]; exact h0
  · rw [h2]
  · rw [h2]; exact node_at_append _ _
  · rw [h2]; simp

/-- A read of a page that holds a node. -/
theorem read_node {t : BPT Value} (hc : t.coherent) (h0 : t.file.slot2 = 0)
    {p : Nat} {n : BPTNode Value} (hp : t.file.node_at p = some n) :
    ∃ t1, disk_read t p = .ok (n, t1) ∧ Step t t1 ∧ t1.file = t.file := by
  obtain ⟨t1, h1, h2, h3, h4⟩ := disk_read_ok hc hp
  exact ⟨t1, h1, ⟨h4, by rw [h2]; exact h0, by rw [h2], h3⟩, h2⟩

theorem Step.trans {t t1 t2 : BPT Value} (h1 : Step t t1) (h2 : Step t1 t2) : Step t t2 :=
  ⟨h2.coherent, h2.slot2, h2.slot1.trans h1.slot1, h2.root.trans h1.root⟩

theorem set_node_self (m : Nat → Option (BPTNode Value)) (p : Nat) (n : BPTNode Value) :
    set_node m p n p = some n := by
  simp [set_node]

theorem set_node_other (m : Nat → Option (BPTNode Value)) {p q : Nat} (n : BPTNode Value)
    (h : q ≠ p) : set_node m p n q = m q := by
  simp [set_node, h]
/-! ## Children of an internal node -/

theorem below_trans {a b : Key} {hi : Option Key} (h1 : a ≤ b) (h2 : below b hi) :
    below a hi := by
  cases hi with
  | none => trivial
  | some h => exact Key.le_trans h1 h2

theorem kids_imp {P Q : Nat → Key → Option Key → Prop} {es : List InternalEntry}
    {hi : Option Key} (h : ∀ e ∈ es, ∀ k hi1, P e.child k hi1 → Q e.child k hi1)
    (hk : kids P es hi) : kids Q es hi := by
  induction es with
  | nil => trivial
  | cons e rest ih =>
    obtain ⟨h1, h2, h3⟩ := hk
    exact ⟨h e (List.mem_cons_self _ _) _ _ h1, h2,
      ih (fun e1 he1 => h e1 (List.mem_cons_of_mem _ he1)) h3⟩

/-- The chain of children splits at every entry: the part before the entry is bounded by the
key of the entry. -/
theorem kids_append {P : Nat → Key → Option Key → Prop} (pre : List InternalEntry)
    (e : InternalEntry) (post : List InternalEntry) (hi : Option Key) :
    kids P (pre ++ e :: post) hi ↔ kids P pre (some e.index) ∧ kids P (e :: post) hi := by
  induction pre with
  | nil => simp [kids]
  | cons a pre ih =>
    have hn : next_key (pre ++ e :: post) hi = next_key pre (some e.index) := by
      cases pre <;> rfl
    show kids P (a :: (pre ++ e :: post)) hi
      ↔ kids P (a :: pre) (some e.index) ∧ kids P (e :: post) hi
    rw [show kids P (a :: (pre ++ e :: post)) hi
        = (P a.child a.index (next_key (pre ++ e :: post) hi) ∧
            below a.index (next_key (pre ++ e :: post) hi) ∧
            kids P (pre ++ e :: post) hi) from rfl,
      show kids P (a :: pre) (some e.index)
        = (P a.child a.index (next_key pre (some e.index)) ∧
            below a.index (next_key pre (some e.index)) ∧
            kids P pre (some e.index)) from rfl,
      hn, ih]
    tauto

theorem kids_keys_below {P : Nat → Key → Option Key → Prop} {es : List InternalEntry}
    {hi : Option Key} (hk : kids P es hi) : ∀ e ∈ es, below e.index hi := by
  induction es with
  | nil => intro e he; cases he
  | cons a rest ih =>
    obtain ⟨_, h2, h3⟩ := hk
    have ih2 := ih h3
    intro e he
    rcases List.mem_cons.mp he with rfl | he
    · cases rest with
      | nil => exact h2
      | cons b rest => exact below_trans h2 (ih2 b (List.mem_cons_self _ _))
    · exact ih2 e he

theorem kids_sorted {P : Nat → Key → Option Key → Prop} {es : List InternalEntry}
    {hi : Option Key} (hk : kids P es hi) :
    es.Pairwise (fun a b => a.index ≤ b.index) := by
  induction es with
  | nil => exact List.Pairwise.nil
  | cons a rest ih =>
    obtain ⟨_, h2, h3⟩ := hk
    refine List.Pairwise.cons ?_ (ih h3)
    intro b hb
    cases rest with
    | nil => cases hb
    | cons c rest =>
      have hp := ih h3
      rcases List.mem_cons.mp hb with rfl | hb
      · exact h2
      · exact Key.le_trans h2 ((List.pairwise_cons.mp hp).1 b hb)

/-- Every child satisfies `P` between its key and a bound that is itself within `hi`. -/
theorem kids_mem {P : Nat → Key → Option Key → Prop} {es : List InternalEntry}
    {hi : Option Key} (hk : kids P es hi) :
    ∀ e ∈ es, ∃ hi1, P e.child e.index hi1 ∧ ∀ k, below k hi1 → below k hi := by
  induction es with
  | nil => intro e he; cases he
  | cons a rest ih =>
    obtain ⟨h1, _, h3⟩ := hk
    intro e he
    rcases List.mem_cons.mp he with rfl | he
    · refine ⟨_, h1, ?_⟩
      cases rest with
      | nil => exact fun k hk => hk
      | cons b rest =>
        intro k hk
        exact below_trans hk (kids_keys_below h3 b (List.mem_cons_self _ _))
    · exact ih h3 e he

/-! ## Frames: a subtree depends only on its own pages -/

theorem subtree_root_mem (m : Nat → Option (BPTNode Value)) (h p : Nat) :
    p ∈ subtree m h p := by
  cases h <;> simp [subtree]

theorem subtree_child_mem {m : Nat → Option (BPTNode Value)} {h p : Nat} {n : BPTNode Value}
    (hn : m p = some n) {e : InternalEntry} (he : e ∈ n.internal_entries) {q : Nat}
    (hq : q ∈ subtree m h e.child) : q ∈ subtree m (h + 1) p := by
  simp only [subtree, hn, List.mem_cons, List.mem_flatMap]
  exact Or.inr ⟨e, he, hq⟩

theorem subtree_congr {m m1 : Nat → Option (BPTNode Value)} :
    ∀ (h p : Nat), (∀ q ∈ subtree m h p, m1 q = m q) → subtree m1 h p = subtree m h p := by
  intro h
  induction h with
  | zero => intro p _; rfl
  | succ h ih =>
    intro p hag
    have hp := hag p (subtree_root_mem m _ p)
    simp only [subtree, hp]
    cases hn : m p with
    | none => rfl
    | some n =>
      simp only
      congr 1
      apply List.flatMap_congr
      intro e he
      exact ih e.child (fun q hq => hag q (subtree_child_mem hn he hq))

theorem contents_congr {m m1 : Nat → Option (BPTNode Value)} :
    ∀ (h p : Nat), (∀ q ∈ subtree m h p, m1 q = m q) → contents m1 h p = contents m h p := by
  intro h
  induction h with
  | zero =>
    intro p hag
    have hp := hag p (subtree_root_mem m _ p)
    simp only [contents, hp]
  | succ h ih =>
    intro p hag
    have hp := hag p (subtree_root_mem m _ p)
    simp only [contents, hp]
    cases hn : m p with
    | none => rfl
    | some n =>
      simp only
      apply List.flatMap_congr
      intro e he
      exact ih e.child (fun q hq => hag q (subtree_child_mem hn he hq))

theorem ordered_congr {m m1 : Nat → Option (BPTNode Value)} :
    ∀ (h p : Nat) (lo : Key) (hi : Option Key) (low lowkids : Bool) (slack : Nat),
      (∀ q ∈ subtree m h p, m1 q = m q) →
      ordered m h p lo hi low lowkids slack → ordered m1 h p lo hi low lowkids slack := by
  intro h
  induction h with
  | zero =>
    intro p lo hi low lowkids slack hag ho
    have hp := hag p (subtree_root_mem m _ p)
    simpa only [ordered, hp] using ho
  | succ h ih =>
    intro p lo hi low lowkids slack hag ho
    have hp := hag p (subtree_root_mem m _ p)
    obtain ⟨n, hn, h1, h2, h3, h4⟩ := ho
    refine ⟨n, by rw [hp]; exact hn, h1, h2, h3, ?_⟩
    refine kids_imp ?_ h4
    intro e he k hi1 hP
    exact ih e.child k hi1 _ _ _ (fun q hq => hag q (subtree_child_mem hn he hq)) hP

/-- Every page of a well-formed subtree holds a node. -/
theorem ordered_defined {m : Nat → Option (BPTNode Value)} :
    ∀ (h p : Nat) (lo : Key) (hi : Option Key) (low lowkids : Bool) (slack : Nat),
      ordered m h p lo hi low lowkids slack → ∀ q ∈ subtree m h p, ∃ n, m q = some n := by
  intro h
  induction h with
  | zero =>
    intro p lo hi low lowkids slack ho q hq
    obtain ⟨n, hn, _⟩ := ho
    simp only [subtree, List.mem_singleton] at hq
    exact ⟨n, hq ▸ hn⟩
  | succ h ih =>
    intro p lo hi low lowkids slack ho q hq
    obtain ⟨n, hn, _, _, _, h4⟩ := ho
    simp only [subtree, hn, List.mem_cons, List.mem_flatMap] at hq
    rcases hq with rfl | ⟨e, he, hq⟩
    · exact ⟨n, hn⟩
    · obtain ⟨hi1, hP, _⟩ := kids_mem h4 e he
      exact ih e.child _ _ _ _ _ hP q hq

/-- All leaf entries of a well-formed subtree lie between its bounds. -/
theorem ordered_bounds {m : Nat → Option (BPTNode Value)} :
    ∀ (h p : Nat) (lo : Key) (hi : Option Key) (low lowkids : Bool) (slack : Nat),
      ordered m h p lo hi low lowkids slack →
      ∀ x ∈ contents m h p, lo ≤ x.index ∧ below x.index hi := by
  intro h
  induction h with
  | zero =>
    intro p lo hi low lowkids slack ho x hx
    obtain ⟨n, hn, _, _, _, h5⟩ := ho
    simp only [contents, hn] at hx
    exact h5 x hx
  | succ h ih =>
    intro p lo hi low lowkids slack ho x hx
    obtain ⟨n, hn, _, _, ⟨e0, rest, hes, hlo⟩, h4⟩ := ho
    simp only [contents, hn, List.mem_flatMap] at hx
    obtain ⟨e, he, hx⟩ := hx
    obtain ⟨hi1, hP, hb⟩ := kids_mem h4 e he
    obtain ⟨hx1, hx2⟩ := ih e.child _ _ _ _ _ hP x hx
    refine ⟨?_, hb _ hx2⟩
    have hs := kids_sorted h4
    rw [hes] at hs he
    rcases List.mem_cons.mp he with rfl | he
    · rw [← hlo]; exact hx1
    · rw [← hlo]
      exact Key.le_trans ((List.pairwise_cons.mp hs).1 e he) hx1
/-! ## The searches inside a node -/

theorem key_at_of_getElem {es : List InternalEntry} {j : Nat} {e : InternalEntry}
    (h : es[j]? = some e) : key_at es j = e.index := by
  simp [key_at, h]

theorem key_at_mono {es : List InternalEntry}
    (hs : es.Pairwise (fun a b => a.index ≤ b.index)) {i j : Nat} (hij : i ≤ j)
    (hj : j < es.length) : key_at es i ≤ key_at es j := by
  have hi : i < es.length := by omega
  rw [key_at_of_getElem (List.getElem?_eq_getElem hi),
    key_at_of_getElem (List.getElem?_eq_getElem hj)]
  rcases Nat.lt_or_eq_of_le hij with h | h
  · exact List.pairwise_iff_getElem.mp hs i j hi hj h
  · subst h; exact Key.le_refl _

/-- The binary search of `insert` ends at the last entry whose key is at most `k`: `b` is the
number of entries with key at most `k`, and the result is `b - 1`, or 0 when there is none. -/
theorem search_ge_spec (k : Key) (es : List InternalEntry)
    (hs : es.Pairwise (fun a b => a.index ≤ b.index)) :
    ∀ (fuel left hi i : Nat), hi - left ≤ fuel → left ≤ hi → hi ≤ es.length →
      (∀ j, j < left → key_at es j ≤ k) →
      (∀ j, hi ≤ j → j < es.length → k < key_at es j) →
      (left = 0 → i = 0) → (0 < left → i + 1 = left) →
      ∃ b, b ≤ es.length ∧ (∀ j, j < b → key_at es j ≤ k) ∧
        (∀ j, b ≤ j → j < es.length → k < key_at es j) ∧
        (b = 0 → search_ge k es fuel left hi i = 0) ∧
        (0 < b → search_ge k es fuel left hi i + 1 = b) := by
  intro fuel
  induction fuel with
  | zero =>
    intro left hi i hf hle hhi h1 h2 h3 h4
    have : hi = left := by omega
    subst this
    exact ⟨hi, hhi, h1, h2, fun h => by simpa [search_ge] using h3 h,
      fun h => by simpa [search_ge] using h4 h⟩
  | succ fuel ih =>
    intro left hi i hf hle hhi h1 h2 h3 h4
    by_cases hlt : left < hi
    · have hmid1 : left ≤ (left + (hi - 1)) / 2 := by omega
      have hmid2 : (left + (hi - 1)) / 2 < hi := by omega
      simp only [search_ge, hlt, if_true]
      by_cases hc : memcmp k (key_at es ((left + (hi - 1)) / 2)) ≥ 0
      · simp only [hc, if_true]
        have hck : key_at es ((left + (hi - 1)) / 2) ≤ k := (Key.memcmp_nonneg_iff _ _).mp hc
        exact ih _ hi _ (by omega) (by omega) hhi
          (fun j hj => Key.le_trans (key_at_mono hs (by omega) (by omega)) hck)
          h2 (by omega) (by omega)
      · simp only [hc, if_false]
        have hck : k < key_at es ((left + (hi - 1)) / 2) := by
          rw [Key.lt_def, Key.memcmp_swap (key_at es ((left + (hi - 1)) / 2)) k] at *
          omega
        exact ih left _ i (by omega) (by omega) (by omega) h1
          (fun j hj hjl => Key.lt_of_lt_of_le hck (key_at_mono hs hj hjl)) h3 h4
    · have : hi = left := by omega
      subst this
      simp only [search_ge, hlt, if_false]
      exact ⟨hi, hhi, h1, h2, h3, h4⟩

/-- The binary search of `remove` and `find_all` ends at the last entry whose key is below `k`:
`b` is the number of entries with key below `k`, and the result is `b - 1`, or 0. -/
theorem search_gt_spec (k : Key) (es : List InternalEntry)
    (hs : es.Pairwise (fun a b => a.index ≤ b.index)) :
    ∀ (fuel left hi i : Nat), hi - left ≤ fuel → left ≤ hi → hi ≤ es.length →
      (∀ j, j < left → key_at es j < k) →
      (∀ j, hi ≤ j → j < es.length → k ≤ key_at es j) →
      (left = 0 → i = 0) → (0 < left → i + 1 = left) →
      ∃ b, b ≤ es.length ∧ (∀ j, j < b → key_at es j < k) ∧
        (∀ j, b ≤ j → j < es.length → k ≤ key_at es j) ∧
        (b = 0 → search_gt k es fuel left hi i = 0) ∧
        (0 < b → search_gt k es fuel left hi i + 1 = b) := by
  intro fuel
  induction fuel with
  | zero =>
    intro left hi i hf hle hhi h1 h2 h3 h4
    have : hi = left := by omega
    subst this
    exact ⟨hi, hhi, h1, h2, fun h => by simpa [search_gt] using h3 h,
      fun h => by simpa [search_gt] using h4 h⟩
  | succ fuel ih =>
    intro left hi i hf hle hhi h1 h2 h3 h4
    by_cases hlt : left < hi
    · have hmid1 : left ≤ (left + (hi - 1)) / 2 := by omega
      have hmid2 : (left + (hi - 1)) / 2 < hi := by omega
      simp only [search_gt, hlt, if_true]
      by_cases hc : memcmp k (key_at es ((left + (hi - 1)) / 2)) > 0
      · simp only [hc, if_true]
        have hck : key_at es ((left + (hi - 1)) / 2) < k := (Key.memcmp_pos_iff _ _).mp hc
        exact ih _ hi _ (by omega) (by omega) hhi
          (fun j hj => Key.lt_of_le_of_lt (key_at_mono hs (by omega) (by omega)) hck)
          h2 (by omega) (by omega)
      · simp only [hc, if_false]
        have hck : k ≤ key_at es ((left + (hi - 1)) / 2) := by
          rw [Key.le_def]
          omega
        exact ih left _ i (by omega) (by omega) (by omega) h1
          (fun j hj hjl => Key.le_trans hck (key_at_mono hs hj hjl)) h3 h4
    · have : hi = left := by omega
      subst this
      simp only [search_gt, hlt, if_false]
      exact ⟨hi, hhi, h1, h2, h3, h4⟩

/-- The backward scan of the leaf case of `insert` stops right after the last entry with key at
most `k`. -/
theorem insert_slot_spec (k : Key) (es : List (LeafEntry Value)) :
    ∀ n, n ≤ es.length →
      insert_slot k es n ≤ n ∧
      (∀ j, insert_slot k es n ≤ j → j < n → ∀ e, es[j]? = some e → k < e.index) ∧
      (0 < insert_slot k es n →
        ∃ e, es[insert_slot k es n - 1]? = some e ∧ e.index ≤ k) := by
  intro n
  induction n with
  | zero => intro _; simp [insert_slot]
  | succ n ih =>
    intro hn
    have hlt : n < es.length := by omega
    have hg : es[n]? = some es[n] := List.getElem?_eq_getElem hlt
    simp only [insert_slot, hg]
    by_cases hc : memcmp k es[n].index ≥ 0
    · simp only [hc, if_true]
      refine ⟨Nat.le_refl _, fun j h1 h2 => by omega, fun _ => ⟨es[n], ?_, ?_⟩⟩
      · simp
      · exact (Key.memcmp_nonneg_iff _ _).mp hc
    · simp only [hc, if_false]
      obtain ⟨h1, h2, h3⟩ := ih (by omega)
      refine ⟨by omega, ?_, h3⟩
      intro j hj1 hj2 e he
      by_cases hjn : j = n
      · subst hjn
        rw [hg] at he
        cases he
        rw [Key.lt_def]
        omega
      · exact h2 j hj1 (by omega) e he
/-! ## Insertion into a leaf -/

theorem leaf_insert_sorted (k : Key) (v : Value) (es : List (LeafEntry Value))
    (hs : es.Pairwise (fun a b => a.index ≤ b.index)) :
    (es.take (insert_slot k es es.length) ++
      { index := k, value := v } :: es.drop (insert_slot k es es.length)).Pairwise
        (fun a b => a.index ≤ b.index) := by
  obtain ⟨h1, h2, h3⟩ := insert_slot_spec k es es.length (Nat.le_refl _)
  generalize insert_slot k es es.length = j at h1 h2 h3
  have hsplit : es.take j ++ es.drop j = es := List.take_append_drop j es
  have hs2 := hs
  rw [← hsplit] at hs2
  obtain ⟨p1, p2, p3⟩ := List.pairwise_append.mp hs2
  have hdrop : ∀ b ∈ es.drop j, k < b.index := by
    intro b hb
    obtain ⟨i, hi, rfl⟩ := List.mem_iff_getElem.mp hb
    rw [List.length_drop] at hi
    have := h2 (j + i) (by omega) (by omega) (es.drop j)[i] (by
      rw [List.getElem?_eq_getElem (by omega)]
      simp [List.getElem_drop])
    exact this
  have htake : ∀ a ∈ es.take j, a.index ≤ k := by
    intro a ha
    by_cases hj : 0 < j
    · obtain ⟨e, he1, he2⟩ := h3 hj
      obtain ⟨i, hi, rfl⟩ := List.mem_iff_getElem.mp ha
      rw [List.length_take] at hi
      have hij : i ≤ j - 1 := by omega
      have hjl : j - 1 < es.length := by omega
      have he : e = es[j - 1] := by
        rw [List.getElem?_eq_getElem hjl] at he1
        exact (Option.some.inj he1).symm
      have hget : (es.take j)[i] = es[i] := by simp [List.getElem_take]
      rw [hget]
      rcases Nat.lt_or_eq_of_le hij with h | h
      · have := List.pairwise_iff_getElem.mp hs i (j - 1) (by omega) hjl h
        exact Key.le_trans this (he ▸ he2)
      · have : es[i] = e := by rw [he]; congr
        rw [this]; exact he2
    · have : j = 0 := by omega
      subst this
      simp at ha
  rw [List.pairwise_append]
  refine ⟨p1, List.Pairwise.cons (fun b hb => Key.le_of_lt (hdrop b hb)) p2, ?_⟩
  intro a ha b hb
  rcases List.mem_cons.mp hb with rfl | hb
  · exact htake a ha
  · exact p3 a ha b hb

theorem leaf_insert_perm (x : LeafEntry Value) (es : List (LeafEntry Value)) (j : Nat) :
    (es.take j ++ x :: es.drop j).Perm (x :: es) := by
  have := @List.perm_middle _ x (es.take j) (es.drop j)
  rwa [List.take_append_drop] at this

theorem leaf_insert_length (x : LeafEntry Value) (es : List (LeafEntry Value)) (j : Nat) :
    (es.take j ++ x :: es.drop j).length = es.length + 1 := by
  have := (leaf_insert_perm x es j).length_eq
  simpa using this

theorem ordered_zero_iff {m : Nat → Option (BPTNode Value)} {p : Nat} {lo : Key}
    {hi : Option Key} {low lowkids : Bool} {slack : Nat} :
    ordered m 0 p lo hi low lowkids slack ↔
      ∃ n, m p = some n ∧ n.is_leaf = true ∧ n.sized low slack ∧
        n.leaf_entries.Pairwise (fun a b => a.index ≤ b.index) ∧
        ∀ e ∈ n.leaf_entries, lo ≤ e.index ∧ below e.index hi := Iff.rfl

theorem ordered_succ_iff {m : Nat → Option (BPTNode Value)} {h p : Nat} {lo : Key}
    {hi : Option Key} {low lowkids : Bool} {slack : Nat} :
    ordered m (h + 1) p lo hi low lowkids slack ↔
      ∃ n, m p = some n ∧ n.is_leaf = false ∧ n.sized low slack ∧
        (∃ e rest, n.internal_entries = e :: rest ∧ e.index = lo) ∧
        kids (fun c k hi1 => ordered m h c k hi1 lowkids true 0) n.internal_entries hi :=
  Iff.rfl

/-- The leaf case of the recursive `insert`. -/
theorem insert_leaf_spec (k : Key) (v : Value) (d p : Nat) (n : BPTNode Value) (t : BPT Value)
    (lo : Key) (hi : Option Key) (low lowkids : Bool)
    (hc : t.coherent) (h0 : t.file.slot2 = 0) (hn : t.file.node_at p = some n)
    (ho : ordered t.file.node_at 0 p lo hi low lowkids 0) (hlo : lo ≤ k) (hhi : below k hi) :
    ∃ n1 t1, insert_rec k v (d + 1) n p t = .ok (n1, t1) ∧ Step t t1 ∧
      t1.file.pages.length = t.file.pages.length ∧
      t1.file.node_at = set_node t.file.node_at p n1 ∧
      ordered t1.file.node_at 0 p lo hi low lowkids 1 ∧
      n1.leaf_entries.Perm ({ index := k, value := v } :: n.leaf_entries) ∧
      n1.is_leaf = true ∧ n1.count = n.count + 1 := by
  obtain ⟨n0, hn0, hleaf, hsz, hsort, hbd⟩ := ho
  rw [hn] at hn0
  cases hn0
  have hcount : n.count = n.leaf_entries.length := by simp [BPTNode.count, hleaf]
  have hlim : n.limit = L := by simp [BPTNode.limit, hleaf]
  have hlt : ¬ leaf_slots ≤ n.leaf_entries.length := by
    have := hsz.1
    rw [hcount, hlim] at this
    have hL : L = 48 := rfl
    have hS : (leaf_slots : Nat) = 48 := by decide
    omega
  obtain ⟨t1, hw, hstep, hmap, hlen⟩ := write_node hc h0
    { n with leaf_entries :=
        n.leaf_entries.take (insert_slot k n.leaf_entries n.leaf_entries.length) ++
          { index := k, value := v } ::
            n.leaf_entries.drop (insert_slot k n.leaf_entries n.leaf_entries.length) } hn
  refine ⟨_, t1, ?_, hstep, hlen, hmap, ?_, leaf_insert_perm _ _ _, hleaf, ?_⟩
  · simp only [insert_rec]
    rw [if_pos hleaf, if_neg hlt]
    simp only [hw]
  · rw [hmap]
    refine ⟨_, set_node_self _ _ _, hleaf, ⟨?_, ?_⟩, leaf_insert_sorted k v _ hsort, ?_⟩
    · simp only [BPTNode.count, hleaf, if_true, BPTNode.limit, leaf_insert_length]
      have := hsz.1
      rw [hcount, hlim] at this
      omega
    · intro hl
      have := hsz.2 hl
      simp only [BPTNode.count, hleaf, if_true, BPTNode.limit, leaf_insert_length] at this ⊢
      omega
    · intro e he
      rcases List.mem_append.mp he with h | h
      · exact hbd e (List.mem_of_mem_take h)
      · rcases List.mem_cons.mp h with rfl | h
        · exact ⟨hlo, hhi⟩
        · exact hbd e (List.mem_of_mem_drop h)
  · simp only [BPTNode.count, hleaf, if_true, leaf_insert_length]
/-! ## Splitting a full node -/

theorem limit_cases (n : BPTNode Value) : n.limit = 48 ∨ n.limit = 58 := by
  unfold BPTNode.limit
  split
  · left; rfl
  · right; rfl

theorem ordered_weaken {m : Nat → Option (BPTNode Value)} :
    ∀ {h p : Nat} {lo : Key} {hi : Option Key} {low lowkids : Bool} {slack : Nat}
      (low1 lowkids1 : Bool) (slack1 : Nat),
      (low1 = true → low = true) → (lowkids1 = true → lowkids = true) → slack ≤ slack1 →
      ordered m h p lo hi low lowkids slack → ordered m h p lo hi low1 lowkids1 slack1 := by
  intro h
  induction h with
  | zero =>
    intro p lo hi low lowkids slack low1 lowkids1 slack1 h1 _ h3 ho
    obtain ⟨n, hn, hl, hs, r⟩ := ho
    exact ⟨n, hn, hl, ⟨by have := hs.1; omega, fun h => hs.2 (h1 h)⟩, r⟩
  | succ h ih =>
    intro p lo hi low lowkids slack low1 lowkids1 slack1 h1 h2 h3 ho
    obtain ⟨n, hn, hl, hs, hfirst, hk⟩ := ho
    refine ⟨n, hn, hl, ⟨by have := hs.1; omega, fun h => hs.2 (h1 h)⟩, hfirst, ?_⟩
    exact kids_imp (fun e _ k hi1 hP => ih lowkids1 true 0 h2 (fun h => h) (Nat.le_refl _) hP) hk

theorem ordered_is_leaf {m : Nat → Option (BPTNode Value)} {h p : Nat} {lo : Key}
    {hi : Option Key} {low lowkids : Bool} {slack : Nat} {n : BPTNode Value}
    (ho : ordered m h p lo hi low lowkids slack) (hn : m p = some n) :
    n.is_leaf = decide (h = 0) ∧ n.sized low slack := by
  cases h with
  | zero =>
    obtain ⟨n0, hn0, hl, hs, _⟩ := ho
    rw [hn] at hn0; cases hn0
    exact ⟨by simpa using hl, hs⟩
  | succ h =>
    obtain ⟨n0, hn0, hl, hs, _⟩ := ho
    rw [hn] at hn0; cases hn0
    exact ⟨by simpa using hl, hs⟩

/-- A node that has reached its limit is cut at `limit / 2`: the left part stays at page `c`,
the right part goes to page `q`, and the first key of the right part separates them. -/
theorem split_halves (m m1 : Nat → Option (BPTNode Value)) (h c q : Nat)
    (cn nl nr : BPTNode Value) (lo : Key) (hi : Option Key) (low lowkids : Bool)
    (hc : m c = some cn) (ho : ordered m h c lo hi low lowkids 1)
    (hnd : (subtree m h c).Nodup) (hfull : cn.limit ≤ cn.count)
    (hl : m1 c = some nl) (hr : m1 q = some nr)
    (hll : nl.is_leaf = cn.is_leaf) (hrl : nr.is_leaf = cn.is_leaf)
    (hleaf : cn.is_leaf = true →
      nl.leaf_entries = cn.leaf_entries.take (cn.limit / 2) ∧
      nr.leaf_entries = cn.leaf_entries.drop (cn.limit / 2))
    (hint : cn.is_leaf = false →
      nl.internal_entries = cn.internal_entries.take (cn.limit / 2) ∧
      nr.internal_entries = cn.internal_entries.drop (cn.limit / 2))
    (hframe : ∀ x ∈ subtree m h c, x ≠ c → m1 x = m x) :
    ∃ sep, nr.first_key = .ok sep ∧ lo ≤ sep ∧ below sep hi ∧
      ordered m1 h c lo (some sep) true lowkids 0 ∧
      ordered m1 h q sep hi true lowkids 0 ∧
      contents m1 h c ++ contents m1 h q = contents m h c ∧
      (subtree m1 h c ++ subtree m1 h q).Perm (q :: subtree m h c) := by
  have hlim := limit_cases cn
  have hnl : nl.limit = cn.limit := by simp [BPTNode.limit, hll]
  have hnr : nr.limit = cn.limit := by simp [BPTNode.limit, hrl]
  cases h with
  | zero =>
    obtain ⟨n0, hn0, hlf, hs, hsort, hbd⟩ := ho
    rw [hc] at hn0; cases hn0
    obtain ⟨e1, e2⟩ := hleaf hlf
    have hcnt : cn.count = cn.leaf_entries.length := by simp [BPTNode.count, hlf]
    have hlen : cn.leaf_entries.length = cn.limit := by
      have := hs.1; rw [hcnt] at this hfull; omega
    have hsplit : cn.leaf_entries.take (cn.limit / 2) ++ cn.leaf_entries.drop (cn.limit / 2)
        = cn.leaf_entries := List.take_append_drop _ _
    have hsort2 := hsort
    rw [← hsplit] at hsort2
    obtain ⟨p1, p2, p3⟩ := List.pairwise_append.mp hsort2
    have hdl : (cn.leaf_entries.drop (cn.limit / 2)).length = cn.limit - cn.limit / 2 := by
      rw [List.length_drop, hlen]
    have htl : (cn.leaf_entries.take (cn.limit / 2)).length = cn.limit / 2 := by
      rw [List.length_take, hlen]; omega
    cases hd : cn.leaf_entries.drop (cn.limit / 2) with
    | nil => rw [hd] at hdl; simp at hdl; omega
    | cons s rest =>
      have hsm : s ∈ cn.leaf_entries := List.mem_of_mem_drop (by rw [hd]; simp)
      refine ⟨s.index, ?_, (hbd s hsm).1, (hbd s hsm).2, ?_, ?_, ?_, ?_⟩
      · simp [BPTNode.first_key, hrl, hlf, e2, hd]
      · refine ⟨nl, hl, by rw [hll, hlf], ⟨?_, fun _ => ?_⟩, by rw [e1]; exact p1, ?_⟩
        · rw [hnl]; simp only [BPTNode.count, hll, hlf, if_true, e1, htl]; omega
        · rw [hnl]; simp only [BPTNode.count, hll, hlf, if_true, e1, htl]; omega
        · intro e he
          rw [e1] at he
          exact ⟨(hbd e (List.mem_of_mem_take he)).1, p3 e he s (by rw [hd]; simp)⟩
      · refine ⟨nr, hr, by rw [hrl, hlf], ⟨?_, fun _ => ?_⟩, by rw [e2]; exact p2, ?_⟩
        · rw [hnr]; simp only [BPTNode.count, hrl, hlf, if_true, e2, hdl]; omega
        · rw [hnr]; simp only [BPTNode.count, hrl, hlf, if_true, e2, hdl]; omega
        · intro e he
          rw [e2] at he
          refine ⟨?_, (hbd e (List.mem_of_mem_drop he)).2⟩
          rw [hd] at he p2
          rcases List.mem_cons.mp he with rfl | he
          · exact Key.le_refl _
          · exact (List.pairwise_cons.mp p2).1 e he
      · simp only [contents, hl, hr, hc, e1, e2, hsplit]
      · simp only [subtree]
        exact List.Perm.swap _ _ _
  | succ h =>
    obtain ⟨n0, hn0, hlf, hs, ⟨e0, rest0, hes, hlo⟩, hk⟩ := ho
    rw [hc] at hn0; cases hn0
    obtain ⟨e1, e2⟩ := hint hlf
    have hcnt : cn.count = cn.internal_entries.length := by simp [BPTNode.count, hlf]
    have hlen : cn.internal_entries.length = cn.limit := by
      have := hs.1; rw [hcnt] at this hfull; omega
    have hsplit : cn.internal_entries.take (cn.limit / 2) ++
        cn.internal_entries.drop (cn.limit / 2) = cn.internal_entries :=
      List.take_append_drop _ _
    have hdl : (cn.internal_entries.drop (cn.limit / 2)).length = cn.limit - cn.limit / 2 := by
      rw [List.length_drop, hlen]
    have htl : (cn.internal_entries.take (cn.limit / 2)).length = cn.limit / 2 := by
      rw [List.length_take, hlen]; omega
    -- the grandchildren are untouched
    have hgc : ∀ e ∈ cn.internal_entries, ∀ x ∈ subtree m h e.child, m1 x = m x := by
      intro e he x hx
      refine hframe x (subtree_child_mem hc he hx) ?_
      rintro rfl
      have hnd2 := hnd
      simp only [subtree, hc] at hnd2
      exact (List.nodup_cons.mp hnd2).1 (List.mem_flatMap.mpr ⟨e, he, hx⟩)
    have hk1 : kids (fun c k hi1 => ordered m1 h c k hi1 lowkids true 0)
        cn.internal_entries hi :=
      kids_imp (fun e he k hi1 hP => ordered_congr h e.child k hi1 _ _ _ (hgc e he) hP) hk
    cases hd : cn.internal_entries.drop (cn.limit / 2) with
    | nil => rw [hd] at hdl; simp at hdl; omega
    | cons s rest =>
      have hsm : s ∈ cn.internal_entries := List.mem_of_mem_drop (by rw [hd]; simp)
      rw [← hsplit, hd] at hk1
      obtain ⟨ka, kb⟩ := (kids_append _ _ _ _).mp hk1
      have hsort := kids_sorted hk
      have hlo_s : lo ≤ s.index := by
        rw [hes] at hsort hsm
        rcases List.mem_cons.mp hsm with rfl | h
        · rw [hlo]; exact Key.le_refl _
        · rw [← hlo]; exact (List.pairwise_cons.mp hsort).1 s h
      have htake_ne : ∃ rest1, cn.internal_entries.take (cn.limit / 2) = e0 :: rest1 := by
        rw [hes]
        have : cn.limit / 2 = (cn.limit / 2 - 1) + 1 := by omega
        rw [this, List.take_succ_cons]
        exact ⟨_, rfl⟩
      obtain ⟨rest1, htk⟩ := htake_ne
      refine ⟨s.index, ?_, hlo_s, kids_keys_below hk s hsm, ?_, ?_, ?_, ?_⟩
      · simp [BPTNode.first_key, hrl, hlf, e2, hd]
      · refine ⟨nl, hl, by rw [hll, hlf], ⟨?_, fun _ => ?_⟩, ⟨e0, rest1, by rw [e1, htk], hlo⟩,
          by rw [e1]; exact ka⟩
        · rw [hnl]; simp only [BPTNode.count, hll, hlf, e1, htl]; simp; omega
        · rw [hnl]; simp only [BPTNode.count, hll, hlf, e1, htl]; simp
      · refine ⟨nr, hr, by rw [hrl, hlf], ⟨?_, fun _ => ?_⟩, ⟨s, rest, by rw [e2, hd], rfl⟩,
          by rw [e2, hd]; exact kb⟩
        · rw [hnr]; simp only [BPTNode.count, hrl, hlf, e2, hdl]; simp; omega
        · rw [hnr]; simp only [BPTNode.count, hrl, hlf, e2, hdl]; simp; omega
      · simp only [contents, hl, hr, hc, e1, e2]
        rw [← List.flatMap_append, hsplit]
        apply List.flatMap_congr
        intro e he
        exact contents_congr h e.child (hgc e he)
      · simp only [subtree, hl, hr, hc, e1, e2]
        have hcg : ∀ (l : List InternalEntry), (∀ e ∈ l, e ∈ cn.internal_entries) →
            l.flatMap (fun e => subtree m1 h e.child) = l.flatMap (fun e => subtree m h e.child) :=
          fun l hl1 => List.flatMap_congr (fun e he => subtree_congr h e.child (hgc e (hl1 e he)))
        rw [hcg _ (fun e he => List.mem_of_mem_take he),
          hcg _ (fun e he => List.mem_of_mem_drop he)]
        conv_rhs => rw [← hsplit, List.flatMap_append]
        refine (List.perm_middle (a := q)).trans ?_
        rfl
/-! ## One child of an internal node changes -/

theorem ordered_tighten {m : Nat → Option (BPTNode Value)} {h p : Nat} {lo : Key}
    {hi : Option Key} {low lowkids : Bool} {n : BPTNode Value}
    (ho : ordered m h p lo hi low lowkids 1) (hn : m p = some n) (hlt : n.count < n.limit) :
    ordered m h p lo hi low lowkids 0 := by
  cases h with
  | zero =>
    obtain ⟨n0, hn0, hl, hs, r⟩ := ho
    rw [hn] at hn0; cases hn0
    exact ⟨n, hn, hl, ⟨by omega, hs.2⟩, r⟩
  | succ h =>
    obtain ⟨n0, hn0, hl, hs, r⟩ := ho
    rw [hn] at hn0; cases hn0
    exact ⟨n, hn, hl, ⟨by omega, hs.2⟩, r⟩

theorem take_drop_middle {α : Type} (pre : List α) (e : α) (post : List α) :
    (pre ++ e :: post).take (pre.length + 1) = pre ++ [e] ∧
      (pre ++ e :: post).drop (pre.length + 1) = post := by
  constructor
  · rw [List.take_append_eq_append_take]
    simp
  · rw [List.drop_append_eq_append_drop]
    simp

theorem split_at_index {α : Type} (es : List α) (i : Nat) (e : α) (h : es[i]? = some e) :
    es = es.take i ++ e :: es.drop (i + 1) ∧ (es.take i).length = i := by
  have hi : i < es.length := (List.getElem?_eq_some_iff.mp h).1
  have he : es[i] = e := (List.getElem?_eq_some_iff.mp h).2
  constructor
  · conv_lhs => rw [← List.take_append_drop i es]
    rw [List.drop_eq_getElem_cons hi, he]
  · rw [List.length_take]; omega

theorem nodup_replace_middle (p len : Nat) (A S S1 B : List Nat)
    (h : (p :: (A ++ S ++ B)).Nodup) (h1 : S1.Nodup)
    (h2 : ∀ x ∈ S1, x ∈ S ∨ len < x) (h3 : ∀ x ∈ A ++ B, x ≤ len) (hp : p ≤ len) :
    (p :: (A ++ S1 ++ B)).Nodup := by
  obtain ⟨hp1, hn⟩ := List.nodup_cons.mp h
  rw [List.append_assoc] at hn
  obtain ⟨nA, nSB, dA⟩ := List.nodup_append.mp hn
  obtain ⟨nS, nB, dS⟩ := List.nodup_append.mp nSB
  refine List.nodup_cons.mpr ⟨?_, ?_⟩
  · intro hm
    rcases List.mem_append.mp hm with hm | hm
    · rcases List.mem_append.mp hm with hm | hm
      · exact hp1 (by simp [hm])
      · rcases h2 p hm with h | h
        · exact hp1 (by simp [h])
        · omega
    · exact hp1 (by simp [hm])
  · rw [List.append_assoc]
    refine List.nodup_append.mpr ⟨nA, List.nodup_append.mpr ⟨h1, nB, ?_⟩, ?_⟩
    · intro x hx1 hxB
      rcases h2 x hx1 with h | h
      · exact dS h hxB
      · have := h3 x (List.mem_append_right _ hxB); omega
    · intro x hxA hx
      rcases List.mem_append.mp hx with hx | hx
      · rcases h2 x hx with h | h
        · exact dA hxA (List.mem_append_left _ h)
        · have := h3 x (List.mem_append_left _ hxA); omega
      · exact dA hxA (List.mem_append_right _ hx)

/-- The pages of an internal node, with the entries cut at one of them. -/
theorem subtree_succ_split (m : Nat → Option (BPTNode Value)) (h p : Nat) (n : BPTNode Value)
    (hn : m p = some n) (pre : List InternalEntry) (e : InternalEntry)
    (post : List InternalEntry) (hes : n.internal_entries = pre ++ e :: post) :
    subtree m (h + 1) p =
      p :: (pre.flatMap (fun e => subtree m h e.child) ++ subtree m h e.child ++
        post.flatMap (fun e => subtree m h e.child)) := by
  simp only [subtree, hn, hes, List.flatMap_append, List.flatMap_cons, List.append_assoc]

theorem contents_succ_split (m : Nat → Option (BPTNode Value)) (h p : Nat) (n : BPTNode Value)
    (hn : m p = some n) (pre : List InternalEntry) (e : InternalEntry)
    (post : List InternalEntry) (hes : n.internal_entries = pre ++ e :: post) :
    contents m (h + 1) p =
      pre.flatMap (fun e => contents m h e.child) ++ contents m h e.child ++
        post.flatMap (fun e => contents m h e.child) := by
  simp only [contents, hn, hes, List.flatMap_append, List.flatMap_cons, List.append_assoc]

/-- Children whose pages are untouched keep their pages, their entries and their shape. -/
theorem kids_frame {m m1 : Nat → Option (BPTNode Value)} (h : Nat) (l : List InternalEntry)
    (hag : ∀ e ∈ l, ∀ x ∈ subtree m h e.child, m1 x = m x) (lowkids : Bool) :
    l.flatMap (fun e => subtree m1 h e.child) = l.flatMap (fun e => subtree m h e.child) ∧
    l.flatMap (fun e => contents m1 h e.child) = l.flatMap (fun e => contents m h e.child) ∧
    ∀ hi, kids (fun c k hi1 => ordered m h c k hi1 lowkids true 0) l hi →
      kids (fun c k hi1 => ordered m1 h c k hi1 lowkids true 0) l hi :=
  ⟨List.flatMap_congr (fun e he => subtree_congr h e.child (hag e he)),
    List.flatMap_congr (fun e he => contents_congr h e.child (hag e he)),
    fun _ hk => kids_imp (fun e he k hi1 hP => ordered_congr h e.child k hi1 _ _ _ (hag e he) hP)
      hk⟩

theorem kids_defined {m : Nat → Option (BPTNode Value)} {h : Nat} {lowkids : Bool}
    {l : List InternalEntry} {hi : Option Key}
    (hk : kids (fun c k hi1 => ordered m h c k hi1 lowkids true 0) l hi) :
    ∀ x ∈ l.flatMap (fun e => subtree m h e.child), ∃ n, m x = some n := by
  intro x hx
  obtain ⟨e, he, hx⟩ := List.mem_flatMap.mp hx
  obtain ⟨hi1, hP, _⟩ := kids_mem hk e he
  exact ordered_defined h e.child _ _ _ _ _ hP x hx

theorem kids_weaken {m : Nat → Option (BPTNode Value)} {h : Nat} {lowkids : Bool}
    {l : List InternalEntry} {hi : Option Key}
    (hk : kids (fun c k hi1 => ordered m h c k hi1 true true 0) l hi) :
    kids (fun c k hi1 => ordered m h c k hi1 lowkids true 0) l hi :=
  kids_imp (fun _ _ _ _ hP => ordered_weaken lowkids true 0 (fun _ => rfl) (fun h => h)
    (Nat.le_refl _) hP) hk
/-! ## The split step of `insert` -/

theorem truncate_is_leaf (c : BPTNode Value) (x : Nat) : (c.truncate x).is_leaf = c.is_leaf := by
  unfold BPTNode.truncate
  split <;> rfl

theorem truncate_leaf (c : BPTNode Value) (x : Nat) (h : c.is_leaf = true) :
    (c.truncate x).leaf_entries = c.leaf_entries.take x := by
  simp [BPTNode.truncate, h]

theorem truncate_internal (c : BPTNode Value) (x : Nat) (h : c.is_leaf = false) :
    (c.truncate x).internal_entries = c.internal_entries.take x := by
  simp [BPTNode.truncate, h]

/-- The split of the child at entry `e` of the node `n` at page `p`, in a file without free
pages: the right half goes to the new page after the end of the file, and its first key is
inserted after `e`. -/
theorem split_child_spec (t : BPT Value) (n n0 : BPTNode Value) (p h : Nat)
    (pre : List InternalEntry) (e : InternalEntry) (post : List InternalEntry)
    (cn : BPTNode Value) (lo : Key) (hi : Option Key) (low lowkids : Bool)
    (hc : t.coherent) (h0 : t.file.slot2 = 0)
    (hes : n.internal_entries = pre ++ e :: post)
    (hcount : n.internal_entries.length < 58)
    (hp : t.file.node_at p = some n0) (hcn : t.file.node_at e.child = some cn)
    (ho : ordered t.file.node_at h e.child lo hi low lowkids 1)
    (hnd : (subtree t.file.node_at h e.child).Nodup)
    (hpn : p ∉ subtree t.file.node_at h e.child)
    (hfull : cn.limit ≤ cn.count) :
    ∃ t1 sep, split_child n p pre.length cn e.child t =
        .ok ({ n with internal_entries :=
                pre ++ e :: { index := sep, child := t.file.pages.length + 1 } :: post }, t1) ∧
      Step t t1 ∧ t1.file.pages.length = t.file.pages.length + 1 ∧
      t1.file.node_at p = some { n with internal_entries :=
          pre ++ e :: { index := sep, child := t.file.pages.length + 1 } :: post } ∧
      (∀ x, x ≠ p → x ≠ e.child → x ≠ t.file.pages.length + 1 →
        t1.file.node_at x = t.file.node_at x) ∧
      lo ≤ sep ∧ below sep hi ∧
      ordered t1.file.node_at h e.child lo (some sep) true lowkids 0 ∧
      ordered t1.file.node_at h (t.file.pages.length + 1) sep hi true lowkids 0 ∧
      contents t1.file.node_at h e.child ++ contents t1.file.node_at h (t.file.pages.length + 1)
        = contents t.file.node_at h e.child ∧
      (subtree t1.file.node_at h e.child ++
        subtree t1.file.node_at h (t.file.pages.length + 1)).Perm
          ((t.file.pages.length + 1) :: subtree t.file.node_at h e.child) := by
  -- the three writes
  obtain ⟨t1, ha, s1, m1, l1⟩ := alloc_node hc h0
    cn.right_half
  have hpb := MemoryRiver.node_at_bound hp
  have hcb := MemoryRiver.node_at_bound hcn
  have hcp : e.child ≠ p := fun h => hpn (h ▸ subtree_root_mem _ _ _)
  have hcn1 : t1.file.node_at e.child = some cn := by
    rw [m1, set_node_other _ _ (by omega)]; exact hcn
  obtain ⟨t2, hw, s2, m2, l2⟩ := write_node s1.coherent s1.slot2
    (cn.left_half (t.file.pages.length + 1)) hcn1
  have hp2 : t2.file.node_at p = some n0 := by
    rw [m2, set_node_other _ _ hcp.symm, m1, set_node_other _ _ (by omega)]; exact hp
  -- the halves
  have hq2 : t2.file.node_at (t.file.pages.length + 1) = some cn.right_half := by
    rw [m2, set_node_other _ _ (by omega), m1, set_node_self]
  have hc2 : t2.file.node_at e.child = some (cn.left_half (t.file.pages.length + 1)) := by
    rw [m2, set_node_self]
  have hdef := ordered_defined h e.child _ _ _ _ _ ho
  have hfr2 : ∀ x ∈ subtree t.file.node_at h e.child, x ≠ e.child →
      t2.file.node_at x = t.file.node_at x := by
    intro x hx hxc
    obtain ⟨nx, hnx⟩ := hdef x hx
    have := MemoryRiver.node_at_bound hnx
    rw [m2, set_node_other _ _ hxc, m1, set_node_other _ _ (by omega)]
  -- the separator and the write of the parent
  have hsplit := split_halves t.file.node_at
    (fun x => if x = p then none else t2.file.node_at x)
    h e.child (t.file.pages.length + 1) cn (cn.left_half (t.file.pages.length + 1))
      cn.right_half lo hi low lowkids hcn ho hnd hfull
    (by simp only [hcp, if_false]; exact hc2)
    (by simp only [show t.file.pages.length + 1 ≠ p by omega, if_false]; exact hq2)
    (truncate_is_leaf _ _) rfl
    (fun hl => ⟨truncate_leaf _ _ hl, by simp [BPTNode.right_half, hl]⟩)
    (fun hl => ⟨truncate_internal _ _ hl, by simp [BPTNode.right_half, hl]⟩)
    (fun x hx hxc => by
      have : x ≠ p := fun h => hpn (h ▸ hx)
      simp only [this, if_false]; exact hfr2 x hx hxc)
  obtain ⟨sep, hkey, _⟩ := hsplit
  obtain ⟨t3, hw3, s3, m3, l3⟩ := write_node s2.coherent s2.slot2
    ({ n with internal_entries :=
        pre ++ e :: { index := sep, child := t.file.pages.length + 1 } :: post } : BPTNode Value)
    hp2
  have hag : ∀ x, x ≠ p → t3.file.node_at x = t2.file.node_at x := by
    intro x hx; rw [m3, set_node_other _ _ hx]
  obtain ⟨sep1, hkey1, h3, h4, h5, h6, h7, h8⟩ :=
    split_halves t.file.node_at t3.file.node_at
      h e.child (t.file.pages.length + 1) cn (cn.left_half (t.file.pages.length + 1))
      cn.right_half lo hi low lowkids hcn ho hnd hfull
      (by rw [hag _ hcp]; exact hc2)
      (by rw [hag _ (by omega)]; exact hq2)
      (truncate_is_leaf _ _) rfl
      (fun hl => ⟨truncate_leaf _ _ hl, by simp [BPTNode.right_half, hl]⟩)
      (fun hl => ⟨truncate_internal _ _ hl, by simp [BPTNode.right_half, hl]⟩)
      (fun x hx hxc => by
        have : x ≠ p := fun h => hpn (h ▸ hx)
        rw [hag _ this]; exact hfr2 x hx hxc)
  rw [hkey] at hkey1
  cases hkey1
  have hslots : ¬ internal_slots ≤ n.internal_entries.length := by
    have : (internal_slots : Nat) = 60 := by decide
    omega
  have htd := take_drop_middle pre e post
  refine ⟨t3, sep, ?_, s1.trans (s2.trans s3), by omega, by rw [m3, set_node_self], ?_,
    h3, h4, h5, h6, h7, h8⟩
  · have hlim : (if cn.is_leaf = true then L else M) = cn.limit := rfl
    unfold BPTNode.right_half at ha hkey
    unfold BPTNode.left_half at hw
    simp only [split_child, bind, Except.bind, hlim, ha, hw, hkey, hes,
      htd.1, htd.2, hw3, pure, Except.pure, List.append_assoc, List.singleton_append]
    rw [if_neg (by rw [← hes]; exact hslots)]
  · intro x hx1 hx2 hx3
    rw [m3, set_node_other _ _ hx1, m2, set_node_other _ _ hx2, m1, set_node_other _ _ hx3]
/-! ## The recursive `insert` -/

theorem perm_insert_middle {α : Type} (x : α) (A C C1 B : List α) (h : C1.Perm (x :: C)) :
    (A ++ C1 ++ B).Perm (x :: (A ++ C ++ B)) := by
  have h1 : (A ++ C1 ++ B).Perm (A ++ (x :: C) ++ B) :=
    (List.Perm.append_left A h).append_right B
  refine h1.trans ?_
  rw [List.append_assoc, List.append_assoc]
  exact List.perm_middle

/-- What the recursive `insert` guarantees on a well-formed subtree of height `h` in a file
without free pages, for a key between the bounds of the subtree: it returns, the pair is added to
the entries of the subtree, pages outside the subtree are untouched, new pages come from the end
of the file, and the subtree is well-formed again except that its root may have reached its
limit. -/
theorem insert_rec_spec (k : Key) (v : Value) :
    ∀ (h d p : Nat) (n : BPTNode Value) (t : BPT Value) (lo : Key) (hi : Option Key)
      (low lowkids : Bool),
      h < d → t.coherent → t.file.slot2 = 0 → t.file.node_at p = some n →
      ordered t.file.node_at h p lo hi low lowkids 0 →
      (subtree t.file.node_at h p).Nodup → lo ≤ k → below k hi →
      ∃ n1 t1, insert_rec k v d n p t = .ok (n1, t1) ∧ Step t t1 ∧
        t.file.pages.length ≤ t1.file.pages.length ∧
        t1.file.node_at p = some n1 ∧
        (∀ q, q ∉ subtree t.file.node_at h p → q ≤ t.file.pages.length →
          t1.file.node_at q = t.file.node_at q) ∧
        ordered t1.file.node_at h p lo hi low lowkids 1 ∧
        (n.count = 1 → n1.count = 2 → ordered t1.file.node_at h p lo hi low true 1) ∧
        (n1.count = n.count ∨ n1.count = n.count + 1) ∧
        (subtree t1.file.node_at h p).Nodup ∧
        (∀ q ∈ subtree t1.file.node_at h p,
          q ∈ subtree t.file.node_at h p ∨ t.file.pages.length < q) ∧
        (contents t1.file.node_at h p).Perm
          ({ index := k, value := v } :: contents t.file.node_at h p) := by
  intro h
  induction h with
  | zero =>
    intro d p n t lo hi low lowkids hd hc h0 hn ho _ hlo hhi
    obtain ⟨d1, rfl⟩ : ∃ d1, d = d1 + 1 := ⟨d - 1, by omega⟩
    obtain ⟨n1, t1, e1, s1, l1, m1, o1, p1, _, c1⟩ :=
      insert_leaf_spec k v d1 p n t lo hi low lowkids hc h0 hn ho hlo hhi
    refine ⟨n1, t1, e1, s1, by omega, by rw [m1, set_node_self], ?_, o1, fun _ _ => o1,
      Or.inr c1, ?_, ?_, ?_⟩
    · intro q hq _
      rw [m1, set_node_other]
      simpa [subtree] using hq
    · simp [subtree]
    · intro q hq
      left
      simpa [subtree] using hq
    · simp only [contents, m1, set_node_self, hn]
      exact p1
  | succ h ih =>
    intro d p n t lo hi low lowkids hd hc h0 hn ho hnd hlo hhi
    obtain ⟨d1, rfl⟩ : ∃ d1, d = d1 + 1 := ⟨d - 1, by omega⟩
    obtain ⟨n0, hn0, hleaf, hsz, ⟨e0, rest0, hes0, hlo0⟩, hk⟩ := ho
    rw [hn] at hn0
    cases hn0
    have hsort := kids_sorted hk
    have hcnt : n.count = n.internal_entries.length := by simp [BPTNode.count, hleaf]
    have hlimn : n.limit = 58 := by simp [BPTNode.limit, hleaf, M]
    have hlen58 : n.internal_entries.length < 58 := by
      have := hsz.1; rw [hcnt, hlimn] at this; omega
    -- the binary search
    have hkey0 : key_at n.internal_entries 0 = lo := by simp [key_at, hes0, hlo0]
    have hpos : 0 < n.internal_entries.length := by rw [hes0]; simp
    obtain ⟨b, hb1, hb2, hb3, hb4, hb5⟩ :=
      search_ge_spec k n.internal_entries hsort n.internal_entries.length 0
        n.internal_entries.length 0 (by omega) (by omega) (Nat.le_refl _)
        (fun j hj => absurd hj (Nat.not_lt_zero _)) (fun j hj1 hj2 => absurd hj2 (by omega))
        (fun _ => rfl) (fun h => absurd h (Nat.lt_irrefl _))
    have hbpos : 0 < b := by
      rcases Nat.eq_zero_or_pos b with hb0 | hb0
      · have := hb3 0 (by omega) hpos
        rw [hkey0] at this
        exact absurd hlo (Key.not_le.mpr this)
      · exact hb0
    have hidx : insert_child_index k n.internal_entries + 1 = b := hb5 hbpos
    have hilt : insert_child_index k n.internal_entries < n.internal_entries.length := by omega
    obtain ⟨hsplit, hprelen⟩ := split_at_index n.internal_entries
      (insert_child_index k n.internal_entries) _ (List.getElem?_eq_getElem hilt)
    generalize hi_def : insert_child_index k n.internal_entries = i at *
    generalize he_def : n.internal_entries[i] = e at hsplit
    generalize hpre_def : n.internal_entries.take i = pre at hsplit hprelen
    generalize hpost_def : n.internal_entries.drop (i + 1) = post at hsplit
    have hget : n.internal_entries[i]? = some e := by
      rw [List.getElem?_eq_getElem hilt, he_def]
    have hek : e.index ≤ k := by
      have := hb2 i (by omega)
      rwa [key_at_of_getElem hget] at this
    have hnk : below k (next_key post hi) := by
      cases post with
      | nil => exact hhi
      | cons e1 post1 =>
        have hg1 : n.internal_entries[i + 1]? = some e1 := by
          rw [hsplit, List.getElem?_append_right (by omega)]
          simp [hprelen]
        have hl1 : i + 1 < n.internal_entries.length := (List.getElem?_eq_some_iff.mp hg1).1
        have := hb3 (i + 1) (by omega) hl1
        rw [key_at_of_getElem hg1] at this
        exact Key.le_of_lt this
    -- the child
    rw [hsplit] at hk
    obtain ⟨hkpre, hPe, hbe, hkpost⟩ := (kids_append _ _ _ _).mp hk
    have hsub := subtree_succ_split t.file.node_at h p n hn pre e post hsplit
    rw [hsub] at hnd
    obtain ⟨hpnot, hnd1⟩ := List.nodup_cons.mp hnd
    obtain ⟨hndAS, hndB, hdASB⟩ := List.nodup_append.mp hnd1
    obtain ⟨hndA, hndS, hdAS⟩ := List.nodup_append.mp hndAS
    have hpS : p ∉ subtree t.file.node_at h e.child := fun hm => hpnot (by simp [hm])
    obtain ⟨cn, hcn⟩ := ordered_defined h e.child _ _ _ _ _ hPe e.child (subtree_root_mem _ _ _)
    obtain ⟨t1, hr1, s1, hf1⟩ := read_node hc h0 hcn
    obtain ⟨cn1, t2, hr2, s2, hl2, hm2, hfr2, ho2, _, hc2, hnd2, hsub2, hperm2⟩ :=
      ih d1 e.child cn t1 e.index (next_key post hi) lowkids true (by omega) s1.coherent
        s1.slot2 (by rw [hf1]; exact hcn) (by rw [hf1]; exact hPe) (by rw [hf1]; exact hndS)
        hek hnk
    rw [hf1] at hl2 hfr2 hsub2 hperm2
    have hpb := MemoryRiver.node_at_bound hn
    have hp2 : t2.file.node_at p = some n := by rw [hfr2 p hpS hpb.2]; exact hn
    -- pages of the other children
    have hdefA := kids_defined hkpre
    have hdefB := kids_defined hkpost
    have hAB : ∀ x ∈ pre.flatMap (fun e => subtree t.file.node_at h e.child) ++
        post.flatMap (fun e => subtree t.file.node_at h e.child),
        x ≤ t.file.pages.length ∧ x ∉ subtree t.file.node_at h e.child ∧ x ≠ p := by
      intro x hx
      rcases List.mem_append.mp hx with hx | hx
      · obtain ⟨nx, hnx⟩ := hdefA x hx
        exact ⟨(MemoryRiver.node_at_bound hnx).2, fun hS => hdAS hx hS,
          fun hxp => hpnot (by rw [← hxp]; simp [hx])⟩
      · obtain ⟨nx, hnx⟩ := hdefB x hx
        exact ⟨(MemoryRiver.node_at_bound hnx).2,
          fun hS => hdASB (List.mem_append_right _ hS) hx,
          fun hxp => hpnot (by rw [← hxp]; simp [hx])⟩
    have hS2 : ∀ x ∈ subtree t2.file.node_at h e.child, x ≤ t2.file.pages.length := by
      intro x hx
      obtain ⟨nx, hnx⟩ := ordered_defined h e.child _ _ _ _ _ ho2 x hx
      exact (MemoryRiver.node_at_bound hnx).2
    have hunfold : insert_rec k v (d1 + 1) n p t =
        (if cn1.limit ≤ cn1.count then split_child n p pre.length cn1 e.child t2
         else .ok (n, t2)) := by
      simp only [insert_rec, hleaf, hi_def, hget, hr1, hr2, hprelen]
      rfl
    by_cases hfull : cn1.limit ≤ cn1.count
    · -- the child is split
      obtain ⟨t3, sep, hsp, s3, hl3, hp3, hfr3, hsep1, hsep2, hoL, hoR, hcont3, hperm3⟩ :=
        split_child_spec t2 n n p h pre e post cn1 e.index (next_key post hi) lowkids true
          s2.coherent s2.slot2 hsplit hlen58 hp2 hm2 ho2 hnd2
          (fun hm => by
            rcases hsub2 p hm with h1 | h1
            · exact hpS h1
            · omega)
          hfull
      have hag : ∀ x ∈ pre.flatMap (fun e => subtree t.file.node_at h e.child) ++
          post.flatMap (fun e => subtree t.file.node_at h e.child),
          t3.file.node_at x = t.file.node_at x := by
        intro x hx
        obtain ⟨h1, h2, h3⟩ := hAB x hx
        rw [hfr3 x h3 (fun hxe => h2 (hxe ▸ subtree_root_mem _ _ _)) (by omega),
          hfr2 x h2 h1]
      have hagA : ∀ e1 ∈ pre, ∀ x ∈ subtree t.file.node_at h e1.child,
          t3.file.node_at x = t.file.node_at x := fun e1 he1 x hx =>
        hag x (List.mem_append_left _ (List.mem_flatMap.mpr ⟨e1, he1, hx⟩))
      have hagB : ∀ e1 ∈ post, ∀ x ∈ subtree t.file.node_at h e1.child,
          t3.file.node_at x = t.file.node_at x := fun e1 he1 x hx =>
        hag x (List.mem_append_right _ (List.mem_flatMap.mpr ⟨e1, he1, hx⟩))
      have hes3 : ({ n with internal_entries :=
          pre ++ e :: { index := sep, child := t2.file.pages.length + 1 } :: post } :
            BPTNode Value).internal_entries
          = pre ++ e :: ({ index := sep, child := t2.file.pages.length + 1 } :: post) := rfl
      have hord : ∀ lk2 : Bool,
          kids (fun c k hi1 => ordered t.file.node_at h c k hi1 lk2 true 0) pre
            (some e.index) →
          kids (fun c k hi1 => ordered t.file.node_at h c k hi1 lk2 true 0) post hi →
          ordered t3.file.node_at (h + 1) p lo hi low lk2 1 := by
        intro lk2 hk1 hk2
        refine ⟨_, hp3, hleaf, ⟨?_, fun hl => ?_⟩, ?_, ?_⟩
        · simp only [BPTNode.count, BPTNode.limit, hleaf]
          simp
          have : M = 58 := rfl
          rw [hsplit] at hlen58
          simp at hlen58
          omega
        · have := hsz.2 hl
          rw [hcnt, hsplit] at this
          simp only [BPTNode.count, BPTNode.limit, hleaf] at this ⊢
          simp at this ⊢
          omega
        · rw [hes3]
          rw [hsplit] at hes0
          cases pre with
          | nil =>
            simp only [List.nil_append, List.cons.injEq] at hes0
            exact ⟨e, _, rfl, hes0.1 ▸ hlo0⟩
          | cons a pre1 =>
            simp only [List.cons_append, List.cons.injEq] at hes0
            exact ⟨a, _, rfl, hes0.1 ▸ hlo0⟩
        · rw [hes3]
          refine (kids_append _ _ _ _).mpr ⟨(kids_frame h pre hagA lk2).2.2 _ hk1, ?_, ?_, ?_, ?_,
            (kids_frame h post hagB lk2).2.2 _ hk2⟩
          · exact ordered_weaken lk2 true 0 (fun _ => rfl) (fun h => h) (Nat.le_refl _) hoL
          · exact hsep1
          · exact ordered_weaken lk2 true 0 (fun _ => rfl) (fun h => h) (Nat.le_refl _) hoR
          · exact hsep2
      have hsub3 : subtree t3.file.node_at (h + 1) p =
          p :: (pre.flatMap (fun e => subtree t.file.node_at h e.child) ++
            (subtree t3.file.node_at h e.child ++
              subtree t3.file.node_at h (t2.file.pages.length + 1)) ++
            post.flatMap (fun e => subtree t.file.node_at h e.child)) := by
        rw [subtree_succ_split t3.file.node_at h p _ hp3 pre e _ hes3,
          (kids_frame h pre hagA lowkids).1]
        simp only [List.flatMap_cons, (kids_frame h post hagB lowkids).1, List.append_assoc]
      have hcon3 : contents t3.file.node_at (h + 1) p =
          pre.flatMap (fun e => contents t.file.node_at h e.child) ++
            (contents t3.file.node_at h e.child ++
              contents t3.file.node_at h (t2.file.pages.length + 1)) ++
            post.flatMap (fun e => contents t.file.node_at h e.child) := by
        rw [contents_succ_split t3.file.node_at h p _ hp3 pre e _ hes3,
          (kids_frame h pre hagA lowkids).2.1]
        simp only [List.flatMap_cons, (kids_frame h post hagB lowkids).2.1, List.append_assoc]
      have hqfresh : (t2.file.pages.length + 1) ∉ subtree t2.file.node_at h e.child :=
        fun hm => by have := hS2 _ hm; omega
      have hndS3 : (subtree t3.file.node_at h e.child ++
          subtree t3.file.node_at h (t2.file.pages.length + 1)).Nodup :=
        hperm3.nodup_iff.mpr (List.nodup_cons.mpr ⟨hqfresh, hnd2⟩)
      have hmemS3 : ∀ x ∈ subtree t3.file.node_at h e.child ++
          subtree t3.file.node_at h (t2.file.pages.length + 1),
          x ∈ subtree t.file.node_at h e.child ∨ t.file.pages.length < x := by
        intro x hx
        rcases List.mem_cons.mp (hperm3.subset hx) with rfl | hx
        · right; omega
        · exact hsub2 x hx
      refine ⟨_, t3, by rw [hunfold, if_pos hfull]; exact hsp, s1.trans (s2.trans s3),
        by omega, hp3, ?_, hord lowkids hkpre hkpost, ?_, ?_, ?_, ?_, ?_⟩
      · intro x hx hxl
        have hxp : x ≠ p := fun h1 => hx (h1 ▸ subtree_root_mem _ _ _)
        have hxS : x ∉ subtree t.file.node_at h e.child := fun h1 => hx (by
          rw [hsub]; simp [h1])
        rw [hfr3 x hxp (fun hxe => hxS (hxe ▸ subtree_root_mem _ _ _)) (by omega),
          hfr2 x hxS hxl]
      · intro h1 _
        rw [hcnt, hsplit] at h1
        simp at h1
        have hp0 : pre = [] := List.length_eq_zero.mp (by omega)
        have hq0 : post = [] := List.length_eq_zero.mp (by omega)
        subst hp0 hq0
        exact hord true trivial trivial
      · right
        simp only [BPTNode.count, hleaf]
        rw [hsplit]
        simp
        omega
      · rw [hsub3]
        exact nodup_replace_middle p t.file.pages.length _ _ _ _ hnd hndS3 hmemS3
          (fun x hx => (hAB x hx).1) hpb.2
      · intro x hx
        rw [hsub3] at hx
        rw [hsub]
        rcases List.mem_cons.mp hx with rfl | hx
        · left; simp
        · rcases List.mem_append.mp hx with hx | hx
          · rcases List.mem_append.mp hx with hx | hx
            · left; simp [hx]
            · rcases hmemS3 x hx with h1 | h1
              · left; simp [h1]
              · right; exact h1
          · left; simp [hx]
      · rw [hcon3, contents_succ_split t.file.node_at h p n hn pre e post hsplit, hcont3]
        exact perm_insert_middle _ _ _ _ _ hperm2
    · -- the child is not split
      have hlt : cn1.count < cn1.limit := by omega
      have hag : ∀ x ∈ pre.flatMap (fun e => subtree t.file.node_at h e.child) ++
          post.flatMap (fun e => subtree t.file.node_at h e.child),
          t2.file.node_at x = t.file.node_at x := by
        intro x hx
        obtain ⟨h1, h2, _⟩ := hAB x hx
        exact hfr2 x h2 h1
      have hagA : ∀ e1 ∈ pre, ∀ x ∈ subtree t.file.node_at h e1.child,
          t2.file.node_at x = t.file.node_at x := fun e1 he1 x hx =>
        hag x (List.mem_append_left _ (List.mem_flatMap.mpr ⟨e1, he1, hx⟩))
      have hagB : ∀ e1 ∈ post, ∀ x ∈ subtree t.file.node_at h e1.child,
          t2.file.node_at x = t.file.node_at x := fun e1 he1 x hx =>
        hag x (List.mem_append_right _ (List.mem_flatMap.mpr ⟨e1, he1, hx⟩))
      have hsub3 : subtree t2.file.node_at (h + 1) p =
          p :: (pre.flatMap (fun e => subtree t.file.node_at h e.child) ++
            subtree t2.file.node_at h e.child ++
            post.flatMap (fun e => subtree t.file.node_at h e.child)) := by
        rw [subtree_succ_split t2.file.node_at h p _ hp2 pre e _ hsplit,
          (kids_frame h pre hagA lowkids).1, (kids_frame h post hagB lowkids).1]
      have hcon3 : contents t2.file.node_at (h + 1) p =
          pre.flatMap (fun e => contents t.file.node_at h e.child) ++
            contents t2.file.node_at h e.child ++
            post.flatMap (fun e => contents t.file.node_at h e.child) := by
        rw [contents_succ_split t2.file.node_at h p _ hp2 pre e _ hsplit,
          (kids_frame h pre hagA lowkids).2.1, (kids_frame h post hagB lowkids).2.1]
      refine ⟨n, t2, by rw [hunfold, if_neg hfull], s1.trans s2, hl2, hp2, ?_, ?_, ?_,
        Or.inl rfl, ?_, ?_, ?_⟩
      · intro x hx hxl
        have hxS : x ∉ subtree t.file.node_at h e.child := fun h1 => hx (by
          rw [hsub]; simp [h1])
        exact hfr2 x hxS hxl
      · refine ⟨n, hp2, hleaf, ⟨by have := hsz.1; omega, hsz.2⟩, ⟨e0, rest0, hes0, hlo0⟩, ?_⟩
        rw [hsplit]
        exact (kids_append _ _ _ _).mpr ⟨(kids_frame h pre hagA lowkids).2.2 _ hkpre,
          ordered_tighten ho2 hm2 hlt, hbe, (kids_frame h post hagB lowkids).2.2 _ hkpost⟩
      · intro h1 h2
        omega
      · rw [hsub3]
        exact nodup_replace_middle p t.file.pages.length _ _ _ _ hnd hnd2 hsub2
          (fun x hx => (hAB x hx).1) hpb.2
      · intro x hx
        rw [hsub3] at hx
        rw [hsub]
        rcases List.mem_cons.mp hx with rfl | hx
        · left; simp
        · rcases List.mem_append.mp hx with hx | hx
          · rcases List.mem_append.mp hx with hx | hx
            · left; simp [hx]
            · rcases hsub2 x hx with h1 | h1
              · left; simp [h1]
              · right; exact h1
          · left; simp [hx]
      · rw [hcon3, contents_succ_split t.file.node_at h p n hn pre e post hsplit]
        exact perm_insert_middle _ _ _ _ _ hperm2
/-! ## Lookup -/

theorem matching_append (k : Key) (l1 l2 : List (LeafEntry Value)) :
    matching k (l1 ++ l2) = matching k l1 ++ matching k l2 := by
  simp [matching]

theorem matching_eq_nil (k : Key) (l : List (LeafEntry Value))
    (h : ∀ x ∈ l, x.index ≠ k) : matching k l = [] := by
  simp only [matching, List.map_eq_nil_iff, List.filter_eq_nil_iff]
  intro x hx
  have := h x hx
  simp only [decide_eq_true_eq]
  intro h0
  exact this ((Key.memcmp_eq_zero_iff _ _).mp h0).symm

theorem kids_contents_upper {m : Nat → Option (BPTNode Value)} {h : Nat} {lowkids : Bool}
    {l : List InternalEntry} {hi : Option Key}
    (hk : kids (fun c k hi1 => ordered m h c k hi1 lowkids true 0) l hi) :
    ∀ x ∈ l.flatMap (fun e => contents m h e.child), below x.index hi := by
  intro x hx
  obtain ⟨e, he, hx⟩ := List.mem_flatMap.mp hx
  obtain ⟨hi1, hP, hb⟩ := kids_mem hk e he
  exact hb _ (ordered_bounds h e.child _ _ _ _ _ hP x hx).2

theorem kids_contents_lower {m : Nat → Option (BPTNode Value)} {h : Nat} {lowkids : Bool}
    {e : InternalEntry} {rest : List InternalEntry} {hi : Option Key}
    (hk : kids (fun c k hi1 => ordered m h c k hi1 lowkids true 0) (e :: rest) hi) :
    ∀ x ∈ (e :: rest).flatMap (fun e => contents m h e.child), e.index ≤ x.index := by
  intro x hx
  obtain ⟨e1, he1, hx⟩ := List.mem_flatMap.mp hx
  obtain ⟨hi1, hP, _⟩ := kids_mem hk e1 he1
  have hlow := (ordered_bounds h e1.child _ _ _ _ _ hP x hx).1
  have hs := kids_sorted hk
  rcases List.mem_cons.mp he1 with rfl | he1
  · exact hlow
  · exact Key.le_trans ((List.pairwise_cons.mp hs).1 e1 he1) hlow

/-- The forward scan of `find_all` from entry `i` collects every match of the children from
`i` on: it stops only at a key above `k`, and nothing after that key can match. -/
theorem find_scan_spec (k : Key) (h d : Nat) (n : BPTNode Value) (hi : Option Key)
    (lowkids : Bool) (m : Nat → Option (BPTNode Value))
    (ih : ∀ (p : Nat) (c : BPTNode Value) (t : BPT Value) (lo : Key) (hi : Option Key)
      (acc : List Value), t.coherent → t.file.node_at = m → m p = some c →
      ordered m h p lo hi lowkids true 0 →
      ∃ t1, find_all k d acc c t = .ok (acc ++ matching k (contents m h p), t1) ∧
        t1.file = t.file ∧ t1.root_page = t.root_page ∧ t1.coherent) :
    ∀ (cnt i : Nat) (acc : List Value) (t : BPT Value),
      n.internal_entries.length ≤ i + cnt → t.coherent → t.file.node_at = m →
      kids (fun c k hi1 => ordered m h c k hi1 lowkids true 0) (n.internal_entries.drop i) hi →
      ∃ t1, find_scan k (find_all k d) cnt i acc n t =
          .ok (acc ++ matching k ((n.internal_entries.drop i).flatMap
            (fun e => contents m h e.child)), t1) ∧
        t1.file = t.file ∧ t1.root_page = t.root_page ∧ t1.coherent := by
  intro cnt
  induction cnt with
  | zero =>
    intro i acc t hlen hc _ _
    have : n.internal_entries.drop i = [] := List.drop_eq_nil_of_le (by omega)
    exact ⟨t, by simp [find_scan, this, matching], rfl, rfl, hc⟩
  | succ cnt ihc =>
    intro i acc t hlen hc hm hk
    cases hg : n.internal_entries[i]? with
    | none =>
      have : n.internal_entries.drop i = [] :=
        List.drop_eq_nil_of_le (List.getElem?_eq_none_iff.mp hg)
      exact ⟨t, by simp [find_scan, hg, this, matching], rfl, rfl, hc⟩
    | some e =>
      have hil : i < n.internal_entries.length := (List.getElem?_eq_some_iff.mp hg).1
      have hdrop : n.internal_entries.drop i = e :: n.internal_entries.drop (i + 1) := by
        rw [List.drop_eq_getElem_cons hil, (List.getElem?_eq_some_iff.mp hg).2]
      rw [hdrop] at hk ⊢
      by_cases hcmp : memcmp k e.index ≥ 0
      · obtain ⟨hP, _, hk2⟩ := hk
        obtain ⟨cn, hcn⟩ := ordered_defined h e.child _ _ _ _ _ hP e.child
          (subtree_root_mem _ _ _)
        obtain ⟨t1, hr, hf1, hr1, hc1⟩ := disk_read_ok hc (by rw [hm]; exact hcn)
        obtain ⟨t2, hw, hf2, hr2, hc2⟩ := ih e.child cn t1 _ _ acc hc1 (by rw [hf1]; exact hm)
          hcn hP
        obtain ⟨t3, hs, hf3, hr3, hc3⟩ := ihc (i + 1)
          (acc ++ matching k (contents m h e.child)) t2 (by omega) hc2
          (by rw [hf2, hf1]; exact hm) hk2
        refine ⟨t3, ?_, by rw [hf3, hf2, hf1], by rw [hr3, hr2, hr1], hc3⟩
        simp only [find_scan, hg, hcmp, if_true, hr, hw, hs, List.flatMap_cons, matching_append,
          List.append_assoc]
      · refine ⟨t, ?_, rfl, rfl, hc⟩
        have hlow := kids_contents_lower hk
        have hlt : k < e.index := by rw [Key.lt_def]; omega
        rw [matching_eq_nil k _ (fun x hx hxk => by
          have := hlow x hx
          rw [hxk] at this
          exact absurd this (Key.not_le.mpr hlt))]
        simp [find_scan, hg, hcmp]

/-- `find_all` on a well-formed subtree appends to the buffer the values of all entries of the
subtree whose key equals `k`, from left to right, and only reads. -/
theorem find_all_spec (k : Key) (m : Nat → Option (BPTNode Value)) :
    ∀ (h d p : Nat) (n : BPTNode Value) (t : BPT Value) (lo : Key) (hi : Option Key)
      (low lowkids : Bool) (slack : Nat) (acc : List Value),
      h < d → t.coherent → t.file.node_at = m → m p = some n →
      ordered m h p lo hi low lowkids slack →
      ∃ t1, find_all k d acc n t = .ok (acc ++ matching k (contents m h p), t1) ∧
        t1.file = t.file ∧ t1.root_page = t.root_page ∧ t1.coherent := by
  intro h
  induction h with
  | zero =>
    intro d p n t lo hi low lowkids slack acc hd hc hm hn ho
    obtain ⟨d1, rfl⟩ : ∃ d1, d = d1 + 1 := ⟨d - 1, by omega⟩
    obtain ⟨n0, hn0, hleaf, _⟩ := ho
    rw [hn] at hn0; cases hn0
    refine ⟨t, ?_, rfl, rfl, hc⟩
    simp only [find_all, contents, hn, BPTNode.count, hleaf, if_true]
    by_cases h0 : n.leaf_entries.length = 0
    · have : n.leaf_entries = [] := List.length_eq_zero.mp h0
      simp [h0, this, matching]
    · simp [h0, matching]
  | succ h ih =>
    intro d p n t lo hi low lowkids slack acc hd hc hm hn ho
    obtain ⟨d1, rfl⟩ : ∃ d1, d = d1 + 1 := ⟨d - 1, by omega⟩
    obtain ⟨n0, hn0, hleaf, _, ⟨e0, rest0, hes0, _⟩, hk⟩ := ho
    rw [hn] at hn0; cases hn0
    have hsort := kids_sorted hk
    have hpos : 0 < n.internal_entries.length := by rw [hes0]; simp
    obtain ⟨b, hb1, hb2, hb3, hb4, hb5⟩ :=
      search_gt_spec k n.internal_entries hsort n.internal_entries.length 0
        n.internal_entries.length 0 (by omega) (by omega) (Nat.le_refl _)
        (fun j hj => absurd hj (Nat.not_lt_zero _)) (fun j hj1 hj2 => absurd hj2 (by omega))
        (fun _ => rfl) (fun h => absurd h (Nat.lt_irrefl _))
    have hi0 : scan_start_index k n.internal_entries < n.internal_entries.length := by
      rcases Nat.eq_zero_or_pos b with hb0 | hb0
      · have := hb4 hb0
        unfold scan_start_index; omega
      · have := hb5 hb0
        unfold scan_start_index; omega
    obtain ⟨hsplit, hprelen⟩ := split_at_index n.internal_entries
      (scan_start_index k n.internal_entries) _ (List.getElem?_eq_getElem hi0)
    have hk2 := hk
    rw [hsplit] at hk2
    obtain ⟨hkpre, hkrest⟩ := (kids_append _ _ _ _).mp hk2
    have hdrop : n.internal_entries.drop (scan_start_index k n.internal_entries)
        = n.internal_entries[scan_start_index k n.internal_entries] ::
          n.internal_entries.drop (scan_start_index k n.internal_entries + 1) :=
      List.drop_eq_getElem_cons hi0
    obtain ⟨t1, hs, hf1, hr1, hc1⟩ := find_scan_spec k h d1 n hi lowkids m
      (fun p c t lo hi acc hc hm hp ho => ih d1 p c t lo hi lowkids true 0 acc (by omega) hc hm
        hp ho)
      (n.internal_entries.length - scan_start_index k n.internal_entries)
      (scan_start_index k n.internal_entries) acc t (by omega) hc hm (by rw [hdrop]; exact hkrest)
    refine ⟨t1, ?_, hf1, hr1, hc1⟩
    have hpre : matching k ((n.internal_entries.take
        (scan_start_index k n.internal_entries)).flatMap (fun e => contents m h e.child))
        = [] := by
      apply matching_eq_nil
      intro x hx hxk
      have hup := kids_contents_upper hkpre x hx
      rcases Nat.eq_zero_or_pos b with hb0 | hb0
      · have h00 : scan_start_index k n.internal_entries = 0 := hb4 hb0
        rw [h00] at hx
        simp at hx
      · have hlt : scan_start_index k n.internal_entries < b := by
          have := hb5 hb0
          unfold scan_start_index; omega
        have := hb2 _ hlt
        rw [key_at_of_getElem (List.getElem?_eq_getElem hi0)] at this
        rw [hxk] at hup
        exact absurd hup (Key.not_le.mpr this)
    have hcount : n.count ≠ 0 := by
      rw [show n.count = n.internal_entries.length by simp [BPTNode.count, hleaf]]
      omega
    have hcont : contents m (h + 1) p =
        (n.internal_entries.take (scan_start_index k n.internal_entries)).flatMap
          (fun e => contents m h e.child) ++
        (n.internal_entries.drop (scan_start_index k n.internal_entries)).flatMap
          (fun e => contents m h e.child) := by
      simp only [contents, hn]
      rw [← List.flatMap_append, List.take_append_drop]
    rw [hcont, matching_append, hpre, List.nil_append]
    simp only [find_all, hcount, if_false, hleaf]
    exact hs
/-! ## Growth of the root -/

theorem node_at_write_info (f : MemoryRiver Value) (x i : Nat) :
    (f.write_info x i).node_at = f.node_at := by
  funext p
  simp only [MemoryRiver.node_at, block_write_info]

theorem first_key_internal {n : BPTNode Value} {e : InternalEntry} {rest : List InternalEntry}
    (hl : n.is_leaf = false) (he : n.internal_entries = e :: rest) :
    n.first_key = .ok e.index := by
  simp [BPTNode.first_key, hl, he]

/-- The block of the public `insert` that splits a root with 58 entries: the old root keeps the
first 29, a new node takes the others, and a new root with two entries is put above them. -/
theorem grow_root_spec (t : BPT Value) (n : BPTNode Value) (h : Nat) (low : Bool)
    (hc : t.coherent) (h0 : t.file.slot2 = 0) (hn : t.file.node_at t.root_page = some n)
    (ho : ordered t.file.node_at (h + 1) t.root_page zero_key none low true 1)
    (hnd : (subtree t.file.node_at (h + 1) t.root_page).Nodup) (hfull : M ≤ n.count) :
    ∃ t1 n1, grow_root n t = .ok t1 ∧ t1.coherent ∧ t1.file.slot2 = 0 ∧
      t1.file.slot1 = t1.root_page ∧ t1.root_page = t.file.pages.length + 2 ∧
      t1.file.pages.length = t.file.pages.length + 2 ∧
      t1.file.node_at t1.root_page = some n1 ∧ n1.count = 2 ∧
      ordered t1.file.node_at (h + 2) t1.root_page zero_key none false true 0 ∧
      (subtree t1.file.node_at (h + 2) t1.root_page).Nodup ∧
      contents t1.file.node_at (h + 2) t1.root_page
        = contents t.file.node_at (h + 1) t.root_page ∧
      (∀ x, x ≤ t.file.pages.length → x ∉ subtree t.file.node_at (h + 1) t.root_page →
        t1.file.node_at x = t.file.node_at x) := by
  have ho' := ho
  obtain ⟨n0, hn0, hleaf, hsz, ⟨e0, rest0, hes0, hlo0⟩, hk⟩ := ho'
  rw [hn] at hn0; cases hn0
  have hlim : n.limit = M := by simp [BPTNode.limit, hleaf]
  have hM : M = 58 := rfl
  have hcnt : n.count = n.internal_entries.length := by simp [BPTNode.count, hleaf]
  have hrb := MemoryRiver.node_at_bound hn
  -- the four writes
  obtain ⟨t1, ha1, s1, m1, l1⟩ := alloc_node hc h0
    ({ is_leaf := false, parent := 0, next_leaf := 0 } : BPTNode Value)
  have hdrop : ∃ s rest, n.internal_entries.drop (M / 2) = s :: rest := by
    cases hd : n.internal_entries.drop (M / 2) with
    | nil =>
      have := congrArg List.length hd
      rw [List.length_drop] at this
      simp at this
      omega
    | cons s rest => exact ⟨s, rest, rfl⟩
  obtain ⟨s, rest, hd⟩ := hdrop
  have htake : ∃ rest1, n.internal_entries.take (M / 2) = e0 :: rest1 := by
    rw [hes0]
    exact ⟨_, rfl⟩
  obtain ⟨rest1, htk⟩ := htake
  obtain ⟨t2, ha2, s2, m2, l2⟩ := alloc_node s1.coherent s1.slot2
    ({ is_leaf := false, parent := 0, next_leaf := 0,
       internal_entries := [{ index := e0.index, child := t.root_page },
         { index := s.index, child := t.file.pages.length + 1 }] } : BPTNode Value)
  have hroot2 : t2.file.node_at t.root_page = some n := by
    rw [m2, set_node_other _ _ (by omega), m1, set_node_other _ _ (by omega)]; exact hn
  obtain ⟨t3, hw3, s3, m3, l3⟩ := write_node
    (t := { t2 with root_page := t1.file.pages.length + 1 }) s2.coherent s2.slot2
    ({ n with internal_entries := n.internal_entries.take (M / 2),
              parent := t1.file.pages.length + 1,
              next_leaf := t.file.pages.length + 1 } : BPTNode Value) hroot2
  have hq3 : t3.file.node_at (t.file.pages.length + 1)
      = some ({ is_leaf := false, parent := 0, next_leaf := 0 } : BPTNode Value) := by
    rw [m3, set_node_other _ _ (by omega)]
    show t2.file.node_at _ = _
    rw [m2, set_node_other _ _ (by omega), m1, set_node_self]
  obtain ⟨t4, hw4, s4, m4, l4⟩ := write_node s3.coherent s3.slot2
    ({ is_leaf := false, parent := t1.file.pages.length + 1, next_leaf := 0,
       internal_entries := n.internal_entries.drop (M / 2) } : BPTNode Value) hq3
  have l3' : t3.file.pages.length = t2.file.pages.length := l3
  have hr4' : t4.root_page = t1.file.pages.length + 1 := by
    rw [s4.root, s3.root]
  have hr4 : t4.root_page = t.file.pages.length + 2 := by
    rw [s4.root, s3.root]
    show t1.file.pages.length + 1 = _
    omega
  -- the final map
  have hmq1 : t4.file.node_at (t.file.pages.length + 1) = some
      ({ is_leaf := false, parent := t1.file.pages.length + 1, next_leaf := 0,
         internal_entries := n.internal_entries.drop (M / 2) } : BPTNode Value) := by
    rw [m4, set_node_self]
  have hmroot : t4.file.node_at t.root_page = some
      ({ n with internal_entries := n.internal_entries.take (M / 2),
                parent := t1.file.pages.length + 1,
                next_leaf := t.file.pages.length + 1 } : BPTNode Value) := by
    rw [m4, set_node_other _ _ (by omega), m3, set_node_self]
  have hmq2 : t4.file.node_at (t.file.pages.length + 2) = some
      ({ is_leaf := false, parent := 0, next_leaf := 0,
         internal_entries := [{ index := e0.index, child := t.root_page },
           { index := s.index, child := t.file.pages.length + 1 }] } : BPTNode Value) := by
    rw [m4, set_node_other _ _ (by omega), m3, set_node_other _ _ (by omega)]
    show t2.file.node_at _ = _
    rw [m2, l1, set_node_self]
  have hother : ∀ x, x ≤ t.file.pages.length → x ≠ t.root_page →
      t4.file.node_at x = t.file.node_at x := by
    intro x hx hxr
    rw [m4, set_node_other _ _ (by omega), m3, set_node_other _ _ hxr]
    show t2.file.node_at _ = _
    rw [m2, set_node_other _ _ (by omega), m1, set_node_other _ _ (by omega)]
  have hdef := ordered_defined (h + 1) t.root_page _ _ _ _ _ ho
  obtain ⟨sep, hkey, _, _, hoL, hoR, hcont, hperm⟩ :=
    split_halves t.file.node_at t4.file.node_at (h + 1) t.root_page
      (t.file.pages.length + 1) n
      _ _ zero_key none low true hn ho hnd (by rw [hlim]; exact hfull) hmroot hmq1 rfl
      hleaf.symm (fun hl => by rw [hleaf] at hl; cases hl)
      (fun _ => ⟨by rw [hlim], by rw [hlim]⟩)
      (fun x hx hxr => by
        obtain ⟨nx, hnx⟩ := hdef x hx
        exact hother x (MemoryRiver.node_at_bound hnx).2 hxr)
  have hsep : sep = s.index := by
    rw [first_key_internal rfl hd] at hkey
    cases hkey; rfl
  subst hsep
  have hfresh : ∀ x ∈ subtree t.file.node_at (h + 1) t.root_page, x ≤ t.file.pages.length := by
    intro x hx
    obtain ⟨nx, hnx⟩ := hdef x hx
    exact (MemoryRiver.node_at_bound hnx).2
  have hsub : subtree t4.file.node_at (h + 2) (t.file.pages.length + 2) =
      (t.file.pages.length + 2) :: (subtree t4.file.node_at (h + 1) t.root_page ++
        subtree t4.file.node_at (h + 1) (t.file.pages.length + 1)) := by
    simp only [subtree, hmq2, List.flatMap_cons, List.flatMap_nil, List.append_nil]
  refine ⟨{ t4 with file := t4.file.write_info t4.root_page 1 },
    ({ is_leaf := false, parent := 0, next_leaf := 0,
       internal_entries := [{ index := e0.index, child := t.root_page },
         { index := s.index, child := t.file.pages.length + 1 }] } : BPTNode Value), ?_,
    coherent_write_info s4.coherent _ _, ?_, ?_, hr4, ?_, ?_, ?_, ?_, ?_, ?_, ?_⟩
  · simp only [grow_root, hleaf, bind, Except.bind, ha1, hd, htk, BPTNode.first_key,
      pure, Except.pure]
    simp only [Bool.false_eq_true, if_false]
    simp only [hleaf, htk, hd] at hw3 hw4
    simp only [s1.root, ha2, hw3, hw4, hr4']
  · show (t4.file.write_info t4.root_page 1).slot2 = 0
    simp only [MemoryRiver.write_info, if_true]
    exact s4.slot2
  · show (t4.file.write_info t4.root_page 1).slot1 = t4.root_page
    simp [MemoryRiver.write_info]
  · show (t4.file.write_info t4.root_page 1).pages.length = _
    rw [pages_write_info]
    omega
  · show (t4.file.write_info t4.root_page 1).node_at t4.root_page = _
    rw [node_at_write_info, hr4]
    exact hmq2
  · rfl
  · show ordered (t4.file.write_info t4.root_page 1).node_at (h + 2) t4.root_page _ _ _ _ _
    rw [node_at_write_info, hr4]
    refine ⟨_, hmq2, rfl, ⟨by simp [BPTNode.count, BPTNode.limit, M], fun h => by cases h⟩,
      ⟨_, _, rfl, hlo0⟩, ?_⟩
    simp only [kids, next_key]
    refine ⟨?_, ?_, hoR, trivial, trivial⟩
    · rw [hlo0]; exact hoL
    · rw [hlo0]; exact Key.zero_le _
  · show (subtree (t4.file.write_info t4.root_page 1).node_at (h + 2) t4.root_page).Nodup
    rw [node_at_write_info, hr4, hsub]
    refine List.nodup_cons.mpr ⟨?_, hperm.nodup_iff.mpr (List.nodup_cons.mpr ⟨?_, hnd⟩)⟩
    · intro hm
      rcases List.mem_cons.mp (hperm.subset hm) with h1 | h1
      · omega
      · have := hfresh _ h1; omega
    · intro hm
      have := hfresh _ hm; omega
  · show contents (t4.file.write_info t4.root_page 1).node_at (h + 2) t4.root_page = _
    rw [node_at_write_info, hr4]
    simp only [contents, hmq2, List.flatMap_cons, List.flatMap_nil, List.append_nil]
    exact hcont
  · intro x hx hxs
    show (t4.file.write_info t4.root_page 1).node_at x = _
    rw [node_at_write_info]
    exact hother x hx (fun h1 => hxs (h1 ▸ subtree_root_mem _ _ _))
/-! ## Trees built by inserts -/

theorem subtree_length {m : Nat → Option (BPTNode Value)} :
    ∀ (h p : Nat) (lo : Key) (hi : Option Key) (low lowkids : Bool) (slack : Nat),
      ordered m h p lo hi low lowkids slack → h + 1 ≤ (subtree m h p).length := by
  intro h
  induction h with
  | zero => intro p _ _ _ _ _ _; simp [subtree]
  | succ h ih =>
    intro p lo hi low lowkids slack ho
    obtain ⟨n, hn, _, _, ⟨e0, rest0, hes0, _⟩, hk⟩ := ho
    rw [hes0] at hk
    have := ih e0.child _ _ _ _ _ hk.1
    simp only [subtree, hn, hes0, List.flatMap_cons, List.length_cons, List.length_append]
    omega

theorem length_le_of_nodup_bounded (l : List Nat) (N : Nat) (hn : l.Nodup)
    (hb : ∀ x ∈ l, 1 ≤ x ∧ x ≤ N) : l.length ≤ N := by
  have h1 : l.toFinset ⊆ Finset.Icc 1 N := by
    intro x hx
    rw [List.mem_toFinset] at hx
    exact Finset.mem_Icc.mpr (hb x hx)
  have h2 := Finset.card_le_card h1
  rw [List.toFinset_card_of_nodup hn] at h2
  simpa using h2

/-- The depth handed to the recursive workers covers the height of the tree. -/
theorem good_depth {t : BPT Value} {h : Nat} {items : List (LeafEntry Value)}
    (hg : t.good h items) : h + 1 < t.depth := by
  obtain ⟨_, _, _, n, hn, ho, hnd, _⟩ := hg
  have h1 := subtree_length (h + 1) t.root_page _ _ _ _ _ ho
  have h2 := length_le_of_nodup_bounded _ t.file.pages.length hnd (by
    intro x hx
    obtain ⟨nx, hnx⟩ := ordered_defined (h + 1) t.root_page _ _ _ _ _ ho x hx
    exact MemoryRiver.node_at_bound hnx)
  unfold BPT.depth
  omega

theorem good_fresh {t : BPT Value} (h : BPT.open (MemoryRiver.fresh : MemoryRiver Value) = .ok t) :
    t.good 0 [] := by
  obtain ⟨t1, l0, r, e, _, hc, hl, hr, hroot, hs1, hs2, hfresh, _⟩ :=
    initialize_new_tree_spec
      ({ file := MemoryRiver.fresh, root_page := (MemoryRiver.fresh : MemoryRiver Value).get_info 1,
         cache := { cache_list := [], capacity := 128 } } : BPT Value)
      (coherent_empty _ _ _) (Or.inl rfl)
  have ht : t = t1 := by
    have : BPT.open (MemoryRiver.fresh : MemoryRiver Value) = .ok t1 := by
      simp only [BPT.open]
      exact e
    rw [h] at this
    cases this; rfl
  subst ht
  obtain ⟨rfl, rfl⟩ := hfresh rfl
  have hl1 : t.file.node_at 1 = some { is_leaf := true, parent := 2, next_leaf := 0 } := hl
  have hr1 : t.file.node_at 2 = some
      { is_leaf := false, parent := 0, next_leaf := 0,
        internal_entries := [{ index := zero_key, child := 1 }] } := hr
  have hroot2 : t.root_page = 2 := hroot
  refine ⟨hc, hs2, by rw [hroot]; exact hs1, _, by rw [hroot2]; exact hr1, ?_, ?_, ?_⟩
  · rw [hroot2]
    refine ⟨_, hr1, rfl, ⟨by simp [BPTNode.count, BPTNode.limit, M], fun h => by simp at h⟩,
      ⟨_, _, rfl, rfl⟩, ?_⟩
    simp only [kids, next_key]
    refine ⟨?_, trivial, trivial⟩
    exact ⟨_, hl1, rfl, ⟨by simp [BPTNode.count, BPTNode.limit, L], fun h => by
      simp [BPTNode.count] at h⟩, List.Pairwise.nil, fun e he => by cases he⟩
  · rw [hroot2]
    simp [subtree, hr1]
  · rw [hroot2]
    simp only [contents, hr1, hl1, List.flatMap_cons, List.flatMap_nil]
    exact List.Perm.refl _

/-- The public `insert` on a tree built by inserts: it returns, and the result is such a tree
with the new pair added; the height grows by at most one. -/
theorem insert_good {t : BPT Value} {h : Nat} {items : List (LeafEntry Value)}
    (hg : t.good h items) (k : Key) (v : Value) :
    ∃ t1 h1, t.insert k v = .ok t1 ∧ t1.good h1 ({ index := k, value := v } :: items) := by
  have hdepth := good_depth hg
  obtain ⟨hc, h0, hs1, n, hn, ho, hnd, hperm⟩ := hg
  obtain ⟨t1, hr1, s1, hf1⟩ := read_node hc h0 hn
  obtain ⟨n1, t2, hi2, s2, hl2, hn2, hfr2, ho2, hsp2, hcnt2, hnd2, hsub2, hperm2⟩ :=
    insert_rec_spec k v (h + 1) t.depth t.root_page n t1 zero_key none false
      (decide (2 ≤ n.count)) hdepth s1.coherent s1.slot2 (by rw [hf1]; exact hn)
      (by rw [hf1]; exact ho) (by rw [hf1]; exact hnd) (Key.zero_le k) trivial
  rw [hf1] at hperm2
  have hr2 : t2.root_page = t.root_page := by rw [s2.root, s1.root]
  have hn2' : t2.file.node_at t2.root_page = some n1 := by rw [hr2]; exact hn2
  have hpre : ∀ x, x = t.insert k v → x =
      (if M ≤ n1.count then grow_root n1 t2 else .ok t2) := by
    intro x hx
    rw [hx]
    simp only [BPT.insert, bind, Except.bind, hr1, s1.root, hi2, pure, Except.pure]
  have hins := hpre _ rfl
  have hleaf1 : n1.is_leaf = false := (ordered_is_leaf ho2 hn2).1.trans (by simp)
  have hlim1 : n1.limit = M := by simp [BPTNode.limit, hleaf1]
  -- the flag of the children of the root
  have hflag : ordered t2.file.node_at (h + 1) t.root_page zero_key none false
      (decide (2 ≤ n1.count)) 1 := by
    rcases hcnt2 with hc2 | hc2
    · rw [hc2]; exact ho2
    · by_cases h1 : n.count = 1
      · have := hsp2 h1 (by omega)
        exact ordered_weaken _ _ _ (fun h => h) (fun _ => rfl) (Nat.le_refl _) this
      · have hcpos : 1 ≤ n.count := by
          obtain ⟨n0, hn0, hlf, _, ⟨e0, rest0, hes0, _⟩, _⟩ := ho
          rw [hn] at hn0; cases hn0
          simp [BPTNode.count, hlf, hes0]
        have e1 : decide (2 ≤ n.count) = true := by simp; omega
        rw [e1] at ho2
        exact ordered_weaken _ _ _ (fun h => h) (fun _ => rfl) (Nat.le_refl _) ho2
  by_cases hfull : M ≤ n1.count
  · have e1 : decide (2 ≤ n1.count) = true := by
      have : M = 58 := rfl
      simp; omega
    rw [e1] at hflag
    obtain ⟨t3, n3, hg3, hc3, hz3, hs3, hr3, hl3, hn3, hcn3, ho3, hnd3, hcont3, _⟩ :=
      grow_root_spec t2 n1 h false s2.coherent s2.slot2 hn2' (by rw [hr2]; exact hflag)
        (by rw [hr2]; exact hnd2) hfull
    refine ⟨t3, h + 1, by rw [hins, if_pos hfull]; exact hg3, hc3, hz3, hs3, n3, hn3, ?_, hnd3,
      ?_⟩
    · rw [hcn3]; exact ho3
    · rw [hcont3, hr2]
      exact hperm2.trans (List.Perm.cons _ hperm)
  · refine ⟨t2, h, by rw [hins, if_neg hfull], s2.coherent, s2.slot2, ?_, n1, hn2', ?_, ?_, ?_⟩
    · rw [s2.slot1, s1.slot1, hs1, hr2]
    · rw [hr2]
      exact ordered_tighten hflag hn2 (by rw [hlim1]; omega)
    · rw [hr2]; exact hnd2
    · rw [hr2]
      exact hperm2.trans (List.Perm.cons _ hperm)

theorem run_inserts_good (pairs : List (Key × Value)) [BEq Value] :
    ∀ (t : BPT Value) (h : Nat) (items : List (LeafEntry Value)), t.good h items →
      ∃ t1 h1 items1, t.run (inserts pairs) = .ok t1 ∧ t1.good h1 items1 ∧
        items1.Perm (pairs.map (fun p => { index := p.1, value := p.2 }) ++ items) := by
  induction pairs with
  | nil =>
    intro t h items hg
    exact ⟨t, h, items, rfl, hg, List.Perm.refl _⟩
  | cons p pairs ih =>
    intro t h items hg
    obtain ⟨t1, h1, hi, hg1⟩ := insert_good hg p.1 p.2
    obtain ⟨t2, h2, items2, hr, hg2, hp2⟩ := ih t1 h1 _ hg1
    refine ⟨t2, h2, items2, ?_, hg2, hp2.trans ?_⟩
    · simp only [inserts, List.map_cons, BPT.run, BPT.apply, hi]
      exact hr
    · simp only [List.map_cons, List.cons_append]
      exact List.perm_middle

/-- The public `find` on a tree built by inserts returns the values of the matching entries. -/
theorem find_good {t : BPT Value} {h : Nat} {items : List (LeafEntry Value)}
    (hg : t.good h items) (k : Key) :
    ∃ vs t1, t.find k = .ok (vs, t1) ∧ vs.Perm (matching k items) ∧ t1.file = t.file := by
  have hdepth := good_depth hg
  obtain ⟨hc, h0, hs1, n, hn, ho, hnd, hperm⟩ := hg
  obtain ⟨t1, hr1, s1, hf1⟩ := read_node hc h0 hn
  obtain ⟨t2, hfa, hf2, _, _⟩ := find_all_spec k t.file.node_at (h + 1) t.depth t.root_page n t1
    zero_key none false _ 0 [] (by omega) s1.coherent (by rw [hf1]) hn ho
  refine ⟨[] ++ matching k (contents t.file.node_at (h + 1) t.root_page), t2, ?_, ?_,
    by rw [hf2, hf1]⟩
  · simp only [BPT.find, bind, Except.bind, hr1]
    exact hfa
  · simp only [List.nil_append, matching]
    exact (hperm.filter _).map _

theorem matching_pairs (k : Key) (pairs : List (Key × Value)) :
    matching k (pairs.map (fun p => ({ index := p.1, value := p.2 } : LeafEntry Value)))
      = (pairs.filter (fun p => p.1 = k)).map (·.2) := by
  unfold matching
  rw [List.filter_map, List.map_map]
  have : ((fun e : LeafEntry Value => decide (memcmp k e.index = 0)) ∘
      fun p : Key × Value => ({ index := p.1, value := p.2 } : LeafEntry Value))
      = fun p => decide (p.1 = k) := by
    funext p
    simp only [Function.comp, Key.memcmp_eq_zero_iff]
    exact decide_eq_decide.mpr eq_comm
  rw [this]
  rfl
/-! ## Runs of inserts -/

/-- The counts of the nodes of a well-formed subtree, and the closure of its page list under
the child links. -/
theorem ordered_all {m : Nat → Option (BPTNode Value)} :
    ∀ (h p : Nat) (lo : Key) (hi : Option Key) (low lowkids : Bool),
      ordered m h p lo hi low lowkids 0 →
      ∀ q ∈ subtree m h p, ∃ n, m q = some n ∧
        (q ≠ p → n.count < n.limit ∧ (lowkids = true → n.limit / 2 ≤ n.count)) ∧
        (n.is_leaf = false → ∀ e ∈ n.internal_entries, e.child ∈ subtree m h p) := by
  intro h
  induction h with
  | zero =>
    intro p lo hi low lowkids ho q hq
    obtain ⟨n, hn, hl, _⟩ := ho
    simp only [subtree, List.mem_singleton] at hq
    subst hq
    exact ⟨n, hn, fun h => absurd rfl h, fun h => by rw [hl] at h; cases h⟩
  | succ h ih =>
    intro p lo hi low lowkids ho q hq
    obtain ⟨n, hn, hl, hs, _, hk⟩ := ho
    have hq' := hq
    simp only [subtree, hn, List.mem_cons, List.mem_flatMap] at hq'
    by_cases hqp : q = p
    · subst hqp
      exact ⟨n, hn, fun h => absurd rfl h,
        fun _ e he => subtree_child_mem hn he (subtree_root_mem _ _ _)⟩
    · rcases hq' with h1 | ⟨e, he, hqe⟩
      · exact absurd h1 hqp
      · obtain ⟨hi1, hP, _⟩ := kids_mem hk e he
        obtain ⟨nq, hnq, h2, h3⟩ := ih e.child _ _ _ _ hP q hqe
        refine ⟨nq, hnq, fun _ => ?_, fun hlf e1 he1 => subtree_child_mem hn he (h3 hlf e1 he1)⟩
        by_cases hqc : q = e.child
        · subst hqc
          obtain ⟨_, hsz⟩ := ordered_is_leaf hP hnq
          exact ⟨by have := hsz.1; omega, hsz.2⟩
        · obtain ⟨h4, h5⟩ := h2 hqc
          exact ⟨h4, fun _ => h5 rfl⟩

theorem session_inserts_good [BEq Value] (pairs : List (Key × Value)) :
    ∃ t h items, session (inserts pairs) = .ok t ∧ t.good h items ∧
      items.Perm (pairs.map (fun p => ({ index := p.1, value := p.2 } : LeafEntry Value))) := by
  obtain ⟨t0, _, _, h0, _⟩ :=
    open_spec (MemoryRiver.fresh : MemoryRiver Value) rfl (Or.inl rfl)
  obtain ⟨t, h, items, hr, hg, hp⟩ := run_inserts_good pairs t0 0 [] (good_fresh h0)
  refine ⟨t, h, items, ?_, hg, by simpa using hp⟩
  unfold session
  rw [h0]
  exact hr

/-! ## Node counts -/

/-- Right after initialisation the root has one entry, its child is page
1, and page 1 is a leaf (a non-root node reachable from the root) with count 0, which is not in
the range from `L / 2 = 24` to `L = 48`. -/
theorem fresh_leaf_is_below_half :
    ∃ t r l, session ([] : List (Op Nat)) = .ok t ∧
      t.file.node_at t.root_page = some r ∧ r.is_leaf = false ∧
      r.internal_entries.map (fun e => e.child) = [1] ∧
      t.file.node_at 1 = some l ∧ l.is_leaf = true ∧
      ¬ (l.limit / 2 ≤ l.count ∧ l.count < l.limit) := by
  obtain ⟨t, l0, r, h1, _, h3, h4, h5, _, _, h8, _, _⟩ :=
    open_spec (MemoryRiver.fresh : MemoryRiver Nat) rfl (Or.inl rfl)
  obtain ⟨rfl, rfl⟩ := h8 rfl
  have hl : t.file.node_at 1 = some { is_leaf := true, parent := 2, next_leaf := 0 } :=
    (MemoryRiver.read_page_eq_ok _ _ _).mp h3
  have hr : t.file.node_at t.root_page = some
      { is_leaf := false, parent := 0, next_leaf := 0,
        internal_entries := [{ index := zero_key, child := 1 }] } := by
    rw [h5]; exact (MemoryRiver.read_page_eq_ok _ _ _).mp h4
  have hs : session ([] : List (Op Nat)) = .ok t := by
    unfold session
    rw [h1]
    rfl
  exact ⟨t, _, _, hs, hr, rfl, rfl, hl, rfl, by
    intro h
    have := h.1
    simp [BPTNode.limit, BPTNode.count, L] at this⟩
/-! ## The free list -/

theorem node_at_of_block_eq {f f1 : MemoryRiver Value} {q : Nat}
    (h : f1.block q = f.block q) : f1.node_at q = f.node_at q := by
  unfold MemoryRiver.node_at
  rw [h]

theorem free_chain_congr {f f1 : MemoryRiver Value} :
    ∀ (l : List Nat) (hd : Nat), (∀ x ∈ l, f1.block x = f.block x) →
      f.free_chain hd l → f1.free_chain hd l := by
  intro l
  induction l with
  | nil => intro hd _ h; exact h
  | cons x l ih =>
    intro hd hag h
    obtain ⟨h1, nx, n, h2, h3⟩ := h
    refine ⟨h1, nx, n, ?_, ih nx (fun y hy => hag y (List.mem_cons_of_mem _ hy)) h3⟩
    rw [hag x (List.mem_cons_self _ _)]
    exact h2

/-- A page on the free list is a freed block: it holds no node. -/
theorem free_chain_not_node {f : MemoryRiver Value} :
    ∀ (l : List Nat) (hd : Nat), f.free_chain hd l → ∀ x ∈ l, f.node_at x = none := by
  intro l
  induction l with
  | nil => intro hd _ x hx; simp at hx
  | cons y l ih =>
    intro hd h x hx
    obtain ⟨_, nx, n, h2, h3⟩ := h
    rcases List.mem_cons.mp hx with rfl | hx
    · unfold MemoryRiver.node_at
      rw [h2]
    · exact ih nx h3 x hx

theorem free_chain_bound {f : MemoryRiver Value} :
    ∀ (l : List Nat) (hd : Nat), f.free_chain hd l → ∀ x ∈ l, 1 ≤ x ∧ x ≤ f.pages.length := by
  intro l
  induction l with
  | nil => intro hd _ x hx; simp at hx
  | cons y l ih =>
    intro hd h x hx
    obtain ⟨_, nx, n, h2, h3⟩ := h
    rcases List.mem_cons.mp hx with rfl | hx
    · exact (MemoryRiver.block_isSome_iff f x).mp (by rw [h2]; rfl)
    · exact ih nx h3 x hx

theorem free_chain_head {f : MemoryRiver Value} {hd : Nat} {l : List Nat}
    (h : f.free_chain hd l) : hd = 0 ↔ l = [] := by
  cases l with
  | nil => simpa using h
  | cons x l =>
    obtain ⟨h1, nx, n, h2, _⟩ := h
    have := (MemoryRiver.block_isSome_iff f x).mp (by rw [h2]; rfl)
    simp
    omega

/-- A write to a page that holds a node, in a file with any free list. -/
theorem write_at {t : BPT Value} (hc : t.coherent) (n : BPTNode Value) {p : Nat}
    {n0 : BPTNode Value} (hp : t.file.node_at p = some n0) :
    ∃ t1, disk_write t n p = .ok t1 ∧ t1.coherent ∧ t1.file.slot1 = t.file.slot1 ∧
      t1.file.slot2 = t.file.slot2 ∧ t1.root_page = t.root_page ∧
      t1.file.pages.length = t.file.pages.length ∧
      t1.file.block p = some (.image n) ∧ ∀ q, q ≠ p → t1.file.block q = t.file.block q := by
  have hs : (t.file.block p).isSome := by
    rw [(MemoryRiver.node_at_eq_some _ _ _).mp hp]; rfl
  have hp0 : p ≠ 0 := by have := (MemoryRiver.block_isSome_iff _ _).mp hs; omega
  obtain ⟨t1, h1, h2, h3, h4⟩ := disk_write_ok t n p hs
  refine ⟨t1, h1, h4 hc, ?_, ?_, h3, ?_, ?_, ?_⟩
  · rw [h2]
  · rw [h2]
  · rw [h2]; simp
  · rw [h2]; exact MemoryRiver.block_set_self _ _ _ hs
  · intro q hq; rw [h2]; exact MemoryRiver.block_set_other _ _ _ _ hp0 hq

/-- An allocation: the page comes from the head of the free list, or from the end of the file
when the free list is empty. -/
theorem alloc_at {t : BPT Value} (hc : t.coherent) {fl : List Nat}
    (hch : t.file.free_chain t.file.slot2 fl) (hnd : fl.Nodup) (n : BPTNode Value) :
    ∃ q t1 fl1, disk_alloc t n = .ok (q, t1) ∧ t1.coherent ∧ t1.file.slot1 = t.file.slot1 ∧
      t1.root_page = t.root_page ∧ t.file.node_at q = none ∧
      t1.file.block q = some (.image n) ∧ (∀ x, x ≠ q → t1.file.block x = t.file.block x) ∧
      t1.file.free_chain t1.file.slot2 fl1 ∧
      ((fl = q :: fl1 ∧ t1.file.pages.length = t.file.pages.length) ∨
        (fl = [] ∧ fl1 = [] ∧ q = t.file.pages.length + 1 ∧
          t1.file.pages.length = t.file.pages.length + 1)) := by
  cases fl with
  | nil =>
    have h0 : t.file.slot2 = 0 := hch
    obtain ⟨pg, t1, h1, h2, h3, h4, h5, h6, h7, _⟩ := disk_alloc_ok t n (Or.inl h0)
    obtain ⟨rfl, h8, h9⟩ := h7 h0
    refine ⟨_, t1, [], h1, h6 hc, h4, h5, node_at_none_of_gt _ (by omega), h2, h3, h8,
      Or.inr ⟨rfl, rfl, rfl, h9⟩⟩
  | cons x l =>
    obtain ⟨hx, nx, n0, hb, hl⟩ := hch
    have hxb := (MemoryRiver.block_isSome_iff t.file x).mp (by rw [hb]; rfl)
    have h0 : t.file.slot2 ≠ 0 := by omega
    obtain ⟨pg, t1, h1, h2, h3, h4, h5, h6, _, h8⟩ :=
      disk_alloc_ok t n (Or.inr (by rw [hx, hb]; rfl))
    obtain ⟨rfl, h9, h10⟩ := h8 _ h0 (by rw [hx]; exact hb)
    rw [hx] at h1 h2 h3
    refine ⟨x, t1, l, h1, h6 hc, h4, h5, ?_, h2, h3, ?_, Or.inl ⟨rfl, h10⟩⟩
    · unfold MemoryRiver.node_at
      rw [hb]
    · rw [h9]
      apply free_chain_congr l nx _ hl
      intro y hy
      exact h3 y (fun h => (List.nodup_cons.mp hnd).1 (h ▸ hy))

/-- The page of a node is put on the free list. -/
theorem free_at {t : BPT Value} (hc : t.coherent) {fl : List Nat}
    (hch : t.file.free_chain t.file.slot2 fl) {p : Nat} {n : BPTNode Value}
    (hp : t.file.node_at p = some n) :
    ∃ t1, disk_delete t p = .ok t1 ∧ t1.coherent ∧ t1.file.slot1 = t.file.slot1 ∧
      t1.root_page = t.root_page ∧ t1.file.pages.length = t.file.pages.length ∧
      t1.file.node_at p = none ∧ (∀ x, x ≠ p → t1.file.block x = t.file.block x) ∧
      t1.file.free_chain t1.file.slot2 (p :: fl) := by
  have hb := (MemoryRiver.node_at_eq_some _ _ _).mp hp
  have hs : (t.file.block p).isSome := by rw [hb]; rfl
  have hp0 : p ≠ 0 := by have := (MemoryRiver.block_isSome_iff _ _).mp hs; omega
  have hd : t.file.delete_page p = .ok (({ t.file with
      pages := t.file.pages.set (p - 1) (.freed t.file.slot2 n) } :
        MemoryRiver Value).write_info p 2) := by
    simp only [MemoryRiver.delete_page, hb, MemoryRiver.put_block_existing _ _ _ hs]
    rfl
  have hblk : (({ t.file with pages := t.file.pages.set (p - 1) (.freed t.file.slot2 n) } :
      MemoryRiver Value).write_info p 2).block p = some (.freed t.file.slot2 n) := by
    have := MemoryRiver.block_set_self t.file p (.freed t.file.slot2 n) hs
    simpa [MemoryRiver.block, MemoryRiver.write_info] using this
  have hoth : ∀ q, q ≠ p → (({ t.file with
      pages := t.file.pages.set (p - 1) (.freed t.file.slot2 n) } :
        MemoryRiver Value).write_info p 2).block q = t.file.block q := by
    intro q hq
    have := MemoryRiver.block_set_other t.file p q (.freed t.file.slot2 n) hp0 hq
    simpa [MemoryRiver.block, MemoryRiver.write_info] using this
  obtain ⟨g, hg⟩ : ∃ g, g = (({ t.file with
      pages := t.file.pages.set (p - 1) (.freed t.file.slot2 n) } :
        MemoryRiver Value).write_info p 2) := ⟨_, rfl⟩
  have hg1 : g.slot1 = t.file.slot1 := by rw [hg]; simp [MemoryRiver.write_info]
  have hg2 : g.slot2 = p := by rw [hg]; simp [MemoryRiver.write_info]
  have hg3 : g.pages.length = t.file.pages.length := by rw [hg]; simp [MemoryRiver.write_info]
  rw [← hg] at hd hblk hoth
  refine ⟨{ t with file := g }, by simp only [disk_delete, hd], ?_, hg1, rfl, hg3, ?_, hoth, ?_⟩
  · intro q e hq
    obtain ⟨b, hb1, hb2⟩ := hc q e hq
    by_cases hqp : q = p
    · subst hqp
      rw [hb] at hb1
      cases hb1
      exact ⟨_, hblk, hb2⟩
    · exact ⟨b, by rw [hoth q hqp]; exact hb1, hb2⟩
  · show g.node_at p = none
    unfold MemoryRiver.node_at
    rw [hblk]
  · refine ⟨hg2, t.file.slot2, n, hblk, ?_⟩
    apply free_chain_congr fl _ _ hch
    intro y hy
    apply hoth
    intro h
    have := free_chain_not_node fl _ hch y hy
    rw [h, hp] at this
    cases this

/-! ## Well-shaped subtrees -/

theorem shaped_iff_fits (m : Nat → Option (BPTNode Value)) (h p : Nat) :
    shaped m h p ↔ ∃ n, m p = some n ∧ fits m h n := by
  cases h <;> simp only [shaped, fits]

theorem subtree_eq_under {m : Nat → Option (BPTNode Value)} (h : Nat) {p : Nat}
    {n : BPTNode Value} (hn : m p = some n) : subtree m h p = p :: under m h n := by
  cases h <;> simp only [subtree, under, hn]

theorem shaped_congr {m m1 : Nat → Option (BPTNode Value)} :
    ∀ (h p : Nat), (∀ q ∈ subtree m h p, m1 q = m q) → shaped m h p → shaped m1 h p := by
  intro h
  induction h with
  | zero =>
    intro p hag hs
    obtain ⟨n, hn, hl⟩ := hs
    exact ⟨n, by rw [hag p (subtree_root_mem m _ p)]; exact hn, hl⟩
  | succ h ih =>
    intro p hag hs
    obtain ⟨n, hn, hl, hne, hk⟩ := hs
    refine ⟨n, by rw [hag p (subtree_root_mem m _ p)]; exact hn, hl, hne, ?_⟩
    intro e he
    exact ih e.child (fun q hq => hag q (subtree_child_mem hn he hq)) (hk e he)

theorem shaped_defined {m : Nat → Option (BPTNode Value)} :
    ∀ (h p : Nat), shaped m h p → ∀ x ∈ subtree m h p, ∃ n, m x = some n := by
  intro h
  induction h with
  | zero =>
    intro p hs x hx
    obtain ⟨n, hn, _⟩ := hs
    simp only [subtree, List.mem_singleton] at hx
    exact ⟨n, hx ▸ hn⟩
  | succ h ih =>
    intro p hs x hx
    obtain ⟨n, hn, _, _, hk⟩ := hs
    simp only [subtree, hn, List.mem_cons, List.mem_flatMap] at hx
    rcases hx with rfl | ⟨e, he, hx⟩
    · exact ⟨n, hn⟩
    · exact ih e.child (hk e he) x hx

/-- A node written at page `q` above subtrees that are untouched. -/
theorem node_rebuild {m m1 : Nat → Option (BPTNode Value)} (h : Nat) {q : Nat}
    {c : BPTNode Value} (hq : m1 q = some c) (hc : fits m h c)
    (hfr : ∀ x ∈ under m h c, m1 x = m x) :
    shaped m1 h q ∧ subtree m1 h q = q :: under m h c := by
  cases h with
  | zero => exact ⟨⟨c, hq, hc⟩, rfl⟩
  | succ h =>
    obtain ⟨hl, hne, hk⟩ := hc
    have hx : ∀ e ∈ c.internal_entries, ∀ x ∈ subtree m h e.child, m1 x = m x := by
      intro e he x hx
      apply hfr
      simp only [under, List.mem_flatMap]
      exact ⟨e, he, hx⟩
    refine ⟨⟨c, hq, hl, hne, fun e he => shaped_congr h e.child (hx e he) (hk e he)⟩, ?_⟩
    simp only [subtree, hq, under]
    congr 1
    exact List.flatMap_congr (fun e he => subtree_congr h e.child (hx e he))

theorem nodup_append_range {A : List Nat} {len : Nat} (k : Nat) (h : A.Nodup)
    (hb : ∀ x ∈ A, x ≤ len) : (A ++ List.range' (len + 1) k).Nodup := by
  refine List.nodup_append.mpr ⟨h, List.nodup_range' _ _, ?_⟩
  intro x hx hr
  have := hb x hx
  simp only [List.mem_range'_1] at hr
  omega

theorem Owned.bound {t : BPT Value} {h p : Nat} {fl : List Nat} (ho : Owned t h p fl) :
    ∀ x ∈ subtree t.file.node_at h p ++ fl, 1 ≤ x ∧ x ≤ t.file.pages.length := by
  intro x hx
  rcases List.mem_append.mp hx with hx | hx
  · obtain ⟨n, hn⟩ := shaped_defined h p ho.shape x hx
    exact MemoryRiver.node_at_bound hn
  · exact free_chain_bound fl _ ho.chain x hx

theorem Owned.node {t : BPT Value} {h p : Nat} {fl : List Nat} (ho : Owned t h p fl) :
    ∃ n, t.file.node_at p = some n ∧ fits t.file.node_at h n :=
  (shaped_iff_fits _ _ _).mp ho.shape

/-- The subtree and the free list after a step are again without repetition. -/
theorem Reshaped.keeps_owned {t t1 : BPT Value} {h p : Nat} {fl fl1 : List Nat} {n1 : BPTNode Value}
    (hr : Reshaped t t1 h p fl fl1 n1) (ho : Owned t h p fl) : Owned t1 h p fl1 :=
  ⟨hr.coherent, hr.chain, hr.shape,
    (List.Perm.nodup_iff hr.perm).mpr
      (nodup_append_range _ ho.nodup (fun x hx => (ho.bound x hx).2))⟩

theorem range'_split (a b c : Nat) (h1 : a ≤ b) (h2 : b ≤ c) :
    List.range' (a + 1) (b - a) ++ List.range' (b + 1) (c - b) = List.range' (a + 1) (c - a) := by
  have := @List.range'_append (a + 1) (b - a) (c - b) 1
  rw [show a + 1 + 1 * (b - a) = b + 1 by omega, show c - b + (b - a) = c - a by omega] at this
  exact this

theorem Reshaped.comp {t t1 t2 : BPT Value} {h p : Nat} {fl fl1 fl2 : List Nat}
    {n1 n2 : BPTNode Value} (h1 : Reshaped t t1 h p fl fl1 n1)
    (h2 : Reshaped t1 t2 h p fl1 fl2 n2) : Reshaped t t2 h p fl fl2 n2 := by
  refine ⟨h2.coherent, h2.slot1.trans h1.slot1, h2.root.trans h1.root, h2.node, h2.shape,
    Nat.le_trans h1.len h2.len, h2.chain, ?_, ?_⟩
  · have e := range'_split _ _ _ h1.len h2.len
    rw [← e]
    refine h2.perm.trans ?_
    have := h1.perm.append_right
      (List.range' (t1.file.pages.length + 1) (t2.file.pages.length - t1.file.pages.length))
    simpa [List.append_assoc] using this
  · intro q hq1 hq2 hq3
    have hlen := h1.len
    have hn : q ∉ subtree t1.file.node_at h p ++ fl1 := by
      intro hm
      have := h1.perm.subset hm
      simp only [List.mem_append, List.mem_range'_1] at this
      rcases this with (h | h) | h
      · exact hq1 h
      · exact hq2 h
      · omega
    simp only [List.mem_append, not_or] at hn
    rw [h2.frame q hn.1 hn.2 (by omega), h1.frame q hq1 hq2 hq3]

/-- A step that leaves the file alone. -/
theorem Reshaped.same {t t1 : BPT Value} {h p : Nat} {fl : List Nat} {n : BPTNode Value}
    (ho : Owned t h p fl) (hn : t.file.node_at p = some n) (hf : t1.file = t.file)
    (hc : t1.coherent) (hr : t1.root_page = t.root_page) : Reshaped t t1 h p fl fl n := by
  refine ⟨hc, by rw [hf], hr, by rw [hf]; exact hn, by rw [hf]; exact ho.shape, by rw [hf],
    by rw [hf]; exact ho.chain, ?_, fun q _ _ _ => by rw [hf]⟩
  rw [hf]
  simp

/-- The part of a subtree under one entry of its root. -/
theorem Owned.child {t : BPT Value} {h p : Nat} {fl : List Nat} (ho : Owned t (h + 1) p fl)
    {n : BPTNode Value} (hn : t.file.node_at p = some n) {e : InternalEntry}
    (he : e ∈ n.internal_entries) : Owned t h e.child fl := by
  obtain ⟨n0, hn0, _, _, hk⟩ := ho.shape
  rw [hn] at hn0
  cases hn0
  refine ⟨ho.coherent, ho.chain, hk e he, ?_⟩
  have hnd := ho.nodup
  obtain ⟨pre, post, hes⟩ := List.append_of_mem he
  rw [subtree_succ_split _ _ _ _ hn pre e post hes] at hnd
  have hsub : (subtree t.file.node_at h e.child ++ fl).Sublist
      (p :: (pre.flatMap (fun e => subtree t.file.node_at h e.child) ++
        subtree t.file.node_at h e.child ++
        post.flatMap (fun e => subtree t.file.node_at h e.child)) ++ fl) := by
    apply List.Sublist.append _ (List.Sublist.refl _)
    apply List.Sublist.cons
    apply List.Sublist.trans _ (List.sublist_append_left _ _)
    exact List.sublist_append_right _ _
  exact hnd.sublist hsub

theorem nodup_parts (p : Nat) (A B C F : List Nat) (h : (p :: (A ++ B ++ C) ++ F).Nodup) :
    (∀ x ∈ A ++ C, x ∉ B ∧ x ≠ p ∧ x ∉ F) ∧ p ∉ B ∧ p ∉ F ∧ (∀ x ∈ B, x ∉ F ∧ x ≠ p) ∧
      B.Nodup := by
  simp only [List.cons_append, List.nodup_cons, List.nodup_append, List.mem_append,
    List.Disjoint, not_or] at h
  obtain ⟨⟨⟨⟨hpA, hpB⟩, hpC⟩, hpF⟩, ⟨⟨nA, nB, dAB⟩, nC, dC⟩, nF, dF⟩ := h
  refine ⟨?_, hpB, hpF, ?_, nB⟩
  · intro x hx
    rcases List.mem_append.mp hx with hx | hx
    · exact ⟨fun hb => dAB hx hb, fun hxp => hpA (hxp ▸ hx), fun hf => dF (Or.inl (Or.inl hx)) hf⟩
    · exact ⟨fun hb => dC (Or.inr hb) hx, fun hxp => hpC (hxp ▸ hx),
        fun hf => dF (Or.inr hx) hf⟩
  · intro x hx
    exact ⟨fun hf => dF (Or.inl (Or.inr hx)) hf, fun hxp => hpB (hxp ▸ hx)⟩

/-- The entries `mid` of the node at `p` are replaced by `mid1`: the pages under the other
entries are untouched, the new children are well shaped, and their pages with the free pages are
those of the old children with the free pages of before. -/
theorem Reshaped.of_regroup {t t1 : BPT Value} {h p : Nat} {fl fl1 : List Nat}
    {n n1 : BPTNode Value} (pre mid mid1 post : List InternalEntry)
    (ho : Owned t (h + 1) p fl) (hn : t.file.node_at p = some n)
    (hes : n.internal_entries = pre ++ mid ++ post)
    (hc1 : t1.coherent) (hs1 : t1.file.slot1 = t.file.slot1) (hr : t1.root_page = t.root_page)
    (hlen : t.file.pages.length ≤ t1.file.pages.length)
    (hch : t1.file.free_chain t1.file.slot2 fl1)
    (hp1 : t1.file.node_at p = some n1) (hl1 : n1.is_leaf = false)
    (hes1 : n1.internal_entries = pre ++ mid1 ++ post) (hne : n1.internal_entries ≠ [])
    (hfr : ∀ q, q ∉ mid.flatMap (fun e => subtree t.file.node_at h e.child) → q ≠ p → q ∉ fl →
      q ≤ t.file.pages.length → t1.file.block q = t.file.block q)
    (hkids : ∀ e ∈ mid1, shaped t1.file.node_at h e.child)
    (hperm : (mid1.flatMap (fun e => subtree t1.file.node_at h e.child) ++ fl1).Perm
      (mid.flatMap (fun e => subtree t.file.node_at h e.child) ++ fl ++
        List.range' (t.file.pages.length + 1) (t1.file.pages.length - t.file.pages.length))) :
    Reshaped t t1 (h + 1) p fl fl1 n1 := by
  obtain ⟨n0, hn0, hl, hne0, hk⟩ := ho.shape
  rw [hn] at hn0
  cases hn0
  have hsub : subtree t.file.node_at (h + 1) p =
      p :: (pre.flatMap (fun e => subtree t.file.node_at h e.child) ++
        mid.flatMap (fun e => subtree t.file.node_at h e.child) ++
        post.flatMap (fun e => subtree t.file.node_at h e.child)) := by
    simp only [subtree, hn, hes, List.flatMap_append]
  have hnd := ho.nodup
  rw [hsub] at hnd
  obtain ⟨hside, _, _, _, _⟩ := nodup_parts _ _ _ _ _ hnd
  have hsib : ∀ e ∈ pre ++ post, ∀ x ∈ subtree t.file.node_at h e.child,
      t1.file.node_at x = t.file.node_at x := by
    intro e he x hx
    have hek : e ∈ n.internal_entries := by
      rw [hes]
      rcases List.mem_append.mp he with he | he
      · exact List.mem_append_left _ (List.mem_append_left _ he)
      · exact List.mem_append_right _ he
    have hxm : x ∈ pre.flatMap (fun e => subtree t.file.node_at h e.child) ++
        post.flatMap (fun e => subtree t.file.node_at h e.child) := by
      rcases List.mem_append.mp he with he | he
      · exact List.mem_append_left _ (List.mem_flatMap.mpr ⟨e, he, hx⟩)
      · exact List.mem_append_right _ (List.mem_flatMap.mpr ⟨e, he, hx⟩)
    obtain ⟨h1, h2, h3⟩ := hside x hxm
    obtain ⟨nx, hnx⟩ := shaped_defined h e.child (hk e hek) x hx
    exact node_at_of_block_eq (hfr x h1 h2 h3 (MemoryRiver.node_at_bound hnx).2)
  have hshape : ∀ e ∈ n1.internal_entries, shaped t1.file.node_at h e.child := by
    intro e he
    rw [hes1] at he
    rcases List.mem_append.mp he with he | he
    · rcases List.mem_append.mp he with he | he
      · exact shaped_congr h e.child (hsib e (List.mem_append_left _ he))
          (hk e (by rw [hes]; exact List.mem_append_left _ (List.mem_append_left _ he)))
      · exact hkids e he
    · exact shaped_congr h e.child (hsib e (List.mem_append_right _ he))
        (hk e (by rw [hes]; exact List.mem_append_right _ he))
  have hsub1 : subtree t1.file.node_at (h + 1) p =
      p :: (pre.flatMap (fun e => subtree t.file.node_at h e.child) ++
        mid1.flatMap (fun e => subtree t1.file.node_at h e.child) ++
        post.flatMap (fun e => subtree t.file.node_at h e.child)) := by
    simp only [subtree, hp1, hes1, List.flatMap_append]
    rw [List.flatMap_congr (fun e he => subtree_congr h e.child
        (hsib e (List.mem_append_left _ he))),
      List.flatMap_congr (fun e he => subtree_congr (m := t.file.node_at) h e.child
        (hsib e (List.mem_append_right _ he)))]
  refine ⟨hc1, hs1, hr, hp1, ⟨n1, hp1, hl1, hne, hshape⟩, hlen, hch, ?_, ?_⟩
  · rw [hsub, hsub1]
    have h1 := Multiset.coe_eq_coe.mpr hperm
    apply Multiset.coe_eq_coe.mp
    simp only [← Multiset.coe_add, ← Multiset.cons_coe, ← Multiset.singleton_add] at h1 ⊢
    have e1 : ∀ (a b c d e f : Multiset Nat), a + (b + c + d) + e = (a + b + d) + (c + e) := by
      intros; abel
    have e2 : ∀ (a b c d e f g : Multiset Nat),
        a + (b + c + d) + e + g = (a + b + d) + (c + e + g) := by
      intros; abel
    rw [e1 _ _ _ _ _ 0, e2 _ _ _ _ _ 0, h1]
  · intro q hq1 hq2 hq3
    rw [hsub] at hq1
    simp only [List.mem_cons, List.mem_append, not_or] at hq1
    exact hfr q hq1.2.1.2 hq1.1 hq2 hq3

/-- A step inside the subtree of one child is a step of the subtree of the parent, whose node
is untouched. -/
theorem Reshaped.lift {t t1 : BPT Value} {h p : Nat} {fl fl1 : List Nat}
    {n c1 : BPTNode Value} (pre : List InternalEntry) (e : InternalEntry)
    (post : List InternalEntry)
    (ho : Owned t (h + 1) p fl) (hn : t.file.node_at p = some n)
    (hes : n.internal_entries = pre ++ e :: post)
    (hr : Reshaped t t1 h e.child fl fl1 c1) : Reshaped t t1 (h + 1) p fl fl1 n := by
  obtain ⟨n0, hn0, hl, hne0, hk⟩ := ho.shape
  rw [hn] at hn0
  cases hn0
  have hnd := ho.nodup
  rw [subtree_succ_split _ _ _ _ hn pre e post hes] at hnd
  obtain ⟨_, hpB, hpF, _, _⟩ := nodup_parts _ _ _ _ _ hnd
  have hp1 : t1.file.node_at p = some n := by
    rw [node_at_of_block_eq (hr.frame p hpB hpF (MemoryRiver.node_at_bound hn).2)]
    exact hn
  refine Reshaped.of_regroup pre [e] [e] post ho hn (by simpa using hes) hr.coherent hr.slot1
    hr.root hr.len hr.chain hp1 hl (by simpa using hes) hne0 ?_ ?_ ?_
  · intro q hq1 _ hq3 hq4
    exact hr.frame q (by simpa using hq1) hq3 hq4
  · intro e1 he1
    simp only [List.mem_singleton] at he1
    subst he1
    exact hr.shape
  · simpa using hr.perm

/-! ## Steps of `insert` and `remove` on a well-shaped tree -/

theorem subtree_cons_tail (m : Nat → Option (BPTNode Value)) (h p : Nat) :
    subtree m h p = p :: (subtree m h p).tail := by
  cases h <;> simp [subtree]

theorem under_eq_tail {m : Nat → Option (BPTNode Value)} (h : Nat) {p : Nat} {n : BPTNode Value}
    (hn : m p = some n) : under m h n = (subtree m h p).tail := by
  rw [subtree_eq_under h hn]
  rfl

theorem nodup_flatMap_heads {α : Type} (hd : α → Nat) (tl : α → List Nat) :
    ∀ (l : List α), (l.flatMap (fun a => hd a :: tl a)).Nodup →
      ∀ a ∈ l, ∀ x ∈ tl a, ∀ b ∈ l, x ≠ hd b := by
  intro l
  induction l with
  | nil => intro _ a ha; simp at ha
  | cons a0 l ih =>
    intro hnd a ha x hx b hb
    rw [List.flatMap_cons] at hnd
    obtain ⟨n1, n2, dj⟩ := List.nodup_append.mp hnd
    rcases List.mem_cons.mp ha with rfl | ha2
    · rcases List.mem_cons.mp hb with rfl | hb
      · intro hxe
        rw [hxe] at hx
        exact (List.nodup_cons.mp n1).1 hx
      · intro hxe
        exact dj (List.mem_cons_of_mem _ hx)
          (List.mem_flatMap.mpr ⟨b, hb, by rw [hxe]; exact List.mem_cons_self _ _⟩)
    · rcases List.mem_cons.mp hb with rfl | hb
      · intro hxe
        exact dj (by rw [hxe]; exact List.mem_cons_self _ _)
          (List.mem_flatMap.mpr ⟨a, ha2, List.mem_cons_of_mem _ hx⟩)
      · exact ih n2 a ha2 x hx b hb

/-- The pages below the children `mid` of the node at `p` are neither `p`, nor one of these
children, nor free, and they hold nodes. -/
theorem grand_frame {t : BPT Value} {h p : Nat} {fl : List Nat} {n : BPTNode Value}
    (pre mid post : List InternalEntry)
    (ho : Owned t (h + 1) p fl) (hn : t.file.node_at p = some n)
    (hes : n.internal_entries = pre ++ mid ++ post) :
    ∀ e ∈ mid, ∀ c, t.file.node_at e.child = some c → ∀ x ∈ under t.file.node_at h c,
      x ∈ mid.flatMap (fun e => subtree t.file.node_at h e.child) ∧
      x ≠ p ∧ (∀ b ∈ mid, x ≠ b.child) ∧ x ∉ fl ∧ x ≤ t.file.pages.length ∧
        t.file.node_at x ≠ none := by
  intro e he c hc x hx
  obtain ⟨n0, hn0, hl, hne0, hk⟩ := ho.shape
  rw [hn] at hn0
  cases hn0
  have hen : e ∈ n.internal_entries := by
    rw [hes]; exact List.mem_append_left _ (List.mem_append_right _ he)
  have hxs : x ∈ subtree t.file.node_at h e.child := by
    rw [subtree_eq_under h hc]; exact List.mem_cons_of_mem _ hx
  have hxm : x ∈ mid.flatMap (fun e => subtree t.file.node_at h e.child) :=
    List.mem_flatMap.mpr ⟨e, he, hxs⟩
  have hnd := ho.nodup
  have hsub : subtree t.file.node_at (h + 1) p =
      p :: (pre.flatMap (fun e => subtree t.file.node_at h e.child) ++
        mid.flatMap (fun e => subtree t.file.node_at h e.child) ++
        post.flatMap (fun e => subtree t.file.node_at h e.child)) := by
    simp only [subtree, hn, hes, List.flatMap_append]
  rw [hsub] at hnd
  obtain ⟨_, _, _, hB, nB⟩ := nodup_parts _ _ _ _ _ hnd
  obtain ⟨nx, hnx⟩ := shaped_defined h e.child (hk e hen) x hxs
  refine ⟨hxm, (hB x hxm).2, ?_, (hB x hxm).1, (MemoryRiver.node_at_bound hnx).2, by simp [hnx]⟩
  have e1 : (fun e : InternalEntry => subtree t.file.node_at h e.child) =
      (fun e => e.child :: (subtree t.file.node_at h e.child).tail) := by
    funext e; exact subtree_cons_tail _ _ _
  rw [e1] at nB
  intro b hb
  exact nodup_flatMap_heads (fun e : InternalEntry => e.child)
    (fun e => (subtree t.file.node_at h e.child).tail) mid nB e he x
    (by show x ∈ (subtree t.file.node_at h e.child).tail
        rw [← under_eq_tail h hc]; exact hx) b hb

/-- A write of a leaf over a leaf. -/
theorem Reshaped.of_leaf_write {t t1 : BPT Value} {p : Nat} {fl : List Nat}
    {n n1 : BPTNode Value} (ho : Owned t 0 p fl) (hn : t.file.node_at p = some n)
    (hl1 : n1.is_leaf = true) (hw : disk_write t n1 p = .ok t1) :
    Reshaped t t1 0 p fl fl n1 := by
  obtain ⟨t2, h1, h2, h3, h4, h5, h6, h7, h8⟩ := write_at ho.coherent n1 hn
  rw [hw] at h1
  cases h1
  have hp1 : t1.file.node_at p = some n1 := (MemoryRiver.node_at_eq_some _ _ _).mpr h7
  refine ⟨h2, h3, h5, hp1, ⟨n1, hp1, hl1⟩, by omega, ?_, ?_, ?_⟩
  · rw [h4]
    apply free_chain_congr fl _ _ ho.chain
    intro y hy
    apply h8
    intro hyp
    have := free_chain_not_node fl _ ho.chain y hy
    rw [hyp, hn] at this
    cases this
  · rw [h6]
    simp [subtree]
  · intro q hq _ _
    exact h8 q (fun h => hq (by rw [h]; exact subtree_root_mem _ _ _))

theorem fits_halves {m : Nat → Option (BPTNode Value)} (h q : Nat) {c : BPTNode Value}
    (hc : fits m h c) (hfull : c.limit ≤ c.count) :
    fits m h (c.left_half q) ∧ fits m h c.right_half ∧
      under m h (c.left_half q) ++ under m h c.right_half = under m h c := by
  cases h with
  | zero =>
    have hl : c.is_leaf = true := hc
    refine ⟨?_, ?_, rfl⟩
    · show (c.left_half q).is_leaf = true
      simp only [BPTNode.left_half]
      rw [truncate_is_leaf]; exact hl
    · exact hl
  | succ h =>
    obtain ⟨hl, hne, hk⟩ := hc
    have hlim : c.limit = 58 := by simp [BPTNode.limit, hl, M]
    have hcnt : c.count = c.internal_entries.length := by simp [BPTNode.count, hl]
    rw [hlim, hcnt] at hfull
    have e1 : (c.left_half q).internal_entries = c.internal_entries.take 29 := by
      simp [BPTNode.left_half, BPTNode.truncate, hl, hlim]
    have e2 : c.right_half.internal_entries = c.internal_entries.drop 29 := by
      simp [BPTNode.right_half, hl, hlim]
    refine ⟨⟨?_, ?_, ?_⟩, ⟨?_, ?_, ?_⟩, ?_⟩
    · simp only [BPTNode.left_half]
      rw [truncate_is_leaf]; exact hl
    · rw [e1]
      intro h0
      have := congrArg List.length h0
      rw [List.length_take, List.length_nil] at this
      omega
    · rw [e1]
      intro e he
      exact hk e (List.mem_of_mem_take he)
    · exact hl
    · rw [e2]
      intro h0
      have := congrArg List.length h0
      rw [List.length_drop, List.length_nil] at this
      omega
    · rw [e2]
      intro e he
      exact hk e (List.mem_of_mem_drop he)
    · simp only [under, e1, e2]
      rw [← List.flatMap_append, List.take_append_drop]

/-- The split step on a well-shaped tree with any free list. -/
theorem split_child_shape {t t1 : BPT Value} {h p : Nat} {fl : List Nat}
    {n n1 cn : BPTNode Value}
    (pre : List InternalEntry) (e : InternalEntry) (post : List InternalEntry)
    (ho : Owned t (h + 1) p fl) (hn : t.file.node_at p = some n)
    (hes : n.internal_entries = pre ++ e :: post)
    (hcn : t.file.node_at e.child = some cn) (hfull : cn.limit ≤ cn.count)
    (hsp : split_child n p pre.length cn e.child t = .ok (n1, t1)) :
    ∃ fl1, Reshaped t t1 (h + 1) p fl fl1 n1 ∧
      n1.internal_entries.length = n.internal_entries.length + 1 := by
  have hnd_fl : fl.Nodup := (List.nodup_append.mp ho.nodup).2.1
  obtain ⟨q, ta, fl1, ha, ca, sa1, ra, hq0, hqa, hfa, cha, hcase⟩ :=
    alloc_at ho.coherent ho.chain hnd_fl cn.right_half
  have hcq : e.child ≠ q := by
    intro h; rw [h, hq0] at hcn; cases hcn
  have hpq : p ≠ q := by
    intro h; rw [h, hq0] at hn; cases hn
  have hcna : ta.file.node_at e.child = some cn := by
    rw [node_at_of_block_eq (hfa _ hcq)]; exact hcn
  obtain ⟨tb, hw, cb, sb1, sb2, rb, lb, hbb, hfb⟩ := write_at ca (cn.left_half q) hcna
  have hnd := ho.nodup
  rw [subtree_succ_split _ _ _ _ hn pre e post hes] at hnd
  obtain ⟨_, hpB, hpF, _, _⟩ := nodup_parts _ _ _ _ _ hnd
  have hpc : p ≠ e.child := fun h => hpB (h ▸ subtree_root_mem _ _ _)
  have hpb : tb.file.node_at p = some n := by
    rw [node_at_of_block_eq (hfb _ hpc), node_at_of_block_eq (hfa _ hpq)]; exact hn
  have hlim : (if cn.is_leaf = true then L else M) = cn.limit := rfl
  unfold BPTNode.right_half at ha
  unfold BPTNode.left_half at hw
  simp only [split_child, bind, Except.bind, hlim, ha, hw] at hsp
  rw [hes, (take_drop_middle pre e post).1, (take_drop_middle pre e post).2] at hsp
  obtain ⟨n0, hn0, hl, hne0, hk⟩ := ho.shape
  rw [hn] at hn0
  cases hn0
  have hkc : shaped t.file.node_at h e.child := hk e (by rw [hes]; simp)
  obtain ⟨c0, hc0, hfit⟩ := (shaped_iff_fits _ _ _).mp hkc
  rw [hcn] at hc0
  cases hc0
  obtain ⟨fitl, fitr, hund⟩ := fits_halves h q hfit hfull
  split at hsp
  · cases hsp
  · rename_i key hkey
    split at hsp
    · cases hsp
    · obtain ⟨t3, hw3, c3, s31, s32, r3, l3, hb3, hf3⟩ := write_at cb
        ({ n with internal_entries := pre ++ [e] ++ { index := key, child := q } :: post } :
          BPTNode Value) hpb
      rw [hw3] at hsp
      simp only [pure, Except.pure, Except.ok.injEq, Prod.mk.injEq] at hsp
      obtain ⟨rfl, rfl⟩ := hsp
      have hlen : t.file.pages.length ≤ t3.file.pages.length := by
        rcases hcase with ⟨_, h1⟩ | ⟨_, _, _, h1⟩ <;> omega
      have hqfl : q ∈ fl ∨ t.file.pages.length < q := by
        rcases hcase with ⟨h1, _⟩ | ⟨_, _, h1, _⟩
        · left; rw [h1]; exact List.mem_cons_self _ _
        · right; omega
      -- the blocks after the three writes
      have hblk : ∀ x, x ≠ p → x ≠ e.child → x ≠ q → t3.file.block x = t.file.block x := by
        intro x h1 h2 h3
        rw [hf3 x h1, hfb x h2, hfa x h3]
      have hc3 : t3.file.node_at e.child = some (cn.left_half q) := by
        rw [node_at_of_block_eq (hf3 _ hpc.symm)]
        exact (MemoryRiver.node_at_eq_some _ _ _).mpr hbb
      have hq3 : t3.file.node_at q = some cn.right_half := by
        rw [node_at_of_block_eq (hf3 _ hpq.symm), node_at_of_block_eq (hfb _ hcq.symm)]
        exact (MemoryRiver.node_at_eq_some _ _ _).mpr hqa
      have hgr := grand_frame pre [e] post ho hn (by simpa using hes) e (by simp) cn hcn
      have hgf : ∀ x ∈ under t.file.node_at h cn, t3.file.node_at x = t.file.node_at x := by
        intro x hx
        obtain ⟨_, g1, g2, g3, g4, _⟩ := hgr x hx
        apply node_at_of_block_eq
        apply hblk x g1 (g2 e (by simp))
        rintro rfl
        rcases hqfl with h | h
        · exact g3 h
        · omega
      obtain ⟨shl, sul⟩ := node_rebuild h hc3 fitl
        (fun x hx => hgf x (by rw [← hund]; exact List.mem_append_left _ hx))
      obtain ⟨shr, sur⟩ := node_rebuild h hq3 fitr
        (fun x hx => hgf x (by rw [← hund]; exact List.mem_append_right _ hx))
      refine ⟨fl1, ?_, by simp [hes]; omega⟩
      refine Reshaped.of_regroup pre [e] [e, { index := key, child := q }] post ho hn
        (by simpa using hes) c3 (by rw [s31, sb1, sa1]) (by rw [r3, rb, ra]) hlen ?_
        ((MemoryRiver.node_at_eq_some _ _ _).mpr hb3) hl (by simp) (by simp) ?_ ?_ ?_
      · rw [s32, sb2]
        apply free_chain_congr fl1 _ _ cha
        intro y hy
        have hy0 := free_chain_not_node fl1 _ cha y hy
        rw [hf3 y (by rintro rfl; rw [node_at_of_block_eq (hfa _ hpq), hn] at hy0; cases hy0),
          hfb y (by rintro rfl; rw [hcna] at hy0; cases hy0)]
      · intro x h1 h2 h3 h4
        simp only [List.flatMap_cons, List.flatMap_nil, List.append_nil] at h1
        apply hblk x h2 (fun h => h1 (h ▸ subtree_root_mem _ _ _))
        rintro rfl
        rcases hqfl with h | h
        · exact h3 h
        · omega
      · intro e1 he1
        simp only [List.mem_cons, List.mem_singleton, List.not_mem_nil, or_false] at he1
        rcases he1 with rfl | rfl
        · exact shl
        · exact shr
      · simp only [List.flatMap_cons, List.flatMap_nil, List.append_nil]
        rw [sul, sur, subtree_eq_under h hcn, ← hund]
        rcases hcase with ⟨h1, h2⟩ | ⟨h1, h2, h3, h4⟩
        · rw [h1, l3, lb, h2, Nat.sub_self]
          simp only [List.range'_zero, List.append_nil]
          apply Multiset.coe_eq_coe.mp
          simp only [← Multiset.coe_add, ← Multiset.cons_coe, ← Multiset.singleton_add]
          abel
        · rw [h1, h2, l3, lb, h4, h3, Nat.add_sub_cancel_left]
          simp only [List.range'_one, List.append_nil]
          apply Multiset.coe_eq_coe.mp
          simp only [← Multiset.coe_add, ← Multiset.cons_coe, ← Multiset.singleton_add]
          abel

theorem Owned.on_same_file {t ta : BPT Value} {h p : Nat} {fl : List Nat} (ho : Owned t h p fl)
    (hf : ta.file = t.file) (hc : ta.coherent) : Owned ta h p fl :=
  ⟨hc, by rw [hf]; exact ho.chain, by rw [hf]; exact ho.shape, by rw [hf]; exact ho.nodup⟩

theorem Reshaped.of_file_eq {t ta t1 : BPT Value} {h p : Nat} {fl fl1 : List Nat}
    {n1 : BPTNode Value} (hr : Reshaped ta t1 h p fl fl1 n1) (hf : ta.file = t.file)
    (hroot : ta.root_page = t.root_page) : Reshaped t t1 h p fl fl1 n1 := by
  obtain ⟨a1, a2, a3, a4, a5, a6, a7, a8, a9⟩ := hr
  rw [hf] at a2 a6 a8 a9
  exact ⟨a1, a2, a3.trans hroot, a4, a5, a6, a7, a8, a9⟩

theorem Reshaped.internal {t t1 : BPT Value} {h p : Nat} {fl fl1 : List Nat}
    {n1 : BPTNode Value} (hr : Reshaped t t1 (h + 1) p fl fl1 n1) :
    n1.is_leaf = false ∧ n1.internal_entries ≠ [] := by
  obtain ⟨n0, hn0, hl, hne, _⟩ := hr.shape
  rw [hr.node] at hn0
  cases hn0
  exact ⟨hl, hne⟩

/-- The recursive `insert` on a well-shaped subtree, with any free list: when it returns, the
subtree is well shaped again, and its pages are those of before and pages taken from the free
list or from the end of the file. -/
theorem insert_rec_shape (k : Key) (v : Value) :
    ∀ (h d p : Nat) (n n1 : BPTNode Value) (t t1 : BPT Value) (fl : List Nat),
      Owned t h p fl → t.file.node_at p = some n →
      insert_rec k v d n p t = .ok (n1, t1) →
      ∃ fl1, Reshaped t t1 h p fl fl1 n1 ∧ n.count ≤ n1.count := by
  intro h
  induction h with
  | zero =>
    intro d p n n1 t t1 fl ho hn hi
    obtain ⟨n0, hn0, hl⟩ := ho.shape
    rw [hn] at hn0
    cases hn0
    cases d with
    | zero => simp [insert_rec] at hi
    | succ d =>
      simp only [insert_rec] at hi
      rw [if_pos hl] at hi
      split at hi
      · cases hi
      · split at hi
        · cases hi
        · rename_i t2 hw
          simp only [Except.ok.injEq, Prod.mk.injEq] at hi
          obtain ⟨rfl, rfl⟩ := hi
          refine ⟨fl, Reshaped.of_leaf_write ho hn hl hw, ?_⟩
          simp [BPTNode.count, hl]
          omega
  | succ h ih =>
    intro d p n n1 t t1 fl ho hn hi
    obtain ⟨n0, hn0, hl, hne, hk⟩ := ho.shape
    rw [hn] at hn0
    cases hn0
    cases d with
    | zero => simp [insert_rec] at hi
    | succ d =>
      simp only [insert_rec] at hi
      rw [if_neg (by simp [hl])] at hi
      split at hi
      · cases hi
      · rename_i e hei
        obtain ⟨hes, hlen⟩ := split_at_index _ _ _ hei
        have hmem : e ∈ n.internal_entries := by
          obtain ⟨h1, h2⟩ := List.getElem?_eq_some_iff.mp hei
          exact h2 ▸ List.getElem_mem h1
        obtain ⟨cn, hcn, _⟩ := (shaped_iff_fits _ _ _).mp (hk e hmem)
        obtain ⟨ta, hr, fa, ra, ca⟩ := disk_read_ok ho.coherent hcn
        simp only [hr] at hi
        split at hi
        · cases hi
        · rename_i cn1 tb hrec
          have hoa : Owned ta (h + 1) p fl := ho.on_same_file fa ca
          have hna : ta.file.node_at p = some n := by rw [fa]; exact hn
          obtain ⟨fl1, hr1, _⟩ := ih d e.child cn cn1 ta tb fl (hoa.child hna hmem)
            (by rw [fa]; exact hcn) hrec
          have hr2 : Reshaped t tb (h + 1) p fl fl1 n :=
            (Reshaped.lift _ e _ hoa hna hes hr1).of_file_eq fa ra
          have hlim : (if cn1.is_leaf = true then L else M) = cn1.limit := rfl
          simp only [hlim] at hi
          split at hi
          · rename_i hfull
            rw [← hlen] at hi
            obtain ⟨fl2, hr3, hc3⟩ := split_child_shape _ e _ (hr2.keeps_owned ho) hr2.node hes
              hr1.node hfull hi
            refine ⟨fl2, hr2.comp hr3, ?_⟩
            have hl1 := hr3.internal.1
            simp only [BPTNode.count, hl, hl1]
            simp only [Bool.false_eq_true, if_false]
            omega
          · simp only [Except.ok.injEq, Prod.mk.injEq] at hi
            obtain ⟨rfl, rfl⟩ := hi
            exact ⟨fl1, hr2, Nat.le_refl _⟩

/-! ## Two neighbouring children are merged, or one entry moves between them -/

theorem pair_at {α : Type} (es : List α) (j : Nat) (a b : α) (ha : es[j]? = some a)
    (hb : es[j + 1]? = some b) :
    es = es.take j ++ [a, b] ++ es.drop (j + 2) ∧ (es.take j).length = j ∧
      es.eraseIdx (j + 1) = es.take j ++ [a] ++ es.drop (j + 2) ∧
      ∀ b1, es.set (j + 1) b1 = es.take j ++ [a, b1] ++ es.drop (j + 2) := by
  obtain ⟨h1, h2⟩ := split_at_index es j a ha
  obtain ⟨h3, h4⟩ := split_at_index es (j + 1) b hb
  have hd : es.drop (j + 1) = b :: es.drop (j + 2) := by
    have hlt : j + 1 < es.length := (List.getElem?_eq_some_iff.mp hb).1
    rw [List.drop_eq_getElem_cons hlt, (List.getElem?_eq_some_iff.mp hb).2]
  have hes : es = es.take j ++ [a, b] ++ es.drop (j + 2) := by
    conv_lhs => rw [h1, hd]
    simp
  refine ⟨hes, h2, ?_, ?_⟩
  · conv_lhs => rw [hes]
    rw [List.append_assoc, List.eraseIdx_append_of_length_le (by rw [h2]; omega), h2,
      show j + 1 - j = 1 by omega]
    simp
  · intro b1
    conv_lhs => rw [hes]
    rw [List.append_assoc, List.set_append_right _ _ (by rw [h2]; omega), h2,
      show j + 1 - j = 1 by omega]
    simp

theorem fits_of_entries {m : Nat → Option (BPTNode Value)} (h : Nat) {a b : BPTNode Value}
    (h1 : b.is_leaf = a.is_leaf) (h2 : b.internal_entries = a.internal_entries)
    (ha : fits m h a) : fits m h b ∧ under m h b = under m h a := by
  cases h with
  | zero => exact ⟨h1.trans ha, rfl⟩
  | succ h =>
    obtain ⟨hl, hne, hk⟩ := ha
    exact ⟨⟨h1.trans hl, by rw [h2]; exact hne, by rw [h2]; exact hk⟩, by simp only [under, h2]⟩

theorem fits_is_leaf {m : Nat → Option (BPTNode Value)} {h : Nat} {a b : BPTNode Value}
    (ha : fits m h a) (hb : fits m h b) : a.is_leaf = b.is_leaf := by
  cases h with
  | zero => exact ha.trans hb.symm
  | succ h => exact ha.1.trans hb.1.symm

/-- The node that holds the entries of two nodes of the same height. -/
theorem fits_append {m : Nat → Option (BPTNode Value)} (h : Nat) {a b : BPTNode Value}
    (ha : fits m h a) (hb : fits m h b) :
    fits m h (a.append b) ∧ under m h (a.append b) = under m h a ++ under m h b := by
  cases h with
  | zero =>
    have hl : a.is_leaf = true := ha
    refine ⟨?_, rfl⟩
    show (a.append b).is_leaf = true
    simp [BPTNode.append, hl]
  | succ h =>
    obtain ⟨hl, hne, hk⟩ := ha
    obtain ⟨hl2, hne2, hk2⟩ := hb
    have e1 : (a.append b).internal_entries = a.internal_entries ++ b.internal_entries := by
      simp [BPTNode.append, hl]
    have e2 : (a.append b).is_leaf = false := by simp [BPTNode.append, hl]
    refine ⟨⟨e2, ?_, ?_⟩, ?_⟩
    · rw [e1]; simp [hne]
    · rw [e1]
      intro e he
      rcases List.mem_append.mp he with he | he
      · exact hk e he
      · exact hk2 e he
    · simp only [under, e1, List.flatMap_append]

/-- The borrow from the left sibling keeps the entries of the two nodes, in order. -/
theorem fits_borrow_left {m : Nat → Option (BPTNode Value)} (h : Nat)
    {c s c1 s1 : BPTNode Value} (hc : fits m h c) (hs : fits m h s)
    (hlow : c.count < c.limit / 2) (hsum : ¬ s.count + c.count ≤ c.limit)
    (hb : borrow_left c s = .ok (c1, s1)) :
    fits m h s1 ∧ fits m h c1 ∧ under m h s1 ++ under m h c1 = under m h s ++ under m h c := by
  cases h with
  | zero =>
    have hl : c.is_leaf = true := hc
    have hl2 : s.is_leaf = true := hs
    simp only [borrow_left, hl, if_true] at hb
    split at hb
    · cases hb
    · split at hb
      · cases hb
      · simp only [Except.ok.injEq, Prod.mk.injEq] at hb
        obtain ⟨rfl, rfl⟩ := hb
        refine ⟨?_, rfl, rfl⟩
        show (s.drop_last).is_leaf = true
        simp [BPTNode.drop_last, hl2]
  | succ h =>
    obtain ⟨hl, hne, hk⟩ := hc
    obtain ⟨hl2, hne2, hk2⟩ := hs
    have hlim : c.limit = 58 := by simp [BPTNode.limit, hl, M]
    have hcc : c.count = c.internal_entries.length := by simp [BPTNode.count, hl]
    have hsc : s.count = s.internal_entries.length := by simp [BPTNode.count, hl2]
    rw [hlim, hcc] at hlow
    rw [hlim, hcc, hsc] at hsum
    simp only [borrow_left, hl, Bool.false_eq_true, if_false] at hb
    split at hb
    · cases hb
    · split at hb
      · cases hb
      · rename_i e hlast
        simp only [Except.ok.injEq, Prod.mk.injEq] at hb
        obtain ⟨rfl, rfl⟩ := hb
        have e1 : s.drop_last.internal_entries = s.internal_entries.dropLast := by
          simp [BPTNode.drop_last, hl2]
        have e2 : s.internal_entries = s.internal_entries.dropLast ++ [e] := by
          have := List.dropLast_append_getLast? e hlast
          exact this.symm
        have hes : e ∈ s.internal_entries := by rw [e2]; simp
        refine ⟨⟨by simp [BPTNode.drop_last, hl2], ?_, ?_⟩, ⟨rfl, by simp, ?_⟩, ?_⟩
        · rw [e1]
          intro h0
          have := congrArg List.length h0
          rw [List.length_dropLast, List.length_nil] at this
          omega
        · rw [e1]
          intro x hx
          exact hk2 x (List.mem_of_mem_dropLast hx)
        · intro x hx
          rcases List.mem_cons.mp hx with rfl | hx
          · exact hk2 _ hes
          · exact hk x hx
        · simp only [under, e1]
          conv_rhs => rw [e2]
          simp only [List.flatMap_append, List.flatMap_cons, List.flatMap_nil, List.append_nil,
            List.append_assoc]

/-- The borrow from the right sibling keeps the entries of the two nodes, in order. -/
theorem fits_borrow_right {m : Nat → Option (BPTNode Value)} (h : Nat)
    {c s c1 s1 : BPTNode Value} (hc : fits m h c) (hs : fits m h s)
    (hlow : c.count < c.limit / 2) (hsum : ¬ s.count + c.count ≤ c.limit)
    (hb : borrow_right c s = .ok (c1, s1)) :
    fits m h c1 ∧ fits m h s1 ∧ under m h c1 ++ under m h s1 = under m h c ++ under m h s := by
  cases h with
  | zero =>
    have hl : c.is_leaf = true := hc
    have hl2 : s.is_leaf = true := hs
    simp only [borrow_right, hl, if_true] at hb
    split at hb
    · cases hb
    · split at hb
      · cases hb
      · simp only [Except.ok.injEq, Prod.mk.injEq] at hb
        obtain ⟨rfl, rfl⟩ := hb
        refine ⟨rfl, ?_, rfl⟩
        show (s.drop_first).is_leaf = true
        simp [BPTNode.drop_first, hl2]
  | succ h =>
    obtain ⟨hl, hne, hk⟩ := hc
    obtain ⟨hl2, hne2, hk2⟩ := hs
    have hlim : c.limit = 58 := by simp [BPTNode.limit, hl, M]
    have hcc : c.count = c.internal_entries.length := by simp [BPTNode.count, hl]
    have hsc : s.count = s.internal_entries.length := by simp [BPTNode.count, hl2]
    rw [hlim, hcc] at hlow
    rw [hlim, hcc, hsc] at hsum
    simp only [borrow_right, hl, Bool.false_eq_true, if_false] at hb
    split at hb
    · cases hb
    · split at hb
      · cases hb
      · rename_i e rest hcons
        simp only [Except.ok.injEq, Prod.mk.injEq] at hb
        obtain ⟨rfl, rfl⟩ := hb
        have e1 : s.drop_first.internal_entries = rest := by
          simp [BPTNode.drop_first, hl2, hcons]
        refine ⟨⟨rfl, by simp, ?_⟩, ⟨by simp [BPTNode.drop_first, hl2], ?_, ?_⟩, ?_⟩
        · intro x hx
          rcases List.mem_append.mp hx with hx | hx
          · exact hk x hx
          · simp only [List.mem_singleton] at hx
            subst hx
            exact hk2 _ (by rw [hcons]; simp)
        · rw [e1]
          intro h0
          rw [hcons, h0] at hsum
          simp at hsum
          omega
        · rw [e1]
          intro x hx
          exact hk2 x (by rw [hcons]; exact List.mem_cons_of_mem _ hx)
        · simp only [under, e1, hcons]
          simp only [List.flatMap_append, List.flatMap_cons, List.flatMap_nil, List.append_nil,
            List.append_assoc]

/-- The pages below two neighbouring children are untouched by writes to the parent and to the
two children. -/
theorem pair_frame {t t1 : BPT Value} {h p : Nat} {fl : List Nat} {n A B : BPTNode Value}
    (pre : List InternalEntry) (ea eb : InternalEntry) (post : List InternalEntry)
    (ho : Owned t (h + 1) p fl) (hn : t.file.node_at p = some n)
    (hes : n.internal_entries = pre ++ [ea, eb] ++ post)
    (hA : t.file.node_at ea.child = some A) (hB : t.file.node_at eb.child = some B)
    (hblk : ∀ x, x ≠ p → x ≠ ea.child → x ≠ eb.child → t1.file.block x = t.file.block x) :
    ∀ x ∈ under t.file.node_at h A ++ under t.file.node_at h B,
      t1.file.node_at x = t.file.node_at x := by
  have hg := grand_frame pre [ea, eb] post ho hn hes
  intro x hx
  rcases List.mem_append.mp hx with hx | hx
  · obtain ⟨_, g1, g2, _⟩ := hg ea (by simp) A hA x hx
    exact node_at_of_block_eq (hblk x g1 (g2 ea (by simp)) (g2 eb (by simp)))
  · obtain ⟨_, g1, g2, _⟩ := hg eb (by simp) B hB x hx
    exact node_at_of_block_eq (hblk x g1 (g2 ea (by simp)) (g2 eb (by simp)))

/-- Two neighbouring children are merged into the left one and the page of the right one is
freed. -/
theorem merge_regroup {t t1 : BPT Value} {h p : Nat} {fl : List Nat}
    {n n1 A B A1 : BPTNode Value}
    (pre : List InternalEntry) (ea eb : InternalEntry) (post : List InternalEntry)
    (ho : Owned t (h + 1) p fl) (hn : t.file.node_at p = some n)
    (hes : n.internal_entries = pre ++ [ea, eb] ++ post)
    (hA : t.file.node_at ea.child = some A) (hB : t.file.node_at eb.child = some B)
    (hfit : fits t.file.node_at h A1)
    (hund : under t.file.node_at h A1 = under t.file.node_at h A ++ under t.file.node_at h B)
    (hc1 : t1.coherent) (hs1 : t1.file.slot1 = t.file.slot1) (hr : t1.root_page = t.root_page)
    (hlen : t1.file.pages.length = t.file.pages.length)
    (hch : t1.file.free_chain t1.file.slot2 (eb.child :: fl))
    (hblk : ∀ x, x ≠ p → x ≠ ea.child → x ≠ eb.child → t1.file.block x = t.file.block x)
    (hp1 : t1.file.node_at p = some n1) (hl1 : n1.is_leaf = false)
    (hes1 : n1.internal_entries = pre ++ [ea] ++ post)
    (hA1 : t1.file.node_at ea.child = some A1) :
    Reshaped t t1 (h + 1) p fl (eb.child :: fl) n1 := by
  have hgf := pair_frame pre ea eb post ho hn hes hA hB hblk
  obtain ⟨sh, su⟩ := node_rebuild h hA1 hfit (fun x hx => hgf x (by rw [← hund]; exact hx))
  refine Reshaped.of_regroup pre [ea, eb] [ea] post ho hn hes hc1 hs1 hr (by omega) hch hp1 hl1
    hes1 (by rw [hes1]; simp) ?_ ?_ ?_
  · intro x h1 h2 _ _
    simp only [List.flatMap_cons, List.flatMap_nil, List.append_nil, List.mem_append,
      not_or] at h1
    exact hblk x h2 (fun h => h1.1 (h ▸ subtree_root_mem _ _ _))
      (fun h => h1.2 (h ▸ subtree_root_mem _ _ _))
  · intro e1 he1
    simp only [List.mem_singleton] at he1
    subst he1
    exact sh
  · simp only [List.flatMap_cons, List.flatMap_nil, List.append_nil]
    rw [su, subtree_eq_under h hA, subtree_eq_under h hB, hund, hlen, Nat.sub_self]
    simp only [List.range'_zero, List.append_nil]
    apply Multiset.coe_eq_coe.mp
    simp only [← Multiset.coe_add, ← Multiset.cons_coe, ← Multiset.singleton_add]
    abel

/-- One entry moves between two neighbouring children. -/
theorem borrow_regroup {t t1 : BPT Value} {h p : Nat} {fl : List Nat}
    {n n1 A B A1 B1 : BPTNode Value}
    (pre : List InternalEntry) (ea eb ea1 eb1 : InternalEntry) (post : List InternalEntry)
    (ho : Owned t (h + 1) p fl) (hn : t.file.node_at p = some n)
    (hes : n.internal_entries = pre ++ [ea, eb] ++ post)
    (hA : t.file.node_at ea.child = some A) (hB : t.file.node_at eb.child = some B)
    (hea : ea1.child = ea.child) (heb : eb1.child = eb.child)
    (hfitA : fits t.file.node_at h A1) (hfitB : fits t.file.node_at h B1)
    (hund : under t.file.node_at h A1 ++ under t.file.node_at h B1 =
      under t.file.node_at h A ++ under t.file.node_at h B)
    (hc1 : t1.coherent) (hs1 : t1.file.slot1 = t.file.slot1) (hr : t1.root_page = t.root_page)
    (hlen : t1.file.pages.length = t.file.pages.length)
    (hch : t1.file.free_chain t1.file.slot2 fl)
    (hblk : ∀ x, x ≠ p → x ≠ ea.child → x ≠ eb.child → t1.file.block x = t.file.block x)
    (hp1 : t1.file.node_at p = some n1) (hl1 : n1.is_leaf = false)
    (hes1 : n1.internal_entries = pre ++ [ea1, eb1] ++ post)
    (hA1 : t1.file.node_at ea.child = some A1) (hB1 : t1.file.node_at eb.child = some B1) :
    Reshaped t t1 (h + 1) p fl fl n1 := by
  have hgf := pair_frame pre ea eb post ho hn hes hA hB hblk
  obtain ⟨sha, sua⟩ := node_rebuild h hA1 hfitA
    (fun x hx => hgf x (by rw [← hund]; exact List.mem_append_left _ hx))
  obtain ⟨shb, sub⟩ := node_rebuild h hB1 hfitB
    (fun x hx => hgf x (by rw [← hund]; exact List.mem_append_right _ hx))
  refine Reshaped.of_regroup pre [ea, eb] [ea1, eb1] post ho hn hes hc1 hs1 hr (by omega) hch
    hp1 hl1 hes1 (by rw [hes1]; simp) ?_ ?_ ?_
  · intro x h1 h2 _ _
    simp only [List.flatMap_cons, List.flatMap_nil, List.append_nil, List.mem_append,
      not_or] at h1
    exact hblk x h2 (fun h => h1.1 (h ▸ subtree_root_mem _ _ _))
      (fun h => h1.2 (h ▸ subtree_root_mem _ _ _))
  · intro e1 he1
    simp only [List.mem_cons, List.mem_singleton, List.not_mem_nil, or_false] at he1
    rcases he1 with rfl | rfl
    · rw [hea]; exact sha
    · rw [heb]; exact shb
  · simp only [List.flatMap_cons, List.flatMap_nil, List.append_nil]
    rw [hea, heb, sua, sub, subtree_eq_under h hA, subtree_eq_under h hB, hlen, Nat.sub_self]
    simp only [List.range'_zero, List.append_nil]
    have h1 := congrArg (fun l : List Nat => (↑l : Multiset Nat)) hund
    apply Multiset.coe_eq_coe.mp
    simp only [← Multiset.coe_add, ← Multiset.cons_coe, ← Multiset.singleton_add] at h1 ⊢
    have e1 : ∀ (a b c d e : Multiset Nat), a + b + (c + d) + e = a + c + (b + d) + e := by
      intros; abel
    rw [e1, h1, e1]

theorem write_spec {t : BPT Value} (hc : t.coherent) (n : BPTNode Value) {p : Nat}
    {n0 : BPTNode Value} (hp : t.file.node_at p = some n0) :
    ∃ t1, disk_write t n p = .ok t1 ∧ Wrote t t1 p n := by
  obtain ⟨t1, h1, h2, h3, h4, h5, h6, h7, h8⟩ := write_at hc n hp
  exact ⟨t1, h1, h2, h3, h4, h5, h6, (MemoryRiver.node_at_eq_some _ _ _).mpr h7, h8⟩

theorem Wrote.other {t t1 : BPT Value} {p : Nat} {n : BPTNode Value} (hw : Wrote t t1 p n)
    {q : Nat} (hq : q ≠ p) : t1.file.node_at q = t.file.node_at q :=
  node_at_of_block_eq (hw.frame q hq)

theorem Wrote.chain {t t1 : BPT Value} {p : Nat} {n n0 : BPTNode Value} (hw : Wrote t t1 p n)
    (hp : t.file.node_at p = some n0) {fl : List Nat}
    (hch : t.file.free_chain t.file.slot2 fl) : t1.file.free_chain t1.file.slot2 fl := by
  rw [hw.slot2]
  apply free_chain_congr fl _ _ hch
  intro y hy
  apply hw.frame
  intro hyp
  have := free_chain_not_node fl _ hch y hy
  rw [hyp, hp] at this
  cases this

/-- The pages of an internal node and of two of its neighbouring children are different. -/
theorem pair_distinct {t : BPT Value} {h p : Nat} {fl : List Nat} {n : BPTNode Value}
    (pre : List InternalEntry) (ea eb : InternalEntry) (post : List InternalEntry)
    (ho : Owned t (h + 1) p fl) (hn : t.file.node_at p = some n)
    (hes : n.internal_entries = pre ++ [ea, eb] ++ post) :
    ea.child ≠ p ∧ eb.child ≠ p ∧ ea.child ≠ eb.child := by
  have hnd := ho.nodup
  have hsub : subtree t.file.node_at (h + 1) p =
      p :: (pre.flatMap (fun e => subtree t.file.node_at h e.child) ++
        (subtree t.file.node_at h ea.child ++ subtree t.file.node_at h eb.child) ++
        post.flatMap (fun e => subtree t.file.node_at h e.child)) := by
    simp only [subtree, hn, hes, List.flatMap_append, List.flatMap_cons, List.flatMap_nil,
      List.append_nil]
  rw [hsub] at hnd
  obtain ⟨_, _, _, hB, nB⟩ := nodup_parts _ _ _ _ _ hnd
  refine ⟨(hB _ (List.mem_append_left _ (subtree_root_mem _ _ _))).2,
    (hB _ (List.mem_append_right _ (subtree_root_mem _ _ _))).2, ?_⟩
  intro h
  exact (List.nodup_append.mp nB).2.2 (subtree_root_mem _ _ _) (h ▸ subtree_root_mem _ _ _)

/-- The merge of two neighbouring children by `remove`: the left one is written with the entries
of both, the parent without the entry of the right one, and the page of the right one is
freed. -/
theorem merge_steps {t ta tb t1 : BPT Value} {h p : Nat} {fl : List Nat}
    {n A B A1 : BPTNode Value}
    (pre : List InternalEntry) (ea eb : InternalEntry) (post : List InternalEntry)
    (ho : Owned t (h + 1) p fl) (hn : t.file.node_at p = some n)
    (hes : n.internal_entries = pre ++ [ea, eb] ++ post)
    (hA : t.file.node_at ea.child = some A) (hB : t.file.node_at eb.child = some B)
    (hfit : fits t.file.node_at h A1)
    (hund : under t.file.node_at h A1 = under t.file.node_at h A ++ under t.file.node_at h B)
    (hw1 : disk_write t A1 ea.child = .ok ta)
    (hw2 : disk_write ta { n with internal_entries := pre ++ [ea] ++ post } p = .ok tb)
    (hd : disk_delete tb eb.child = .ok t1) :
    Reshaped t t1 (h + 1) p fl (eb.child :: fl)
      { n with internal_entries := pre ++ [ea] ++ post } ∧
      t1.file.node_at ea.child = some A1 := by
  obtain ⟨d1, d2, d3⟩ := pair_distinct pre ea eb post ho hn hes
  obtain ⟨ta1, e1, wa⟩ := write_spec ho.coherent A1 hA
  rw [hw1] at e1; cases e1
  have hna : ta.file.node_at p = some n := by rw [wa.other d1.symm]; exact hn
  obtain ⟨tb1, e2, wb⟩ := write_spec wa.coherent
    ({ n with internal_entries := pre ++ [ea] ++ post } : BPTNode Value) hna
  rw [hw2] at e2; cases e2
  have hnb : tb.file.node_at eb.child = some B := by
    rw [wb.other d2, wa.other d3.symm]; exact hB
  have chb := wb.chain hna (wa.chain hA ho.chain)
  obtain ⟨t2, e3, c3, s3, r3, l3, n3, f3, ch3⟩ := free_at wb.coherent chb hnb
  rw [hd] at e3; cases e3
  obtain ⟨n0, hn0, hl, _, _⟩ := ho.shape
  rw [hn] at hn0
  cases hn0
  have hA1 : t1.file.node_at ea.child = some A1 := by
    rw [node_at_of_block_eq (f3 _ d3), wb.other d1]; exact wa.node
  refine ⟨merge_regroup pre ea eb post ho hn hes hA hB hfit hund c3
    (by rw [s3, wb.slot1, wa.slot1]) (by rw [r3, wb.root, wa.root])
    (by rw [l3, wb.len, wa.len]) ch3 ?_ ?_ hl rfl hA1, hA1⟩
  · intro x h1 h2 h3
    rw [f3 x h3, wb.frame x h1, wa.frame x h2]
  · rw [node_at_of_block_eq (f3 p d2.symm)]; exact wb.node

/-- The borrow between two neighbouring children by `remove`: the two children are written, in
either order, and then the parent. -/
theorem borrow_steps {t ta tb t1 : BPT Value} {h p x y : Nat} {fl : List Nat}
    {n n1 A B A1 B1 X Y : BPTNode Value}
    (pre : List InternalEntry) (ea eb ea1 eb1 : InternalEntry) (post : List InternalEntry)
    (ho : Owned t (h + 1) p fl) (hn : t.file.node_at p = some n)
    (hes : n.internal_entries = pre ++ [ea, eb] ++ post)
    (hA : t.file.node_at ea.child = some A) (hB : t.file.node_at eb.child = some B)
    (hea : ea1.child = ea.child) (heb : eb1.child = eb.child)
    (hfitA : fits t.file.node_at h A1) (hfitB : fits t.file.node_at h B1)
    (hund : under t.file.node_at h A1 ++ under t.file.node_at h B1 =
      under t.file.node_at h A ++ under t.file.node_at h B)
    (hxy : (x = ea.child ∧ X = A1 ∧ y = eb.child ∧ Y = B1) ∨
      (x = eb.child ∧ X = B1 ∧ y = ea.child ∧ Y = A1))
    (hw1 : disk_write t X x = .ok ta) (hw2 : disk_write ta Y y = .ok tb)
    (hw3 : disk_write tb n1 p = .ok t1) (hl1 : n1.is_leaf = false)
    (hes1 : n1.internal_entries = pre ++ [ea1, eb1] ++ post) :
    Reshaped t t1 (h + 1) p fl fl n1 := by
  obtain ⟨d1, d2, d3⟩ := pair_distinct pre ea eb post ho hn hes
  have hx : ∃ nx, t.file.node_at x = some nx := by
    rcases hxy with ⟨rfl, _⟩ | ⟨rfl, _⟩
    · exact ⟨_, hA⟩
    · exact ⟨_, hB⟩
  have hy : ∃ ny, t.file.node_at y = some ny := by
    rcases hxy with ⟨_, _, rfl, _⟩ | ⟨_, _, rfl, _⟩
    · exact ⟨_, hB⟩
    · exact ⟨_, hA⟩
  have hxy1 : x ≠ y ∧ x ≠ p ∧ y ≠ p := by
    rcases hxy with ⟨rfl, _, rfl, _⟩ | ⟨rfl, _, rfl, _⟩
    · exact ⟨d3, d1, d2⟩
    · exact ⟨d3.symm, d2, d1⟩
  obtain ⟨nx, hnx⟩ := hx
  obtain ⟨ny, hny⟩ := hy
  obtain ⟨ta1, e1, wa⟩ := write_spec ho.coherent X hnx
  rw [hw1] at e1; cases e1
  have hya : ta.file.node_at y = some ny := by rw [wa.other hxy1.1.symm]; exact hny
  obtain ⟨tb1, e2, wb⟩ := write_spec wa.coherent Y hya
  rw [hw2] at e2; cases e2
  have hpb : tb.file.node_at p = some n := by
    rw [wb.other hxy1.2.2.symm, wa.other hxy1.2.1.symm]; exact hn
  obtain ⟨tc1, e3, wc⟩ := write_spec wb.coherent n1 hpb
  rw [hw3] at e3; cases e3
  have hX : t1.file.node_at x = some X := by
    rw [wc.other hxy1.2.1, wb.other hxy1.1]; exact wa.node
  have hY : t1.file.node_at y = some Y := by
    rw [wc.other hxy1.2.2]; exact wb.node
  have hA1 : t1.file.node_at ea.child = some A1 := by
    rcases hxy with ⟨rfl, rfl, rfl, rfl⟩ | ⟨rfl, rfl, rfl, rfl⟩
    · exact hX
    · exact hY
  have hB1 : t1.file.node_at eb.child = some B1 := by
    rcases hxy with ⟨rfl, rfl, rfl, rfl⟩ | ⟨rfl, rfl, rfl, rfl⟩
    · exact hY
    · exact hX
  refine borrow_regroup pre ea eb ea1 eb1 post ho hn hes hA hB hea heb hfitA hfitB hund
    wc.coherent (by rw [wc.slot1, wb.slot1, wa.slot1]) (by rw [wc.root, wb.root, wa.root])
    (by rw [wc.len, wb.len, wa.len]) (wc.chain hpb (wb.chain hya (wa.chain hnx ho.chain)))
    ?_ wc.node hl1 hes1 hA1 hB1
  intro q h1 h2 h3
  have hqx : q ≠ x ∧ q ≠ y := by
    rcases hxy with ⟨rfl, _, rfl, _⟩ | ⟨rfl, _, rfl, _⟩
    · exact ⟨h2, h3⟩
    · exact ⟨h3, h2⟩
  rw [wc.frame q h1, wb.frame q hqx.2, wa.frame q hqx.1]

theorem append_two {m : Nat → Option (BPTNode Value)} (h : Nat) {a b : BPTNode Value}
    (ha : fits m h a) (hb : fits m h b) (hl : (a.append b).is_leaf = false) :
    2 ≤ (BPTNode.count { a.append b with next_leaf := b.next_leaf }) ∧
      2 ≤ (a.append b).count := by
  cases h with
  | zero =>
    have h1 : a.is_leaf = true := ha
    simp [BPTNode.append, h1] at hl
  | succ h =>
    obtain ⟨h1, h2, _⟩ := ha
    obtain ⟨_, h4, _⟩ := hb
    have := List.length_pos.mpr h2
    have := List.length_pos.mpr h4
    simp only [BPTNode.count, BPTNode.append, h1, Bool.false_eq_true, if_false,
      List.length_append]
    omega

/-- The rebalancing step of `remove` on a well-shaped tree. -/
theorem rebalance_shape {t t1 : BPT Value} {h p i : Nat} {fl : List Nat}
    {n n1 cn : BPTNode Value} {e : InternalEntry}
    (ho : Owned t (h + 1) p fl) (hn : t.file.node_at p = some n)
    (hei : n.internal_entries[i]? = some e)
    (hcn : t.file.node_at e.child = some cn)
    (hlow : cn.count < cn.limit / 2)
    (hrb : rebalance n p i cn e.child t = .ok (n1, t1)) :
    ∃ fl1, Reshaped t t1 (h + 1) p fl fl1 n1 ∧ merged_or_kept t1.file.node_at n n1 := by
  obtain ⟨n0, hn0, hl, hne, hk⟩ := ho.shape
  rw [hn] at hn0
  cases hn0
  have hmem : ∀ {j : Nat} {x : InternalEntry}, n.internal_entries[j]? = some x →
      x ∈ n.internal_entries := by
    intro j x hx
    obtain ⟨h1, h2⟩ := List.getElem?_eq_some_iff.mp hx
    exact h2 ▸ List.getElem_mem h1
  have hfc : fits t.file.node_at h cn := by
    obtain ⟨c0, hc0, hf⟩ := (shaped_iff_fits _ _ _).mp (hk e (hmem hei))
    rw [hcn] at hc0; cases hc0; exact hf
  have hlim : (if cn.is_leaf = true then L else M) = cn.limit := rfl
  simp only [rebalance, bind, Except.bind, hlim] at hrb
  split at hrb
  · cases hrb
  · rename_i se hse
    obtain ⟨sn, hsn, hfs⟩ := (shaped_iff_fits _ _ _).mp (hk se (hmem hse))
    obtain ⟨ta, hr, fa, ra, ca⟩ := disk_read_ok ho.coherent hsn
    simp only [hr] at hrb
    have hoa : Owned ta (h + 1) p fl := ho.on_same_file fa ca
    rw [← fa] at hn hcn hsn hfc hfs
    split at hrb
    · cases hrb
    · by_cases hi0 : 0 < i
      · simp only [hi0, if_true] at hrb hse
        obtain ⟨hes, _, her, hset⟩ := pair_at n.internal_entries (i - 1) se e hse
          (by rw [show i - 1 + 1 = i by omega]; exact hei)
        rw [show i - 1 + 1 = i by omega] at her hset
        split at hrb
        · -- merge into the left sibling
          rw [her] at hrb
          split at hrb
          · cases hrb
          · rename_i tb hw1
            split at hrb
            · cases hrb
            · rename_i tc hw2
              split at hrb
              · cases hrb
              · rename_i td hd
                simp only [pure, Except.pure, Except.ok.injEq, Prod.mk.injEq] at hrb
                obtain ⟨rfl, rfl⟩ := hrb
                obtain ⟨f1, f2⟩ := fits_append h hfs hfc
                obtain ⟨f3, f4⟩ := fits_of_entries h
                  (a := sn.append cn)
                  (b := { sn.append cn with next_leaf := cn.next_leaf }) rfl rfl f1
                obtain ⟨m1, m2⟩ := merge_steps _ se e _ hoa hn hes hsn hcn f3 (f4.trans f2)
                  hw1 hw2 hd
                exact ⟨_, m1.of_file_eq fa ra, Or.inr ⟨se, by simp, _, m2,
                  fun hf => (append_two h hfs hfc hf).1⟩⟩
        · -- borrow from the left sibling
          rename_i hsum
          split at hrb
          · cases hrb
          · rename_i v hb
            obtain ⟨c1, s1⟩ := v
            obtain ⟨g1, g2, g3⟩ := fits_borrow_left h hfc hfs hlow hsum hb
            simp only at hrb
            split at hrb
            · cases hrb
            · rename_i key _
              simp only [BPTNode.set_key, hei, hset] at hrb
              split at hrb
              · cases hrb
              · rename_i tb hw1
                split at hrb
                · cases hrb
                · rename_i tc hw2
                  split at hrb
                  · cases hrb
                  · rename_i td hw3
                    simp only [pure, Except.pure, Except.ok.injEq, Prod.mk.injEq] at hrb
                    obtain ⟨rfl, rfl⟩ := hrb
                    exact ⟨_, (borrow_steps _ se e se { e with index := key } _ hoa hn hes hsn
                      hcn rfl rfl g1 g2 g3 (Or.inr ⟨rfl, rfl, rfl, rfl⟩) hw1 hw2 hw3 hl
                      rfl).of_file_eq fa ra, Or.inl (by
                        have hlen := congrArg List.length hes
                        simp only [List.length_append, List.length_cons, List.length_nil]
                          at hlen
                        simp only [BPTNode.count, hl, Bool.false_eq_true, if_false,
                          List.length_append, List.length_cons, List.length_nil]
                        omega)⟩
      · have hi : i = 0 := by omega
        subst hi
        simp only [Nat.lt_irrefl, if_false] at hrb hse
        obtain ⟨hes, _, her, hset⟩ := pair_at n.internal_entries 0 e se hei hse
        split at hrb
        · -- merge with the right sibling
          rw [her] at hrb
          split at hrb
          · cases hrb
          · rename_i tb hw1
            split at hrb
            · cases hrb
            · rename_i tc hw2
              split at hrb
              · cases hrb
              · rename_i td hd
                simp only [pure, Except.pure, Except.ok.injEq, Prod.mk.injEq] at hrb
                obtain ⟨rfl, rfl⟩ := hrb
                obtain ⟨f1, f2⟩ := fits_append h hfc hfs
                obtain ⟨m1, m2⟩ := merge_steps _ e se _ hoa hn hes hcn hsn f1 f2 hw1 hw2 hd
                exact ⟨_, m1.of_file_eq fa ra, Or.inr ⟨e, by simp, _, m2,
                  fun hf => (append_two h hfc hfs hf).2⟩⟩
        · -- borrow from the right sibling
          rename_i hsum
          split at hrb
          · cases hrb
          · rename_i v hb
            obtain ⟨c1, s1⟩ := v
            obtain ⟨g1, g2, g3⟩ := fits_borrow_right h hfc hfs hlow hsum hb
            simp only at hrb
            split at hrb
            · cases hrb
            · rename_i key _
              simp only [BPTNode.set_key, hse, hset] at hrb
              split at hrb
              · cases hrb
              · rename_i tb hw1
                split at hrb
                · cases hrb
                · rename_i tc hw2
                  split at hrb
                  · cases hrb
                  · rename_i td hw3
                    simp only [pure, Except.pure, Except.ok.injEq, Prod.mk.injEq] at hrb
                    obtain ⟨rfl, rfl⟩ := hrb
                    exact ⟨_, (borrow_steps _ e se e { se with index := key } _ hoa hn hes hcn
                      hsn rfl rfl g1 g2 g3 (Or.inl ⟨rfl, rfl, rfl, rfl⟩) hw1 hw2 hw3 hl
                      rfl).of_file_eq fa ra, Or.inl (by
                        have hlen := congrArg List.length hes
                        simp only [List.length_append, List.length_cons, List.length_nil]
                          at hlen
                        simp only [BPTNode.count, hl, Bool.false_eq_true, if_false,
                          List.length_append, List.length_cons, List.length_nil]
                        omega)⟩

/-- The loop over the children in the recursive `remove`, given what the recursive call does on
a child. -/
theorem remove_scan_shape [BEq Value] (k : Key) (v : Value) (h d : Nat)
    (ih : ∀ (p : Nat) (n n1 : BPTNode Value) (t t1 : BPT Value) (fl : List Nat) (flag : Bool),
      Owned t h p fl → t.file.node_at p = some n →
      remove_rec k v d n p t = .ok (flag, n1, t1) →
      ∃ fl1, Reshaped t t1 h p fl fl1 n1 ∧ (flag = false → t1.file = t.file ∧ n1 = n) ∧
        (n.is_leaf = false → merged_or_kept t1.file.node_at n n1)) :
    ∀ (cnt i p : Nat) (n n1 : BPTNode Value) (t t1 : BPT Value) (fl : List Nat) (flag : Bool),
      Owned t (h + 1) p fl → t.file.node_at p = some n →
      remove_scan k (remove_rec k v d) cnt i n p t = .ok (flag, n1, t1) →
      ∃ fl1, Reshaped t t1 (h + 1) p fl fl1 n1 ∧ (flag = false → t1.file = t.file ∧ n1 = n) ∧
        (n.is_leaf = false → merged_or_kept t1.file.node_at n n1) := by
  intro cnt
  induction cnt with
  | zero =>
    intro i p n n1 t t1 fl flag ho hn hs
    simp only [remove_scan, Except.ok.injEq, Prod.mk.injEq] at hs
    obtain ⟨rfl, rfl, rfl⟩ := hs
    exact ⟨fl, Reshaped.same ho hn rfl ho.coherent rfl, fun _ => ⟨rfl, rfl⟩, fun _ => Or.inl (Nat.le_refl _)⟩
  | succ cnt ihc =>
    intro i p n n1 t t1 fl flag ho hn hs
    obtain ⟨n0, hn0, hl, hne, hk⟩ := ho.shape
    rw [hn] at hn0
    cases hn0
    simp only [remove_scan] at hs
    split at hs
    · simp only [Except.ok.injEq, Prod.mk.injEq] at hs
      obtain ⟨rfl, rfl, rfl⟩ := hs
      exact ⟨fl, Reshaped.same ho hn rfl ho.coherent rfl, fun _ => ⟨rfl, rfl⟩, fun _ => Or.inl (Nat.le_refl _)⟩
    · rename_i e hei
      split at hs
      · obtain ⟨hes, _⟩ := split_at_index _ _ _ hei
        have hmem : e ∈ n.internal_entries := by
          obtain ⟨h1, h2⟩ := List.getElem?_eq_some_iff.mp hei
          exact h2 ▸ List.getElem_mem h1
        obtain ⟨cn, hcn, _⟩ := (shaped_iff_fits _ _ _).mp (hk e hmem)
        obtain ⟨ta, hr, fa, ra, ca⟩ := disk_read_ok ho.coherent hcn
        simp only [hr] at hs
        have hoa : Owned ta (h + 1) p fl := ho.on_same_file fa ca
        have hna : ta.file.node_at p = some n := by rw [fa]; exact hn
        split at hs
        · cases hs
        · rename_i flag1 cn1 tb hrec
          obtain ⟨fl1, hr1, hf1, _⟩ := ih e.child cn cn1 ta tb fl flag1 (hoa.child hna hmem)
            (by rw [fa]; exact hcn) hrec
          cases flag1 with
          | false =>
            simp only [Bool.not_false, if_true] at hs
            obtain ⟨hfb, _⟩ := hf1 rfl
            have hfb2 : tb.file = t.file := hfb.trans fa
            obtain ⟨fl2, hr2, hf2, hm2⟩ := ihc (i + 1) p n n1 tb t1 fl flag
              (ho.on_same_file hfb2 hr1.coherent) (by rw [hfb2]; exact hn) hs
            exact ⟨fl2, hr2.of_file_eq hfb2 (hr1.root.trans ra),
              fun hf => ⟨(hf2 hf).1.trans hfb2, (hf2 hf).2⟩, hm2⟩
          | true =>
            simp only [Bool.not_true, Bool.false_eq_true, if_false] at hs
            have hr2 : Reshaped t tb (h + 1) p fl fl1 n :=
              (Reshaped.lift _ e _ hoa hna hes hr1).of_file_eq fa ra
            have hlim : (if cn1.is_leaf = true then L else M) = cn1.limit := rfl
            simp only [hlim] at hs
            split at hs
            · rename_i hcond
              simp only [Bool.and_eq_true, decide_eq_true_eq] at hcond
              split at hs
              · cases hs
              · rename_i n2 t2 hrb
                simp only [Except.ok.injEq, Prod.mk.injEq] at hs
                obtain ⟨rfl, rfl, rfl⟩ := hs
                obtain ⟨fl2, hr3, hm3⟩ := rebalance_shape (hr2.keeps_owned ho) hr2.node hei hr1.node
                  hcond.1 hrb
                exact ⟨fl2, hr2.comp hr3, (fun hf => by cases hf), fun _ => hm3⟩
            · simp only [Except.ok.injEq, Prod.mk.injEq] at hs
              obtain ⟨rfl, rfl, rfl⟩ := hs
              exact ⟨fl1, hr2, (fun hf => by cases hf), fun _ => Or.inl (Nat.le_refl _)⟩
      · simp only [Except.ok.injEq, Prod.mk.injEq] at hs
        obtain ⟨rfl, rfl, rfl⟩ := hs
        exact ⟨fl, Reshaped.same ho hn rfl ho.coherent rfl, fun _ => ⟨rfl, rfl⟩, fun _ => Or.inl (Nat.le_refl _)⟩

/-- The recursive `remove` on a well-shaped subtree: when it returns, the subtree is well shaped
again and its pages are those of before or have gone to the free list; when it returns `false`
the file is untouched. -/
theorem remove_rec_shape [BEq Value] (k : Key) (v : Value) :
    ∀ (h d p : Nat) (n n1 : BPTNode Value) (t t1 : BPT Value) (fl : List Nat) (flag : Bool),
      Owned t h p fl → t.file.node_at p = some n →
      remove_rec k v d n p t = .ok (flag, n1, t1) →
      ∃ fl1, Reshaped t t1 h p fl fl1 n1 ∧ (flag = false → t1.file = t.file ∧ n1 = n) ∧
        (n.is_leaf = false → merged_or_kept t1.file.node_at n n1) := by
  intro h
  induction h with
  | zero =>
    intro d p n n1 t t1 fl flag ho hn hi
    obtain ⟨n0, hn0, hl⟩ := ho.shape
    rw [hn] at hn0
    cases hn0
    cases d with
    | zero => simp [remove_rec] at hi
    | succ d =>
      simp only [remove_rec] at hi
      rw [if_pos hl] at hi
      split at hi
      · simp only [Except.ok.injEq, Prod.mk.injEq] at hi
        obtain ⟨rfl, rfl, rfl⟩ := hi
        exact ⟨fl, Reshaped.same ho hn rfl ho.coherent rfl, fun _ => ⟨rfl, rfl⟩, fun _ => Or.inl (Nat.le_refl _)⟩
      · split at hi
        · cases hi
        · rename_i t2 hw
          simp only [Except.ok.injEq, Prod.mk.injEq] at hi
          obtain ⟨rfl, rfl, rfl⟩ := hi
          exact ⟨fl, Reshaped.of_leaf_write ho hn hl hw, (fun hf => by cases hf),
            (fun hf => by rw [hl] at hf; cases hf)⟩
  | succ h ih =>
    intro d p n n1 t t1 fl flag ho hn hi
    obtain ⟨n0, hn0, hl, hne, hk⟩ := ho.shape
    rw [hn] at hn0
    cases hn0
    cases d with
    | zero => simp [remove_rec] at hi
    | succ d =>
      simp only [remove_rec] at hi
      rw [if_neg (by simp [hl])] at hi
      exact remove_scan_shape k v h d (ih d) _ _ p n n1 t t1 fl flag ho hn hi

/-! ## The state between two public calls -/

theorem BPT.sound.owned {t : BPT Value} {h : Nat} {fl : List Nat} (hs : t.sound h fl) :
    Owned t (h + 1) t.root_page fl :=
  ⟨hs.1, hs.2.2.2.1, hs.2.2.1,
    (List.Perm.nodup_iff hs.2.2.2.2.1).mpr (List.nodup_range' _ _)⟩

theorem range'_extend (a b : Nat) (h : a ≤ b) :
    List.range' 1 a ++ List.range' (a + 1) (b - a) = List.range' 1 b := by
  have := @List.range'_append 1 a (b - a) 1
  rw [show 1 + 1 * a = a + 1 by omega, show b - a + a = b by omega] at this
  exact this

/-- A step on the subtree of the root keeps every page of the file in the tree or on the free
list. -/
theorem Reshaped.cover {t t1 : BPT Value} {h : Nat} {fl fl1 : List Nat} {n1 : BPTNode Value}
    (hr : Reshaped t t1 h t.root_page fl fl1 n1)
    (hp : (subtree t.file.node_at h t.root_page ++ fl).Perm
      (List.range' 1 t.file.pages.length)) :
    (subtree t1.file.node_at h t.root_page ++ fl1).Perm (List.range' 1 t1.file.pages.length) := by
  rw [← range'_extend _ _ hr.len]
  exact hr.perm.trans (hp.append_right _)

theorem alloc_perm {t : BPT Value} (hc : t.coherent) {fl : List Nat}
    (hch : t.file.free_chain t.file.slot2 fl) (hnd : fl.Nodup) (n : BPTNode Value) :
    ∃ q t1 fl1, disk_alloc t n = .ok (q, t1) ∧ t1.coherent ∧ t1.file.slot1 = t.file.slot1 ∧
      t1.root_page = t.root_page ∧ t.file.node_at q = none ∧
      t1.file.node_at q = some n ∧ (∀ x, x ≠ q → t1.file.block x = t.file.block x) ∧
      t1.file.free_chain t1.file.slot2 fl1 ∧ fl1.Nodup ∧
      t.file.pages.length ≤ t1.file.pages.length ∧
      (q :: fl1).Perm (fl ++
        List.range' (t.file.pages.length + 1) (t1.file.pages.length - t.file.pages.length)) := by
  obtain ⟨q, t1, fl1, h1, h2, h3, h4, h5, h6, h7, h8, h9⟩ := alloc_at hc hch hnd n
  refine ⟨q, t1, fl1, h1, h2, h3, h4, h5, (MemoryRiver.node_at_eq_some _ _ _).mpr h6, h7, h8,
    ?_, ?_, ?_⟩
  · rcases h9 with ⟨rfl, _⟩ | ⟨_, rfl, _, _⟩
    · exact (List.nodup_cons.mp hnd).2
    · exact List.nodup_nil
  · rcases h9 with ⟨_, h⟩ | ⟨_, _, _, h⟩ <;> omega
  · rcases h9 with ⟨rfl, h⟩ | ⟨rfl, rfl, rfl, h⟩
    · rw [h, Nat.sub_self]
      simp
    · rw [h, Nat.add_sub_cancel_left]
      simp

/-- The tree built by the constructor on a new file. -/
theorem sound_fresh {t : BPT Value}
    (h : BPT.open (MemoryRiver.fresh : MemoryRiver Value) = .ok t) : t.sound 0 [] := by
  obtain ⟨t1, l0, r, e, _, hc, hl, hr, hroot, hs1, hs2, hfresh, hoth⟩ :=
    initialize_new_tree_spec
      ({ file := MemoryRiver.fresh, root_page := (MemoryRiver.fresh : MemoryRiver Value).get_info 1,
         cache := { cache_list := [], capacity := 128 } } : BPT Value)
      (coherent_empty _ _ _) (Or.inl rfl)
  have ht : t = t1 := by
    have : BPT.open (MemoryRiver.fresh : MemoryRiver Value) = .ok t1 := by
      simp only [BPT.open]
      exact e
    rw [h] at this
    cases this; rfl
  subst ht
  obtain ⟨rfl, rfl⟩ := hfresh rfl
  have hl1 : t.file.node_at 1 = some { is_leaf := true, parent := 2, next_leaf := 0 } := hl
  have hr1 : t.file.node_at 2 = some
      { is_leaf := false, parent := 0, next_leaf := 0,
        internal_entries := [{ index := zero_key, child := 1 }] } := hr
  have hroot2 : t.root_page = 2 := hroot
  have hlen : t.file.pages.length = 2 := by
    have h1 := (MemoryRiver.node_at_bound hr1).2
    have h3 : t.file.block 3 = none := by
      rw [hoth 3 (by simp [MemoryRiver.fresh]) (by simp [MemoryRiver.fresh])]
      rfl
    have h4 : ¬ (1 ≤ 3 ∧ 3 ≤ t.file.pages.length) := by
      rw [← MemoryRiver.block_isSome_iff, h3]
      simp
    omega
  refine ⟨hc, by rw [hroot]; exact hs1, ?_, hs2, ?_, fun _ _ _ => rfl⟩
  · rw [hroot2]
    exact ⟨_, hr1, rfl, by simp, fun e he => by
      simp only [List.mem_singleton] at he
      subst he
      exact ⟨_, hl1, rfl⟩⟩
  · rw [hroot2, hlen]
    simp only [subtree, hr1, List.flatMap_cons, List.flatMap_nil, List.append_nil]
    decide

theorem grow_root_sound {t t1 : BPT Value} {h : Nat} {fl : List Nat} {n : BPTNode Value}
    (hs : t.sound h fl) (hn : t.file.node_at t.root_page = some n) (hfull : M ≤ n.count)
    (hg : grow_root n t = .ok t1) : ∃ fl1, t1.sound (h + 1) fl1 := by
  have ho := hs.owned
  obtain ⟨n0, hn0, hl, hne, hk⟩ := ho.shape
  rw [hn] at hn0
  cases hn0
  have hnd_fl : fl.Nodup := (List.nodup_append.mp ho.nodup).2.1
  obtain ⟨q1, ta, fla, ha, ca, sa1, ra, hq0, hqa, hfa, cha, nda, lena, pa⟩ :=
    alloc_perm ho.coherent ho.chain hnd_fl
      ({ is_leaf := false, parent := 0, next_leaf := 0 } : BPTNode Value)
  simp only [grow_root, hl, Bool.false_eq_true, if_false, bind, Except.bind, ha] at hg
  rw [ra] at hg
  have hlimit : n.limit = 58 := by simp [BPTNode.limit, hl, M]
  have hfit : fits t.file.node_at (h + 1) n := ⟨hl, hne, hk⟩
  obtain ⟨fl0, fr0, hund0⟩ := fits_halves (h + 1) q1 hfit (by rw [hlimit]; exact hfull)
  split at hg
  · cases hg
  · rename_i key0 _
    split at hg
    · cases hg
    · rename_i key1 _
      obtain ⟨q2, tb, flb, hb, cb, sb1, rb, hq20, hq2b, hfb, chb, ndb, lenb, pb⟩ :=
        alloc_perm ca cha nda
          ({ is_leaf := false, parent := 0, next_leaf := 0,
             internal_entries :=
              [{ index := key0, child := t.root_page }, { index := key1, child := q1 }] } :
            BPTNode Value)
      rw [hb] at hg
      simp only at hg
      -- the three pages are different
      have hrq1 : t.root_page ≠ q1 := by
        intro h; rw [← h, hn] at hq0; cases hq0
      have hna : ta.file.node_at t.root_page = some n := by
        rw [node_at_of_block_eq (hfa _ hrq1)]; exact hn
      have hrq2 : t.root_page ≠ q2 := by
        intro h; rw [← h, hna] at hq20; cases hq20
      have hq12 : q1 ≠ q2 := by
        intro h; rw [← h, hqa] at hq20; cases hq20
      have hnb : tb.file.node_at t.root_page = some n := by
        rw [node_at_of_block_eq (hfb _ hrq2)]; exact hna
      obtain ⟨tc, hwc, wc⟩ := write_spec
        (t := ({ file := tb.file, root_page := q2, cache := tb.cache } : BPT Value)) cb
        ({ is_leaf := false, parent := q2, next_leaf := q1, leaf_entries := n.leaf_entries,
           internal_entries := List.take (M / 2) n.internal_entries } : BPTNode Value) hnb
      rw [hwc] at hg
      simp only at hg
      have hq1c : tc.file.node_at q1 =
          some ({ is_leaf := false, parent := 0, next_leaf := 0 } : BPTNode Value) := by
        rw [wc.other hrq1.symm]
        show tb.file.node_at q1 = _
        rw [node_at_of_block_eq (hfb _ hq12)]; exact hqa
      obtain ⟨td, hwd, wd⟩ := write_spec wc.coherent
        ({ is_leaf := false, parent := q2, next_leaf := 0, leaf_entries := [],
           internal_entries := List.drop (M / 2) n.internal_entries } : BPTNode Value) hq1c
      rw [hwd] at hg
      simp only [pure, Except.pure, Except.ok.injEq] at hg
      have hf1 : t1.file = td.file.write_info q2 1 := by rw [← hg]
      have hr1 : t1.root_page = td.root_page := by rw [← hg]
      have hc1 : t1.coherent := by
        rw [← hg]; exact coherent_write_info wd.coherent q2 1
      -- the nodes of the three pages in the final state
      have hnode : ∀ x, t1.file.node_at x = td.file.node_at x := by
        intro x
        apply node_at_of_block_eq
        rw [hf1]
        exact block_write_info _ _ _ _
      have h2 : td.file.node_at q2 = some
          { is_leaf := false, parent := 0, next_leaf := 0,
            internal_entries :=
              [{ index := key0, child := t.root_page }, { index := key1, child := q1 }] } := by
        rw [wd.other hq12.symm, wc.other hrq2.symm]; exact hq2b
      have hr : td.file.node_at t.root_page = some
          { is_leaf := false, parent := q2, next_leaf := q1, leaf_entries := n.leaf_entries,
            internal_entries := List.take (M / 2) n.internal_entries } := by
        rw [wd.other hrq1]; exact wc.node
      have hfrm : ∀ x, x ≠ t.root_page → x ≠ q1 → x ≠ q2 →
          td.file.block x = t.file.block x := by
        intro x x1 x2 x3
        rw [wd.frame x x2, wc.frame x x1]
        show tb.file.block x = _
        rw [hfb x x3, hfa x x2]
      -- the halves stand at the height of the old root
      obtain ⟨fl1, ul1⟩ := fits_of_entries (h + 1) (a := n.left_half q1)
        (b :=
          ({ is_leaf := false, parent := q2, next_leaf := q1, leaf_entries := n.leaf_entries,
             internal_entries := List.take (M / 2) n.internal_entries } : BPTNode Value))
        (by simp [BPTNode.left_half, BPTNode.truncate, hl])
        (by simp [BPTNode.left_half, BPTNode.truncate, hl, hlimit, M]) fl0
      obtain ⟨fr1, ur1⟩ := fits_of_entries (h + 1) (a := n.right_half)
        (b :=
          ({ is_leaf := false, parent := q2, next_leaf := 0, leaf_entries := [],
             internal_entries := List.drop (M / 2) n.internal_entries } : BPTNode Value))
        (by simp [BPTNode.right_half, hl])
        (by simp [BPTNode.right_half, hl, hlimit, M]) fr0
      have hsub : subtree t.file.node_at (h + 1) t.root_page =
          t.root_page :: under t.file.node_at (h + 1) n := subtree_eq_under _ hn
      have hnd := ho.nodup
      rw [hsub] at hnd
      have hgf : ∀ x ∈ under t.file.node_at (h + 1) n,
          td.file.node_at x = t.file.node_at x := by
        intro x hx
        have hxs : x ∈ subtree t.file.node_at (h + 1) t.root_page := by
          rw [hsub]; exact List.mem_cons_of_mem _ hx
        obtain ⟨nx, hnx⟩ := shaped_defined _ _ ho.shape x hxs
        have x1 : x ≠ t.root_page := by
          rintro rfl
          exact (List.nodup_cons.mp (List.nodup_append.mp hnd).1).1 hx
        have x2 : x ≠ q1 := by
          rintro rfl; rw [hq0] at hnx; cases hnx
        have x3 : x ≠ q2 := by
          rintro rfl
          rw [node_at_of_block_eq (hfa _ x2), hnx] at hq20; cases hq20
        exact node_at_of_block_eq (hfrm x x1 x2 x3)
      obtain ⟨shl, sul⟩ := node_rebuild (h + 1) hr fl1
        (fun x hx => hgf x (by rw [← hund0, ← ul1]; exact List.mem_append_left _ hx))
      obtain ⟨shr, sur⟩ := node_rebuild (h + 1) wd.node fr1
        (fun x hx => hgf x (by rw [← hund0, ← ur1]; exact List.mem_append_right _ hx))
      have hroot : td.root_page = q2 := by rw [wd.root, wc.root]
      have hm : t1.file.node_at = td.file.node_at := funext hnode
      refine ⟨flb, hc1, ?_, ?_, ?_, ?_, ?_⟩
      · rw [hf1, hr1, hroot]; simp [MemoryRiver.write_info]
      · rw [hm, hr1, hroot]
        refine ⟨_, h2, rfl, by simp, ?_⟩
        intro e he
        simp only [List.mem_cons, List.mem_singleton, List.not_mem_nil, or_false] at he
        rcases he with rfl | rfl
        · exact shl
        · exact shr
      · have hs2 : t1.file.slot2 = td.file.slot2 := by
          rw [hf1]; simp [MemoryRiver.write_info]
        rw [hs2]
        have chc : tc.file.free_chain tc.file.slot2 flb :=
          wc.chain (t := ({ file := tb.file, root_page := q2, cache := tb.cache } : BPT Value))
            hnb chb
        exact @free_chain_congr Value td.file t1.file flb td.file.slot2
          (fun x _ => by rw [hf1, block_write_info]) (wd.chain hq1c chc)
      · have hlen : t1.file.pages.length = tb.file.pages.length := by
          rw [hf1, pages_write_info, wd.len, wc.len]
        rw [hm, hr1, hroot, hlen, ← range'_extend _ _ (Nat.le_trans lena lenb),
          ← range'_split _ _ _ lena lenb]
        have e1 : subtree td.file.node_at (h + 1 + 1) q2 =
            q2 :: (subtree td.file.node_at (h + 1) t.root_page ++
              subtree td.file.node_at (h + 1) q1) := by
          simp only [subtree, h2, List.flatMap_cons, List.flatMap_nil, List.append_nil]
        rw [e1, sul, sur, ul1, ur1]
        have hp0 := hs.2.2.2.2.1
        rw [hsub, ← hund0] at hp0
        have m0 := Multiset.coe_eq_coe.mpr hp0
        have m1 := Multiset.coe_eq_coe.mpr pa
        have m2 := Multiset.coe_eq_coe.mpr pb
        apply Multiset.coe_eq_coe.mp
        simp only [← Multiset.coe_add, ← Multiset.cons_coe, ← Multiset.singleton_add]
          at m0 m1 m2 ⊢
        rw [← m0]
        have e2 : ∀ (a b c d e f g h : Multiset Nat), {q1} + f = g + d → {q2} + c = f + e →
            {q2} + (a + b + ({q1} + h)) + c = a + (b + h) + g + (d + e) := by
          intro a b c d e f g h k1 k2
          have : {q2} + (a + b + ({q1} + h)) + c = a + b + h + ({q1} + ({q2} + c)) := by abel
          rw [this, k2, ← add_assoc ({q1} : Multiset Nat), k1]
          abel
        exact e2 _ _ _ _ _ _ _ _ m1 m2
      · intro n' hn' hc'
        rw [hm, hr1, hroot, h2] at hn'
        cases hn'
        simp [BPTNode.count] at hc'

/-- The state after the recursive call on the root, before the root is split or replaced. -/
theorem Reshaped.sound {t t1 : BPT Value} {h : Nat} {fl fl1 : List Nat} {n n1 : BPTNode Value}
    (hs : t.sound h fl) (hr : Reshaped t t1 (h + 1) t.root_page fl fl1 n1)
    (hn : t.file.node_at t.root_page = some n) (hcnt : n1.count = 1 → n.count ≤ 1) :
    t1.sound h fl1 := by
  refine ⟨hr.coherent, ?_, ?_, hr.chain, ?_, ?_⟩
  · rw [hr.slot1, hr.root]; exact hs.2.1
  · rw [hr.root]; exact hr.shape
  · rw [hr.root]; exact hr.cover hs.2.2.2.2.1
  · intro n' hn' hc
    rw [hr.root, hr.node] at hn'
    cases hn'
    obtain ⟨n0, hn0, hl, hne, _⟩ := hs.2.2.1
    rw [hn] at hn0
    cases hn0
    have := List.length_pos.mpr hne
    exact hs.2.2.2.2.2 n hn (by
      have := hcnt hc
      simp only [BPTNode.count, hl, Bool.false_eq_true, if_false] at this ⊢
      omega)

/-- The public `insert` keeps the tree well shaped and every page accounted for. -/
theorem insert_sound {t t1 : BPT Value} {h : Nat} {fl : List Nat} (hs : t.sound h fl)
    (k : Key) (v : Value) (hi : t.insert k v = .ok t1) : ∃ h1 fl1, t1.sound h1 fl1 := by
  have ho := hs.owned
  obtain ⟨n, hn, _⟩ := ho.node
  obtain ⟨ta, hr, fa, ra, ca⟩ := disk_read_ok ho.coherent hn
  simp only [BPT.insert, bind, Except.bind, hr] at hi
  split at hi
  · cases hi
  · rename_i _ r hrec
    obtain ⟨n1, tb⟩ := r
    rw [ra] at hrec
    obtain ⟨fl1, hr1, hcnt⟩ := insert_rec_shape k v (h + 1) _ t.root_page n n1 ta tb fl
      (ho.on_same_file fa ca) (by rw [fa]; exact hn) hrec
    have hr2 : Reshaped t tb (h + 1) t.root_page fl fl1 n1 := hr1.of_file_eq fa ra
    have hsb : tb.sound h fl1 := hr2.sound hs hn (fun h1 => by omega)
    simp only at hi
    split at hi
    · rename_i hfull
      obtain ⟨fl2, h2⟩ := grow_root_sound hsb (by rw [hr2.root]; exact hr2.node) hfull hi
      exact ⟨_, fl2, h2⟩
    · simp only [pure, Except.pure, Except.ok.injEq] at hi
      subst hi
      exact ⟨h, fl1, hsb⟩

/-- The root with a single entry is replaced by its child when the child is an internal node. -/
theorem shrink_root_sound {t t1 : BPT Value} {h : Nat} {fl : List Nat} {n : BPTNode Value}
    (ho : Owned t (h + 1) t.root_page fl) (hslot : t.file.slot1 = t.root_page)
    (hperm : (subtree t.file.node_at (h + 1) t.root_page ++ fl).Perm
      (List.range' 1 t.file.pages.length))
    (hn : t.file.node_at t.root_page = some n) (hc1 : n.count = 1)
    (hbig : h = 0 ∨ ∃ e ∈ n.internal_entries, ∃ c, t.file.node_at e.child = some c ∧
      (c.is_leaf = false → 2 ≤ c.count))
    (hsh : shrink_root n t = .ok t1) : ∃ h1 fl1, t1.sound h1 fl1 := by
  obtain ⟨n0, hn0, hl, hne, hk⟩ := ho.shape
  rw [hn] at hn0
  cases hn0
  simp only [BPTNode.count, hl, Bool.false_eq_true, if_false] at hc1
  obtain ⟨e, hes⟩ : ∃ e, n.internal_entries = [e] := List.length_eq_one.mp hc1
  simp only [shrink_root, hl, Bool.false_eq_true, if_false, hes, bind, Except.bind] at hsh
  obtain ⟨cn, hcn, hfit⟩ := (shaped_iff_fits _ _ _).mp (hk e (by rw [hes]; simp))
  obtain ⟨ta, hr, fa, ra, ca⟩ := disk_read_ok ho.coherent hcn
  simp only [hr] at hsh
  have hsub : subtree t.file.node_at (h + 1) t.root_page =
      t.root_page :: subtree t.file.node_at h e.child := by
    simp only [subtree, hn, hes, List.flatMap_cons, List.flatMap_nil, List.append_nil]
  split at hsh
  · -- the child is a leaf: nothing happens
    rename_i hleaf
    simp only [pure, Except.pure, Except.ok.injEq] at hsh
    subst hsh
    have h0 : h = 0 := by
      cases h with
      | zero => rfl
      | succ h => rw [hfit.1] at hleaf; cases hleaf
    refine ⟨h, fl, ca, by rw [fa, ra]; exact hslot, by rw [fa, ra]; exact ho.shape,
      by rw [fa]; exact ho.chain, by rw [fa, ra]; exact hperm, fun _ _ _ => h0⟩
  · rename_i hleaf
    have hcl : cn.is_leaf = false := by simpa using hleaf
    obtain ⟨h', rfl⟩ : ∃ h', h = h' + 1 := by
      cases h with
      | zero => rw [show cn.is_leaf = true from hfit] at hcl; cases hcl
      | succ h => exact ⟨h, rfl⟩
    have hcount : 2 ≤ cn.count := by
      rcases hbig with h0 | ⟨e1, he1, c, hc, hcc⟩
      · omega
      · rw [hes] at he1
        simp only [List.mem_singleton] at he1
        subst he1
        rw [hcn] at hc
        cases hc
        exact hcc hcl
    obtain ⟨td, hd, cd, sd, rd, ld, nd, fd, chd⟩ := @free_at Value ta ca fl
      (by rw [fa]; exact ho.chain) ta.root_page n (by rw [fa, ra]; exact hn)
    simp only [hd, pure, Except.pure, Except.ok.injEq] at hsh
    have hf1 : t1.file = td.file.write_info e.child 1 := by rw [← hsh]
    have hr1 : t1.root_page = e.child := by rw [← hsh]
    have hco : t1.coherent := by
      rw [← hsh]
      exact coherent_write_info (t := ({ td with root_page := e.child } : BPT Value)) cd _ 1
    have hblk : ∀ x, x ≠ t.root_page → t1.file.block x = t.file.block x := by
      intro x hx
      rw [hf1, block_write_info, fd x (by rw [ra]; exact hx), fa]
    have hnd := ho.nodup
    rw [hsub] at hnd
    have hfr : ∀ x ∈ subtree t.file.node_at (h' + 1) e.child,
        t1.file.node_at x = t.file.node_at x := by
      intro x hx
      apply node_at_of_block_eq
      apply hblk
      rintro rfl
      exact (List.nodup_cons.mp (List.nodup_append.mp hnd).1).1 hx
    refine ⟨h', t.root_page :: fl, hco, ?_, ?_, ?_, ?_, ?_⟩
    · rw [hf1, hr1]; simp [MemoryRiver.write_info]
    · rw [hr1]
      exact shaped_congr _ _ hfr (hk e (by rw [hes]; simp))
    · have hs2 : t1.file.slot2 = td.file.slot2 := by
        rw [hf1]; simp [MemoryRiver.write_info]
      rw [hs2, ← ra]
      exact @free_chain_congr Value td.file t1.file _ td.file.slot2
        (fun x _ => by rw [hf1, block_write_info]) chd
    · have hlen : t1.file.pages.length = t.file.pages.length := by
        rw [hf1, pages_write_info, ld, fa]
      rw [hr1, hlen, subtree_congr _ _ hfr]
      rw [hsub] at hperm
      refine List.Perm.trans ?_ hperm
      apply Multiset.coe_eq_coe.mp
      simp only [← Multiset.coe_add, ← Multiset.cons_coe, ← Multiset.singleton_add]
      abel
    · intro n' hn' hc'
      rw [hr1, hfr _ (subtree_root_mem _ _ _), hcn] at hn'
      cases hn'
      omega

/-- The public `remove` keeps the tree well shaped and every page accounted for. -/
theorem remove_sound [BEq Value] {t t1 : BPT Value} {h : Nat} {fl : List Nat}
    (hs : t.sound h fl) (k : Key) (v : Value) (hi : t.remove k v = .ok t1) :
    ∃ h1 fl1, t1.sound h1 fl1 := by
  have ho := hs.owned
  obtain ⟨n, hn, hfit⟩ := ho.node
  obtain ⟨ta, hr, fa, ra, ca⟩ := disk_read_ok ho.coherent hn
  simp only [BPT.remove, bind, Except.bind, hr] at hi
  split at hi
  · cases hi
  · rename_i _ r hrec
    obtain ⟨flag, n1, tb⟩ := r
    rw [ra] at hrec
    obtain ⟨fl1, hr1, _, hmk⟩ := remove_rec_shape k v (h + 1) _ t.root_page n n1 ta tb fl flag
      (ho.on_same_file fa ca) (by rw [fa]; exact hn) hrec
    have hr2 : Reshaped t tb (h + 1) t.root_page fl fl1 n1 := hr1.of_file_eq fa ra
    have hl : n.is_leaf = false := hfit.1
    have hne := List.length_pos.mpr hfit.2.1
    have hmk1 := hmk hl
    simp only at hi
    split at hi
    · rename_i hone
      have hbig : h = 0 ∨ ∃ e ∈ n1.internal_entries, ∃ c, tb.file.node_at e.child = some c ∧
          (c.is_leaf = false → 2 ≤ c.count) := by
        rcases hmk1 with hle | hex
        · left
          have h1 : n.count ≤ 1 := by rw [← hone]; exact hle
          have h2 : n.count = n.internal_entries.length := by simp [BPTNode.count, hl]
          exact hs.2.2.2.2.2 n hn (by omega)
        · exact Or.inr hex
      have hob := hr2.keeps_owned ho
      rw [← hr2.root] at hob
      exact shrink_root_sound hob (by rw [hr2.slot1, hr2.root]; exact hs.2.1)
        (by rw [hr2.root]; exact hr2.cover hs.2.2.2.2.1)
        (by rw [hr2.root]; exact hr2.node) hone
        hbig hi
    · rename_i hone
      simp only [pure, Except.pure, Except.ok.injEq] at hi
      subst hi
      exact ⟨h, fl1, hr2.sound hs hn (fun h1 => absurd h1 hone)⟩

/-- Every public call keeps the tree well shaped and every page accounted for. -/
theorem run_sound [BEq Value] (ops : List (Op Value)) :
    ∀ (t t1 : BPT Value) (h : Nat) (fl : List Nat), t.sound h fl → t.run ops = .ok t1 →
      ∃ h1 fl1, t1.sound h1 fl1 := by
  induction ops with
  | nil =>
    intro t t1 h fl hs hr
    simp only [BPT.run, Except.ok.injEq] at hr
    subst hr
    exact ⟨h, fl, hs⟩
  | cons op ops ih =>
    intro t t1 h fl hs hr
    simp only [BPT.run] at hr
    split at hr
    · cases hr
    · rename_i t2 hop
      have h2 : ∃ h2 fl2, t2.sound h2 fl2 := by
        cases op with
        | insert k v => exact insert_sound hs k v hop
        | remove k v => exact remove_sound hs k v hop
      obtain ⟨h2, fl2, hs2⟩ := h2
      exact ih t2 t1 h2 fl2 hs2 hr

/-- The state reached by a sequence of public calls on a new file. -/
theorem session_sound [BEq Value] {ops : List (Op Value)} {t : BPT Value}
    (h : session ops = .ok t) : ∃ h1 fl1, t.sound h1 fl1 := by
  unfold session at h
  split at h
  · cases h
  · rename_i t0 h0
    exact run_sound ops t0 t 0 [] (sound_fresh h0) h

/-! ## Lookup in a well-shaped tree -/

theorem shaped_length {m : Nat → Option (BPTNode Value)} :
    ∀ (h p : Nat), shaped m h p → h + 1 ≤ (subtree m h p).length := by
  intro h
  induction h with
  | zero => intro p _; simp [subtree]
  | succ h ih =>
    intro p hs
    obtain ⟨n, hn, _, hne, hk⟩ := hs
    obtain ⟨e, rest, hes⟩ := List.exists_cons_of_ne_nil hne
    have := ih e.child (hk e (by rw [hes]; simp))
    simp only [subtree, hn, hes, List.flatMap_cons, List.length_cons, List.length_append]
    omega

theorem levels_shaped {m : Nat → Option (BPTNode Value)} :
    ∀ (h d p : Nat), shaped m h p → h ≤ d → levels m d p = h := by
  intro h
  induction h with
  | zero =>
    intro d p hs _
    obtain ⟨n, hn, hl⟩ := hs
    cases d with
    | zero => rfl
    | succ d => simp [levels, hn, hl]
  | succ h ih =>
    intro d p hs hd
    obtain ⟨n, hn, hl, hne, hk⟩ := hs
    obtain ⟨e, rest, hes⟩ := List.exists_cons_of_ne_nil hne
    cases d with
    | zero => omega
    | succ d =>
      simp only [levels, hn, hl, hes, Bool.false_eq_true, if_false]
      rw [ih d e.child (hk e (by rw [hes]; simp)) (by omega)]

/-- The depth handed to the recursive workers covers the height of the tree. -/
theorem BPT.sound.depth {t : BPT Value} {h : Nat} {fl : List Nat} (hs : t.sound h fl) :
    h + 1 < t.depth := by
  have h1 := shaped_length _ _ hs.2.2.1
  have h2 := hs.2.2.2.2.1.length_eq
  simp only [List.length_append, List.length_range'] at h2
  unfold BPT.depth
  omega

theorem BPT.sound.pages {t : BPT Value} {h : Nat} {fl : List Nat} (hs : t.sound h fl) :
    t.pages = subtree t.file.node_at (h + 1) t.root_page := by
  unfold BPT.pages
  rw [levels_shaped (h + 1) _ _ hs.2.2.1 (by have := hs.depth; omega)]

theorem BPT.sound.entries {t : BPT Value} {h : Nat} {fl : List Nat} (hs : t.sound h fl) :
    t.entries = contents t.file.node_at (h + 1) t.root_page := by
  unfold BPT.entries
  rw [levels_shaped (h + 1) _ _ hs.2.2.1 (by have := hs.depth; omega)]

/-- The loop of `find_all` over the children, in two states with the same file. -/
theorem find_scan_agree (k : Key) (h d : Nat)
    (ih : ∀ (acc : List Value) (n : BPTNode Value) (t t2 : BPT Value),
      t.coherent → t2.coherent → t2.file = t.file → fits t.file.node_at h n →
      ∃ vs t1 t3, find_all k d acc n t = .ok (vs, t1) ∧ find_all k d acc n t2 = .ok (vs, t3) ∧
        t1.file = t.file ∧ t3.file = t.file ∧ t1.coherent ∧ t3.coherent) :
    ∀ (cnt i : Nat) (acc : List Value) (n : BPTNode Value) (t t2 : BPT Value),
      t.coherent → t2.coherent → t2.file = t.file → fits t.file.node_at (h + 1) n →
      ∃ vs t1 t3, find_scan k (find_all k d) cnt i acc n t = .ok (vs, t1) ∧
        find_scan k (find_all k d) cnt i acc n t2 = .ok (vs, t3) ∧
        t1.file = t.file ∧ t3.file = t.file ∧ t1.coherent ∧ t3.coherent := by
  intro cnt
  induction cnt with
  | zero =>
    intro i acc n t t2 hc hc2 hf _
    exact ⟨acc, t, t2, rfl, rfl, rfl, hf, hc, hc2⟩
  | succ cnt ihc =>
    intro i acc n t t2 hc hc2 hf hfit
    simp only [find_scan]
    cases hei : n.internal_entries[i]? with
    | none => exact ⟨acc, t, t2, rfl, rfl, rfl, hf, hc, hc2⟩
    | some e =>
      simp only
      by_cases hge : memcmp k e.index ≥ 0
      · simp only [hge, if_true]
        have hmem : e ∈ n.internal_entries := by
          obtain ⟨h1, h2⟩ := List.getElem?_eq_some_iff.mp hei
          exact h2 ▸ List.getElem_mem h1
        obtain ⟨cn, hcn, hfc⟩ := (shaped_iff_fits _ _ _).mp (hfit.2.2 e hmem)
        obtain ⟨ta, hr, fa, _, ca⟩ := disk_read_ok hc hcn
        obtain ⟨ta2, hr2, fa2, _, ca2⟩ := disk_read_ok hc2 (by rw [hf]; exact hcn)
        simp only [hr, hr2]
        obtain ⟨vs, tb, tb2, e1, e2, f1, f2, c1, c2⟩ := ih acc cn ta ta2 ca ca2
          (by rw [fa2, hf, fa]) (by rw [fa]; exact hfc)
        simp only [e1, e2]
        obtain ⟨vs1, tc, tc2, g1, g2, g3, g4, g5, g6⟩ := ihc (i + 1) vs n tb tb2 c1 c2
          (by rw [f2, f1]) (by rw [f1, fa]; exact hfit)
        exact ⟨vs1, tc, tc2, g1, g2, by rw [g3, f1, fa], by rw [g4, f1, fa], g5, g6⟩
      · simp only [hge, if_false]
        exact ⟨acc, t, t2, rfl, rfl, rfl, hf, hc, hc2⟩

/-- `find_all` returns, and returns the same values in two states with the same file, whatever
their caches hold. -/
theorem find_all_agree (k : Key) :
    ∀ (h d : Nat) (acc : List Value) (n : BPTNode Value) (t t2 : BPT Value),
      h < d → t.coherent → t2.coherent → t2.file = t.file → fits t.file.node_at h n →
      ∃ vs t1 t3, find_all k d acc n t = .ok (vs, t1) ∧ find_all k d acc n t2 = .ok (vs, t3) ∧
        t1.file = t.file ∧ t3.file = t.file ∧ t1.coherent ∧ t3.coherent := by
  intro h
  induction h with
  | zero =>
    intro d acc n t t2 hd hc hc2 hf hfit
    have hl : n.is_leaf = true := hfit
    obtain ⟨d, rfl⟩ : ∃ d1, d = d1 + 1 := ⟨d - 1, by omega⟩
    simp only [find_all, hl, if_true]
    by_cases h0 : n.count = 0
    · simp only [h0, if_true]
      exact ⟨acc, t, t2, rfl, rfl, rfl, hf, hc, hc2⟩
    · simp only [h0, if_false]
      exact ⟨_, t, t2, rfl, rfl, rfl, hf, hc, hc2⟩
  | succ h ih =>
    intro d acc n t t2 hd hc hc2 hf hfit
    obtain ⟨hl, hne, hk⟩ := hfit
    obtain ⟨d, rfl⟩ : ∃ d1, d = d1 + 1 := ⟨d - 1, by omega⟩
    have h0 : n.count ≠ 0 := by
      have := List.length_pos.mpr hne
      simp only [BPTNode.count, hl, Bool.false_eq_true, if_false]
      omega
    simp only [find_all, h0, hl, Bool.false_eq_true, if_false]
    exact find_scan_agree k h d
      (fun acc n t t2 c1 c2 f1 ft => ih d acc n t t2 (by omega) c1 c2 f1 ft)
      _ _ acc n t t2 hc hc2 hf ⟨hl, hne, hk⟩

/-- In a well-shaped tree, `find` on the live instance and on an instance opened on its file
return the same values. -/
theorem find_reopened {t : BPT Value} {h : Nat} {fl : List Nat} (hs : t.sound h fl) (k : Key) :
    ∃ t2 vs ta tb, BPT.open t.file = .ok t2 ∧ t2.cache.cache_list = [] ∧
      t2.root_page = t.file.get_info 1 ∧
      t.find k = .ok (vs, ta) ∧ t2.find k = .ok (vs, tb) := by
  have ho := hs.owned
  obtain ⟨n, hn, hfit⟩ := ho.node
  have hroot : t.file.get_info 1 = t.root_page := hs.2.1
  have hr0 : t.root_page ≠ 0 := by
    have := (MemoryRiver.node_at_bound hn).1
    omega
  obtain ⟨t0, ht0⟩ : ∃ t0 : BPT Value, t0 =
      { file := t.file, root_page := t.file.get_info 1,
        cache := { cache_list := [], capacity := 128 } } := ⟨_, rfl⟩
  have hopen : BPT.open t.file = .ok t0 := by
    rw [ht0]
    simp only [BPT.open, hroot, hr0, if_false]
  have hf0 : t0.file = t.file := by rw [ht0]
  have hc2 : t0.coherent := by
    rw [ht0]; exact coherent_empty _ _ _
  obtain ⟨ta, hr, fa, _, ca⟩ := disk_read_ok ho.coherent hn
  obtain ⟨ta2, hr2, fa2, _, ca2⟩ := disk_read_ok hc2 (p := t.root_page) (n := n)
    (by rw [hf0]; exact hn)
  obtain ⟨vs, tb, tb2, e1, e2, _⟩ := find_all_agree k (h + 1) t.depth [] n ta ta2 hs.depth ca ca2
    (by rw [fa2, hf0]; exact fa.symm) (by rw [fa]; exact hfit)
  refine ⟨t0, vs, tb, tb2, hopen, by rw [ht0], by rw [ht0], ?_, ?_⟩
  · simp only [BPT.find, bind, Except.bind, hr]
    exact e1
  · have hr3 : t0.root_page = t.root_page := by rw [ht0]; exact hroot
    have hd3 : t0.depth = t.depth := by unfold BPT.depth; rw [hf0]
    simp only [BPT.find, bind, Except.bind, hr3, hr2, hd3]
    exact e2

/-! ## Removing a pair that is not in the tree -/

theorem remove_slot_absent [BEq Value] (k : Key) (v : Value) :
    ∀ (es : List (LeafEntry Value)) (j : Nat),
      (∀ e ∈ es, ¬ (memcmp k e.index = 0 ∧ (e.value == v) = true)) →
      remove_slot k v es j = j + es.length := by
  intro es
  induction es with
  | nil => intro j _; rfl
  | cons e es ih =>
    intro j h
    have h1 := h e (List.mem_cons_self _ _)
    have h2 : (decide (memcmp k e.index = 0) && e.value == v) = false := by
      cases hd : decide (memcmp k e.index = 0) with
      | false => rfl
      | true =>
        cases hv : (e.value == v) with
        | false => rfl
        | true => exact absurd ⟨of_decide_eq_true hd, hv⟩ h1
    simp only [remove_slot, h2, Bool.false_eq_true, if_false]
    rw [ih (j + 1) (fun x hx => h x (List.mem_cons_of_mem _ hx))]
    simp only [List.length_cons]
    omega

theorem contents_child_mem {m : Nat → Option (BPTNode Value)} {h p : Nat} {n : BPTNode Value}
    (hn : m p = some n) {e : InternalEntry} (he : e ∈ n.internal_entries)
    {x : LeafEntry Value} (hx : x ∈ contents m h e.child) : x ∈ contents m (h + 1) p := by
  simp only [contents, hn, List.mem_flatMap]
  exact ⟨e, he, hx⟩

/-- The loop of the recursive `remove` over the children when no child holds the pair. -/
theorem remove_scan_absent [BEq Value] (k : Key) (v : Value) (h d : Nat)
    (ih : ∀ (p : Nat) (n : BPTNode Value) (t : BPT Value), t.coherent →
      t.file.node_at p = some n → shaped t.file.node_at h p →
      (∀ e ∈ contents t.file.node_at h p, ¬ (memcmp k e.index = 0 ∧ (e.value == v) = true)) →
      ∃ t1, remove_rec k v d n p t = .ok (false, n, t1) ∧ t1.file = t.file ∧
        t1.root_page = t.root_page ∧ t1.coherent) :
    ∀ (cnt i p : Nat) (n : BPTNode Value) (t : BPT Value), t.coherent →
      t.file.node_at p = some n → shaped t.file.node_at (h + 1) p →
      (∀ e ∈ contents t.file.node_at (h + 1) p,
        ¬ (memcmp k e.index = 0 ∧ (e.value == v) = true)) →
      ∃ t1, remove_scan k (remove_rec k v d) cnt i n p t = .ok (false, n, t1) ∧
        t1.file = t.file ∧ t1.root_page = t.root_page ∧ t1.coherent := by
  intro cnt
  induction cnt with
  | zero =>
    intro i p n t hc _ _ _
    exact ⟨t, rfl, rfl, rfl, hc⟩
  | succ cnt ihc =>
    intro i p n t hc hn hs habs
    obtain ⟨n0, hn0, hl, hne, hk⟩ := hs
    rw [hn] at hn0
    cases hn0
    simp only [remove_scan]
    cases hei : n.internal_entries[i]? with
    | none => exact ⟨t, rfl, rfl, rfl, hc⟩
    | some e =>
      simp only
      by_cases hge : memcmp k e.index ≥ 0
      · simp only [hge, if_true]
        have hmem : e ∈ n.internal_entries := by
          obtain ⟨h1, h2⟩ := List.getElem?_eq_some_iff.mp hei
          exact h2 ▸ List.getElem_mem h1
        obtain ⟨cn, hcn, _⟩ := (shaped_iff_fits _ _ _).mp (hk e hmem)
        obtain ⟨ta, hr, fa, ra, ca⟩ := disk_read_ok hc hcn
        simp only [hr]
        obtain ⟨tb, e1, f1, r1, c1⟩ := ih e.child cn ta ca (by rw [fa]; exact hcn)
          (by rw [fa]; exact hk e hmem)
          (by rw [fa]; exact fun x hx => habs x (contents_child_mem hn hmem hx))
        simp only [e1, Bool.not_false, if_true]
        obtain ⟨tc, e2, f2, r2, c2⟩ := ihc (i + 1) p n tb c1 (by rw [f1, fa]; exact hn)
          (by rw [f1, fa]; exact ⟨n, hn, hl, hne, hk⟩) (by rw [f1, fa]; exact habs)
        exact ⟨tc, e2, by rw [f2, f1, fa], by rw [r2, r1, ra], c2⟩
      · simp only [hge, if_false]
        exact ⟨t, rfl, rfl, rfl, hc⟩

/-- The recursive `remove` of a pair that no leaf of the subtree holds returns `false` and
leaves the file alone. -/
theorem remove_rec_absent [BEq Value] (k : Key) (v : Value) :
    ∀ (h d p : Nat) (n : BPTNode Value) (t : BPT Value), h < d → t.coherent →
      t.file.node_at p = some n → shaped t.file.node_at h p →
      (∀ e ∈ contents t.file.node_at h p, ¬ (memcmp k e.index = 0 ∧ (e.value == v) = true)) →
      ∃ t1, remove_rec k v d n p t = .ok (false, n, t1) ∧ t1.file = t.file ∧
        t1.root_page = t.root_page ∧ t1.coherent := by
  intro h
  induction h with
  | zero =>
    intro d p n t hd hc hn hs habs
    obtain ⟨n0, hn0, hl⟩ := hs
    rw [hn] at hn0
    cases hn0
    obtain ⟨d, rfl⟩ : ∃ d1, d = d1 + 1 := ⟨d - 1, by omega⟩
    have hj := remove_slot_absent k v n.leaf_entries 0 (by
      intro e he
      exact habs e (by simp only [contents, hn]; exact he))
    simp only [remove_rec, hl, if_true, hj, Nat.zero_add]
    exact ⟨t, rfl, rfl, rfl, hc⟩
  | succ h ih =>
    intro d p n t hd hc hn hs habs
    obtain ⟨n0, hn0, hl, hne, hk⟩ := hs
    rw [hn] at hn0
    cases hn0
    obtain ⟨d, rfl⟩ : ∃ d1, d = d1 + 1 := ⟨d - 1, by omega⟩
    simp only [remove_rec, hl, Bool.false_eq_true, if_false]
    exact remove_scan_absent k v h d
      (fun p n t c1 n1 s1 a1 => ih d p n t (by omega) c1 n1 s1 a1)
      _ _ p n t hc hn ⟨n, hn, hl, hne, hk⟩ habs

/-- The public `remove` of a pair that no leaf of a well-shaped tree holds: the recursive call
on the root returns `false`, and the file and the root are those of before. -/
theorem remove_absent_sound [BEq Value] {t : BPT Value} {h : Nat} {fl : List Nat}
    (hs : t.sound h fl) (k : Key) (v : Value)
    (habs : ∀ e ∈ t.entries, ¬ (memcmp k e.index = 0 ∧ (e.value == v) = true)) :
    ∃ n ta tb t1, disk_read t t.root_page = .ok (n, ta) ∧
      remove_rec k v t.depth n ta.root_page ta = .ok (false, n, tb) ∧
      t.remove k v = .ok t1 ∧ t1.file = t.file ∧ t1.root_page = t.root_page := by
  have ho := hs.owned
  obtain ⟨n, hn, hfit⟩ := ho.node
  rw [hs.entries] at habs
  obtain ⟨ta, hr, fa, ra, ca⟩ := disk_read_ok ho.coherent hn
  obtain ⟨tb, e1, f1, r1, c1⟩ := remove_rec_absent k v (h + 1) t.depth ta.root_page n ta hs.depth
    ca (by rw [fa, ra]; exact hn) (by rw [fa, ra]; exact ho.shape) (by rw [fa, ra]; exact habs)
  have hrem : ∃ t1, t.remove k v = .ok t1 ∧ t1.file = t.file ∧ t1.root_page = t.root_page := by
    simp only [BPT.remove, bind, Except.bind, hr, e1]
    by_cases hone : n.count = 1
    · simp only [hone, if_true]
      have h0 : h = 0 := hs.2.2.2.2.2 n hn hone
      subst h0
      obtain ⟨hl, hne, hk⟩ := hfit
      simp only [BPTNode.count, hl, Bool.false_eq_true, if_false] at hone
      obtain ⟨e, hes⟩ : ∃ e, n.internal_entries = [e] := List.length_eq_one.mp hone
      obtain ⟨cn, hcn, hcl⟩ := hk e (by rw [hes]; simp)
      obtain ⟨tc, hrc, fc, rc, _⟩ := disk_read_ok c1 (p := e.child) (n := cn)
        (by rw [f1, fa]; exact hcn)
      simp only [shrink_root, hl, Bool.false_eq_true, if_false, hes, bind, Except.bind, hrc,
        hcl, if_true, pure, Except.pure]
      exact ⟨tc, rfl, by rw [fc, f1, fa], by rw [rc, r1, ra]⟩
    · simp only [hone, if_false, pure, Except.pure]
      exact ⟨tb, rfl, by rw [f1, fa], by rw [r1, ra]⟩
  obtain ⟨t1, g1, g2, g3⟩ := hrem
  exact ⟨n, ta, tb, t1, hr, e1, g1, g2, g3⟩

/-! ## The leaf that reaches 48 entries -/

/-- C2, C24 (evaluation at the failing input).  After the first fifty calls of `overflow_ops`
the tree is a root with one entry over a leaf of 48 entries, as many as the array
`leaf_entries` has slots: the merge in `remove` joined a leaf of 25 and a leaf of 23 entries. -/
theorem merge_fills_leaf :
    ∃ t r l, session overflow_ops.dropLast = .ok t ∧
      t.file.node_at t.root_page = some r ∧ r.is_leaf = false ∧
      r.internal_entries.map (fun e => e.child) = [1] ∧
      t.file.node_at 1 = some l ∧ l.is_leaf = true ∧ l.count = 48 ∧ leaf_slots = 48 := by
  have h : ∃ t, session overflow_ops.dropLast = .ok t := by
    cases hs : session overflow_ops.dropLast with
    | ok t => exact ⟨t, rfl⟩
    | error e =>
      have : failure (session overflow_ops.dropLast) = none := by decide
      rw [hs] at this
      cases this
  obtain ⟨t, ht⟩ := h
  have h1 : (match session overflow_ops.dropLast with
      | .ok t => (t.file.node_at t.root_page).map
          (fun r => (r.is_leaf, r.internal_entries.map (fun e => e.child)))
      | .error _ => none) = some (false, [1]) := by decide
  have h2 : (match session overflow_ops.dropLast with
      | .ok t => (t.file.node_at 1).map (fun l => (l.is_leaf, l.count))
      | .error _ => none) = some (true, 48) := by decide
  rw [ht] at h1 h2
  simp only at h1 h2
  cases hr : t.file.node_at t.root_page with
  | none => rw [hr] at h1; cases h1
  | some r =>
    cases hl : t.file.node_at 1 with
    | none => rw [hl] at h2; cases h2
    | some l =>
      rw [hr] at h1
      rw [hl] at h2
      simp only [Option.map_some', Option.some.injEq, Prod.mk.injEq] at h1 h2
      exact ⟨t, r, l, ht, hr, h1.1, h1.2, hl, h2.1, h2.2, by decide⟩

/-- C2 (evaluation at the failing input).  The insert that follows writes entry slot 48 of the
48-slot array `leaf_entries`: the run leaves the modelled behaviour with `Err.overflow`. -/
theorem insert_after_merge_overflows :
    failure (session overflow_ops) = some Err.overflow := by
  decide

/-! ## The fanout constants -/

/-- C16 (counterexample).  Sixty internal entries of 68 bytes fit a page after the 13-byte
header, so `M = 58` is not the largest number of internal entries that fit. -/
theorem M_is_not_the_largest :
    ¬ ∀ n, sizeof_node_header + n * sizeof_InternalEntry ≤ BLOCK_SIZE → n ≤ M := by
  intro h
  have := h 60 (by decide)
  revert this
  decide

/-- C16 (amended).  The header takes 13 bytes, an internal entry 68 and a leaf entry 84 (a
64-byte key and the 20 bytes of a `Value`).  `L = 48` is the largest number of leaf entries that
fit a page of 4096 bytes and the size of the array `leaf_entries`; `M = 58` internal entries fit,
and the largest number that fit is 60, the size of the array `internal_entries`. -/
theorem fanout_constants :
    BLOCK_SIZE = 4096 ∧ sizeof_node_header = 13 ∧ sizeof_InternalEntry = 68 ∧
      sizeof_LeafEntry = 84 ∧
      (∀ n, sizeof_node_header + n * sizeof_LeafEntry ≤ BLOCK_SIZE ↔ n ≤ L) ∧
      leaf_slots = L ∧
      (∀ n, sizeof_node_header + n * sizeof_InternalEntry ≤ BLOCK_SIZE ↔ n ≤ internal_slots) ∧
      internal_slots = 60 ∧ M = 58 ∧ L = 48 := by
  refine ⟨rfl, rfl, rfl, rfl, ?_, rfl, ?_, rfl, rfl, rfl⟩
  · intro n
    simp only [sizeof_node_header, sizeof_LeafEntry, sizeof_Value, BLOCK_SIZE, L]
    omega
  · intro n
    simp only [sizeof_node_header, sizeof_InternalEntry, BLOCK_SIZE, internal_slots]
    omega

/-! ## Child selection -/

/-- The binary search of `insert` needs no more iterations than the width of its interval. -/
theorem search_ge_fuel (k : Key) (es : List InternalEntry) :
    ∀ (f1 f2 left hi i : Nat), hi - left ≤ f1 → hi - left ≤ f2 →
      search_ge k es f1 left hi i = search_ge k es f2 left hi i := by
  intro f1
  induction f1 with
  | zero =>
    intro f2 left hi i h1 _
    have hlt : ¬ left < hi := by omega
    cases f2 with
    | zero => rfl
    | succ f2 => simp [search_ge, hlt]
  | succ f1 ih =>
    intro f2 left hi i h1 h2
    by_cases hlt : left < hi
    · cases f2 with
      | zero => omega
      | succ f2 =>
        simp only [search_ge, hlt, if_true]
        split
        · exact ih f2 _ hi _ (by omega) (by omega)
        · exact ih f2 left _ i (by omega) (by omega)
    · cases f2 with
      | zero => simp [search_ge, hlt]
      | succ f2 => simp [search_ge, hlt]

/-- The binary search of `find_all` and `remove` needs no more iterations than the width of its
interval. -/
theorem search_gt_fuel (k : Key) (es : List InternalEntry) :
    ∀ (f1 f2 left hi i : Nat), hi - left ≤ f1 → hi - left ≤ f2 →
      search_gt k es f1 left hi i = search_gt k es f2 left hi i := by
  intro f1
  induction f1 with
  | zero =>
    intro f2 left hi i h1 _
    have hlt : ¬ left < hi := by omega
    cases f2 with
    | zero => rfl
    | succ f2 => simp [search_gt, hlt]
  | succ f1 ih =>
    intro f2 left hi i h1 h2
    by_cases hlt : left < hi
    · cases f2 with
      | zero => omega
      | succ f2 =>
        simp only [search_gt, hlt, if_true]
        split
        · exact ih f2 _ hi _ (by omega) (by omega)
        · exact ih f2 left _ i (by omega) (by omega)
    · cases f2 with
      | zero => simp [search_gt, hlt]
      | succ f2 => simp [search_gt, hlt]

/-- The index chosen by `insert`, by the number `b` of entries with key at most `k`. -/
theorem insert_child_index_spec (k : Key) (es : List InternalEntry)
    (hs : es.Pairwise (fun a b => a.index ≤ b.index)) :
    ∃ b, b ≤ es.length ∧ (∀ j, j < b → key_at es j ≤ k) ∧
      (∀ j, b ≤ j → j < es.length → k < key_at es j) ∧
      (b = 0 → insert_child_index k es = 0) ∧ (0 < b → insert_child_index k es + 1 = b) :=
  search_ge_spec k es hs es.length 0 es.length 0 (by omega) (by omega) (by omega)
    (fun j hj => by omega) (fun j h1 h2 => by omega) (fun _ => rfl) (fun h => by omega)

/-- The index at which `find_all` and `remove` start, by the number `b` of entries with key
below `k`. -/
theorem scan_start_index_spec (k : Key) (es : List InternalEntry)
    (hs : es.Pairwise (fun a b => a.index ≤ b.index)) :
    ∃ b, b ≤ es.length ∧ (∀ j, j < b → key_at es j < k) ∧
      (∀ j, b ≤ j → j < es.length → k ≤ key_at es j) ∧
      (b = 0 → scan_start_index k es = 0) ∧ (0 < b → scan_start_index k es + 1 = b) :=
  search_gt_spec k es hs es.length 0 es.length 0 (by omega) (by omega) (by omega)
    (fun j hj => by omega) (fun j h1 h2 => by omega) (fun _ => rfl) (fun h => by omega)

theorem Key.lt_irrefl_of_le {a b : Key} (h1 : a ≤ b) (h2 : b < a) : False := by
  rw [Key.le_def] at h1
  rw [Key.lt_def, Key.memcmp_swap] at h2
  omega

/-- C17.  In an internal node with at least one entry and non-decreasing keys, the binary search
of `insert` ends at a valid index; when some entry has a key at most `k` under `memcmp` over
the 64 bytes, it is the largest index with such a key, and otherwise it is 0.  The loop ends
within `count` iterations: a larger bound on their number gives the same index. -/
theorem insert_selects_rightmost_child (k : Key) (es : List InternalEntry) (hne : es ≠ [])
    (hs : es.Pairwise (fun a b => a.index ≤ b.index)) :
    insert_child_index k es < es.length ∧
      (∀ fuel, es.length ≤ fuel →
        search_ge k es fuel 0 es.length 0 = insert_child_index k es) ∧
      ((∃ j, j < es.length ∧ memcmp k (key_at es j) ≥ 0) →
        memcmp k (key_at es (insert_child_index k es)) ≥ 0 ∧
          ∀ j, insert_child_index k es < j → j < es.length → ¬ memcmp k (key_at es j) ≥ 0) ∧
      ((∀ j, j < es.length → ¬ memcmp k (key_at es j) ≥ 0) → insert_child_index k es = 0) := by
  have hlen : 0 < es.length := List.length_pos.mpr hne
  obtain ⟨b, hb, h1, h2, h3, h4⟩ := insert_child_index_spec k es hs
  refine ⟨?_, ?_, ?_, ?_⟩
  · rcases Nat.eq_zero_or_pos b with h0 | h0
    · rw [h3 h0]; exact hlen
    · have := h4 h0; omega
  · intro fuel hf
    exact search_ge_fuel k es fuel es.length 0 es.length 0 (by omega) (by omega)
  · rintro ⟨j, hj, hjk⟩
    have hb0 : 0 < b := by
      rcases Nat.eq_zero_or_pos b with h0 | h0
      · exact absurd ((Key.memcmp_nonneg_iff _ _).mp hjk)
          (fun h => Key.lt_irrefl_of_le h (h2 j (by omega) hj))
      · exact h0
    have hi := h4 hb0
    refine ⟨(Key.memcmp_nonneg_iff _ _).mpr (h1 _ (by omega)), ?_⟩
    intro j2 hj1 hj2 hc
    exact Key.lt_irrefl_of_le ((Key.memcmp_nonneg_iff _ _).mp hc) (h2 j2 (by omega) hj2)
  · intro hall
    rcases Nat.eq_zero_or_pos b with h0 | h0
    · exact h3 h0
    · exact absurd ((Key.memcmp_nonneg_iff _ _).mpr (h1 0 h0)) (hall 0 hlen)

theorem insert_selects_rightmost_child_witness :
    insert_child_index (key_of [5]) demo_entries < demo_entries.length ∧
      insert_child_index (key_of [5]) demo_entries = 2 := by
  have hs : demo_entries.Pairwise (fun a b => a.index ≤ b.index) := by decide
  exact ⟨(insert_selects_rightmost_child (key_of [5]) demo_entries (by decide) hs).1,
    by decide⟩

/-- The loop of `find_all` over the entries from index `i` on is the descent into the entries
from `i` up to the first one whose key is above `k`. -/
theorem find_scan_eq_descend (k : Key)
    (worker : List Value → BPTNode Value → BPT Value → Except Err (List Value × BPT Value))
    (node : BPTNode Value) :
    ∀ (fuel i : Nat) (values : List Value) (t : BPT Value),
      node.internal_entries.length - i ≤ fuel →
      find_scan k worker fuel i values node t =
        descend worker
          ((node.internal_entries.drop i).takeWhile (fun e => decide (memcmp k e.index ≥ 0)))
          values t := by
  intro fuel
  induction fuel with
  | zero =>
    intro i values t hf
    rw [List.drop_eq_nil_of_le (by omega)]
    rfl
  | succ fuel ih =>
    intro i values t hf
    by_cases hi : i < node.internal_entries.length
    · have hg : node.internal_entries[i]? = some node.internal_entries[i] :=
        List.getElem?_eq_getElem hi
      rw [List.drop_eq_getElem_cons hi]
      simp only [find_scan, hg]
      by_cases hc : memcmp k node.internal_entries[i].index ≥ 0
      · rw [List.takeWhile_cons_of_pos (by simpa using hc)]
        simp only [hc, if_true, descend]
        cases disk_read t node.internal_entries[i].child with
        | error err => rfl
        | ok r =>
          obtain ⟨child_node, t1⟩ := r
          simp only
          cases worker values child_node t1 with
          | error err => rfl
          | ok r2 =>
            obtain ⟨values1, t2⟩ := r2
            simp only
            exact ih (i + 1) values1 t2 (by omega)
      · rw [List.takeWhile_cons_of_neg (by simpa using hc)]
        simp only [hc, if_false]
        rfl
    · have hg : node.internal_entries[i]? = none := List.getElem?_eq_none (by omega)
      rw [List.drop_eq_nil_of_le (by omega)]
      simp only [find_scan, hg]
      rfl

/-- C18 (counterexample).  In the node with the keys 1, 5, 5 and for the key 5, `insert` chooses
index 2, the rightmost entry with key at most 5, while `find_all` starts at index 0. -/
theorem find_starts_left_of_insert :
    demo_entries.Pairwise (fun a b => a.index ≤ b.index) ∧
      insert_child_index (key_of [5]) demo_entries = 2 ∧
      scan_start_index (key_of [5]) demo_entries = 0 := by
  decide

/-- C18 (amended).  In an internal node with at least one entry and non-decreasing keys,
`find_all` starts at the rightmost entry whose key is strictly below `k` under `memcmp` (at
index 0 when there is none), which is at most the index `insert` chooses, and descends from
there into the entries from left to right as long as the key of the entry is at most `k`. -/
theorem find_starts_below_and_continues (k : Key) (es : List InternalEntry) (hne : es ≠ [])
    (hs : es.Pairwise (fun a b => a.index ≤ b.index)) :
    scan_start_index k es < es.length ∧
      scan_start_index k es ≤ insert_child_index k es ∧
      ((∃ j, j < es.length ∧ memcmp k (key_at es j) > 0) →
        memcmp k (key_at es (scan_start_index k es)) > 0 ∧
          ∀ j, scan_start_index k es < j → j < es.length → ¬ memcmp k (key_at es j) > 0) ∧
      ((∀ j, j < es.length → ¬ memcmp k (key_at es j) > 0) → scan_start_index k es = 0) ∧
      ∀ (d : Nat) (values : List Value) (node : BPTNode Value) (t : BPT Value),
        node.is_leaf = false → node.internal_entries = es →
        find_all k (d + 1) values node t =
          descend (find_all k d)
            ((es.drop (scan_start_index k es)).takeWhile
              (fun e => decide (memcmp k e.index ≥ 0))) values t := by
  have hlen : 0 < es.length := List.length_pos.mpr hne
  obtain ⟨b, hb, h1, h2, h3, h4⟩ := scan_start_index_spec k es hs
  obtain ⟨c, hc, g1, g2, g3, g4⟩ := insert_child_index_spec k es hs
  have hbc : b ≤ c := by
    by_contra hlt
    have hcb : c < b := by omega
    exact Key.lt_irrefl_of_le (Key.le_of_lt (h1 c hcb)) (g2 c (Nat.le_refl _) (by omega))
  refine ⟨?_, ?_, ?_, ?_, ?_⟩
  · rcases Nat.eq_zero_or_pos b with h0 | h0
    · rw [h3 h0]; exact hlen
    · have := h4 h0; omega
  · rcases Nat.eq_zero_or_pos b with h0 | h0
    · rw [h3 h0]; exact Nat.zero_le _
    · have := h4 h0
      have := g4 (by omega)
      omega
  · rintro ⟨j, hj, hjk⟩
    have hb0 : 0 < b := by
      rcases Nat.eq_zero_or_pos b with h0 | h0
      · exact absurd ((Key.memcmp_pos_iff _ _).mp hjk)
          (fun h => Key.lt_irrefl_of_le (h2 j (by omega) hj) h)
      · exact h0
    have hi := h4 hb0
    refine ⟨(Key.memcmp_pos_iff _ _).mpr (h1 _ (by omega)), ?_⟩
    intro j2 hj1 hj2 hc2
    exact Key.lt_irrefl_of_le (h2 j2 (by omega) hj2) ((Key.memcmp_pos_iff _ _).mp hc2)
  · intro hall
    rcases Nat.eq_zero_or_pos b with h0 | h0
    · exact h3 h0
    · exact absurd ((Key.memcmp_pos_iff _ _).mpr (h1 0 h0)) (hall 0 hlen)
  · intro d values node t hl hes
    have hcnt : node.count ≠ 0 := by
      simp only [BPTNode.count, hl, hes, Bool.false_eq_true, if_false]
      omega
    simp only [find_all, hcnt, hl, if_false, Bool.false_eq_true]
    rw [find_scan_eq_descend k (find_all k d) node _ _ values t (by rw [hes]), hes]

theorem find_starts_below_and_continues_witness :
    scan_start_index (key_of [5]) demo_entries < demo_entries.length ∧
      scan_start_index (key_of [5]) demo_entries ≤
        insert_child_index (key_of [5]) demo_entries ∧
      (demo_entries.drop (scan_start_index (key_of [5]) demo_entries)).takeWhile
        (fun e => decide (memcmp (key_of [5]) e.index ≥ 0)) = demo_entries := by
  obtain ⟨h1, h2, _⟩ := @find_starts_below_and_continues Nat (key_of [5]) demo_entries
    (by decide) (by decide)
  exact ⟨h1, h2, by decide⟩

/-! ## The link of a leaf after a merge with its right sibling -/

/-- C12 (evaluation at the failing input).  After the calls of `dangling_ops` the tree is the
root at page 2 over the single leaf at page 1; that leaf still has `next_leaf = 3`, and page 3
is the head of the free list and holds no node: the merge with the right sibling freed page 3
and left the link of the surviving leaf as it was. -/
theorem merge_right_keeps_link_to_freed_page :
    ∃ t l, session dangling_ops = .ok t ∧ t.pages = [2, 1] ∧
      t.file.node_at 1 = some l ∧ l.is_leaf = true ∧ l.count = 47 ∧ l.next_leaf = 3 ∧
      t.file.get_info 2 = 3 ∧ t.file.node_at 3 = none := by
  have h : ∃ t, session dangling_ops = .ok t := by
    cases hs : session dangling_ops with
    | ok t => exact ⟨t, rfl⟩
    | error e =>
      have : failure (session dangling_ops) = none := by decide
      rw [hs] at this
      cases this
  obtain ⟨t, ht⟩ := h
  have h1 : ∀ t ∈ (session dangling_ops).toOption,
      t.pages = [2, 1] ∧ t.file.get_info 2 = 3 ∧ t.file.node_at 3 = none ∧
        (t.file.node_at 1).map (fun l => (l.is_leaf, l.count, l.next_leaf)) =
          some (true, 47, 3) := by
    decide
  obtain ⟨h2, h3, h4, h5⟩ := h1 t (by rw [ht]; rfl)
  cases hl : t.file.node_at 1 with
  | none => rw [hl] at h5; cases h5
  | some l =>
    rw [hl] at h5
    simp only [Option.map_some', Option.some.injEq, Prod.mk.injEq] at h5
    exact ⟨t, l, ht, h2, hl, h5.1, h5.2.1, h5.2.2, h3, h4⟩

/-! ## The split step and the growth of the root, with any free list -/

theorem first_key_right_half (c : BPTNode Value) (hfull : c.limit ≤ c.count) :
    ∃ key, c.right_half.first_key = .ok key ∧
      (c.is_leaf = true → ∃ e rest, c.leaf_entries.drop (L / 2) = e :: rest ∧ e.index = key) ∧
      (c.is_leaf = false →
        ∃ e rest, c.internal_entries.drop (M / 2) = e :: rest ∧ e.index = key) := by
  cases hl : c.is_leaf with
  | true =>
    have hlen : L / 2 < c.leaf_entries.length := by
      simp only [BPTNode.limit, BPTNode.count, hl, if_true] at hfull
      have : (L : Nat) = 48 := rfl
      omega
    have hd := List.drop_eq_getElem_cons hlen
    refine ⟨c.leaf_entries[L / 2].index, ?_, fun _ => ⟨_, _, hd, rfl⟩, (fun h => by cases h)⟩
    simp only [BPTNode.first_key, BPTNode.right_half, BPTNode.limit, hl, if_true, hd]
  | false =>
    have hlen : M / 2 < c.internal_entries.length := by
      simp only [BPTNode.limit, BPTNode.count, hl, Bool.false_eq_true, if_false] at hfull
      have : (M : Nat) = 58 := rfl
      omega
    have hd := List.drop_eq_getElem_cons hlen
    refine ⟨c.internal_entries[M / 2].index, ?_, (fun h => by cases h), fun _ => ⟨_, _, hd, rfl⟩⟩
    simp only [BPTNode.first_key, BPTNode.right_half, BPTNode.limit, hl, Bool.false_eq_true,
      if_false, hd]

/-- The split step of `insert` on a state with any free list: the three page operations
succeed and leave the two halves and the parent as computed. -/
theorem split_child_total (t : BPT Value) (now_node n0 child_node c0 : BPTNode Value)
    (now_page child_page i : Nat) (fl : List Nat)
    (hc : t.coherent) (hch : t.file.free_chain t.file.slot2 fl) (hnd : fl.Nodup)
    (hp : t.file.node_at now_page = some n0) (hcp : t.file.node_at child_page = some c0)
    (hne : child_page ≠ now_page) (hfull : child_node.limit ≤ child_node.count)
    (hroom : now_node.internal_entries.length < internal_slots) :
    ∃ S t1 fl1 key,
      split_child now_node now_page i child_node child_page t =
        .ok ({ now_node with
               internal_entries :=
                 now_node.internal_entries.take (i + 1) ++
                   { index := key, child := S } :: now_node.internal_entries.drop (i + 1) },
              t1) ∧
      child_node.right_half.first_key = .ok key ∧
      t.file.node_at S = none ∧ S ≠ now_page ∧ S ≠ child_page ∧
      t1.coherent ∧ t1.file.slot1 = t.file.slot1 ∧ t1.root_page = t.root_page ∧
      t1.file.free_chain t1.file.slot2 fl1 ∧
      ((fl = S :: fl1 ∧ t1.file.pages.length = t.file.pages.length) ∨
        (fl = [] ∧ fl1 = [] ∧ S = t.file.pages.length + 1 ∧
          t1.file.pages.length = t.file.pages.length + 1)) ∧
      t1.file.node_at S = some child_node.right_half ∧
      t1.file.node_at child_page = some (child_node.left_half S) ∧
      t1.file.node_at now_page =
        some { now_node with
               internal_entries :=
                 now_node.internal_entries.take (i + 1) ++
                   { index := key, child := S } :: now_node.internal_entries.drop (i + 1) } ∧
      ∀ q, q ≠ now_page → q ≠ child_page → q ≠ S → t1.file.block q = t.file.block q := by
  obtain ⟨key, hkey, _⟩ := first_key_right_half child_node hfull
  obtain ⟨S, ta, fl1, ha, ca, sa, ra, hS, bS, fa, cha, hcase⟩ :=
    alloc_at hc hch hnd child_node.right_half
  have hSp : S ≠ now_page := fun h => by rw [h, hp] at hS; cases hS
  have hSc : S ≠ child_page := fun h => by rw [h, hcp] at hS; cases hS
  have hcpa : ta.file.node_at child_page = some c0 := by
    rw [node_at_of_block_eq (fa _ hSc.symm)]; exact hcp
  obtain ⟨tb, hw, wb⟩ := write_spec ca (child_node.left_half S) hcpa
  have hpb : tb.file.node_at now_page = some n0 := by
    rw [wb.other hne.symm, node_at_of_block_eq (fa _ hSp.symm)]; exact hp
  obtain ⟨tc, hw3, wc⟩ := write_spec wb.coherent
    ({ now_node with
       internal_entries :=
         now_node.internal_entries.take (i + 1) ++
           { index := key, child := S } :: now_node.internal_entries.drop (i + 1) } :
      BPTNode Value) hpb
  have hSa : ta.file.node_at S = some child_node.right_half :=
    (MemoryRiver.node_at_eq_some _ _ _).mpr bS
  have hchb : tb.file.free_chain tb.file.slot2 fl1 := wb.chain hcpa cha
  have hchc : tc.file.free_chain tc.file.slot2 fl1 := wc.chain hpb hchb
  refine ⟨S, tc, fl1, key, ?_, hkey, hS, hSp, hSc, wc.coherent,
    by rw [wc.slot1, wb.slot1, sa], by rw [wc.root, wb.root, ra], hchc, ?_, ?_, ?_, wc.node, ?_⟩
  · have hlim : (if child_node.is_leaf = true then L else M) = child_node.limit := rfl
    unfold BPTNode.right_half at ha hkey
    unfold BPTNode.left_half at hw
    simp only [split_child, bind, Except.bind, hlim, ha, hw, hkey, hw3, pure, Except.pure]
    rw [if_neg (by omega)]
  · rcases hcase with ⟨h1, h2⟩ | ⟨h1, h2, h3, h4⟩
    · exact Or.inl ⟨h1, by rw [wc.len, wb.len, h2]⟩
    · exact Or.inr ⟨h1, h2, h3, by rw [wc.len, wb.len, h4]⟩
  · rw [wc.other hSp, wb.other hSc]; exact hSa
  · rw [wc.other hne]; exact wb.node
  · intro q h1 h2 h3
    rw [wc.frame q h1, wb.frame q h2, fa q h3]

/-- The block of the public `insert` that splits the root, on a state with any free list: the
two allocations and the two writes succeed and leave the three nodes as computed. -/
theorem grow_root_total (t : BPT Value) (root_node n0 : BPTNode Value) (fl : List Nat)
    (hc : t.coherent) (hch : t.file.free_chain t.file.slot2 fl) (hnd : fl.Nodup)
    (hp : t.file.node_at t.root_page = some n0)
    (hl : root_node.is_leaf = false) (hfull : M ≤ root_node.count) :
    ∃ C R t1 e0 rest0 e1 rest1,
      grow_root root_node t = .ok t1 ∧
      root_node.internal_entries.take (M / 2) = e0 :: rest0 ∧
      root_node.internal_entries.drop (M / 2) = e1 :: rest1 ∧
      t.file.node_at C = none ∧ t.file.node_at R = none ∧
      C ≠ R ∧ C ≠ t.root_page ∧ R ≠ t.root_page ∧
      t1.coherent ∧ t1.root_page = R ∧ t1.file.slot1 = R ∧
      t1.file.node_at R =
        some { is_leaf := false, parent := 0, next_leaf := 0,
               internal_entries :=
                 [{ index := e0.index, child := t.root_page }, { index := e1.index, child := C }] } ∧
      t1.file.node_at t.root_page =
        some { root_node with
               parent := R, next_leaf := C,
               internal_entries := root_node.internal_entries.take (M / 2) } ∧
      t1.file.node_at C =
        some { is_leaf := false, parent := R, next_leaf := 0,
               internal_entries := root_node.internal_entries.drop (M / 2) } ∧
      ∀ q, q ≠ t.root_page → q ≠ C → q ≠ R → t1.file.block q = t.file.block q := by
  have hlen : M ≤ root_node.internal_entries.length := by
    simpa [BPTNode.count, hl] using hfull
  have hM : (M : Nat) = 58 := rfl
  obtain ⟨e0, rest0, htake⟩ : ∃ e0 rest0, root_node.internal_entries.take (M / 2) = e0 :: rest0 := by
    cases hx : root_node.internal_entries.take (M / 2) with
    | nil =>
      have := congrArg List.length hx
      rw [List.length_take, List.length_nil] at this
      omega
    | cons a l => exact ⟨a, l, rfl⟩
  have hdrop := List.drop_eq_getElem_cons (show M / 2 < root_node.internal_entries.length by omega)
  obtain ⟨C, ta, fla, ha, ca, sa, ra, hC, bC, fa, cha, hcase⟩ :=
    alloc_at hc hch hnd ({ is_leaf := false, parent := 0, next_leaf := 0 } : BPTNode Value)
  have hnda : fla.Nodup := by
    rcases hcase with ⟨h1, _⟩ | ⟨_, h2, _⟩
    · rw [h1] at hnd; exact (List.nodup_cons.mp hnd).2
    · rw [h2]; exact List.nodup_nil
  obtain ⟨R, tb, flb, hb, cb, sb, rb, hR, bR, fb, chb, _⟩ :=
    alloc_at ca cha hnda
      ({ is_leaf := false, parent := 0, next_leaf := 0,
         internal_entries :=
           [{ index := e0.index, child := t.root_page },
            { index := root_node.internal_entries[M / 2].index, child := C }] } : BPTNode Value)
  have hCa : ta.file.node_at C = some ({ is_leaf := false, parent := 0, next_leaf := 0 } :
      BPTNode Value) := (MemoryRiver.node_at_eq_some _ _ _).mpr bC
  have hCr : C ≠ t.root_page := fun h => by rw [h, hp] at hC; cases hC
  have hCR : C ≠ R := fun h => by rw [← h, hCa] at hR; cases hR
  have hpa : ta.file.node_at t.root_page = some n0 := by
    rw [node_at_of_block_eq (fa _ hCr.symm)]; exact hp
  have hRr : R ≠ t.root_page := fun h => by rw [h, hpa] at hR; cases hR
  have hRt : t.file.node_at R = none := by
    rw [← node_at_of_block_eq (fa _ hCR.symm)]; exact hR
  have hpb : tb.file.node_at t.root_page = some n0 := by
    rw [node_at_of_block_eq (fb _ hRr.symm)]; exact hpa
  obtain ⟨tc, hwc, wc⟩ := write_spec
    (t := ({ file := tb.file, root_page := R, cache := tb.cache } : BPT Value)) cb
    ({ is_leaf := false, parent := R, next_leaf := C, leaf_entries := root_node.leaf_entries,
       internal_entries := root_node.internal_entries.take (M / 2) } : BPTNode Value) hpb
  have hCc : tc.file.node_at C =
      some ({ is_leaf := false, parent := 0, next_leaf := 0 } : BPTNode Value) := by
    rw [wc.other hCr]
    show tb.file.node_at C = _
    rw [node_at_of_block_eq (fb _ hCR)]; exact hCa
  obtain ⟨td, hwd, wd⟩ := write_spec wc.coherent
    ({ is_leaf := false, parent := R, next_leaf := 0,
       internal_entries := root_node.internal_entries.drop (M / 2) } : BPTNode Value) hCc
  have hRb : tb.file.node_at R = some _ := (MemoryRiver.node_at_eq_some _ _ _).mpr bR
  refine ⟨C, R, { td with file := td.file.write_info R 1 }, e0, rest0,
    root_node.internal_entries[M / 2], _, ?_, htake, hdrop, hC, hRt, hCR, hCr, hRr,
    coherent_write_info wd.coherent R 1, ?_, ?_, ?_, ?_, ?_, ?_⟩
  · have hk0 : BPTNode.first_key
        ({ is_leaf := false, parent := root_node.parent, next_leaf := root_node.next_leaf,
           leaf_entries := root_node.leaf_entries,
           internal_entries := root_node.internal_entries.take (M / 2) } :
          BPTNode Value) = .ok e0.index := first_key_internal rfl htake
    have hk1 : BPTNode.first_key
        ({ is_leaf := false, parent := 0, next_leaf := 0,
           internal_entries := root_node.internal_entries.drop (M / 2) } : BPTNode Value) =
          .ok root_node.internal_entries[M / 2].index := first_key_internal rfl hdrop
    simp only [grow_root, hl, Bool.false_eq_true, if_false, bind, Except.bind, ha, hk0, hk1]
    rw [ra]
    simp only [hb, hwc, hwd, pure, Except.pure]
  · show td.root_page = R
    rw [wd.root, wc.root]
  · simp [MemoryRiver.write_info]
  · rw [node_at_write_info, wd.other hCR.symm, wc.other hRr]; exact hRb
  · rw [node_at_write_info, wd.other hCr.symm, wc.node]
    simp [hl]
  · rw [node_at_write_info]; exact wd.node
  · intro q h1 h2 h3
    rw [block_write_info, wd.frame q h2, wc.frame q h1]
    show tb.file.block q = _
    rw [fb q h3, fa q h2]

theorem left_half_fields (c : BPTNode Value) (q : Nat) :
    (c.left_half q).is_leaf = c.is_leaf ∧ (c.left_half q).parent = c.parent ∧
      (c.left_half q).next_leaf = q ∧
      (c.is_leaf = true → (c.left_half q).leaf_entries = c.leaf_entries.take (L / 2)) ∧
      (c.is_leaf = false →
        (c.left_half q).internal_entries = c.internal_entries.take (M / 2)) := by
  cases hl : c.is_leaf <;> simp [BPTNode.left_half, BPTNode.truncate, BPTNode.limit, hl]

theorem right_half_fields (c : BPTNode Value) :
    c.right_half.is_leaf = c.is_leaf ∧ c.right_half.parent = c.parent ∧
      c.right_half.next_leaf = c.next_leaf ∧
      (c.is_leaf = true → c.right_half.leaf_entries = c.leaf_entries.drop (L / 2)) ∧
      (c.is_leaf = false → c.right_half.internal_entries = c.internal_entries.drop (M / 2)) := by
  cases hl : c.is_leaf <;> simp [BPTNode.right_half, BPTNode.limit, hl]

theorem halves_counts (c : BPTNode Value) (q : Nat) (hfull : c.limit ≤ c.count) :
    (c.left_half q).count = c.limit / 2 ∧ c.right_half.count = c.count - c.limit / 2 := by
  cases hl : c.is_leaf <;>
    simp [BPTNode.left_half, BPTNode.right_half, BPTNode.truncate, BPTNode.limit,
      BPTNode.count, hl] at hfull ⊢ <;> omega

theorem keyed_iff (m : Nat → Option (BPTNode Value)) (h p : Nat) (lo : Key) (hi : Option Key) :
    keyed m h p lo hi ↔ ∃ n, m p = some n ∧ keys_fit m h n lo hi := by
  cases h <;> rfl

theorem next_key_append (a b : List InternalEntry) (hi : Option Key) :
    next_key (a ++ b) hi = next_key a (next_key b hi) := by
  cases a <;> rfl

/-- The chain of children splits anywhere: the left part is bounded by the first key of the
right part. -/
theorem kids_append_next {P : Nat → Key → Option Key → Prop} (a b : List InternalEntry)
    (hi : Option Key) : kids P (a ++ b) hi ↔ kids P a (next_key b hi) ∧ kids P b hi := by
  induction a with
  | nil => simp [kids]
  | cons x a ih =>
    show (P x.child x.index (next_key (a ++ b) hi) ∧ below x.index (next_key (a ++ b) hi) ∧
        kids P (a ++ b) hi) ↔
      (P x.child x.index (next_key a (next_key b hi)) ∧
        below x.index (next_key a (next_key b hi)) ∧ kids P a (next_key b hi)) ∧ kids P b hi
    rw [next_key_append, ih]
    tauto

/-- A group of neighbouring entries is replaced by a group with the same first key. -/
theorem kids_replace {P Q : Nat → Key → Option Key → Prop}
    (pre mid mid1 post : List InternalEntry) (hi : Option Key)
    (hk : kids P (pre ++ mid ++ post) hi)
    (hfirst : next_key mid none = next_key mid1 none)
    (hne : mid ≠ [] ∧ mid1 ≠ [])
    (hmid : kids Q mid1 (next_key post hi))
    (hside : ∀ e ∈ pre ++ post, ∀ k hi1, P e.child k hi1 → Q e.child k hi1) :
    kids Q (pre ++ mid1 ++ post) hi := by
  rw [List.append_assoc, kids_append_next] at hk ⊢
  obtain ⟨h1, h2⟩ := hk
  rw [kids_append_next] at h2 ⊢
  have hn : next_key (mid ++ post) hi = next_key (mid1 ++ post) hi := by
    obtain ⟨a, l, ha⟩ := List.exists_cons_of_ne_nil hne.1
    obtain ⟨a1, l1, ha1⟩ := List.exists_cons_of_ne_nil hne.2
    rw [ha, ha1] at hfirst ⊢
    simp only [next_key, Option.some.injEq] at hfirst
    simp only [List.cons_append, next_key, hfirst]
  rw [← hn]
  exact ⟨kids_imp (fun e he => hside e (List.mem_append_left _ he)) h1, hmid,
    kids_imp (fun e he => hside e (List.mem_append_right _ he)) h2.2⟩

theorem keyed_congr {m m1 : Nat → Option (BPTNode Value)} :
    ∀ (h p : Nat) (lo : Key) (hi : Option Key), (∀ q ∈ subtree m h p, m1 q = m q) →
      keyed m h p lo hi → keyed m1 h p lo hi := by
  intro h
  induction h with
  | zero =>
    intro p lo hi hag hk
    obtain ⟨n, hn, h1⟩ := hk
    exact ⟨n, by rw [hag p (subtree_root_mem _ _ _)]; exact hn, h1⟩
  | succ h ih =>
    intro p lo hi hag hk
    obtain ⟨n, hn, h1, h2⟩ := hk
    refine ⟨n, by rw [hag p (subtree_root_mem _ _ _)]; exact hn, h1, ?_⟩
    refine kids_imp ?_ h2
    intro e he k hi1 hp
    exact ih e.child k hi1 (fun q hq => hag q (subtree_child_mem hn he hq)) hp

theorem keys_fit_congr {m m1 : Nat → Option (BPTNode Value)} (h : Nat) {n : BPTNode Value}
    {lo : Key} {hi : Option Key} (hag : ∀ q ∈ under m h n, m1 q = m q)
    (hk : keys_fit m h n lo hi) : keys_fit m1 h n lo hi := by
  cases h with
  | zero => exact hk
  | succ h =>
    obtain ⟨h1, h2⟩ := hk
    refine ⟨h1, kids_imp ?_ h2⟩
    intro e he k hi1 hp
    exact keyed_congr h e.child k hi1
      (fun q hq => hag q (List.mem_flatMap.mpr ⟨e, he, hq⟩)) hp

/-- A node written at a page, the pages below it untouched. -/
theorem keyed_rebuild {m m1 : Nat → Option (BPTNode Value)} (h : Nat) {q : Nat}
    {n : BPTNode Value} {lo : Key} {hi : Option Key} (hq : m1 q = some n)
    (hk : keys_fit m h n lo hi) (hag : ∀ x ∈ under m h n, m1 x = m x) :
    keyed m1 h q lo hi :=
  (keyed_iff _ _ _ _ _).mpr ⟨n, hq, keys_fit_congr h hag hk⟩

theorem keys_fit_of_entries {m : Nat → Option (BPTNode Value)} (h : Nat) {a b : BPTNode Value}
    {lo : Key} {hi : Option Key} (h1 : b.leaf_entries = a.leaf_entries)
    (h2 : b.internal_entries = a.internal_entries) (hk : keys_fit m h a lo hi) :
    keys_fit m h b lo hi := by
  cases h with
  | zero =>
    show _ ∧ _
    rw [h1]
    exact hk
  | succ h =>
    show _ ∧ _
    rw [h2]
    exact hk

theorem below_of_lt {a b : Key} (h : a < b) : below a (some b) := Key.le_of_lt h

theorem below_next_key {l : List InternalEntry} {hi : Option Key} {k : Key}
    (h1 : below k hi) (h2 : ∀ e ∈ l, k ≤ e.index) : below k (next_key l hi) := by
  cases l with
  | nil => exact h1
  | cons e l => exact h2 e (List.mem_cons_self _ _)

/-- The leaf entries of a subtree with keys in order are in order, between the bounds. -/
theorem keyed_contents {m : Nat → Option (BPTNode Value)} :
    ∀ (h p : Nat) (lo : Key) (hi : Option Key), keyed m h p lo hi →
      (contents m h p).Pairwise (fun a b => a.index ≤ b.index) ∧
        ∀ x ∈ contents m h p, lo ≤ x.index ∧ below x.index hi := by
  intro h
  induction h with
  | zero =>
    intro p lo hi hk
    obtain ⟨n, hn, h1, h2⟩ := hk
    simp only [contents, hn]
    exact ⟨h1, h2⟩
  | succ h ih =>
    intro p lo hi hk
    obtain ⟨n, hn, ⟨e0, rest0, hes, hlo⟩, h2⟩ := hk
    simp only [contents, hn]
    have key : ∀ (l : List InternalEntry) (hi : Option Key),
        kids (fun c k hi1 => keyed m h c k hi1) l hi →
        (l.flatMap (fun e => contents m h e.child)).Pairwise (fun a b => a.index ≤ b.index) ∧
          ∀ x ∈ l.flatMap (fun e => contents m h e.child),
            below x.index hi ∧ ∀ e1 rest1, l = e1 :: rest1 → e1.index ≤ x.index := by
      intro l
      induction l with
      | nil => intro hi _; simp
      | cons e l ihl =>
        intro hi hk
        obtain ⟨k1, k2, k3⟩ := hk
        obtain ⟨c1, c2⟩ := ih e.child e.index _ k1
        obtain ⟨r1, r2⟩ := ihl hi k3
        have hup : ∀ k, below k (next_key l hi) → below k hi := by
          intro k hk
          cases l with
          | nil => exact hk
          | cons e2 l2 =>
            have := kids_keys_below k3 e2 (List.mem_cons_self _ _)
            exact below_trans hk this
        have hlow : ∀ y ∈ l.flatMap (fun e => contents m h e.child),
            ∀ k, below k (next_key l hi) → k ≤ y.index := by
          intro y hy k hk
          cases l with
          | nil => simp at hy
          | cons e2 l2 => exact Key.le_trans hk ((r2 y hy).2 e2 l2 rfl)
        rw [List.flatMap_cons]
        refine ⟨List.pairwise_append.mpr ⟨c1, r1, ?_⟩, ?_⟩
        · intro x hx y hy
          exact hlow y hy _ (c2 x hx).2
        · intro x hx
          rcases List.mem_append.mp hx with hx | hx
          · refine ⟨hup _ (c2 x hx).2, ?_⟩
            intro e1 rest1 he1
            cases he1
            exact (c2 x hx).1
          · refine ⟨(r2 x hx).1, ?_⟩
            intro e1 rest1 he1
            cases he1
            exact hlow x hx _ k2
    obtain ⟨g1, g2⟩ := key n.internal_entries hi h2
    refine ⟨g1, fun x hx => ⟨?_, (g2 x hx).1⟩⟩
    rw [← hlo]
    exact (g2 x hx).2 e0 rest0 hes

/-! ## Frames of the steps on a child -/

/-- The pages under the entries other than `mid` are untouched by a step that touches only the
pages under `mid`, the page `p`, free pages and new pages. -/
theorem sibling_frame {t t1 : BPT Value} {h p : Nat} {fl : List Nat} {n : BPTNode Value}
    (pre mid post : List InternalEntry)
    (ho : Owned t (h + 1) p fl) (hn : t.file.node_at p = some n)
    (hes : n.internal_entries = pre ++ mid ++ post)
    (hfr : ∀ q, q ∉ mid.flatMap (fun e => subtree t.file.node_at h e.child) → q ≠ p → q ∉ fl →
      q ≤ t.file.pages.length → t1.file.block q = t.file.block q) :
    ∀ e ∈ pre ++ post, ∀ x ∈ subtree t.file.node_at h e.child,
      t1.file.node_at x = t.file.node_at x := by
  obtain ⟨n0, hn0, hl, hne0, hk⟩ := ho.shape
  rw [hn] at hn0
  cases hn0
  have hsub : subtree t.file.node_at (h + 1) p =
      p :: (pre.flatMap (fun e => subtree t.file.node_at h e.child) ++
        mid.flatMap (fun e => subtree t.file.node_at h e.child) ++
        post.flatMap (fun e => subtree t.file.node_at h e.child)) := by
    simp only [subtree, hn, hes, List.flatMap_append]
  have hnd := ho.nodup
  rw [hsub] at hnd
  obtain ⟨hside, _, _, _, _⟩ := nodup_parts _ _ _ _ _ hnd
  intro e he x hx
  have hek : e ∈ n.internal_entries := by
    rw [hes]
    rcases List.mem_append.mp he with he | he
    · exact List.mem_append_left _ (List.mem_append_left _ he)
    · exact List.mem_append_right _ he
  have hxm : x ∈ pre.flatMap (fun e => subtree t.file.node_at h e.child) ++
      post.flatMap (fun e => subtree t.file.node_at h e.child) := by
    rcases List.mem_append.mp he with he | he
    · exact List.mem_append_left _ (List.mem_flatMap.mpr ⟨e, he, hx⟩)
    · exact List.mem_append_right _ (List.mem_flatMap.mpr ⟨e, he, hx⟩)
  obtain ⟨h1, h2, h3⟩ := hside x hxm
  obtain ⟨nx, hnx⟩ := shaped_defined h e.child (hk e hek) x hx
  exact node_at_of_block_eq (hfr x h1 h2 h3 (MemoryRiver.node_at_bound hnx).2)

/-- A step inside the subtree of one child leaves the pages under the other children alone. -/
theorem child_step_frame {t t1 : BPT Value} {h p : Nat} {fl fl1 : List Nat}
    {n c1 : BPTNode Value} (pre : List InternalEntry) (e : InternalEntry)
    (post : List InternalEntry)
    (ho : Owned t (h + 1) p fl) (hn : t.file.node_at p = some n)
    (hes : n.internal_entries = pre ++ e :: post)
    (hr : Reshaped t t1 h e.child fl fl1 c1) :
    ∀ e1 ∈ pre ++ post, ∀ x ∈ subtree t.file.node_at h e1.child,
      t1.file.node_at x = t.file.node_at x :=
  sibling_frame pre [e] post ho hn (by simpa using hes)
    (fun q hq1 _ hq3 hq4 => hr.frame q (by simpa using hq1) hq3 hq4)

/-- The split step fails when the parent has no free entry slot: when it returns, the parent had
fewer entries than the array has slots. -/
theorem split_child_room {t : BPT Value} {now_node child_node c0 : BPTNode Value}
    {now_page child_page i : Nat} {fl : List Nat} {r : BPTNode Value × BPT Value}
    (hc : t.coherent) (hch : t.file.free_chain t.file.slot2 fl) (hnd : fl.Nodup)
    (hcp : t.file.node_at child_page = some c0)
    (hfull : child_node.limit ≤ child_node.count)
    (hs : split_child now_node now_page i child_node child_page t = .ok r) :
    now_node.internal_entries.length < internal_slots := by
  by_contra hno
  obtain ⟨key, hkey, _⟩ := first_key_right_half child_node hfull
  obtain ⟨S, ta, fl1, ha, ca, sa, ra, hS, bS, fa, cha, hcase⟩ :=
    alloc_at hc hch hnd child_node.right_half
  have hSc : S ≠ child_page := fun h => by rw [h, hcp] at hS; cases hS
  have hcpa : ta.file.node_at child_page = some c0 := by
    rw [node_at_of_block_eq (fa _ hSc.symm)]; exact hcp
  obtain ⟨tb, hw, wb⟩ := write_spec ca (child_node.left_half S) hcpa
  have hlim : (if child_node.is_leaf = true then L else M) = child_node.limit := rfl
  unfold BPTNode.right_half at ha hkey
  unfold BPTNode.left_half at hw
  simp only [split_child, bind, Except.bind, hlim, ha, hw, hkey, pure, Except.pure] at hs
  rw [if_pos (by omega)] at hs
  cases hs

/-! ## The order of the keys under `insert` -/

theorem keys_fit_leaf_insert {m : Nat → Option (BPTNode Value)} (k : Key) (v : Value)
    {n : BPTNode Value} {lo : Key} {hi : Option Key} (hk : keys_fit m 0 n lo hi)
    (h1 : lo ≤ k) (h2 : below k hi) :
    keys_fit m 0
      { n with
        leaf_entries :=
          n.leaf_entries.take (insert_slot k n.leaf_entries n.leaf_entries.length) ++
            { index := k, value := v } ::
              n.leaf_entries.drop (insert_slot k n.leaf_entries n.leaf_entries.length) }
      lo hi := by
  obtain ⟨hs, hb⟩ := hk
  refine ⟨leaf_insert_sorted k v n.leaf_entries hs, ?_⟩
  intro e he
  rcases List.mem_append.mp he with he | he
  · exact hb e (List.mem_of_mem_take he)
  · rcases List.mem_cons.mp he with rfl | he
    · exact ⟨h1, h2⟩
    · exact hb e (List.mem_of_mem_drop he)

/-- The two halves of a node with keys in order: the first key of the right half separates
them. -/
theorem keys_fit_halves {m : Nat → Option (BPTNode Value)} (h q : Nat) {c : BPTNode Value}
    {lo : Key} {hi : Option Key} (hf : fits m h c) (hk : keys_fit m h c lo hi)
    (hfull : c.limit ≤ c.count) :
    ∃ sep, c.right_half.first_key = .ok sep ∧ lo ≤ sep ∧ below sep hi ∧
      keys_fit m h (c.left_half q) lo (some sep) ∧ keys_fit m h c.right_half sep hi := by
  obtain ⟨sep, hsep, hleaf, hint⟩ := first_key_right_half c hfull
  obtain ⟨l1, l2, l3, l4, l5⟩ := left_half_fields c q
  obtain ⟨r1, r2, r3, r4, r5⟩ := right_half_fields c
  cases h with
  | zero =>
    have hl : c.is_leaf = true := hf
    obtain ⟨e, rest, hd, he⟩ := hleaf hl
    obtain ⟨hs, hb⟩ := hk
    have hsplit : c.leaf_entries = c.leaf_entries.take (L / 2) ++ e :: rest := by
      rw [← hd, List.take_append_drop]
    have hem : e ∈ c.leaf_entries := by rw [hsplit]; simp
    rw [hsplit] at hs
    obtain ⟨p1, p2, p3⟩ := List.pairwise_append.mp hs
    refine ⟨sep, hsep, ?_, ?_, ⟨?_, ?_⟩, ⟨?_, ?_⟩⟩
    · rw [← he]; exact (hb e hem).1
    · rw [← he]; exact (hb e hem).2
    · rw [l4 hl]; exact p1
    · intro x hx
      rw [l4 hl] at hx
      refine ⟨(hb x (List.mem_of_mem_take hx)).1, ?_⟩
      rw [← he]
      exact p3 x hx e (List.mem_cons_self _ _)
    · rw [r4 hl, hd]; exact p2
    · intro x hx
      rw [r4 hl, hd] at hx
      have hxm : x ∈ c.leaf_entries := by
        rw [hsplit]; exact List.mem_append_right _ hx
      refine ⟨?_, (hb x hxm).2⟩
      rw [← he]
      rcases List.mem_cons.mp hx with rfl | hx
      · exact Key.le_refl _
      · exact (List.pairwise_cons.mp p2).1 x hx
  | succ h =>
    have hl : c.is_leaf = false := hf.1
    obtain ⟨e, rest, hd, he⟩ := hint hl
    obtain ⟨⟨e0, rest0, hes, hlo⟩, hkids⟩ := hk
    have hsplit : c.internal_entries = c.internal_entries.take (M / 2) ++ e :: rest := by
      rw [← hd, List.take_append_drop]
    have hem : e ∈ c.internal_entries := by rw [hsplit]; simp
    have htake : c.internal_entries.take (M / 2) = e0 :: rest0.take (M / 2 - 1) := by
      rw [hes]
      rfl
    have hsorted := kids_sorted hkids
    have hbelow := kids_keys_below hkids
    rw [hsplit] at hkids hsorted
    obtain ⟨k1, k2⟩ := (kids_append _ _ _ _).mp hkids
    obtain ⟨_, _, p3⟩ := List.pairwise_append.mp hsorted
    refine ⟨sep, hsep, ?_, ?_, ⟨⟨e0, rest0.take (M / 2 - 1), ?_, hlo⟩, ?_⟩,
      ⟨⟨e, rest, ?_, he⟩, ?_⟩⟩
    · rw [← he, ← hlo]
      exact p3 e0 (by rw [htake]; exact List.mem_cons_self _ _) e (List.mem_cons_self _ _)
    · rw [← he]; exact hbelow e hem
    · rw [l5 hl]; exact htake
    · show kids _ (c.left_half q).internal_entries _
      rw [l5 hl, ← he]; exact k1
    · rw [r5 hl]; exact hd
    · show kids _ c.right_half.internal_entries _
      rw [r5 hl, hd]; exact k2

/-- The split step keeps the keys of the subtree of the parent in order. -/
theorem split_child_keyed {t t1 : BPT Value} {h p : Nat} {fl : List Nat}
    {n n1 cn : BPTNode Value} {lo : Key} {hi : Option Key}
    (pre : List InternalEntry) (e : InternalEntry) (post : List InternalEntry)
    (ho : Owned t (h + 1) p fl) (hn : t.file.node_at p = some n)
    (hes : n.internal_entries = pre ++ e :: post)
    (hcn : t.file.node_at e.child = some cn) (hfull : cn.limit ≤ cn.count)
    (hk : keyed t.file.node_at (h + 1) p lo hi)
    (hsp : split_child n p pre.length cn e.child t = .ok (n1, t1)) :
    keyed t1.file.node_at (h + 1) p lo hi := by
  have hnd_fl : fl.Nodup := (List.nodup_append.mp ho.nodup).2.1
  have hroom := split_child_room ho.coherent ho.chain hnd_fl hcn hfull hsp
  obtain ⟨n0, hn0, hl, hne, hshape⟩ := ho.shape
  rw [hn] at hn0
  cases hn0
  have hmem : e ∈ n.internal_entries := by rw [hes]; simp
  have hpc : e.child ≠ p := by
    have hnd := ho.nodup
    rw [subtree_succ_split _ _ _ _ hn pre e post hes] at hnd
    obtain ⟨_, hpB, _, _, _⟩ := nodup_parts _ _ _ _ _ hnd
    exact fun h => hpB (h ▸ subtree_root_mem _ _ _)
  obtain ⟨S, t2, fl1, key, heq, hkey, hS, hSp, hSc, _, _, _, _, hcase, hnS, hnc, hnp, hblk⟩ :=
    split_child_total t n n cn cn p e.child pre.length fl ho.coherent ho.chain hnd_fl hn hcn
      hpc hfull hroom
  rw [hsp] at heq
  simp only [Except.ok.injEq, Prod.mk.injEq] at heq
  obtain ⟨hn1, rfl⟩ := heq
  obtain ⟨n2, hn2, ⟨e0, rest0, hes0, hlo⟩, hkids⟩ := hk
  rw [hn] at hn2
  cases hn2
  have htd := take_drop_middle pre e post
  rw [← hes] at htd
  have hes1 : n1.internal_entries = pre ++ [e, { index := key, child := S }] ++ post := by
    rw [hn1]
    simp only [htd.1, htd.2, List.append_assoc, List.singleton_append, List.cons_append,
      List.nil_append]
  obtain ⟨cfit⟩ : Nonempty (fits t.file.node_at h cn) := by
    obtain ⟨c0, hc0, hf⟩ := (shaped_iff_fits _ _ _).mp (hshape e hmem)
    rw [hcn] at hc0; cases hc0; exact ⟨hf⟩
  have hes' : n.internal_entries = pre ++ [e] ++ post := by
    rw [hes]; simp
  rw [hes'] at hkids
  have hkc : keyed t.file.node_at h e.child e.index (next_key post hi) := by
    rw [List.append_assoc, kids_append_next, kids_append_next] at hkids
    exact hkids.2.1.1
  obtain ⟨c0, hc0, hkf⟩ := (keyed_iff _ _ _ _ _).mp hkc
  rw [hcn] at hc0
  cases hc0
  obtain ⟨sep, hsep, s1, s2, s3, s4⟩ := keys_fit_halves h S cfit hkf hfull
  rw [hkey] at hsep
  cases hsep
  obtain ⟨_, _, hund⟩ := fits_halves h S cfit hfull
  have hgf : ∀ x ∈ under t.file.node_at h cn, t1.file.node_at x = t.file.node_at x := by
    intro x hx
    obtain ⟨_, g1, g2, _, _, g5⟩ := grand_frame pre [e] post ho hn hes' e (by simp) cn hcn x hx
    apply node_at_of_block_eq
    exact hblk x g1 (g2 e (by simp)) (fun h => g5 (h ▸ hS))
  have hsib : ∀ e1 ∈ pre ++ post, ∀ x ∈ subtree t.file.node_at h e1.child,
      t1.file.node_at x = t.file.node_at x := by
    refine sibling_frame pre [e] post ho hn hes' ?_
    intro q hq1 hq2 hq3 hq4
    refine hblk q hq2 (fun h => hq1 (by rw [h]; simp [subtree_root_mem])) ?_
    rcases hcase with ⟨c1, _⟩ | ⟨_, _, c3, _⟩
    · intro h; apply hq3; rw [c1, h]; exact List.mem_cons_self _ _
    · omega
  refine ⟨n1, hn1 ▸ hnp, ⟨e0, ?_⟩, ?_⟩
  · cases pre with
    | nil =>
      rw [hes1]
      rw [hes] at hes0
      simp only [List.nil_append, List.cons.injEq] at hes0
      exact ⟨_, by simp only [List.nil_append, List.cons_append]; rw [hes0.1], hlo⟩
    | cons a pre =>
      rw [hes1]
      rw [hes] at hes0
      simp only [List.cons_append, List.cons.injEq] at hes0
      exact ⟨_, by simp only [List.cons_append]; rw [hes0.1], hlo⟩
  · rw [hes1]
    refine kids_replace pre [e] _ post hi hkids rfl ⟨by simp, by simp⟩ ?_ ?_
    · refine ⟨?_, s1, ?_, s2, trivial⟩
      · exact keyed_rebuild h hnc s3
          (fun x hx => hgf x (by rw [← hund]; exact List.mem_append_left _ hx))
      · exact keyed_rebuild h hnS s4
          (fun x hx => hgf x (by rw [← hund]; exact List.mem_append_right _ hx))
    · intro e1 he1 k1 hi1 hp1
      exact keyed_congr h e1.child k1 hi1 (hsib e1 he1) hp1

/-- The child chosen by `insert` in a node whose first key is at most `k`: its key is at most
`k`, and `k` is at most the next key. -/
theorem insert_child_bounds {P : Nat → Key → Option Key → Prop} (k : Key)
    {es : List InternalEntry} {hi : Option Key} {lo : Key} {e0 : InternalEntry}
    {rest0 : List InternalEntry} (hes0 : es = e0 :: rest0) (hlo : e0.index = lo)
    (hk : kids P es hi) (h1 : lo ≤ k) (h2 : below k hi) {e : InternalEntry}
    (hei : es[insert_child_index k es]? = some e) :
    e.index ≤ k ∧ below k (next_key (es.drop (insert_child_index k es + 1)) hi) := by
  obtain ⟨b, hb, b1, b2, b3, b4⟩ := insert_child_index_spec k es (kids_sorted hk)
  have hlen : 0 < es.length := by rw [hes0]; simp
  have hk0 : key_at es 0 = lo := by rw [hes0]; simp [key_at, hlo]
  have hb0 : 0 < b := by
    rcases Nat.eq_zero_or_pos b with h0 | h0
    · have := b2 0 (by omega) hlen
      rw [hk0] at this
      exact absurd this (fun h => Key.lt_irrefl_of_le h1 h)
    · exact h0
  have hi1 := b4 hb0
  constructor
  · rw [← key_at_of_getElem hei]
    exact b1 _ (by omega)
  · cases hd : es.drop (insert_child_index k es + 1) with
    | nil => exact h2
    | cons x l =>
      have hlt : insert_child_index k es + 1 < es.length := by
        by_contra hno
        rw [List.drop_eq_nil_of_le (by omega)] at hd
        cases hd
      have hx : es[insert_child_index k es + 1]? = some x := by
        rw [List.drop_eq_getElem_cons hlt] at hd
        rw [List.getElem?_eq_getElem hlt]
        simp only [List.cons.injEq] at hd
        rw [hd.1]
      have := b2 (insert_child_index k es + 1) (by omega) hlt
      rw [key_at_of_getElem hx] at this
      exact Key.le_of_lt this

/-- The recursive `insert` of a key between the bounds of a subtree keeps the keys of the
subtree in order. -/
theorem insert_rec_keyed (k : Key) (v : Value) :
    ∀ (h d p : Nat) (n n1 : BPTNode Value) (t t1 : BPT Value) (fl : List Nat) (lo : Key)
      (hi : Option Key),
      Owned t h p fl → t.file.node_at p = some n → keyed t.file.node_at h p lo hi →
      lo ≤ k → below k hi → insert_rec k v d n p t = .ok (n1, t1) →
      keyed t1.file.node_at h p lo hi := by
  intro h
  induction h with
  | zero =>
    intro d p n n1 t t1 fl lo hi ho hn hk h1 h2 hi0
    obtain ⟨n0, hn0, hl⟩ := ho.shape
    rw [hn] at hn0
    cases hn0
    obtain ⟨n2, hn2, hkf⟩ := (keyed_iff _ _ _ _ _).mp hk
    rw [hn] at hn2
    cases hn2
    cases d with
    | zero => simp [insert_rec] at hi0
    | succ d =>
      simp only [insert_rec] at hi0
      rw [if_pos hl] at hi0
      split at hi0
      · cases hi0
      · split at hi0
        · cases hi0
        · rename_i t2 hw
          simp only [Except.ok.injEq, Prod.mk.injEq] at hi0
          obtain ⟨hn1, rfl⟩ := hi0
          obtain ⟨t3, e3, w3⟩ := write_spec ho.coherent
            ({ n with
               leaf_entries :=
                 n.leaf_entries.take (insert_slot k n.leaf_entries n.leaf_entries.length) ++
                   { index := k, value := v } ::
                     n.leaf_entries.drop
                       (insert_slot k n.leaf_entries n.leaf_entries.length) } :
              BPTNode Value) hn
          rw [hw] at e3
          cases e3
          exact (keyed_iff _ _ _ _ _).mpr ⟨_, w3.node, keys_fit_leaf_insert k v hkf h1 h2⟩
  | succ h ih =>
    intro d p n n1 t t1 fl lo hi ho hn hk h1 h2 hi0
    obtain ⟨n0, hn0, hl, hne, hshape⟩ := ho.shape
    rw [hn] at hn0
    cases hn0
    obtain ⟨n2, hn2, ⟨e0, rest0, hes0, hlo⟩, hkids⟩ := hk
    rw [hn] at hn2
    cases hn2
    cases d with
    | zero => simp [insert_rec] at hi0
    | succ d =>
      simp only [insert_rec] at hi0
      rw [if_neg (by simp [hl])] at hi0
      split at hi0
      · cases hi0
      · rename_i e hei
        obtain ⟨hes, hlen⟩ := split_at_index _ _ _ hei
        obtain ⟨hb1, hb2⟩ := insert_child_bounds k hes0 hlo hkids h1 h2 hei
        have hmem : e ∈ n.internal_entries := by
          obtain ⟨g1, g2⟩ := List.getElem?_eq_some_iff.mp hei
          exact g2 ▸ List.getElem_mem g1
        obtain ⟨cn, hcn, _⟩ := (shaped_iff_fits _ _ _).mp (hshape e hmem)
        obtain ⟨ta, hr, fa, ra, ca⟩ := disk_read_ok ho.coherent hcn
        simp only [hr] at hi0
        split at hi0
        · cases hi0
        · rename_i cn1 tb hrec
          have hoa : Owned ta (h + 1) p fl := ho.on_same_file fa ca
          have hna : ta.file.node_at p = some n := by rw [fa]; exact hn
          obtain ⟨fl1, hr1, _⟩ := insert_rec_shape k v h d e.child cn cn1 ta tb fl
            (hoa.child hna hmem) (by rw [fa]; exact hcn) hrec
          have hr2 : Reshaped t tb (h + 1) p fl fl1 n :=
            (Reshaped.lift _ e _ hoa hna hes hr1).of_file_eq fa ra
          -- the keys after the step on the child
          obtain ⟨pre, hpre⟩ : ∃ pre, pre = n.internal_entries.take
            (insert_child_index k n.internal_entries) := ⟨_, rfl⟩
          obtain ⟨post, hpost⟩ : ∃ post, post = n.internal_entries.drop
            (insert_child_index k n.internal_entries + 1) := ⟨_, rfl⟩
          rw [← hpre, ← hpost] at hes
          rw [← hpre] at hlen
          rw [← hpost] at hb2
          have hes' : n.internal_entries = pre ++ [e] ++ post := by rw [hes]; simp
          have hkc : keyed t.file.node_at h e.child e.index (next_key post hi) := by
            have := hkids
            rw [hes', List.append_assoc, kids_append_next, kids_append_next] at this
            exact this.2.1.1
          have hkc1 : keyed tb.file.node_at h e.child e.index (next_key post hi) :=
            ih d e.child cn cn1 ta tb fl e.index _ (hoa.child hna hmem)
              (by rw [fa]; exact hcn) (by rw [fa]; exact hkc) hb1 hb2 hrec
          have hsib := child_step_frame pre e post hoa hna hes hr1
          have hkb : keyed tb.file.node_at (h + 1) p lo hi := by
            refine ⟨n, hr2.node, ⟨e0, rest0, hes0, hlo⟩, ?_⟩
            have hk2 := hkids
            rw [hes'] at hk2 ⊢
            refine kids_replace pre [e] [e] post hi hk2 rfl ⟨by simp, by simp⟩ ?_ ?_
            · have := hk2
              rw [List.append_assoc, kids_append_next, kids_append_next] at this
              exact ⟨hkc1, this.2.1.2⟩
            · intro e1 he1 k1 hi1 hp1
              refine keyed_congr h e1.child k1 hi1 ?_ hp1
              intro x hx
              rw [hsib e1 he1 x (by rw [fa]; exact hx), fa]
          have hlim : (if cn1.is_leaf = true then L else M) = cn1.limit := rfl
          simp only [hlim] at hi0
          split at hi0
          · rename_i hfull
            rw [← hlen] at hi0
            exact split_child_keyed pre e post (hr2.keeps_owned ho) hr2.node hes hr1.node hfull
              hkb hi0
          · simp only [Except.ok.injEq, Prod.mk.injEq] at hi0
            obtain ⟨rfl, rfl⟩ := hi0
            exact hkb

/-! ## The order of the keys under `remove` -/

theorem keys_fit_erase {m : Nat → Option (BPTNode Value)} {n : BPTNode Value} {lo : Key}
    {hi : Option Key} (j : Nat) (hk : keys_fit m 0 n lo hi) :
    keys_fit m 0 { n with leaf_entries := n.leaf_entries.eraseIdx j } lo hi := by
  obtain ⟨hs, hb⟩ := hk
  exact ⟨hs.sublist (List.eraseIdx_sublist _ _),
    fun e he => hb e ((List.eraseIdx_sublist _ _).subset he)⟩

/-- The node that holds the entries of two neighbouring nodes with keys in order. -/
theorem keys_fit_append {m : Nat → Option (BPTNode Value)} (h : Nat) {a b : BPTNode Value}
    {lo mid : Key} {hi : Option Key} (ha : fits m h a) (hb : fits m h b)
    (ka : keys_fit m h a lo (some mid)) (kb : keys_fit m h b mid hi)
    (hlm : lo ≤ mid) (hmh : below mid hi) : keys_fit m h (a.append b) lo hi := by
  cases h with
  | zero =>
    have hl : a.is_leaf = true := ha
    have e1 : (a.append b).leaf_entries = a.leaf_entries ++ b.leaf_entries := by
      simp [BPTNode.append, hl]
    obtain ⟨a1, a2⟩ := ka
    obtain ⟨b1, b2⟩ := kb
    show _ ∧ _
    rw [e1]
    refine ⟨List.pairwise_append.mpr ⟨a1, b1, ?_⟩, ?_⟩
    · intro x hx y hy
      exact Key.le_trans (a2 x hx).2 (b2 y hy).1
    · intro x hx
      rcases List.mem_append.mp hx with hx | hx
      · exact ⟨(a2 x hx).1, below_trans (a2 x hx).2 hmh⟩
      · exact ⟨Key.le_trans hlm (b2 x hx).1, (b2 x hx).2⟩
  | succ h =>
    have hl : a.is_leaf = false := ha.1
    have e1 : (a.append b).internal_entries = a.internal_entries ++ b.internal_entries := by
      simp [BPTNode.append, hl]
    obtain ⟨⟨e0, rest0, hes0, hlo⟩, a2⟩ := ka
    obtain ⟨⟨e, rest, hes, hmid⟩, b2⟩ := kb
    show _ ∧ _
    rw [e1]
    refine ⟨⟨e0, rest0 ++ b.internal_entries, by rw [hes0]; rfl, hlo⟩, ?_⟩
    rw [hes, kids_append, hmid]
    rw [hes] at b2
    exact ⟨a2, b2⟩

/-- The borrow from the left sibling: the key of the moved entry separates the two nodes. -/
theorem keys_fit_borrow_left {m : Nat → Option (BPTNode Value)} (h : Nat)
    {c s c1 s1 : BPTNode Value} {lo_s lo_c : Key} {hi : Option Key}
    (hc : fits m h c) (hs : fits m h s)
    (kc : keys_fit m h c lo_c hi) (ks : keys_fit m h s lo_s (some lo_c))
    (hlow : c.count < c.limit / 2) (hsum : ¬ s.count + c.count ≤ c.limit)
    (hbl : below lo_c hi) (hb : borrow_left c s = .ok (c1, s1)) :
    ∃ key, c1.first_key = .ok key ∧ lo_s ≤ key ∧ below key hi ∧
      keys_fit m h s1 lo_s (some key) ∧ keys_fit m h c1 key hi := by
  cases h with
  | zero =>
    have hl : c.is_leaf = true := hc
    have hl2 : s.is_leaf = true := hs
    simp only [borrow_left, hl, if_true] at hb
    split at hb
    · cases hb
    · split at hb
      · cases hb
      · rename_i e hlast
        simp only [Except.ok.injEq, Prod.mk.injEq] at hb
        obtain ⟨hc1, hs1⟩ := hb
        have e2 : s.leaf_entries = s.leaf_entries.dropLast ++ [e] :=
          (List.dropLast_append_getLast? e hlast).symm
        obtain ⟨c2, c3⟩ := kc
        obtain ⟨s2, s3⟩ := ks
        have hem : e ∈ s.leaf_entries := by rw [e2]; simp
        have k1 : c1.leaf_entries = e :: c.leaf_entries := by rw [← hc1]
        have k2 : s1.leaf_entries = s.leaf_entries.dropLast := by
          rw [← hs1]; simp [BPTNode.drop_last, hl2]
        rw [e2] at s2
        obtain ⟨p1, _, p3⟩ := List.pairwise_append.mp s2
        have helo : e.index ≤ lo_c := (s3 e hem).2
        refine ⟨e.index, ?_, (s3 e hem).1, below_trans helo hbl, ⟨?_, ?_⟩, ⟨?_, ?_⟩⟩
        · rw [← hc1]; simp [BPTNode.first_key, hl]
        · rw [k2]; exact p1
        · intro x hx
          rw [k2] at hx
          exact ⟨(s3 x (List.mem_of_mem_dropLast hx)).1, p3 x hx e (by simp)⟩
        · rw [k1]
          exact List.pairwise_cons.mpr
            ⟨fun x hx => Key.le_trans helo (c3 x hx).1, c2⟩
        · intro x hx
          rw [k1] at hx
          rcases List.mem_cons.mp hx with rfl | hx
          · exact ⟨Key.le_refl _, below_trans helo hbl⟩
          · exact ⟨Key.le_trans helo (c3 x hx).1, (c3 x hx).2⟩
  | succ h =>
    obtain ⟨hl, _, _⟩ := hc
    obtain ⟨hl2, _, _⟩ := hs
    have hM : (M : Nat) = 58 := rfl
    simp only [BPTNode.count, BPTNode.limit, hl, hl2, Bool.false_eq_true, if_false]
      at hlow hsum
    simp only [borrow_left, hl, Bool.false_eq_true, if_false] at hb
    split at hb
    · cases hb
    · split at hb
      · cases hb
      · rename_i e hlast
        simp only [Except.ok.injEq, Prod.mk.injEq] at hb
        obtain ⟨hc1, hs1⟩ := hb
        have e2 : s.internal_entries = s.internal_entries.dropLast ++ [e] :=
          (List.dropLast_append_getLast? e hlast).symm
        obtain ⟨⟨ec, restc, hesc, hloc⟩, c3⟩ := kc
        obtain ⟨⟨e0, rest0, hes0, hlos⟩, s3⟩ := ks
        have k1 : c1.internal_entries = e :: c.internal_entries := by rw [← hc1]
        have k2 : s1.internal_entries = s.internal_entries.dropLast := by
          rw [← hs1]; simp [BPTNode.drop_last, hl2]
        have l1 : c1.is_leaf = false := by rw [← hc1]
        have hrest : rest0 ≠ [] := by
          intro h0
          rw [hes0, h0] at hsum
          simp only [List.length_cons, List.length_nil] at hsum
          omega
        have hinit : s.internal_entries.dropLast = e0 :: rest0.dropLast := by
          rw [hes0, List.dropLast_cons_of_ne_nil hrest]
        have hsorted := kids_sorted s3
        rw [e2] at s3 hsorted
        obtain ⟨q1, q2⟩ := (kids_append _ _ _ _).mp s3
        obtain ⟨q3, q4, _⟩ := q2
        obtain ⟨_, _, p3⟩ := List.pairwise_append.mp hsorted
        have helo : e.index ≤ lo_c := q4
        refine ⟨e.index, ?_, ?_, below_trans helo hbl, ⟨⟨e0, rest0.dropLast, ?_, hlos⟩, ?_⟩,
          ⟨⟨e, c.internal_entries, k1, rfl⟩, ?_⟩⟩
        · simp [BPTNode.first_key, l1, k1]
        · rw [← hlos]
          exact p3 e0 (by rw [hinit]; exact List.mem_cons_self _ _) e (by simp)
        · rw [k2]; exact hinit
        · show kids _ s1.internal_entries _
          rw [k2]; exact q1
        · show kids _ c1.internal_entries _
          rw [k1]
          refine ⟨?_, ?_, c3⟩
          · rw [hesc]
            show keyed m h e.child e.index (some ec.index)
            rw [hloc]; exact q3
          · rw [hesc]
            show below e.index (some ec.index)
            rw [hloc]; exact q4

/-- The borrow from the right sibling: the new first key of the sibling separates the two
nodes. -/
theorem keys_fit_borrow_right {m : Nat → Option (BPTNode Value)} (h : Nat)
    {c s c1 s1 : BPTNode Value} {lo_c lo_s key : Key} {hi : Option Key}
    (hc : fits m h c) (hs : fits m h s)
    (kc : keys_fit m h c lo_c (some lo_s)) (ks : keys_fit m h s lo_s hi)
    (hlc : lo_c ≤ lo_s) (hb : borrow_right c s = .ok (c1, s1))
    (hkey : s1.first_key = .ok key) :
    lo_s ≤ key ∧ below key hi ∧ keys_fit m h c1 lo_c (some key) ∧ keys_fit m h s1 key hi := by
  cases h with
  | zero =>
    have hl : c.is_leaf = true := hc
    have hl2 : s.is_leaf = true := hs
    simp only [borrow_right, hl, if_true] at hb
    split at hb
    · cases hb
    · split at hb
      · cases hb
      · rename_i e rest hcons
        simp only [Except.ok.injEq, Prod.mk.injEq] at hb
        obtain ⟨hc1, hs1⟩ := hb
        obtain ⟨c2, c3⟩ := kc
        obtain ⟨s2, s3⟩ := ks
        have k1 : c1.leaf_entries = c.leaf_entries ++ [e] := by rw [← hc1]
        have k2 : s1.leaf_entries = rest := by
          rw [← hs1]; simp [BPTNode.drop_first, hl2, hcons]
        have l2 : s1.is_leaf = true := by rw [← hs1]; simp [BPTNode.drop_first, hl2]
        simp only [BPTNode.first_key, l2, if_true, k2] at hkey
        split at hkey
        · rename_i _ y rest2
          simp only [Except.ok.injEq] at hkey
          rw [hcons] at s2 s3
          obtain ⟨p1, p2⟩ := List.pairwise_cons.mp s2
          obtain ⟨p3, p4⟩ := List.pairwise_cons.mp p2
          have hey : e.index ≤ y.index := p1 y (List.mem_cons_self _ _)
          have hlse : lo_s ≤ e.index := (s3 e (List.mem_cons_self _ _)).1
          have hym : y ∈ e :: y :: rest2 := by simp
          rw [← hkey]
          refine ⟨(s3 y hym).1, (s3 y hym).2, ⟨?_, ?_⟩, ⟨?_, ?_⟩⟩
          · rw [k1]
            refine List.pairwise_append.mpr ⟨c2, by simp, ?_⟩
            intro x hx z hz
            simp only [List.mem_singleton] at hz
            subst hz
            exact Key.le_trans (c3 x hx).2 hlse
          · intro x hx
            rw [k1] at hx
            rcases List.mem_append.mp hx with hx | hx
            · exact ⟨(c3 x hx).1, Key.le_trans (c3 x hx).2 (Key.le_trans hlse hey)⟩
            · simp only [List.mem_singleton] at hx
              subst hx
              exact ⟨Key.le_trans hlc hlse, hey⟩
          · rw [k2]; exact p2
          · intro x hx
            rw [k2] at hx
            refine ⟨?_, (s3 x (List.mem_cons_of_mem _ hx)).2⟩
            rcases List.mem_cons.mp hx with rfl | hx
            · exact Key.le_refl _
            · exact p3 x hx
        · cases hkey
  | succ h =>
    obtain ⟨hl, _, _⟩ := hc
    obtain ⟨hl2, _, _⟩ := hs
    simp only [borrow_right, hl, Bool.false_eq_true, if_false] at hb
    split at hb
    · cases hb
    · split at hb
      · cases hb
      · rename_i e rest hcons
        simp only [Except.ok.injEq, Prod.mk.injEq] at hb
        obtain ⟨hc1, hs1⟩ := hb
        obtain ⟨⟨ec, restc, hesc, hloc⟩, c3⟩ := kc
        obtain ⟨⟨e0, rest0, hes0, hlos⟩, s3⟩ := ks
        have k1 : c1.internal_entries = c.internal_entries ++ [e] := by rw [← hc1]
        have k2 : s1.internal_entries = rest := by
          rw [← hs1]; simp [BPTNode.drop_first, hl2, hcons]
        have l2 : s1.is_leaf = false := by rw [← hs1]; simp [BPTNode.drop_first, hl2]
        simp only [BPTNode.first_key, l2, Bool.false_eq_true, if_false, k2] at hkey
        rw [hcons] at hes0
        simp only [List.cons.injEq] at hes0
        obtain ⟨rfl, rfl⟩ := hes0
        split at hkey
        · rename_i _ y rest2
          simp only [Except.ok.injEq] at hkey
          rw [hcons] at s3
          obtain ⟨q1, q2, q3⟩ := s3
          have hbelow := kids_keys_below q3 y (List.mem_cons_self _ _)
          rw [← hkey]
          refine ⟨?_, hbelow, ⟨⟨ec, restc ++ [e], by rw [k1, hesc]; rfl, hloc⟩, ?_⟩,
            ⟨⟨y, rest2, k2, rfl⟩, ?_⟩⟩
          · rw [← hlos]; exact q2
          · show kids _ c1.internal_entries _
            rw [k1, kids_append, hlos]
            exact ⟨c3, q1, q2, trivial⟩
          · show kids _ s1.internal_entries _
            rw [k2]; exact q3
        · cases hkey

/-- The pages after a merge of two neighbouring children: the surviving child, the parent, and
all pages other than these and the freed one. -/
theorem merge_frame {t ta tb t1 : BPT Value} {h p : Nat} {fl : List Nat}
    {n n1 A B A1 : BPTNode Value}
    (pre : List InternalEntry) (ea eb : InternalEntry) (post : List InternalEntry)
    (ho : Owned t (h + 1) p fl) (hn : t.file.node_at p = some n)
    (hes : n.internal_entries = pre ++ [ea, eb] ++ post)
    (hA : t.file.node_at ea.child = some A) (hB : t.file.node_at eb.child = some B)
    (hw1 : disk_write t A1 ea.child = .ok ta) (hw2 : disk_write ta n1 p = .ok tb)
    (hd : disk_delete tb eb.child = .ok t1) :
    t1.file.node_at ea.child = some A1 ∧ t1.file.node_at p = some n1 ∧
      ∀ x, x ≠ p → x ≠ ea.child → x ≠ eb.child → t1.file.block x = t.file.block x := by
  obtain ⟨d1, d2, d3⟩ := pair_distinct pre ea eb post ho hn hes
  obtain ⟨ta1, e1, wa⟩ := write_spec ho.coherent A1 hA
  rw [hw1] at e1; cases e1
  have hna : ta.file.node_at p = some n := by rw [wa.other d1.symm]; exact hn
  obtain ⟨tb1, e2, wb⟩ := write_spec wa.coherent n1 hna
  rw [hw2] at e2; cases e2
  have hnb : tb.file.node_at eb.child = some B := by
    rw [wb.other d2, wa.other d3.symm]; exact hB
  have chb := wb.chain hna (wa.chain hA ho.chain)
  obtain ⟨t2, e3, c3, s3, r3, l3, n3, f3, ch3⟩ := free_at wb.coherent chb hnb
  rw [hd] at e3; cases e3
  refine ⟨?_, ?_, ?_⟩
  · rw [node_at_of_block_eq (f3 _ d3), wb.other d1]; exact wa.node
  · rw [node_at_of_block_eq (f3 p d2.symm)]; exact wb.node
  · intro x h1 h2 h3
    rw [f3 x h3, wb.frame x h1, wa.frame x h2]

/-- The pages after a borrow between two neighbouring children. -/
theorem borrow_frame {t ta tb t1 : BPT Value} {h p x y : Nat} {fl : List Nat}
    {n n1 A B A1 B1 X Y : BPTNode Value}
    (pre : List InternalEntry) (ea eb : InternalEntry) (post : List InternalEntry)
    (ho : Owned t (h + 1) p fl) (hn : t.file.node_at p = some n)
    (hes : n.internal_entries = pre ++ [ea, eb] ++ post)
    (hA : t.file.node_at ea.child = some A) (hB : t.file.node_at eb.child = some B)
    (hxy : (x = ea.child ∧ X = A1 ∧ y = eb.child ∧ Y = B1) ∨
      (x = eb.child ∧ X = B1 ∧ y = ea.child ∧ Y = A1))
    (hw1 : disk_write t X x = .ok ta) (hw2 : disk_write ta Y y = .ok tb)
    (hw3 : disk_write tb n1 p = .ok t1) :
    t1.file.node_at ea.child = some A1 ∧ t1.file.node_at eb.child = some B1 ∧
      t1.file.node_at p = some n1 ∧
      ∀ q, q ≠ p → q ≠ ea.child → q ≠ eb.child → t1.file.block q = t.file.block q := by
  obtain ⟨d1, d2, d3⟩ := pair_distinct pre ea eb post ho hn hes
  have hx : ∃ nx, t.file.node_at x = some nx := by
    rcases hxy with ⟨rfl, _⟩ | ⟨rfl, _⟩
    · exact ⟨_, hA⟩
    · exact ⟨_, hB⟩
  have hy : ∃ ny, t.file.node_at y = some ny := by
    rcases hxy with ⟨_, _, rfl, _⟩ | ⟨_, _, rfl, _⟩
    · exact ⟨_, hB⟩
    · exact ⟨_, hA⟩
  have hxy1 : x ≠ y ∧ x ≠ p ∧ y ≠ p := by
    rcases hxy with ⟨rfl, _, rfl, _⟩ | ⟨rfl, _, rfl, _⟩
    · exact ⟨d3, d1, d2⟩
    · exact ⟨d3.symm, d2, d1⟩
  obtain ⟨nx, hnx⟩ := hx
  obtain ⟨ny, hny⟩ := hy
  obtain ⟨ta1, e1, wa⟩ := write_spec ho.coherent X hnx
  rw [hw1] at e1; cases e1
  have hya : ta.file.node_at y = some ny := by rw [wa.other hxy1.1.symm]; exact hny
  obtain ⟨tb1, e2, wb⟩ := write_spec wa.coherent Y hya
  rw [hw2] at e2; cases e2
  have hpb : tb.file.node_at p = some n := by
    rw [wb.other hxy1.2.2.symm, wa.other hxy1.2.1.symm]; exact hn
  obtain ⟨tc1, e3, wc⟩ := write_spec wb.coherent n1 hpb
  rw [hw3] at e3; cases e3
  have hX : t1.file.node_at x = some X := by
    rw [wc.other hxy1.2.1, wb.other hxy1.1]; exact wa.node
  have hY : t1.file.node_at y = some Y := by
    rw [wc.other hxy1.2.2]; exact wb.node
  refine ⟨?_, ?_, wc.node, ?_⟩
  · rcases hxy with ⟨rfl, rfl, rfl, rfl⟩ | ⟨rfl, rfl, rfl, rfl⟩
    · exact hX
    · exact hY
  · rcases hxy with ⟨rfl, rfl, rfl, rfl⟩ | ⟨rfl, rfl, rfl, rfl⟩
    · exact hY
    · exact hX
  · intro q h1 h2 h3
    have hqx : q ≠ x ∧ q ≠ y := by
      rcases hxy with ⟨rfl, _, rfl, _⟩ | ⟨rfl, _, rfl, _⟩
      · exact ⟨h2, h3⟩
      · exact ⟨h3, h2⟩
    rw [wc.frame q h1, wb.frame q hqx.2, wa.frame q hqx.1]

/-- The keys of two neighbouring children of a node with keys in order. -/
theorem pair_keys {m : Nat → Option (BPTNode Value)} {h p : Nat} {n A B : BPTNode Value}
    {lo : Key} {hi : Option Key}
    (pre : List InternalEntry) (ea eb : InternalEntry) (post : List InternalEntry)
    (hn : m p = some n) (hes : n.internal_entries = pre ++ [ea, eb] ++ post)
    (hA : m ea.child = some A) (hB : m eb.child = some B)
    (hk : keyed m (h + 1) p lo hi) :
    keys_fit m h A ea.index (some eb.index) ∧ keys_fit m h B eb.index (next_key post hi) ∧
      ea.index ≤ eb.index ∧ below eb.index (next_key post hi) := by
  obtain ⟨n2, hn2, _, hkids⟩ := hk
  rw [hn] at hn2
  cases hn2
  rw [hes, List.append_assoc, kids_append_next, kids_append_next] at hkids
  obtain ⟨_, ⟨k1, k2, k3, k4, _⟩, _⟩ := hkids
  obtain ⟨a, ha, ka⟩ := (keyed_iff _ _ _ _ _).mp k1
  obtain ⟨b, hb, kb⟩ := (keyed_iff _ _ _ _ _).mp k3
  rw [hA] at ha
  rw [hB] at hb
  cases ha
  cases hb
  exact ⟨ka, kb, k2, k4⟩

/-- Two neighbouring entries of a node with keys in order are replaced by entries with the same
first key whose subtrees have their keys in order. -/
theorem pair_keyed {t t1 : BPT Value} {h p : Nat} {fl : List Nat} {n n1 : BPTNode Value}
    {lo : Key} {hi : Option Key}
    (pre : List InternalEntry) (ea eb : InternalEntry) (post mid1 : List InternalEntry)
    (ho : Owned t (h + 1) p fl) (hn : t.file.node_at p = some n)
    (hes : n.internal_entries = pre ++ [ea, eb] ++ post)
    (hk : keyed t.file.node_at (h + 1) p lo hi)
    (hblk : ∀ x, x ≠ p → x ≠ ea.child → x ≠ eb.child → t1.file.block x = t.file.block x)
    (hp1 : t1.file.node_at p = some n1) (hes1 : n1.internal_entries = pre ++ mid1 ++ post)
    (hfirst : ∃ a l, mid1 = a :: l ∧ a.index = ea.index)
    (hmid : kids (fun c k hi1 => keyed t1.file.node_at h c k hi1) mid1 (next_key post hi)) :
    keyed t1.file.node_at (h + 1) p lo hi := by
  obtain ⟨n2, hn2, ⟨e0, rest0, hes0, hlo⟩, hkids⟩ := hk
  rw [hn] at hn2
  cases hn2
  obtain ⟨a, l, hm1, hai⟩ := hfirst
  have hsib : ∀ e1 ∈ pre ++ post, ∀ x ∈ subtree t.file.node_at h e1.child,
      t1.file.node_at x = t.file.node_at x := by
    refine sibling_frame pre [ea, eb] post ho hn hes ?_
    intro q hq1 hq2 _ _
    simp only [List.flatMap_cons, List.flatMap_nil, List.append_nil, List.mem_append,
      not_or] at hq1
    exact hblk q hq2 (fun h => hq1.1 (h ▸ subtree_root_mem _ _ _))
      (fun h => hq1.2 (h ▸ subtree_root_mem _ _ _))
  refine ⟨n1, hp1, ?_, ?_⟩
  · rw [hes1, hm1]
    rw [hes] at hes0
    cases pre with
    | nil =>
      simp only [List.nil_append, List.cons_append, List.cons.injEq] at hes0
      exact ⟨a, l ++ post, rfl, by rw [hai, hes0.1]; exact hlo⟩
    | cons b pre =>
      simp only [List.cons_append, List.cons.injEq] at hes0
      exact ⟨b, _, rfl, by rw [hes0.1]; exact hlo⟩
  · rw [hes1]
    rw [hes] at hkids
    refine kids_replace pre [ea, eb] mid1 post hi hkids ?_ ⟨by simp, by rw [hm1]; simp⟩ hmid ?_
    · rw [hm1]
      simp only [next_key, hai]
    · intro e1 he1 k1 hi1 hp
      exact keyed_congr h e1.child k1 hi1 (hsib e1 he1) hp

/-- The rebalancing step of `remove` keeps the keys of the subtree of the parent in order. -/
theorem rebalance_keyed {t t1 : BPT Value} {h p i : Nat} {fl : List Nat}
    {n n1 cn : BPTNode Value} {e : InternalEntry} {lo : Key} {hi : Option Key}
    (ho : Owned t (h + 1) p fl) (hn : t.file.node_at p = some n)
    (hei : n.internal_entries[i]? = some e)
    (hcn : t.file.node_at e.child = some cn)
    (hlow : cn.count < cn.limit / 2)
    (hk : keyed t.file.node_at (h + 1) p lo hi)
    (hrb : rebalance n p i cn e.child t = .ok (n1, t1)) :
    keyed t1.file.node_at (h + 1) p lo hi := by
  obtain ⟨n0, hn0, hl, hne, hshape⟩ := ho.shape
  rw [hn] at hn0
  cases hn0
  have hmem : ∀ {j : Nat} {x : InternalEntry}, n.internal_entries[j]? = some x →
      x ∈ n.internal_entries := by
    intro j x hx
    obtain ⟨h1, h2⟩ := List.getElem?_eq_some_iff.mp hx
    exact h2 ▸ List.getElem_mem h1
  have hfc : fits t.file.node_at h cn := by
    obtain ⟨c0, hc0, hf⟩ := (shaped_iff_fits _ _ _).mp (hshape e (hmem hei))
    rw [hcn] at hc0; cases hc0; exact hf
  have hlim : (if cn.is_leaf = true then L else M) = cn.limit := rfl
  simp only [rebalance, bind, Except.bind, hlim] at hrb
  split at hrb
  · cases hrb
  · rename_i se hse
    obtain ⟨sn, hsn, hfs⟩ := (shaped_iff_fits _ _ _).mp (hshape se (hmem hse))
    obtain ⟨ta, hr, fa, ra, ca⟩ := disk_read_ok ho.coherent hsn
    simp only [hr] at hrb
    have hoa : Owned ta (h + 1) p fl := ho.on_same_file fa ca
    rw [← fa] at hn hcn hsn hfc hfs hk
    split at hrb
    · cases hrb
    · by_cases hi0 : 0 < i
      · simp only [hi0, if_true] at hrb hse
        obtain ⟨hes, _, her, hset⟩ := pair_at n.internal_entries (i - 1) se e hse
          (by rw [show i - 1 + 1 = i by omega]; exact hei)
        rw [show i - 1 + 1 = i by omega] at her hset
        obtain ⟨kA, kB, hle, hbl⟩ := pair_keys _ se e _ hn hes hsn hcn hk
        split at hrb
        · -- merge into the left sibling
          rw [her] at hrb
          split at hrb
          · cases hrb
          · rename_i tb hw1
            split at hrb
            · cases hrb
            · rename_i tc hw2
              split at hrb
              · cases hrb
              · rename_i td hd
                simp only [pure, Except.pure, Except.ok.injEq, Prod.mk.injEq] at hrb
                obtain ⟨rfl, rfl⟩ := hrb
                obtain ⟨f1, f2⟩ := fits_append h hfs hfc
                obtain ⟨f3, f4⟩ := fits_of_entries h
                  (a := sn.append cn)
                  (b := { sn.append cn with next_leaf := cn.next_leaf }) rfl rfl f1
                obtain ⟨m1, m2, m3⟩ := merge_frame _ se e _ hoa hn hes hsn hcn hw1 hw2 hd
                have hgf := pair_frame _ se e _ hoa hn hes hsn hcn m3
                have hka := keys_fit_of_entries h (a := sn.append cn)
                  (b := { sn.append cn with next_leaf := cn.next_leaf }) rfl rfl
                  (keys_fit_append h hfs hfc kA kB hle hbl)
                refine pair_keyed _ se e _ [se] hoa hn hes hk m3 m2 rfl ⟨se, [], rfl, rfl⟩ ?_
                refine ⟨keyed_rebuild h m1 hka ?_, below_trans hle hbl, trivial⟩
                intro x hx
                exact hgf x (by rw [← f2, ← f4]; exact hx)
        · -- borrow from the left sibling
          rename_i hsum
          split at hrb
          · cases hrb
          · rename_i v hb
            obtain ⟨c1, s1⟩ := v
            obtain ⟨g1, g2, g3⟩ := fits_borrow_left h hfc hfs hlow hsum hb
            obtain ⟨key1, hk1, b1, b2, b3, b4⟩ :=
              keys_fit_borrow_left h hfc hfs kB kA hlow hsum hbl hb
            simp only at hrb
            split at hrb
            · cases hrb
            · rename_i key hkey
              rw [hk1] at hkey
              cases hkey
              simp only [BPTNode.set_key, hei, hset] at hrb
              split at hrb
              · cases hrb
              · rename_i tb hw1
                split at hrb
                · cases hrb
                · rename_i tc hw2
                  split at hrb
                  · cases hrb
                  · rename_i td hw3
                    simp only [pure, Except.pure, Except.ok.injEq, Prod.mk.injEq] at hrb
                    obtain ⟨rfl, rfl⟩ := hrb
                    obtain ⟨m1, m2, m3, m4⟩ := borrow_frame _ se e _ hoa hn hes hsn hcn
                      (Or.inr ⟨rfl, rfl, rfl, rfl⟩) hw1 hw2 hw3
                    have hgf := pair_frame _ se e _ hoa hn hes hsn hcn m4
                    refine pair_keyed _ se e _ [se, { e with index := key1 }] hoa hn hes hk m4
                      m3 rfl ⟨se, _, rfl, rfl⟩ ?_
                    refine ⟨keyed_rebuild h m1 b3 ?_, b1, keyed_rebuild h m2 b4 ?_, b2, trivial⟩
                    · intro x hx
                      exact hgf x (by rw [← g3]; exact List.mem_append_left _ hx)
                    · intro x hx
                      exact hgf x (by rw [← g3]; exact List.mem_append_right _ hx)
      · have hi : i = 0 := by omega
        subst hi
        simp only [Nat.lt_irrefl, if_false] at hrb hse
        obtain ⟨hes, _, her, hset⟩ := pair_at n.internal_entries 0 e se hei hse
        obtain ⟨kA, kB, hle, hbl⟩ := pair_keys _ e se _ hn hes hcn hsn hk
        split at hrb
        · -- merge with the right sibling
          rw [her] at hrb
          split at hrb
          · cases hrb
          · rename_i tb hw1
            split at hrb
            · cases hrb
            · rename_i tc hw2
              split at hrb
              · cases hrb
              · rename_i td hd
                simp only [pure, Except.pure, Except.ok.injEq, Prod.mk.injEq] at hrb
                obtain ⟨rfl, rfl⟩ := hrb
                obtain ⟨f1, f2⟩ := fits_append h hfc hfs
                obtain ⟨m1, m2, m3⟩ := merge_frame _ e se _ hoa hn hes hcn hsn hw1 hw2 hd
                have hgf := pair_frame _ e se _ hoa hn hes hcn hsn m3
                refine pair_keyed _ e se _ [e] hoa hn hes hk m3 m2 rfl ⟨e, [], rfl, rfl⟩ ?_
                refine ⟨keyed_rebuild h m1 (keys_fit_append h hfc hfs kA kB hle hbl) ?_,
                  below_trans hle hbl, trivial⟩
                intro x hx
                exact hgf x (by rw [← f2]; exact hx)
        · -- borrow from the right sibling
          rename_i hsum
          split at hrb
          · cases hrb
          · rename_i v hb
            obtain ⟨c1, s1⟩ := v
            obtain ⟨g1, g2, g3⟩ := fits_borrow_right h hfc hfs hlow hsum hb
            simp only at hrb
            split at hrb
            · cases hrb
            · rename_i key hkey
              obtain ⟨b1, b2, b3, b4⟩ := keys_fit_borrow_right h hfc hfs kA kB hle hb hkey
              simp only [BPTNode.set_key, hse, hset] at hrb
              split at hrb
              · cases hrb
              · rename_i tb hw1
                split at hrb
                · cases hrb
                · rename_i tc hw2
                  split at hrb
                  · cases hrb
                  · rename_i td hw3
                    simp only [pure, Except.pure, Except.ok.injEq, Prod.mk.injEq] at hrb
                    obtain ⟨rfl, rfl⟩ := hrb
                    obtain ⟨m1, m2, m3, m4⟩ := borrow_frame _ e se _ hoa hn hes hcn hsn
                      (Or.inl ⟨rfl, rfl, rfl, rfl⟩) hw1 hw2 hw3
                    have hgf := pair_frame _ e se _ hoa hn hes hcn hsn m4
                    refine pair_keyed _ e se _ [e, { se with index := key }] hoa hn hes hk m4
                      m3 rfl ⟨e, _, rfl, rfl⟩ ?_
                    refine ⟨keyed_rebuild h m1 b3 ?_, Key.le_trans hle b1,
                      keyed_rebuild h m2 b4 ?_, b2, trivial⟩
                    · intro x hx
                      exact hgf x (by rw [← g3]; exact List.mem_append_left _ hx)
                    · intro x hx
                      exact hgf x (by rw [← g3]; exact List.mem_append_right _ hx)

/-- The keys of the subtree of a node after a step inside the subtree of one of its children
that left the node itself alone. -/
theorem child_step_keyed {t t1 : BPT Value} {h p : Nat} {fl fl1 : List Nat}
    {n c1 : BPTNode Value} {lo : Key} {hi : Option Key}
    (pre : List InternalEntry) (e : InternalEntry) (post : List InternalEntry)
    (ho : Owned t (h + 1) p fl) (hn : t.file.node_at p = some n)
    (hes : n.internal_entries = pre ++ e :: post)
    (hr : Reshaped t t1 h e.child fl fl1 c1)
    (hk : keyed t.file.node_at (h + 1) p lo hi)
    (hkc : keyed t1.file.node_at h e.child e.index (next_key post hi)) :
    keyed t1.file.node_at (h + 1) p lo hi := by
  obtain ⟨n2, hn2, hfirst, hkids⟩ := hk
  rw [hn] at hn2
  cases hn2
  have hr2 := Reshaped.lift pre e post ho hn hes hr
  have hsib := child_step_frame pre e post ho hn hes hr
  have hes' : n.internal_entries = pre ++ [e] ++ post := by rw [hes]; simp
  refine ⟨n, hr2.node, hfirst, ?_⟩
  rw [hes'] at hkids ⊢
  refine kids_replace pre [e] [e] post hi hkids rfl ⟨by simp, by simp⟩ ?_ ?_
  · have := hkids
    rw [List.append_assoc, kids_append_next, kids_append_next] at this
    exact ⟨hkc, this.2.1.2⟩
  · intro e1 he1 k1 hi1 hp1
    exact keyed_congr h e1.child k1 hi1 (hsib e1 he1) hp1

/-- The loop over the children in the recursive `remove` keeps the keys in order, given that the
recursive call on a child does. -/
theorem remove_scan_keyed [BEq Value] (k : Key) (v : Value) (h d : Nat)
    (ih : ∀ (p : Nat) (n n1 : BPTNode Value) (t t1 : BPT Value) (fl : List Nat) (flag : Bool)
      (lo : Key) (hi : Option Key),
      Owned t h p fl → t.file.node_at p = some n → keyed t.file.node_at h p lo hi →
      remove_rec k v d n p t = .ok (flag, n1, t1) → keyed t1.file.node_at h p lo hi) :
    ∀ (cnt i p : Nat) (n n1 : BPTNode Value) (t t1 : BPT Value) (fl : List Nat) (flag : Bool)
      (lo : Key) (hi : Option Key),
      Owned t (h + 1) p fl → t.file.node_at p = some n →
      keyed t.file.node_at (h + 1) p lo hi →
      remove_scan k (remove_rec k v d) cnt i n p t = .ok (flag, n1, t1) →
      keyed t1.file.node_at (h + 1) p lo hi := by
  intro cnt
  induction cnt with
  | zero =>
    intro i p n n1 t t1 fl flag lo hi ho hn hk hs
    simp only [remove_scan, Except.ok.injEq, Prod.mk.injEq] at hs
    obtain ⟨rfl, rfl, rfl⟩ := hs
    exact hk
  | succ cnt ihc =>
    intro i p n n1 t t1 fl flag lo hi ho hn hk hs
    obtain ⟨n0, hn0, hl, hne, hshape⟩ := ho.shape
    rw [hn] at hn0
    cases hn0
    simp only [remove_scan] at hs
    split at hs
    · simp only [Except.ok.injEq, Prod.mk.injEq] at hs
      obtain ⟨rfl, rfl, rfl⟩ := hs
      exact hk
    · rename_i e hei
      split at hs
      · obtain ⟨hes, _⟩ := split_at_index _ _ _ hei
        have hmem : e ∈ n.internal_entries := by
          obtain ⟨h1, h2⟩ := List.getElem?_eq_some_iff.mp hei
          exact h2 ▸ List.getElem_mem h1
        obtain ⟨cn, hcn, _⟩ := (shaped_iff_fits _ _ _).mp (hshape e hmem)
        obtain ⟨ta, hr, fa, ra, ca⟩ := disk_read_ok ho.coherent hcn
        simp only [hr] at hs
        have hoa : Owned ta (h + 1) p fl := ho.on_same_file fa ca
        have hna : ta.file.node_at p = some n := by rw [fa]; exact hn
        have hka : keyed ta.file.node_at (h + 1) p lo hi := by rw [fa]; exact hk
        split at hs
        · cases hs
        · rename_i flag1 cn1 tb hrec
          obtain ⟨fl1, hr1, hf1, _⟩ := remove_rec_shape k v h d e.child cn cn1 ta tb fl flag1
            (hoa.child hna hmem) (by rw [fa]; exact hcn) hrec
          cases flag1 with
          | false =>
            simp only [Bool.not_false, if_true] at hs
            obtain ⟨hfb, _⟩ := hf1 rfl
            have hfb2 : tb.file = t.file := hfb.trans fa
            exact ihc (i + 1) p n n1 tb t1 fl flag lo hi
              (ho.on_same_file hfb2 hr1.coherent) (by rw [hfb2]; exact hn)
              (by rw [hfb2]; exact hk) hs
          | true =>
            simp only [Bool.not_true, Bool.false_eq_true, if_false] at hs
            have hr2 : Reshaped t tb (h + 1) p fl fl1 n :=
              (Reshaped.lift _ e _ hoa hna hes hr1).of_file_eq fa ra
            have hkc : keyed ta.file.node_at h e.child e.index
                (next_key (n.internal_entries.drop (i + 1)) hi) := by
              obtain ⟨n2, hn2, _, hkids⟩ := hka
              rw [hna] at hn2
              cases hn2
              have hes' : n.internal_entries =
                  n.internal_entries.take i ++ [e] ++ n.internal_entries.drop (i + 1) := by
                rw [List.append_assoc]; exact hes
              rw [hes', List.append_assoc, kids_append_next, kids_append_next] at hkids
              exact hkids.2.1.1
            have hkc1 := ih e.child cn cn1 ta tb fl true e.index _ (hoa.child hna hmem)
              (by rw [fa]; exact hcn) hkc hrec
            have hkb : keyed tb.file.node_at (h + 1) p lo hi :=
              child_step_keyed _ e _ hoa hna hes hr1 hka hkc1
            have hlim : (if cn1.is_leaf = true then L else M) = cn1.limit := rfl
            simp only [hlim] at hs
            split at hs
            · rename_i hcond
              simp only [Bool.and_eq_true, decide_eq_true_eq] at hcond
              split at hs
              · cases hs
              · rename_i n2 t2 hrb
                simp only [Except.ok.injEq, Prod.mk.injEq] at hs
                obtain ⟨rfl, rfl, rfl⟩ := hs
                exact rebalance_keyed (hr2.keeps_owned ho) hr2.node hei hr1.node hcond.1 hkb
                  hrb
            · simp only [Except.ok.injEq, Prod.mk.injEq] at hs
              obtain ⟨rfl, rfl, rfl⟩ := hs
              exact hkb
      · simp only [Except.ok.injEq, Prod.mk.injEq] at hs
        obtain ⟨rfl, rfl, rfl⟩ := hs
        exact hk

/-- The recursive `remove` keeps the keys of the subtree in order. -/
theorem remove_rec_keyed [BEq Value] (k : Key) (v : Value) :
    ∀ (h d p : Nat) (n n1 : BPTNode Value) (t t1 : BPT Value) (fl : List Nat) (flag : Bool)
      (lo : Key) (hi : Option Key),
      Owned t h p fl → t.file.node_at p = some n → keyed t.file.node_at h p lo hi →
      remove_rec k v d n p t = .ok (flag, n1, t1) → keyed t1.file.node_at h p lo hi := by
  intro h
  induction h with
  | zero =>
    intro d p n n1 t t1 fl flag lo hi ho hn hk hi0
    obtain ⟨n0, hn0, hl⟩ := ho.shape
    rw [hn] at hn0
    cases hn0
    obtain ⟨n2, hn2, hkf⟩ := (keyed_iff _ _ _ _ _).mp hk
    rw [hn] at hn2
    cases hn2
    cases d with
    | zero => simp [remove_rec] at hi0
    | succ d =>
      simp only [remove_rec] at hi0
      rw [if_pos hl] at hi0
      split at hi0
      · simp only [Except.ok.injEq, Prod.mk.injEq] at hi0
        obtain ⟨rfl, rfl, rfl⟩ := hi0
        exact hk
      · split at hi0
        · cases hi0
        · rename_i t2 hw
          simp only [Except.ok.injEq, Prod.mk.injEq] at hi0
          obtain ⟨rfl, rfl, rfl⟩ := hi0
          obtain ⟨t3, e3, w3⟩ := write_spec ho.coherent
            ({ n with
               leaf_entries :=
                 n.leaf_entries.eraseIdx (remove_slot k v n.leaf_entries 0) } : BPTNode Value)
            hn
          rw [hw] at e3
          cases e3
          exact (keyed_iff _ _ _ _ _).mpr ⟨_, w3.node, keys_fit_erase _ hkf⟩
  | succ h ih =>
    intro d p n n1 t t1 fl flag lo hi ho hn hk hi0
    obtain ⟨n0, hn0, hl, hne, hshape⟩ := ho.shape
    rw [hn] at hn0
    cases hn0
    cases d with
    | zero => simp [remove_rec] at hi0
    | succ d =>
      simp only [remove_rec] at hi0
      rw [if_neg (by simp [hl])] at hi0
      exact remove_scan_keyed k v h d (ih d) _ _ p n n1 t t1 fl flag lo hi ho hn hk hi0

/-! ## The order of the keys between two public calls -/

/-- The height of the tree is determined by its pages. -/
theorem BPT.sound.height {t : BPT Value} {h h1 : Nat} {fl : List Nat} (hs : t.sound h fl)
    (hsh : shaped t.file.node_at (h1 + 1) t.root_page) : h = h1 := by
  have e1 := levels_shaped (h + 1) (h + 1 + (h1 + 1)) _ hs.2.2.1 (by omega)
  have e2 := levels_shaped (h1 + 1) (h + 1 + (h1 + 1)) _ hsh (by omega)
  omega

theorem keys_fit_of_internal {m : Nat → Option (BPTNode Value)} (h : Nat) {a b : BPTNode Value}
    {lo : Key} {hi : Option Key} (h2 : b.internal_entries = a.internal_entries)
    (hk : keys_fit m (h + 1) a lo hi) : keys_fit m (h + 1) b lo hi := by
  show _ ∧ _
  rw [h2]
  exact hk

/-- The tree built by the constructor on a new file has its keys in order. -/
theorem sorted_fresh {t : BPT Value}
    (h : BPT.open (MemoryRiver.fresh : MemoryRiver Value) = .ok t) : t.sorted 0 [] := by
  refine ⟨sound_fresh h, ?_⟩
  obtain ⟨t1, l0, r, e, _, hc, hl, hr, hroot, hs1, hs2, hfresh, hoth⟩ :=
    initialize_new_tree_spec
      ({ file := MemoryRiver.fresh, root_page := (MemoryRiver.fresh : MemoryRiver Value).get_info 1,
         cache := { cache_list := [], capacity := 128 } } : BPT Value)
      (coherent_empty _ _ _) (Or.inl rfl)
  have ht : t = t1 := by
    have : BPT.open (MemoryRiver.fresh : MemoryRiver Value) = .ok t1 := by
      simp only [BPT.open]
      exact e
    rw [h] at this
    cases this; rfl
  subst ht
  rw [hroot]
  refine ⟨_, hr, ⟨_, [], rfl, rfl⟩, ?_, trivial, trivial⟩
  exact ⟨_, hl, List.Pairwise.nil, fun e he => by simp at he⟩

/-- The growth of the root keeps the keys in order. -/
theorem grow_root_keyed {t t1 : BPT Value} {h : Nat} {fl : List Nat} {n : BPTNode Value}
    (ho : Owned t (h + 1) t.root_page fl) (hn : t.file.node_at t.root_page = some n)
    (hfull : M ≤ n.count)
    (hk : keyed t.file.node_at (h + 1) t.root_page zero_key none)
    (hg : grow_root n t = .ok t1) :
    keyed t1.file.node_at (h + 1 + 1) t1.root_page zero_key none := by
  obtain ⟨n0, hn0, hl, hne, hshape⟩ := ho.shape
  rw [hn] at hn0
  cases hn0
  have hnd_fl : fl.Nodup := (List.nodup_append.mp ho.nodup).2.1
  obtain ⟨C, R, t2, e0, rest0, e1, rest1, heq, htake, hdrop, hC, hR, hCR, hCr, hRr, _, hroot,
    _, hnR, hnold, hnC, hblk⟩ := grow_root_total t n n fl ho.coherent ho.chain hnd_fl hn hl hfull
  rw [hg] at heq
  cases heq
  have hfit : fits t.file.node_at (h + 1) n := ⟨hl, hne, hshape⟩
  have hlimit : n.limit = M := by simp [BPTNode.limit, hl]
  obtain ⟨n2, hn2, hkf⟩ := (keyed_iff _ _ _ _ _).mp hk
  rw [hn] at hn2
  cases hn2
  obtain ⟨sep, hsep, s1, s2, s3, s4⟩ := keys_fit_halves (h + 1) C hfit hkf
    (by rw [hlimit]; exact hfull)
  obtain ⟨_, _, _, _, r5⟩ := right_half_fields n
  obtain ⟨_, _, _, _, l5⟩ := left_half_fields n C
  have hsep1 : sep = e1.index := by
    have := first_key_internal (n := n.right_half) (by simp [BPTNode.right_half, hl])
      (by rw [r5 hl]; exact hdrop)
    rw [hsep] at this
    cases this
    rfl
  subst hsep1
  have he0 : e0.index = zero_key := by
    obtain ⟨⟨a, l, ha, hlo⟩, _⟩ := hkf
    rw [ha] at htake
    have : (a :: l).take (M / 2) = a :: l.take (M / 2 - 1) := rfl
    rw [this] at htake
    simp only [List.cons.injEq] at htake
    rw [← htake.1]; exact hlo
  obtain ⟨_, _, hund⟩ := fits_halves (h + 1) C hfit (by rw [hlimit]; exact hfull)
  have hgf : ∀ x ∈ under t.file.node_at (h + 1) n, t1.file.node_at x = t.file.node_at x := by
    intro x hx
    have hxs : x ∈ subtree t.file.node_at (h + 1) t.root_page := by
      rw [subtree_eq_under (h + 1) hn]; exact List.mem_cons_of_mem _ hx
    obtain ⟨nx, hnx⟩ := shaped_defined (h + 1) t.root_page ho.shape x hxs
    have hnd := (List.nodup_append.mp ho.nodup).1
    rw [subtree_eq_under (h + 1) hn] at hnd
    apply node_at_of_block_eq
    refine hblk x ?_ ?_ ?_
    · rintro rfl
      exact (List.nodup_cons.mp hnd).1 hx
    · rintro rfl
      rw [hC] at hnx; cases hnx
    · rintro rfl
      rw [hR] at hnx; cases hnx
  rw [hroot]
  refine ⟨_, hnR, ⟨_, _, rfl, he0⟩, ?_, ?_, ?_, trivial, trivial⟩
  · show keyed _ _ _ e0.index (some e1.index)
    rw [he0]
    refine keyed_rebuild (h + 1) hnold (keys_fit_of_internal h (a := n.left_half C) ?_ s3) ?_
    · rw [l5 hl]
    · intro x hx
      have hu : x ∈ under t.file.node_at (h + 1) (n.left_half C) := by
        simp only [under, l5 hl] at hx ⊢
        exact hx
      exact hgf x (by rw [← hund]; exact List.mem_append_left _ hu)
  · show e0.index ≤ e1.index
    rw [he0]
    exact s1
  · show keyed _ _ _ e1.index none
    refine keyed_rebuild (h + 1) hnC (keys_fit_of_internal h (a := n.right_half) ?_ s4) ?_
    · rw [r5 hl]
    · intro x hx
      have hu : x ∈ under t.file.node_at (h + 1) n.right_half := by
        simp only [under, r5 hl] at hx ⊢
        exact hx
      exact hgf x (by rw [← hund]; exact List.mem_append_right _ hu)

/-- The public `insert` keeps the keys in order. -/
theorem insert_sorted {t t1 : BPT Value} {h : Nat} {fl : List Nat} (hs : t.sorted h fl)
    (k : Key) (v : Value) (hi : t.insert k v = .ok t1) : ∃ h1 fl1, t1.sorted h1 fl1 := by
  obtain ⟨hsd, hk⟩ := hs
  obtain ⟨h1, fl1, hs1⟩ := insert_sound hsd k v hi
  have ho := hsd.owned
  obtain ⟨n, hn, _⟩ := ho.node
  obtain ⟨ta, hr, fa, ra, ca⟩ := disk_read_ok ho.coherent hn
  simp only [BPT.insert, bind, Except.bind, hr] at hi
  split at hi
  · cases hi
  · rename_i _ r hrec
    obtain ⟨n1, tb⟩ := r
    rw [ra] at hrec
    obtain ⟨fl2, hr1, hcnt⟩ := insert_rec_shape k v (h + 1) _ t.root_page n n1 ta tb fl
      (ho.on_same_file fa ca) (by rw [fa]; exact hn) hrec
    have hr2 : Reshaped t tb (h + 1) t.root_page fl fl2 n1 := hr1.of_file_eq fa ra
    have hkb : keyed tb.file.node_at (h + 1) t.root_page zero_key none :=
      insert_rec_keyed k v (h + 1) _ t.root_page n n1 ta tb fl zero_key none
        (ho.on_same_file fa ca) (by rw [fa]; exact hn) (by rw [fa]; exact hk)
        (Key.zero_le k) trivial hrec
    simp only at hi
    split at hi
    · rename_i hfull
      have hsb : tb.sound h fl2 := hr2.sound hsd hn (fun h1 => by omega)
      have hob := hsb.owned
      have hkg := grow_root_keyed hob (by rw [hr2.root]; exact hr2.node) hfull
        (by rw [hr2.root]; exact hkb) hi
      have hh := @BPT.sound.height _ _ _ (h + 1) _ hs1 (by
        obtain ⟨fl3, h3⟩ := grow_root_sound hsb (by rw [hr2.root]; exact hr2.node) hfull hi
        exact h3.2.2.1)
      subst hh
      exact ⟨_, fl1, hs1, hkg⟩
    · simp only [pure, Except.pure, Except.ok.injEq] at hi
      subst hi
      have hh := @BPT.sound.height _ _ _ h _ hs1 (by rw [hr2.root]; exact hr2.shape)
      subst hh
      exact ⟨_, fl1, hs1, by rw [hr2.root]; exact hkb⟩

/-- The block of the public `remove` that replaces a root with a single entry keeps the keys in
order. -/
theorem shrink_root_keyed {t t1 : BPT Value} {h : Nat} {fl : List Nat} {n : BPTNode Value}
    (ho : Owned t (h + 1) t.root_page fl)
    (hn : t.file.node_at t.root_page = some n) (hc1 : n.count = 1)
    (hk : keyed t.file.node_at (h + 1) t.root_page zero_key none)
    (hsh : shrink_root n t = .ok t1) :
    ∃ h1, shaped t1.file.node_at (h1 + 1) t1.root_page ∧
      keyed t1.file.node_at (h1 + 1) t1.root_page zero_key none := by
  obtain ⟨n0, hn0, hl, hne, hshape⟩ := ho.shape
  rw [hn] at hn0
  cases hn0
  simp only [BPTNode.count, hl, Bool.false_eq_true, if_false] at hc1
  obtain ⟨e, hes⟩ : ∃ e, n.internal_entries = [e] := List.length_eq_one.mp hc1
  simp only [shrink_root, hl, Bool.false_eq_true, if_false, hes, bind, Except.bind] at hsh
  obtain ⟨cn, hcn, hfit⟩ := (shaped_iff_fits _ _ _).mp (hshape e (by rw [hes]; simp))
  obtain ⟨ta, hr, fa, ra, ca⟩ := disk_read_ok ho.coherent hcn
  simp only [hr] at hsh
  have hsub : subtree t.file.node_at (h + 1) t.root_page =
      t.root_page :: subtree t.file.node_at h e.child := by
    simp only [subtree, hn, hes, List.flatMap_cons, List.flatMap_nil, List.append_nil]
  split at hsh
  · simp only [pure, Except.pure, Except.ok.injEq] at hsh
    subst hsh
    exact ⟨h, by rw [fa, ra]; exact ho.shape, by rw [fa, ra]; exact hk⟩
  · rename_i hleaf
    have hcl : cn.is_leaf = false := by simpa using hleaf
    obtain ⟨h', rfl⟩ : ∃ h', h = h' + 1 := by
      cases h with
      | zero => rw [show cn.is_leaf = true from hfit] at hcl; cases hcl
      | succ h => exact ⟨h, rfl⟩
    obtain ⟨td, hd, cd, sd, rd, ld, nd, fd, chd⟩ := @free_at Value ta ca fl
      (by rw [fa]; exact ho.chain) ta.root_page n (by rw [fa, ra]; exact hn)
    simp only [hd, pure, Except.pure, Except.ok.injEq] at hsh
    have hf1 : t1.file = td.file.write_info e.child 1 := by rw [← hsh]
    have hr1 : t1.root_page = e.child := by rw [← hsh]
    have hblk : ∀ x, x ≠ t.root_page → t1.file.block x = t.file.block x := by
      intro x hx
      rw [hf1, block_write_info, fd x (by rw [ra]; exact hx), fa]
    have hnd := ho.nodup
    rw [hsub] at hnd
    have hfr : ∀ x ∈ subtree t.file.node_at (h' + 1) e.child,
        t1.file.node_at x = t.file.node_at x := by
      intro x hx
      apply node_at_of_block_eq
      apply hblk
      rintro rfl
      exact (List.nodup_cons.mp (List.nodup_append.mp hnd).1).1 hx
    obtain ⟨n2, hn2, ⟨e0, rest0, hes0, hlo⟩, hkids⟩ := hk
    rw [hn] at hn2
    cases hn2
    rw [hes] at hkids hes0
    simp only [List.cons.injEq] at hes0
    obtain ⟨rfl, _⟩ := hes0
    obtain ⟨hke, _, _⟩ := hkids
    rw [hlo] at hke
    refine ⟨h', ?_, ?_⟩
    · rw [hr1]
      exact shaped_congr _ _ hfr (hshape e (by rw [hes]; simp))
    · rw [hr1]
      exact keyed_congr _ _ _ _ hfr hke

/-- The public `remove` keeps the keys in order. -/
theorem remove_sorted [BEq Value] {t t1 : BPT Value} {h : Nat} {fl : List Nat}
    (hs : t.sorted h fl) (k : Key) (v : Value) (hi : t.remove k v = .ok t1) :
    ∃ h1 fl1, t1.sorted h1 fl1 := by
  obtain ⟨hsd, hk⟩ := hs
  obtain ⟨h1, fl1, hs1⟩ := remove_sound hsd k v hi
  have ho := hsd.owned
  obtain ⟨n, hn, hfit⟩ := ho.node
  obtain ⟨ta, hr, fa, ra, ca⟩ := disk_read_ok ho.coherent hn
  simp only [BPT.remove, bind, Except.bind, hr] at hi
  split at hi
  · cases hi
  · rename_i _ r hrec
    obtain ⟨flag, n1, tb⟩ := r
    rw [ra] at hrec
    obtain ⟨fl2, hr1, _, _⟩ := remove_rec_shape k v (h + 1) _ t.root_page n n1 ta tb fl flag
      (ho.on_same_file fa ca) (by rw [fa]; exact hn) hrec
    have hr2 : Reshaped t tb (h + 1) t.root_page fl fl2 n1 := hr1.of_file_eq fa ra
    have hkb : keyed tb.file.node_at (h + 1) t.root_page zero_key none :=
      remove_rec_keyed k v (h + 1) _ t.root_page n n1 ta tb fl flag zero_key none
        (ho.on_same_file fa ca) (by rw [fa]; exact hn) (by rw [fa]; exact hk) hrec
    simp only at hi
    split at hi
    · rename_i hone
      have hob := hr2.keeps_owned ho
      rw [← hr2.root] at hob
      obtain ⟨h2, hsh2, hk2⟩ := shrink_root_keyed hob (by rw [hr2.root]; exact hr2.node) hone
        (by rw [hr2.root]; exact hkb) hi
      have hh := hs1.height hsh2
      subst hh
      exact ⟨_, fl1, hs1, hk2⟩
    · simp only [pure, Except.pure, Except.ok.injEq] at hi
      subst hi
      have hh := @BPT.sound.height _ _ _ h _ hs1 (by rw [hr2.root]; exact hr2.shape)
      subst hh
      exact ⟨_, fl1, hs1, by rw [hr2.root]; exact hkb⟩

/-- Every public call keeps the keys in order. -/
theorem run_sorted [BEq Value] (ops : List (Op Value)) :
    ∀ (t t1 : BPT Value) (h : Nat) (fl : List Nat), t.sorted h fl → t.run ops = .ok t1 →
      ∃ h1 fl1, t1.sorted h1 fl1 := by
  induction ops with
  | nil =>
    intro t t1 h fl hs hr
    simp only [BPT.run, Except.ok.injEq] at hr
    subst hr
    exact ⟨h, fl, hs⟩
  | cons op ops ih =>
    intro t t1 h fl hs hr
    simp only [BPT.run] at hr
    split at hr
    · cases hr
    · rename_i t2 hop
      have h2 : ∃ h2 fl2, t2.sorted h2 fl2 := by
        cases op with
        | insert k v => exact insert_sorted hs k v hop
        | remove k v => exact remove_sorted hs k v hop
      obtain ⟨h2, fl2, hs2⟩ := h2
      exact ih t2 t1 h2 fl2 hs2 hr

/-- The keys of the tree reached by a sequence of public calls on a new file are in order. -/
theorem session_sorted [BEq Value] {ops : List (Op Value)} {t : BPT Value}
    (h : session ops = .ok t) : ∃ h1 fl1, t.sorted h1 fl1 := by
  unfold session at h
  split at h
  · cases h
  · rename_i t0 h0
    exact run_sorted ops t0 t 0 [] (sorted_fresh h0) h

/-- The keys of every node of a well-shaped subtree with keys in order do not decrease. -/
theorem keyed_node_keys {m : Nat → Option (BPTNode Value)} :
    ∀ (h p : Nat) (lo : Key) (hi : Option Key), shaped m h p → keyed m h p lo hi →
      ∀ q ∈ subtree m h p, ∀ n, m q = some n → n.keys.Pairwise (fun a b => a ≤ b) := by
  intro h
  induction h with
  | zero =>
    intro p lo hi hs hk q hq n hn
    simp only [subtree, List.mem_singleton] at hq
    subst hq
    obtain ⟨n1, hn1, hl⟩ := hs
    obtain ⟨n2, hn2, hp, _⟩ := hk
    rw [hn] at hn1 hn2
    cases hn1
    cases hn2
    simp only [BPTNode.keys, hl, if_true]
    exact List.pairwise_map.mpr hp
  | succ h ih =>
    intro p lo hi hs hk q hq n hn
    obtain ⟨n1, hn1, hl, _, hshape⟩ := hs
    obtain ⟨n2, hn2, _, hkids⟩ := hk
    rw [hn1] at hn2
    cases hn2
    simp only [subtree, hn1, List.mem_cons, List.mem_flatMap] at hq
    rcases hq with rfl | ⟨e, he, hqe⟩
    · rw [hn] at hn1
      cases hn1
      simp only [BPTNode.keys, hl, Bool.false_eq_true, if_false]
      exact List.pairwise_map.mpr (kids_sorted hkids)
    · obtain ⟨hi1, hp1, _⟩ := kids_mem hkids e he
      exact ih e.child e.index hi1 (hshape e he) hp1 q hqe n hn

/-! ## The parent fields of the leaves under `insert` -/

theorem put_block_inv {f f1 : MemoryRiver Value} {p : Nat} {b : Page Value}
    (h : f.put_block p b = .ok f1) :
    f1.block p = some b ∧ (∀ q, q ≠ p → f1.block q = f.block q) ∧ f1.slot1 = f.slot1 ∧
      f1.slot2 = f.slot2 := by
  unfold MemoryRiver.put_block at h
  split at h
  · cases h
  · rename_i hp0
    split at h
    · rename_i hlt
      simp only [Except.ok.injEq] at h
      subst h
      have hs : (f.block p).isSome := (MemoryRiver.block_isSome_iff f p).mpr (by omega)
      exact ⟨MemoryRiver.block_set_self f p b hs,
        fun q hq => MemoryRiver.block_set_other f p q b hp0 hq, rfl, rfl⟩
    · split at h
      · rename_i heq
        simp only [Except.ok.injEq] at h
        subst h
        have hp : p = f.pages.length + 1 := by omega
        subst hp
        exact ⟨MemoryRiver.block_append_self f b,
          fun q hq => MemoryRiver.block_append_other f q b hq, rfl, rfl⟩
      · cases h

/-- What `disk_write` does when it returns. -/
theorem disk_write_inv {t t1 : BPT Value} {n : BPTNode Value} {p : Nat}
    (h : disk_write t n p = .ok t1) (hc : t.coherent) :
    t1.coherent ∧ t1.root_page = t.root_page ∧ t1.file.block p = some (.image n) ∧
      ∀ q, q ≠ p → t1.file.block q = t.file.block q := by
  unfold disk_write MemoryRiver.update_page at h
  split at h
  · cases h
  · rename_i f hf
    simp only [Except.ok.injEq] at h
    subst h
    obtain ⟨h1, h2, _, _⟩ := put_block_inv hf
    refine ⟨?_, rfl, h1, h2⟩
    intro x e hx
    rcases LRUCache.lookup_put_cases _ _ _ _ _ hx with ⟨rfl, rfl⟩ | ⟨hne, hold⟩
    · exact ⟨_, h1, rfl⟩
    · obtain ⟨b, hb1, hb2⟩ := hc x e hold
      exact ⟨b, by rw [h2 x hne]; exact hb1, hb2⟩

/-- What `disk_alloc` does when it returns. -/
theorem disk_alloc_inv {t t1 : BPT Value} {n : BPTNode Value} {q : Nat}
    (h : disk_alloc t n = .ok (q, t1)) (hc : t.coherent) :
    t1.coherent ∧ t1.root_page = t.root_page ∧ t1.file.block q = some (.image n) ∧
      ∀ x, x ≠ q → t1.file.block x = t.file.block x := by
  unfold disk_alloc at h
  split at h
  · cases h
  · rename_i pg f hf
    simp only [Except.ok.injEq, Prod.mk.injEq] at h
    obtain ⟨rfl, rfl⟩ := h
    have hblk : f.block pg = some (.image n) ∧ ∀ x, x ≠ pg → f.block x = t.file.block x := by
      unfold MemoryRiver.write_page at hf
      simp only at hf
      split at hf
      · split at hf
        · cases hf
        · split at hf
          · cases hf
          · rename_i f2 hput
            simp only [Except.ok.injEq, Prod.mk.injEq] at hf
            obtain ⟨rfl, rfl⟩ := hf
            obtain ⟨h1, h2, _, _⟩ := put_block_inv hput
            exact ⟨h1, fun x hx => by rw [h2 x hx, block_write_info]⟩
      · split at hf
        · cases hf
        · rename_i f2 hput
          simp only [Except.ok.injEq, Prod.mk.injEq] at hf
          obtain ⟨rfl, rfl⟩ := hf
          obtain ⟨h1, h2, _, _⟩ := put_block_inv hput
          exact ⟨h1, h2⟩
    refine ⟨?_, rfl, hblk.1, hblk.2⟩
    intro x e hx
    rcases LRUCache.lookup_put_cases _ _ _ _ _ hx with ⟨rfl, rfl⟩ | ⟨hne, hold⟩
    · exact ⟨_, hblk.1, rfl⟩
    · obtain ⟨b, hb1, hb2⟩ := hc x e hold
      exact ⟨b, by rw [hblk.2 x hne]; exact hb1, hb2⟩

theorem leaves_point_to_write {t t1 : BPT Value} {r p : Nat} {n : BPTNode Value}
    (hl : t.leaves_point_to r) (h1 : t1.file.block p = some (.image n))
    (h2 : ∀ q, q ≠ p → t1.file.block q = t.file.block q)
    (hn : n.is_leaf = true → n.parent = r) : t1.leaves_point_to r := by
  intro x b hb hleaf
  by_cases hx : x = p
  · subst hx
    rw [h1] at hb
    cases hb
    exact hn hleaf
  · rw [h2 x hx] at hb
    exact hl x b hb hleaf

/-- The split step writes leaves only with the parent field of the leaf that is split. -/
theorem split_child_leaf_parents {t t1 : BPT Value} {r i now_page child_page : Nat}
    {now_node child_node n1 : BPTNode Value}
    (hc : t.coherent) (hl : t.leaves_point_to r)
    (hn : now_node.is_leaf = true → now_node.parent = r)
    (hcn : child_node.is_leaf = true → child_node.parent = r)
    (h : split_child now_node now_page i child_node child_page t = .ok (n1, t1)) :
    t1.coherent ∧ t1.leaves_point_to r ∧ (n1.is_leaf = true → n1.parent = r) := by
  simp only [split_child, bind, Except.bind] at h
  split at h
  · cases h
  · rename_i v ha
    obtain ⟨S, ta⟩ := v
    obtain ⟨ca, _, a1, a2⟩ := disk_alloc_inv ha hc
    have hla : ta.leaves_point_to r := leaves_point_to_write hl a1 a2 hcn
    simp only at h
    split at h
    · cases h
    · rename_i tb hw
      obtain ⟨cb, _, b1, b2⟩ := disk_write_inv hw ca
      have hlb : tb.leaves_point_to r :=
        leaves_point_to_write hla b1 b2 (by
          intro hleaf
          have e1 : (child_node.truncate ((if child_node.is_leaf = true then L else M) / 2)).is_leaf
              = child_node.is_leaf := truncate_is_leaf _ _
          have e2 : (child_node.truncate ((if child_node.is_leaf = true then L else M) / 2)).parent
              = child_node.parent := by
            unfold BPTNode.truncate; split <;> rfl
          exact e2 ▸ hcn (e1 ▸ hleaf))
      split at h
      · cases h
      · split at h
        · cases h
        · split at h
          · cases h
          · rename_i tc hw3
            simp only [pure, Except.pure, Except.ok.injEq, Prod.mk.injEq] at h
            obtain ⟨rfl, rfl⟩ := h
            obtain ⟨cc, _, c1, c2⟩ := disk_write_inv hw3 cb
            exact ⟨cc, leaves_point_to_write hlb c1 c2 hn, hn⟩

/-- The recursive `insert` writes leaves only with the parent field of a leaf of before. -/
theorem insert_rec_leaf_parents (k : Key) (v : Value) (r : Nat) :
    ∀ (d : Nat) (n n1 : BPTNode Value) (p : Nat) (t t1 : BPT Value),
      t.coherent → t.leaves_point_to r → (n.is_leaf = true → n.parent = r) →
      insert_rec k v d n p t = .ok (n1, t1) →
      t1.coherent ∧ t1.leaves_point_to r ∧ (n1.is_leaf = true → n1.parent = r) := by
  intro d
  induction d with
  | zero => intro n n1 p t t1 _ _ _ h; simp [insert_rec] at h
  | succ d ih =>
    intro n n1 p t t1 hc hl hn h
    simp only [insert_rec] at h
    split at h
    · split at h
      · cases h
      · split at h
        · cases h
        · rename_i t2 hw
          simp only [Except.ok.injEq, Prod.mk.injEq] at h
          obtain ⟨rfl, rfl⟩ := h
          obtain ⟨c2, _, w1, w2⟩ := disk_write_inv hw hc
          exact ⟨c2, leaves_point_to_write hl w1 w2 hn, hn⟩
    · split at h
      · cases h
      · rename_i e hei
        split at h
        · cases h
        · rename_i cn ta hr
          obtain ⟨fa, _, ca, b, hb, hbn⟩ := disk_read_inv hr hc
          have hla : ta.leaves_point_to r := by
            intro x bx hx hleaf
            rw [fa] at hx
            exact hl x bx hx hleaf
          have hcn : cn.is_leaf = true → cn.parent = r := by
            intro hleaf
            rw [← hbn] at hleaf ⊢
            exact hl _ b hb hleaf
          split at h
          · cases h
          · rename_i cn1 tb hrec
            obtain ⟨cb, hlb, hcn1⟩ := ih cn cn1 e.child ta tb ca hla hcn hrec
            have hlim : (if cn1.is_leaf = true then L else M) = cn1.limit := rfl
            simp only [hlim] at h
            split at h
            · exact split_child_leaf_parents cb hlb hn hcn1 h
            · simp only [Except.ok.injEq, Prod.mk.injEq] at h
              obtain ⟨rfl, rfl⟩ := h
              exact ⟨cb, hlb, hn⟩

/-- The growth of the root writes no leaf. -/
theorem grow_root_leaf_parents {t t1 : BPT Value} {r : Nat} {n : BPTNode Value}
    (hc : t.coherent) (hl : t.leaves_point_to r) (h : grow_root n t = .ok t1) :
    t1.coherent ∧ t1.leaves_point_to r := by
  simp only [grow_root, bind, Except.bind] at h
  split at h
  · cases h
  · rename_i hleaf
    have hnl : n.is_leaf = false := by simpa using hleaf
    split at h
    · cases h
    · rename_i v ha
      obtain ⟨C, ta⟩ := v
      obtain ⟨ca, _, a1, a2⟩ := disk_alloc_inv ha hc
      have hla : ta.leaves_point_to r :=
        leaves_point_to_write hl a1 a2 (fun hf => by cases hf)
      simp only at h
      split at h
      · cases h
      · split at h
        · cases h
        · split at h
          · cases h
          · rename_i v2 hb
            obtain ⟨R, tb⟩ := v2
            obtain ⟨cb, _, b1, b2⟩ := disk_alloc_inv hb ca
            have hlb : tb.leaves_point_to r :=
              leaves_point_to_write hla b1 b2 (fun hf => by cases hf)
            simp only at h
            obtain ⟨t0, ht0⟩ : ∃ t0 : BPT Value,
              t0 = { file := tb.file, root_page := R, cache := tb.cache } := ⟨_, rfl⟩
            rw [← ht0] at h
            have c0 : t0.coherent := by rw [ht0]; exact cb
            have hl0 : t0.leaves_point_to r := by rw [ht0]; exact hlb
            split at h
            · cases h
            · rename_i tc hw
              obtain ⟨cc, _, c1, c2⟩ := disk_write_inv hw c0
              have hlc : tc.leaves_point_to r :=
                leaves_point_to_write hl0 c1 c2 (fun hf => by
                  have : n.is_leaf = true := hf
                  rw [hnl] at this
                  cases this)
              split at h
              · cases h
              · rename_i td hw2
                obtain ⟨cd, _, d1, d2⟩ := disk_write_inv hw2 cc
                have hld : td.leaves_point_to r :=
                  leaves_point_to_write hlc d1 d2 (fun hf => by cases hf)
                simp only [pure, Except.pure, Except.ok.injEq] at h
                subst h
                refine ⟨coherent_write_info cd _ 1, ?_⟩
                intro x bx hx hleaf
                rw [block_write_info] at hx
                exact hld x bx hx hleaf

/-- The public `insert` keeps the parent field that all leaves have. -/
theorem insert_leaf_parents {t t1 : BPT Value} {r : Nat} (k : Key) (v : Value)
    (hc : t.coherent) (hl : t.leaves_point_to r) (h : t.insert k v = .ok t1) :
    t1.coherent ∧ t1.leaves_point_to r := by
  simp only [BPT.insert, bind, Except.bind] at h
  split at h
  · cases h
  · rename_i v1 hr
    obtain ⟨n, ta⟩ := v1
    obtain ⟨fa, _, ca, b, hb, hbn⟩ := disk_read_inv hr hc
    have hla : ta.leaves_point_to r := by
      intro x bx hx hleaf
      rw [fa] at hx
      exact hl x bx hx hleaf
    have hn : n.is_leaf = true → n.parent = r := by
      intro hleaf
      rw [← hbn] at hleaf ⊢
      exact hl _ b hb hleaf
    simp only at h
    split at h
    · cases h
    · rename_i v2 hrec
      obtain ⟨n1, tb⟩ := v2
      obtain ⟨cb, hlb, _⟩ := insert_rec_leaf_parents k v r _ n n1 _ ta tb ca hla hn hrec
      simp only at h
      split at h
      · exact grow_root_leaf_parents cb hlb h
      · simp only [pure, Except.pure, Except.ok.injEq] at h
        subst h
        exact ⟨cb, hlb⟩

/-! ## Runs of inserts: the parent fields of the leaves and the height of the tree -/

/-- The tree built by the constructor on a new file: its only leaf has the parent field 2. -/
theorem fresh_leaf_parents {t : BPT Value}
    (h : BPT.open (MemoryRiver.fresh : MemoryRiver Value) = .ok t) :
    t.coherent ∧ t.leaves_point_to 2 := by
  obtain ⟨t1, l0, r, e, _, hc, hl, hr, hroot, hs1, hs2, hfresh, hoth⟩ :=
    initialize_new_tree_spec
      ({ file := MemoryRiver.fresh, root_page := (MemoryRiver.fresh : MemoryRiver Value).get_info 1,
         cache := { cache_list := [], capacity := 128 } } : BPT Value)
      (coherent_empty _ _ _) (Or.inl rfl)
  have ht : t = t1 := by
    have : BPT.open (MemoryRiver.fresh : MemoryRiver Value) = .ok t1 := by
      simp only [BPT.open]
      exact e
    rw [h] at this
    cases this; rfl
  subst ht
  obtain ⟨rfl, rfl⟩ := hfresh rfl
  refine ⟨hc, ?_⟩
  intro p b hb hleaf
  by_cases h1 : p = 1
  · subst h1
    have := (MemoryRiver.node_at_eq_some _ _ _).mp hl
    simp only [MemoryRiver.fresh, List.length_nil, Nat.zero_add] at this
    rw [this] at hb
    cases hb
    rfl
  · by_cases h2 : p = 2
    · subst h2
      have := (MemoryRiver.node_at_eq_some _ _ _).mp hr
      simp only [MemoryRiver.fresh, List.length_nil, Nat.zero_add] at this
      rw [this] at hb
      cases hb
      cases hleaf
    · rw [hoth p (by simpa [MemoryRiver.fresh] using h1)
        (by simpa [MemoryRiver.fresh] using h2)] at hb
      simp [MemoryRiver.block, MemoryRiver.fresh] at hb

/-- A run of inserts keeps the parent field that all leaves have. -/
theorem run_inserts_leaf_parents [BEq Value] (r : Nat) (pairs : List (Key × Value)) :
    ∀ (t t1 : BPT Value), t.coherent → t.leaves_point_to r →
      t.run (inserts pairs) = .ok t1 → t1.coherent ∧ t1.leaves_point_to r := by
  induction pairs with
  | nil =>
    intro t t1 hc hl h
    simp only [inserts, List.map_nil, BPT.run, Except.ok.injEq] at h
    subst h
    exact ⟨hc, hl⟩
  | cons x pairs ih =>
    intro t t1 hc hl h
    simp only [inserts, List.map_cons, BPT.run, BPT.apply] at h
    split at h
    · cases h
    · rename_i t2 hop
      obtain ⟨c2, l2⟩ := insert_leaf_parents x.1 x.2 hc hl hop
      exact ih t2 t1 c2 l2 h

/-- The leaves under a list of entries hold fewer than `L` entries each. -/
theorem kids_contents_length {m : Nat → Option (BPTNode Value)} {lowkids : Bool} :
    ∀ (l : List InternalEntry) (hi : Option Key),
      kids (fun c k hi1 => ordered m 0 c k hi1 lowkids true 0) l hi →
      (l.flatMap (fun e => contents m 0 e.child)).length ≤ 47 * l.length := by
  intro l
  induction l with
  | nil => intro hi _; simp
  | cons e l ih =>
    intro hi hk
    obtain ⟨k1, _, k3⟩ := hk
    obtain ⟨n, hn, hl, hsz, _⟩ := k1
    have := ih hi k3
    have hc : (contents m 0 e.child).length < 48 := by
      simp only [contents, hn]
      have h1 := hsz.1
      simp only [BPTNode.count, BPTNode.limit, hl, if_true] at h1
      exact h1
    rw [List.flatMap_cons, List.length_append, List.length_cons]
    omega

/-- A root over leaves holds at most 57 * 47 pairs: with more, the tree has a level of internal
nodes below the root. -/
theorem good_height_pos {t : BPT Value} {h : Nat} {items : List (LeafEntry Value)}
    (hg : t.good h items) (hlen : 2680 ≤ items.length) : 1 ≤ h := by
  by_contra hno
  have h0 : h = 0 := by omega
  subst h0
  obtain ⟨_, _, _, n, hn, ho, _, hperm⟩ := hg
  obtain ⟨n1, hn1, hl, hsz, _, hkids⟩ := ho
  have hc := kids_contents_length _ _ hkids
  have hcount := hsz.1
  simp only [BPTNode.count, BPTNode.limit, hl, Bool.false_eq_true, if_false] at hcount
  have hM : (M : Nat) = 58 := rfl
  have e1 : contents t.file.node_at (0 + 1) t.root_page =
      n1.internal_entries.flatMap (fun e => contents t.file.node_at 0 e.child) := by
    simp only [contents, hn1]
  have := hperm.length_eq
  rw [e1] at this
  omega

/-! ## Every page of a tree has one parent -/

theorem ordered_shaped {m : Nat → Option (BPTNode Value)} :
    ∀ (h p : Nat) (lo : Key) (hi : Option Key) (low lowkids : Bool) (slack : Nat),
      ordered m h p lo hi low lowkids slack → shaped m h p := by
  intro h
  induction h with
  | zero =>
    intro p lo hi low lowkids slack ho
    obtain ⟨n, hn, hl, _⟩ := ho
    exact ⟨n, hn, hl⟩
  | succ h ih =>
    intro p lo hi low lowkids slack ho
    obtain ⟨n, hn, hl, _, ⟨e, rest, hes, _⟩, hkids⟩ := ho
    refine ⟨n, hn, hl, by rw [hes]; simp, ?_⟩
    intro e1 he1
    obtain ⟨hi1, hp1, _⟩ := kids_mem hkids e1 he1
    exact ih _ _ _ _ _ _ hp1

/-- A subtree with an internal root contains a node directly above leaves. -/
theorem shaped_has_level_one {m : Nat → Option (BPTNode Value)} :
    ∀ (j a : Nat), shaped m (j + 1) a → ∃ y ∈ subtree m (j + 1) a, shaped m 1 y := by
  intro j
  induction j with
  | zero => intro a hs; exact ⟨a, subtree_root_mem _ _ _, hs⟩
  | succ j ih =>
    intro a hs
    obtain ⟨n, hn, _, hne, hk⟩ := hs
    obtain ⟨e, rest, hes⟩ := List.exists_cons_of_ne_nil hne
    have he : e ∈ n.internal_entries := by rw [hes]; simp
    obtain ⟨y, hy, hsy⟩ := ih e.child (hk e he)
    exact ⟨y, subtree_child_mem hn he hy, hsy⟩

/-- The children of an internal node of a subtree are pages of the subtree other than its
root. -/
theorem child_in_tail {m : Nat → Option (BPTNode Value)} :
    ∀ (H a : Nat), shaped m H a → ∀ b nb, b ∈ subtree m H a → m b = some nb →
      nb.is_leaf = false → ∀ e ∈ nb.internal_entries, e.child ∈ (subtree m H a).tail := by
  intro H
  induction H with
  | zero =>
    intro a hs b nb hb hnb hl e _
    obtain ⟨n, hn, hleaf⟩ := hs
    simp only [subtree, List.mem_singleton] at hb
    subst hb
    rw [hn] at hnb
    cases hnb
    rw [hleaf] at hl
    cases hl
  | succ H ih =>
    intro a hs b nb hb hnb hl e he
    obtain ⟨n, hn, _, _, hk⟩ := hs
    simp only [subtree, hn, List.tail_cons, List.mem_cons, List.mem_flatMap] at hb ⊢
    rcases hb with rfl | ⟨e1, he1, hb1⟩
    · rw [hn] at hnb
      cases hnb
      exact ⟨e, he, subtree_root_mem _ _ _⟩
    · exact ⟨e1, he1, List.mem_of_mem_tail (ih e1.child (hk e1 he1) b nb hb1 hnb hl e he)⟩

/-- In a subtree without repeated pages, two internal nodes with a common child are the same
node. -/
theorem parent_unique {m : Nat → Option (BPTNode Value)} :
    ∀ (H a : Nat), shaped m H a → (subtree m H a).Nodup →
      ∀ b1 b2 n1 n2, b1 ∈ subtree m H a → b2 ∈ subtree m H a →
        m b1 = some n1 → m b2 = some n2 → n1.is_leaf = false → n2.is_leaf = false →
        ∀ e1 ∈ n1.internal_entries, ∀ e2 ∈ n2.internal_entries, e1.child = e2.child →
          b1 = b2 := by
  intro H
  induction H with
  | zero =>
    intro a _ _ b1 b2 n1 n2 h1 h2 _ _ _ _ _ _ _ _ _
    simp only [subtree, List.mem_singleton] at h1 h2
    rw [h1, h2]
  | succ H ih =>
    intro a hs hnd b1 b2 n1 n2 h1 h2 hm1 hm2 hl1 hl2 e1 he1 e2 he2 hq
    have hs0 := hs
    obtain ⟨n, hn, _, _, hk⟩ := hs
    have hsub : subtree m (H + 1) a =
        a :: n.internal_entries.flatMap (fun e => subtree m H e.child) := by
      simp only [subtree, hn]
    rw [hsub] at hnd h1 h2
    obtain ⟨hna, hnf⟩ := List.nodup_cons.mp hnd
    obtain ⟨hblocks, hdisj⟩ := List.nodup_flatMap.mp hnf
    have hdis : ∀ x ∈ n.internal_entries, ∀ y ∈ n.internal_entries, x ≠ y →
        List.Disjoint (subtree m H x.child) (subtree m H y.child) := by
      intro x hx y hy hxy
      exact List.Pairwise.forall (fun _ _ h => List.Disjoint.symm h) hdisj hx hy hxy
    -- a page that is the head of one block and in the tail of a block
    have clash : ∀ x ∈ n.internal_entries, ∀ y ∈ n.internal_entries,
        x.child ∈ (subtree m H y.child).tail → False := by
      intro x hx y hy hmem
      by_cases hxy : x = y
      · subst hxy
        have hb := hblocks x hx
        rw [subtree_cons_tail] at hb
        exact (List.nodup_cons.mp hb).1 hmem
      · exact hdis x hx y hy hxy (subtree_root_mem _ _ _) (List.mem_of_mem_tail hmem)
    rcases List.mem_cons.mp h1 with r1 | r1
    · rcases List.mem_cons.mp h2 with r2 | r2
      · rw [r1, r2]
      · exfalso
        subst r1
        rw [hn] at hm1
        cases hm1
        obtain ⟨y, hy, hb2⟩ := List.mem_flatMap.mp r2
        have := child_in_tail H y.child (hk y hy) b2 n2 hb2 hm2 hl2 e2 he2
        rw [← hq] at this
        exact clash e1 he1 y hy this
    · rcases List.mem_cons.mp h2 with r2 | r2
      · exfalso
        subst r2
        rw [hn] at hm2
        cases hm2
        obtain ⟨y, hy, hb1⟩ := List.mem_flatMap.mp r1
        have := child_in_tail H y.child (hk y hy) b1 n1 hb1 hm1 hl1 e1 he1
        rw [hq] at this
        exact clash e2 he2 y hy this
      · obtain ⟨y1, hy1, hb1⟩ := List.mem_flatMap.mp r1
        obtain ⟨y2, hy2, hb2⟩ := List.mem_flatMap.mp r2
        by_cases hy : y1 = y2
        · subst hy
          exact ih y1.child (hk y1 hy1) (hblocks y1 hy1) b1 b2 n1 n2 hb1 hb2 hm1 hm2 hl1 hl2
            e1 he1 e2 he2 hq
        · exfalso
          have t1 := child_in_tail H y1.child (hk y1 hy1) b1 n1 hb1 hm1 hl1 e1 he1
          have t2 := child_in_tail H y2.child (hk y2 hy2) b2 n2 hb2 hm2 hl2 e2 he2
          rw [← hq] at t2
          exact hdis y1 hy1 y2 hy2 hy (List.mem_of_mem_tail t1) (List.mem_of_mem_tail t2)

/-! ## A leaf whose parent field names another node than its parent -/

/-- After the inserts of at least 2680 pairs on a new file the tree has internal nodes below the
root; one of the nodes directly above the leaves is not at page 2, while every leaf has the
parent field 2: its first child is a leaf whose parent field does not name its parent, and the
node at page 2 does not have that leaf among its children. -/
theorem stale_parent_after_inserts [BEq Value] (pairs : List (Key × Value))
    (hlen : 2680 ≤ pairs.length) :
    ∃ t q y l ny, session (inserts pairs) = .ok t ∧ q ∈ t.pages ∧ q ≠ t.root_page ∧
      y ∈ t.pages ∧ t.file.node_at y = some ny ∧ ny.is_leaf = false ∧
      (∃ e ∈ ny.internal_entries, e.child = q) ∧
      t.file.node_at q = some l ∧ l.is_leaf = true ∧ l.parent = 2 ∧ y ≠ 2 ∧
      ∀ np, t.file.node_at 2 = some np → np.is_leaf = false →
        ∀ e ∈ np.internal_entries, e.child ≠ q := by
  obtain ⟨t, h, items, hsess, hgood, hperm⟩ := session_inserts_good pairs
  have hil : 2680 ≤ items.length := by
    rw [hperm.length_eq, List.length_map]; exact hlen
  have hpos := good_height_pos hgood hil
  obtain ⟨h1, fl, hsd⟩ := session_sound hsess
  -- the two heights agree
  have hsh : shaped t.file.node_at (h + 1) t.root_page := by
    obtain ⟨_, _, _, n, _, ho, _, _⟩ := hgood
    exact ordered_shaped _ _ _ _ _ _ _ ho
  have hh := hsd.height hsh
  subst hh
  -- every leaf has the parent field 2
  have hleaves : t.leaves_point_to 2 := by
    have hs := hsess
    unfold session at hs
    split at hs
    · cases hs
    · rename_i t0 h0
      obtain ⟨c0, l0⟩ := fresh_leaf_parents h0
      exact (run_inserts_leaf_parents 2 pairs t0 t c0 l0 hs).2
  -- two nodes directly above the leaves
  obtain ⟨j, rfl⟩ : ∃ j, h1 = j + 1 := ⟨h1 - 1, by omega⟩
  have hnd : (subtree t.file.node_at (j + 1 + 1) t.root_page).Nodup :=
    (List.nodup_append.mp (hsd.2.2.2.2.1.nodup_iff.mpr (List.nodup_range' _ _))).1
  obtain ⟨n, hn, hl, hne, hk⟩ := hsh
  have hcount : 2 ≤ n.internal_entries.length := by
    have h1 := List.length_pos.mpr hne
    by_contra hno
    have := hsd.2.2.2.2.2 n hn (by simp only [BPTNode.count, hl]; simp; omega)
    omega
  obtain ⟨a, b, rest, hes⟩ : ∃ a b rest, n.internal_entries = a :: b :: rest := by
    cases hx : n.internal_entries with
    | nil => rw [hx] at hcount; simp at hcount
    | cons a l =>
      cases l with
      | nil => rw [hx] at hcount; simp at hcount
      | cons b rest => exact ⟨a, b, rest, rfl⟩
  have ha : a ∈ n.internal_entries := by rw [hes]; simp
  have hb : b ∈ n.internal_entries := by rw [hes]; simp
  obtain ⟨y1, hy1, hs1⟩ := shaped_has_level_one j a.child (hk a ha)
  obtain ⟨y2, hy2, hs2⟩ := shaped_has_level_one j b.child (hk b hb)
  have hy12 : y1 ≠ y2 := by
    have hsub : subtree t.file.node_at (j + 1 + 1) t.root_page =
        t.root_page :: (subtree t.file.node_at (j + 1) a.child ++
          (subtree t.file.node_at (j + 1) b.child ++
            rest.flatMap (fun e => subtree t.file.node_at (j + 1) e.child))) := by
      simp only [subtree, hn, hes, List.flatMap_cons]
    rw [hsub] at hnd
    have h2 := (List.nodup_cons.mp hnd).2
    intro heq
    exact (List.nodup_append.mp h2).2.2 hy1 (List.mem_append_left _ (heq ▸ hy2))
  have hroot : shaped t.file.node_at (j + 1 + 1) t.root_page := ⟨n, hn, hl, hne, hk⟩
  obtain ⟨y, hyt, hsy, hy2ne⟩ : ∃ y, y ∈ subtree t.file.node_at (j + 1 + 1) t.root_page ∧
      shaped t.file.node_at 1 y ∧ y ≠ 2 := by
    by_cases h2 : y1 = 2
    · exact ⟨y2, subtree_child_mem hn hb hy2, hs2, fun h => hy12 (h2.trans h.symm)⟩
    · exact ⟨y1, subtree_child_mem hn ha hy1, hs1, h2⟩
  obtain ⟨ny, hny, hnyl, hnyne, hnyk⟩ := hsy
  obtain ⟨e, erest, hyes⟩ := List.exists_cons_of_ne_nil hnyne
  have he : e ∈ ny.internal_entries := by rw [hyes]; simp
  obtain ⟨l, hlq, hleaf⟩ := hnyk e he
  have hqt := child_in_tail _ _ hroot y ny hyt hny hnyl e he
  have hqsub : e.child ∈ subtree t.file.node_at (j + 1 + 1) t.root_page :=
    List.mem_of_mem_tail hqt
  have hqroot : e.child ≠ t.root_page := by
    intro heq
    rw [subtree_cons_tail] at hnd
    rw [heq] at hqt
    exact (List.nodup_cons.mp hnd).1 hqt
  refine ⟨t, e.child, y, l, ny, hsess, by rw [hsd.pages]; exact hqsub, hqroot,
    by rw [hsd.pages]; exact hyt, hny, hnyl, ⟨e, he, rfl⟩, hlq, hleaf,
    hleaves e.child _ ((MemoryRiver.node_at_eq_some _ _ _).mp hlq) hleaf, hy2ne, ?_⟩
  intro np hnp hnpl e2 he2 heq
  have h2mem : 2 ∈ subtree t.file.node_at (j + 1 + 1) t.root_page := by
    have hb2 := MemoryRiver.node_at_bound hnp
    have : 2 ∈ List.range' 1 t.file.pages.length := by
      rw [List.mem_range']
      exact ⟨1, by omega, by omega⟩
    rcases List.mem_append.mp ((hsd.2.2.2.2.1.mem_iff).mpr this) with h | h
    · exact h
    · have := free_chain_not_node fl _ hsd.2.2.2.1 2 h
      rw [hnp] at this
      cases this
  exact hy2ne (parent_unique _ _ hroot hnd y 2 ny np hyt h2mem hny hnp hnyl hnpl e he e2 he2
    heq.symm)

/-- C13 (the failing run).  After the 2680 inserts of `stale_ops` on a new file there is a leaf
`q`, reachable from the root as a child of the internal node at page `y`, whose parent field is
2 and not `y`, and the node at page 2 does not have `q` among its children. -/
theorem moved_child_keeps_old_parent :
    ∃ (t : BPT Nat) (q y : Nat) (l ny : BPTNode Nat), session stale_ops = .ok t ∧
      q ∈ t.pages ∧ q ≠ t.root_page ∧ y ∈ t.pages ∧ t.file.node_at y = some ny ∧
      ny.is_leaf = false ∧ (∃ e ∈ ny.internal_entries, e.child = q) ∧
      t.file.node_at q = some l ∧ l.is_leaf = true ∧ l.parent = 2 ∧ y ≠ 2 ∧
      ∀ np, t.file.node_at 2 = some np → np.is_leaf = false →
        ∀ e ∈ np.internal_entries, e.child ≠ q :=
  stale_parent_after_inserts _ (by simp)

/-! ## `sort`: total correctness -/

section Quicksort

variable {T : Type}

theorem swap_at_length (a : List T) (i j : Nat) : (swap_at a i j).length = a.length := by
  unfold swap_at; split <;> simp

theorem swap_at_getElem (a : List T) (i j : Nat) (x y : T) (hi : a[i]? = some x)
    (hj : a[j]? = some y) (k : Nat) :
    (swap_at a i j)[k]? = if k = j then some x else if k = i then some y else a[k]? := by
  obtain ⟨hil, -⟩ := List.getElem?_eq_some.1 hi
  obtain ⟨hjl, -⟩ := List.getElem?_eq_some.1 hj
  unfold swap_at; simp only [hi, hj]
  rw [List.getElem?_set, List.getElem?_set]
  simp only [List.length_set, hjl, hil, if_true]
  by_cases h1 : j = k
  · simp [h1]
  · by_cases h2 : i = k
    · simp [h1, h2, Ne.symm h1]
    · simp [h1, h2, Ne.symm h1, Ne.symm h2]

theorem set_perm_cons (t : List T) (j : Nat) (h y : T) (hj : t[j]? = some y) :
    (y :: t.set j h).Perm (h :: t) := by
  induction t generalizing j with
  | nil => simp at hj
  | cons z t ih =>
    cases j with
    | zero =>
      simp only [List.getElem?_cons_zero, Option.some.injEq] at hj
      subst hj
      simpa using List.Perm.swap h z t
    | succ j =>
      simp only [List.getElem?_cons_succ] at hj
      simp only [List.set_cons_succ]
      exact (List.Perm.swap z y _).trans (((ih j hj).cons z).trans (List.Perm.swap h z t))

theorem swap_at_perm (a : List T) (i j : Nat) : (swap_at a i j).Perm a := by
  unfold swap_at
  split
  · rename_i x y hi hj
    induction a generalizing i j with
    | nil => simp at hi
    | cons h t ih =>
      cases i with
      | zero =>
        simp only [List.getElem?_cons_zero, Option.some.injEq] at hi
        subst hi
        cases j with
        | zero =>
          simp only [List.getElem?_cons_zero, Option.some.injEq] at hj
          subst hj
          simp
        | succ j =>
          simp only [List.getElem?_cons_succ] at hj
          simpa using set_perm_cons t j h y hj
      | succ i =>
        simp only [List.getElem?_cons_succ] at hi
        cases j with
        | zero =>
          simp only [List.getElem?_cons_zero, Option.some.injEq] at hj
          subst hj
          simpa using set_perm_cons t i h x hi
        | succ j =>
          simp only [List.getElem?_cons_succ] at hj
          simpa using (ih i j hi hj).cons h
  · exact List.Perm.refl _

theorem StrictWeak.asymm {lt : T → T → Bool} (hsw : StrictWeak lt) {x y : T}
    (h : lt x y = true) : lt y x = false := by
  cases h2 : lt y x
  · rfl
  · have := hsw.trans x y x h h2
    rw [hsw.irrefl] at this
    cases this

theorem getElem_opt_of_lt (a : List T) (k : Nat) (h : k < a.length) : ∃ x, a[k]? = some x :=
  ⟨_, List.getElem?_eq_getElem h⟩

theorem lt_length_of_getElem_opt {a : List T} {k : Nat} {x : T} (h : a[k]? = some x) :
    k < a.length := (List.getElem?_eq_some.1 h).1

/-- The upward scan stops at or before any element that is not less than the pivot. -/
theorem scan_up_spec (lt : T → T → Bool) (a : List T) (l r : Nat) (p : T) (k : Nat) (xk : T)
    (hk : a[k]? = some xk) (hkp : lt xk p = false) (hkr : k < r) :
    ∀ (n i : Nat), l ≤ i → i ≤ k → k - i < n →
      ∃ i1, scan_up lt a l r p n i = .ok i1 ∧ i ≤ i1 ∧ i1 ≤ k ∧
        (∀ m x, i ≤ m → m < i1 → a[m]? = some x → lt x p = true) ∧
        ∃ x, a[i1]? = some x ∧ lt x p = false := by
  intro n
  induction n with
  | zero => intro i _ _ h; omega
  | succ n ih =>
    intro i hli hik hn
    obtain ⟨x, hx⟩ := getElem_opt_of_lt a i (by have := lt_length_of_getElem_opt hk; omega)
    unfold scan_up
    rw [if_pos ⟨hli, by omega⟩]
    simp only [hx]
    cases hlt : lt x p
    · simp only [Bool.false_eq_true, if_false]
      exact ⟨i, rfl, Nat.le_refl _, hik, fun m y h1 h2 => by omega, x, hx, hlt⟩
    · simp only [if_true]
      have hne : i ≠ k := by
        rintro rfl
        rw [hx] at hk
        cases hk
        rw [hlt] at hkp
        cases hkp
      obtain ⟨i1, he, h1, h2, h3, h4⟩ := ih (i + 1) (by omega) (by omega) (by omega)
      refine ⟨i1, he, by omega, h2, ?_, h4⟩
      intro m y hm1 hm2 hy
      by_cases hmi : m = i
      · subst hmi
        rw [hx] at hy
        cases hy
        exact hlt
      · exact h3 m y (by omega) hm2 hy

/-- The downward scan stops at or after any element that is not greater than the pivot. -/
theorem scan_down_spec (lt : T → T → Bool) (a : List T) (l r : Nat) (p : T) (k : Nat) (xk : T)
    (hk : a[k]? = some xk) (hkp : lt p xk = false) (hkl : l ≤ k) (hr : r ≤ a.length) :
    ∀ (n hi : Nat), k < hi → hi ≤ r → hi - k ≤ n →
      ∃ hi1, scan_down lt a l r p n hi = .ok hi1 ∧ k < hi1 ∧ hi1 ≤ hi ∧
        (∀ m x, hi1 ≤ m → m < hi → a[m]? = some x → lt p x = true) ∧
        ∃ x, a[hi1 - 1]? = some x ∧ lt p x = false := by
  intro n
  induction n with
  | zero => intro hi _ _ h; omega
  | succ n ih =>
    intro hi hkh hhr hn
    obtain ⟨x, hx⟩ := getElem_opt_of_lt a (hi - 1) (by omega)
    unfold scan_down
    rw [if_pos ⟨by omega, hhr⟩]
    simp only [hx]
    cases hlt : lt p x
    · simp only [Bool.false_eq_true, if_false]
      exact ⟨hi, rfl, hkh, Nat.le_refl _, fun m y h1 h2 => by omega, x, hx, hlt⟩
    · simp only [if_true]
      have hne : hi - 1 ≠ k := by
        intro h
        rw [h, hk] at hx
        cases hx
        rw [hlt] at hkp
        cases hkp
      obtain ⟨hi1, he, h1, h2, h3, h4⟩ := ih (hi - 1) (by omega) (by omega) (by omega)
      refine ⟨hi1, he, h1, by omega, ?_, h4⟩
      intro m y hm1 hm2 hy
      by_cases hmi : m = hi - 1
      · subst hmi
        rw [hx] at hy
        cases hy
        exact hlt
      · exact h3 m y hm1 (by omega) hy

end Quicksort

section Quicksort

variable {T : Type}

theorem Parting.initial (lt : T → T → Bool) (a : List T) (l r : Nat) (p : T) (hlr : l ≤ r)
    (hr : r ≤ a.length) : Parting lt a a l r p l r :=
  { perm := List.Perm.refl _
    outside := fun _ _ => rfl
    inside := fun _ h => h
    li := Nat.le_refl _
    ir := hlr
    lh := hlr
    hr := Nat.le_refl _
    ra := hr
    left := fun k x h1 h2 => by omega
    right := fun k x h1 h2 => by omega }

/-- The partition loop returns, keeps its invariant, and ends with `j < i`; an element of
`[i, j]` equivalent to the pivot forces a swap, so that both ends move. -/
theorem partition_loop_spec {lt : T → T → Bool} (hsw : StrictWeak lt) (a0 : List T) (l r : Nat)
    (p : T) :
    ∀ (n : Nat) (a : List T) (i hi : Nat), Parting lt a0 a l r p i hi →
      (i < hi → (∃ k x, i ≤ k ∧ k < r ∧ a[k]? = some x ∧ lt x p = false) ∧
        ∃ k x, l ≤ k ∧ k < hi ∧ a[k]? = some x ∧ lt p x = false) →
      hi - i < n →
      ∃ a1 i1 hi1, partition_loop lt l r p n a i hi = .ok (a1, i1, hi1) ∧
        Parting lt a0 a1 l r p i1 hi1 ∧ hi1 ≤ i1 ∧ i ≤ i1 ∧ hi1 ≤ hi ∧
        ((∃ k x, i ≤ k ∧ k < hi ∧ a[k]? = some x ∧ lt x p = false ∧ lt p x = false) →
          i < i1 ∧ hi1 < hi) := by
  intro n
  induction n with
  | zero => intro a i hi _ _ h; omega
  | succ n ih =>
    intro a i hi hp hstop hn
    have hli := hp.li
    have hir := hp.ir
    have hlh := hp.lh
    have hhr := hp.hr
    have hra := hp.ra
    unfold partition_loop
    by_cases hlt : i < hi
    · rw [if_pos hlt]
      obtain ⟨⟨ku, xu, hu1, hu2, hu3, hu4⟩, kd, xd, hd1, hd2, hd3, hd4⟩ := hstop hlt
      obtain ⟨i1, he1, hi1a, hi1b, hi1c, xi, hxi, hxip⟩ :=
        scan_up_spec lt a l r p ku xu hu3 hu4 hu2 (r - l + 1) i hp.li hu1 (by omega)
      obtain ⟨h1, he2, hh1a, hh1b, hh1c, xj, hxj, hxjp⟩ :=
        scan_down_spec lt a l r p kd xd hd3 hd4 hd1 hp.ra (r - l + 1) hi hd2 hp.hr (by omega)
      simp only [he1, he2]
      by_cases hsw1 : i1 < h1
      · rw [if_pos hsw1]
        have hget := swap_at_getElem a i1 (h1 - 1) xi xj hxi hxj
        have hp1 : Parting lt a0 (swap_at a i1 (h1 - 1)) l r p (i1 + 1) (h1 - 1) := by
          refine
            { perm := (swap_at_perm _ _ _).trans hp.perm
              outside := ?_
              inside := ?_
              li := by omega
              ir := by omega
              lh := by omega
              hr := by omega
              ra := by rw [swap_at_length]; exact hp.ra
              left := ?_
              right := ?_ }
          · intro k hk
            rw [hget, if_neg (by omega), if_neg (by omega)]
            exact hp.outside k hk
          · intro P hP k x hk1 hk2
            rw [hget]
            split
            · intro h; cases h; exact hp.inside P hP i1 _ (by omega) (by omega) hxi
            · split
              · intro h; cases h; exact hp.inside P hP (h1 - 1) _ (by omega) (by omega) hxj
              · exact hp.inside P hP k x hk1 hk2
          · intro k x hk1 hk2
            rw [hget]
            split
            · intro h; cases h
              have : i1 = h1 - 1 := by omega
              rw [← this, hxi] at hxj
              cases hxj
              exact hxjp
            · split
              · intro h; cases h; exact hxjp
              · intro hx
                by_cases hki : k < i
                · exact hp.left k x hk1 hki hx
                · exact hsw.asymm (hi1c k x (by omega) (by omega) hx)
          · intro k x hk1 hk2
            rw [hget]
            split
            · intro h; cases h; exact hxip
            · split
              · intro _; exfalso; omega
              · intro hx
                by_cases hkh : hi ≤ k
                · exact hp.right k x hkh hk2 hx
                · exact hsw.asymm (hh1c k x (by omega) (by omega) hx)
        obtain ⟨a2, i2, h2, he, hp2, q1, q2, q3, -⟩ := ih _ (i1 + 1) (h1 - 1) hp1 (by
          intro hlt2
          exact ⟨⟨h1 - 1, xi, by omega, by omega, by rw [hget, if_pos rfl], hxip⟩, i1, xj,
            by omega, by omega, by rw [hget, if_neg (by omega), if_pos rfl], hxjp⟩) (by omega)
        exact ⟨a2, i2, h2, he, hp2, q1, by omega, by omega, fun _ => ⟨by omega, by omega⟩⟩
      · rw [if_neg hsw1]
        have hp1 : Parting lt a0 a l r p i1 h1 := by
          refine
            { perm := hp.perm
              outside := hp.outside
              inside := hp.inside
              li := by omega
              ir := by omega
              lh := by omega
              hr := by omega
              ra := hp.ra
              left := ?_
              right := ?_ }
          · intro k x hk1 hk2 hx
            by_cases hki : k < i
            · exact hp.left k x hk1 hki hx
            · exact hsw.asymm (hi1c k x (by omega) (by omega) hx)
          · intro k x hk1 hk2 hx
            by_cases hkh : hi ≤ k
            · exact hp.right k x hkh hk2 hx
            · exact hsw.asymm (hh1c k x (by omega) (by omega) hx)
        obtain ⟨a2, i2, h2, he, hp2, q1, q2, q3, -⟩ :=
          ih a i1 h1 hp1 (fun h => absurd h hsw1) (by omega)
        refine ⟨a2, i2, h2, he, hp2, q1, by omega, by omega, ?_⟩
        rintro ⟨k, x, hk1, hk2, hk3, hk4, hk5⟩
        exfalso
        have c1 : i1 ≤ k := by
          by_contra hc
          have := hi1c k x hk1 (by omega) hk3
          rw [hk4] at this
          cases this
        have c2 : k < h1 := by
          by_contra hc
          have := hh1c k x (by omega) hk2 hk3
          rw [hk5] at this
          cases this
        omega
    · rw [if_neg hlt]
      exact ⟨a, i, hi, rfl, hp, by omega, Nat.le_refl _, Nat.le_refl _,
        fun ⟨k, _, h1, h2, _⟩ => by omega⟩

/-- Total correctness of `sort(l, r)`: with a recursion bound above the length of the segment
the call returns; the array is rearranged inside `[l, r)` only, and the segment ends
non-decreasing. -/
theorem sort_rec_spec {lt : T → T → Bool} (hsw : StrictWeak lt) :
    ∀ (n : Nat) (a : List T) (l r : Nat), r ≤ a.length → r - l < n →
      ∃ a1, sort_rec lt n a l r = .ok a1 ∧ a1.Perm a ∧
        (∀ k, k < l ∨ r ≤ k → a1[k]? = a[k]?) ∧
        (∀ P : T → Prop, (∀ k x, l ≤ k → k < r → a[k]? = some x → P x) →
          ∀ k x, l ≤ k → k < r → a1[k]? = some x → P x) ∧
        ∀ k1 k2 x y, l ≤ k1 → k1 < k2 → k2 < r → a1[k1]? = some x → a1[k2]? = some y →
          lt y x = false := by
  intro n
  induction n with
  | zero => intro a l r _ h; omega
  | succ n ih =>
    intro a l r hr hn
    unfold sort_rec
    by_cases hsmall : r - l ≤ 1
    · rw [if_pos hsmall]
      exact ⟨a, rfl, List.Perm.refl _, fun _ _ => rfl, fun P h => h,
        fun k1 k2 x y h1 h2 h3 => by omega⟩
    · rw [if_neg hsmall]
      obtain ⟨p, hp⟩ := getElem_opt_of_lt a (l + (r - l) / 2) (by omega)
      simp only [hp]
      obtain ⟨a1, i1, h1, he, hpart, q1, -, -, q4⟩ :=
        partition_loop_spec hsw a l r p (r - l + 1) a l r
          (Parting.initial lt a l r p (by omega) hr)
          (fun _ => ⟨⟨_, p, by omega, by omega, hp, hsw.irrefl p⟩,
            _, p, by omega, by omega, hp, hsw.irrefl p⟩) (by omega)
      obtain ⟨q5, q6⟩ := q4 ⟨_, p, by omega, by omega, hp, hsw.irrefl p, hsw.irrefl p⟩
      simp only [he]
      have hlen1 : a1.length = a.length := hpart.perm.length_eq
      have hi1r := hpart.ir
      have hlh1 := hpart.lh
      obtain ⟨a2, he2, hperm2, hout2, hin2, hs2⟩ := ih a1 l h1 (by omega) (by omega)
      have hlen2 : a2.length = a1.length := hperm2.length_eq
      obtain ⟨a3, he3, hperm3, hout3, hin3, hs3⟩ := ih a2 i1 r (by omega) (by omega)
      simp only [he2, he3]
      have L2 : ∀ k x, l ≤ k → k < i1 → a2[k]? = some x → lt p x = false := by
        intro k x hk1 hk2 hx
        by_cases hk : k < h1
        · exact hin2 (fun x => lt p x = false)
            (fun k x c1 c2 hx => hpart.left k x c1 (by omega) hx) k x hk1 hk hx
        · rw [hout2 k (Or.inr (by omega))] at hx
          exact hpart.left k x hk1 hk2 hx
      have R2 : ∀ k x, h1 ≤ k → k < r → a2[k]? = some x → lt x p = false := by
        intro k x hk1 hk2 hx
        rw [hout2 k (Or.inr hk1)] at hx
        exact hpart.right k x hk1 hk2 hx
      have F1 : ∀ k x, l ≤ k → k < i1 → a3[k]? = some x → lt p x = false := by
        intro k x hk1 hk2 hx
        rw [hout3 k (Or.inl hk2)] at hx
        exact L2 k x hk1 hk2 hx
      have F2 : ∀ k x, h1 ≤ k → k < r → a3[k]? = some x → lt x p = false := by
        intro k x hk1 hk2 hx
        by_cases hk : k < i1
        · rw [hout3 k (Or.inl hk)] at hx
          exact R2 k x hk1 hk2 hx
        · exact hin3 (fun x => lt x p = false)
            (fun k x c1 c2 hx => R2 k x (by omega) c2 hx) k x (by omega) hk2 hx
      refine ⟨a3, rfl, hperm3.trans (hperm2.trans hpart.perm), ?_, ?_, ?_⟩
      · intro k hk
        rw [hout3 k (by omega), hout2 k (by omega)]
        exact hpart.outside k hk
      · intro P hP k x hk1 hk2 hx
        have Q1 := hpart.inside P hP
        have Q2 : ∀ k x, l ≤ k → k < r → a2[k]? = some x → P x := by
          intro k x c1 c2 hx
          by_cases hk : k < h1
          · exact hin2 P (fun k x d1 d2 hx => Q1 k x d1 (by omega) hx) k x c1 hk hx
          · rw [hout2 k (Or.inr (by omega))] at hx
            exact Q1 k x c1 c2 hx
        by_cases hk : k < i1
        · rw [hout3 k (Or.inl hk)] at hx
          exact Q2 k x hk1 hk2 hx
        · exact hin3 P (fun k x d1 d2 hx => Q2 k x (by omega) d2 hx) k x (by omega) hk2 hx
      · intro k1 k2 x y c1 c2 c3 hx hy
        by_cases hA : k2 < h1
        · rw [hout3 k1 (Or.inl (by omega))] at hx
          rw [hout3 k2 (Or.inl (by omega))] at hy
          exact hs2 k1 k2 x y c1 c2 hA hx hy
        · by_cases hC : i1 ≤ k1
          · exact hs3 k1 k2 x y hC c2 c3 hx hy
          · exact hsw.neg_trans y p x (F2 k2 y (by omega) c3 hy) (F1 k1 x c1 (by omega) hx)

end Quicksort

/-! ## The order of value records -/

theorem strcmp_range (a b : List Nat) : strcmp a b = -1 ∨ strcmp a b = 0 ∨ strcmp a b = 1 :=
  memcmpBytes_range _ _

theorem strcmp_self (a : List Nat) : strcmp a a = 0 := memcmpBytes_self _

theorem strcmp_swap (a b : List Nat) : strcmp b a = - strcmp a b := memcmpBytes_swap _ _

theorem strcmp_eq_left {a b : List Nat} (h : strcmp a b = 0) (c : List Nat) :
    strcmp a c = strcmp b c := by
  unfold strcmp at *
  rw [memcmpBytes_eq_zero h]

theorem strcmp_eq_right {b c : List Nat} (h : strcmp b c = 0) (a : List Nat) :
    strcmp a c = strcmp a b := by
  unfold strcmp at *
  rw [memcmpBytes_eq_zero h]

theorem strcmp_lt_trans {a b c : List Nat} (h1 : strcmp a b < 0) (h2 : strcmp b c < 0) :
    strcmp a c < 0 := by
  have hle : strcmp a c ≤ 0 := memcmpBytes_trans (Int.le_of_lt h1) (Int.le_of_lt h2)
  by_cases h : strcmp a c = 0
  · have h3 := strcmp_eq_left h b
    have h4 := strcmp_swap b c
    omega
  · omega

/-- The comparisons of three strings, as far as their signs are related. -/
theorem strcmp_three (a b c : List Nat) :
    (strcmp a b < 0 → strcmp b c < 0 → strcmp a c < 0) ∧
      (0 < strcmp a b → 0 < strcmp b c → 0 < strcmp a c) ∧
      (strcmp a b = 0 → strcmp a c = strcmp b c) ∧
      (strcmp b c = 0 → strcmp a c = strcmp a b) := by
  refine ⟨strcmp_lt_trans, ?_, fun h => strcmp_eq_left h c, fun h => strcmp_eq_right h a⟩
  intro h1 h2
  have h3 := strcmp_swap a b
  have h4 := strcmp_swap b c
  have h5 := strcmp_swap a c
  have := @strcmp_lt_trans c b a (by omega) (by omega)
  omega

/-- The member `operator<` is the lexicographic order over the first string, the second string
and the number. -/
theorem ValueRecord.lt_iff_lex (a b : ValueRecord) :
    a.lt b = true ↔
      strcmp a.emoji b.emoji < 0 ∨ (strcmp a.emoji b.emoji = 0 ∧
        (strcmp a.hanzi b.hanzi < 0 ∨ (strcmp a.hanzi b.hanzi = 0 ∧ a.index < b.index))) := by
  rcases strcmp_range a.emoji b.emoji with h | h | h <;>
    rcases strcmp_range a.hanzi b.hanzi with g | g | g <;>
    simp [ValueRecord.lt, h, g]

theorem ValueRecord.strictWeak : StrictWeak ValueRecord.lt := by
  refine ⟨?_, ?_, ?_⟩
  · intro x
    rw [Bool.eq_false_iff, Ne, ValueRecord.lt_iff_lex]
    simp [strcmp_self]
  · intro x y z h1 h2
    rw [ValueRecord.lt_iff_lex] at *
    obtain ⟨e1, e2, e3, e4⟩ := strcmp_three x.emoji y.emoji z.emoji
    obtain ⟨g1, g2, g3, g4⟩ := strcmp_three x.hanzi y.hanzi z.hanzi
    generalize strcmp x.emoji y.emoji = a1 at *
    generalize strcmp y.emoji z.emoji = a2 at *
    generalize strcmp x.emoji z.emoji = a3 at *
    generalize strcmp x.hanzi y.hanzi = b1 at *
    generalize strcmp y.hanzi z.hanzi = b2 at *
    generalize strcmp x.hanzi z.hanzi = b3 at *
    omega
  · intro x y z h1 h2
    rw [Bool.eq_false_iff, Ne, ValueRecord.lt_iff_lex] at *
    obtain ⟨e1, e2, e3, e4⟩ := strcmp_three x.emoji y.emoji z.emoji
    obtain ⟨g1, g2, g3, g4⟩ := strcmp_three x.hanzi y.hanzi z.hanzi
    generalize strcmp x.emoji y.emoji = a1 at *
    generalize strcmp y.emoji z.emoji = a2 at *
    generalize strcmp x.emoji z.emoji = a3 at *
    generalize strcmp x.hanzi y.hanzi = b1 at *
    generalize strcmp y.hanzi z.hanzi = b2 at *
    generalize strcmp x.hanzi z.hanzi = b3 at *
    omega

/-! ## The `find` command of the driver -/

/-- The comparison of two byte strings is negative when the first is before the second in the
lexicographic order, a proper beginning of a string being before the string. -/
theorem memcmpBytes_neg_iff_lex (a b : List Nat) :
    memcmpBytes a b < 0 ↔ List.Lex (fun x y => x < y) a b := by
  induction a generalizing b with
  | nil =>
    cases b with
    | nil =>
      simp only [memcmpBytes, Int.lt_irrefl, false_iff]
      intro h
      cases h
    | cons y b =>
      simp only [memcmpBytes, Int.reduceNeg, Int.reduceLT, true_iff]
      exact List.Lex.nil
  | cons x a ih =>
    cases b with
    | nil =>
      simp only [memcmpBytes, Int.reduceLT, false_iff]
      intro h
      cases h
    | cons y b =>
      simp only [memcmpBytes]
      by_cases h1 : x < y
      · simp only [h1, if_true, Int.reduceNeg, Int.reduceLT, true_iff]
        exact List.Lex.rel h1
      · by_cases h2 : y < x
        · simp only [h1, h2, if_true, if_false, Int.reduceLT, false_iff]
          intro h
          cases h with
          | cons h => omega
          | rel h => omega
        · have hxy : x = y := by omega
          subst hxy
          simp only [h1, if_false, ih]
          constructor
          · exact List.Lex.cons
          · intro h
            cases h with
            | cons h => exact h
            | rel h => omega

theorem strcmp_eq_zero_iff (a b : List Nat) : strcmp a b = 0 ↔ c_str a = c_str b :=
  ⟨memcmpBytes_eq_zero, fun h => by unfold strcmp; rw [h]; exact memcmpBytes_self _⟩

section Quicksort

variable {T : Type}

/-- A rearrangement of an array that leaves the elements outside `[l, r)` in place rearranges
the segment. -/
theorem segment_perm {a a1 : List T} {l r : Nat} (hlr : l ≤ r)
    (hperm : a1.Perm a) (hout : ∀ k, k < l ∨ r ≤ k → a1[k]? = a[k]?) :
    ((a1.drop l).take (r - l)).Perm ((a.drop l).take (r - l)) := by
  have split : ∀ b : List T, b = b.take l ++ ((b.drop l).take (r - l) ++ b.drop r) := by
    intro b
    have h1 : (b.drop l).drop (r - l) = b.drop r := by
      rw [List.drop_drop]
      congr 1
      omega
    rw [← h1, List.take_append_drop, List.take_append_drop]
  have hA : a1.take l = a.take l := by
    apply List.ext_getElem?
    intro n
    rw [List.getElem?_take, List.getElem?_take]
    split
    · rename_i h
      exact hout n (Or.inl h)
    · rfl
  have hB : a1.drop r = a.drop r := by
    apply List.ext_getElem?
    intro n
    rw [List.getElem?_drop, List.getElem?_drop]
    exact hout _ (Or.inr (by omega))
  have hp := hperm
  rw [split a1, split a, hA, hB] at hp
  exact (List.perm_append_right_iff _).1 ((List.perm_append_left_iff _).1 hp)

theorem segment_pairwise {R : T → T → Prop} {a : List T} {l r : Nat}
    (h : ∀ k1 k2 x y, l ≤ k1 → k1 < k2 → k2 < r → a[k1]? = some x → a[k2]? = some y → R x y) :
    ((a.drop l).take (r - l)).Pairwise R := by
  rw [List.pairwise_iff_getElem]
  intro i j hi hj hij
  have e1 := List.getElem?_eq_getElem hi
  have e2 := List.getElem?_eq_getElem hj
  rw [List.getElem?_take, List.getElem?_drop] at e1 e2
  simp only [List.length_take, List.length_drop] at hi hj
  rw [if_pos (by omega)] at e1 e2
  exact h (l + i) (l + j) _ _ (by omega) (by omega) (by omega) e1 e2

theorem scan_up_range (lt : T → T → Bool) (a : List T) (l r : Nat) (p : T) :
    ∀ (n i i1 : Nat), scan_up lt a l r p n i = .ok i1 → l ≤ i1 ∧ i1 < r := by
  intro n
  induction n with
  | zero => intro i i1 h; simp [scan_up] at h
  | succ n ih =>
    intro i i1 h
    unfold scan_up at h
    split at h
    · rename_i hc
      split at h
      · cases h
      · split at h
        · exact ih _ _ h
        · cases h
          exact hc
    · cases h

theorem scan_down_range (lt : T → T → Bool) (a : List T) (l r : Nat) (p : T) :
    ∀ (n hi h1 : Nat), scan_down lt a l r p n hi = .ok h1 → l ≤ h1 - 1 ∧ h1 - 1 < r := by
  intro n
  induction n with
  | zero => intro i i1 h; simp [scan_down] at h
  | succ n ih =>
    intro hi h1 h
    unfold scan_down at h
    split at h
    · rename_i hc
      split at h
      · cases h
      · split at h
        · exact ih _ _ h
        · cases h
          omega
    · cases h

end Quicksort

/-! ## The insert that reaches the leaf of 48 entries -/

/-- C24 (evaluation at the failing input).  After the first fifty calls of `overflow_ops` the
root has the single child page 1, a leaf of 48 entries, as many as the array `leaf_entries` has
slots; the insert of the key 9 reaches that leaf, whose count before the insertion is 48 and
not at most 47, and writes entry slot 48: the call leaves the modelled behaviour with
`Err.overflow`. -/
theorem insert_reaches_full_leaf :
    ∃ t r l, session overflow_ops.dropLast = .ok t ∧
      t.file.node_at t.root_page = some r ∧ r.is_leaf = false ∧
      r.internal_entries.map (fun e => e.child) = [1] ∧
      t.file.node_at 1 = some l ∧ l.is_leaf = true ∧ l.count = 48 ∧ leaf_slots = 48 ∧
      t.insert (key_of [9]) 9 = .error .overflow := by
  obtain ⟨t, r, l, h1, h2, h3, h4, h5, h6, h7, h8⟩ := merge_fills_leaf
  refine ⟨t, r, l, h1, h2, h3, h4, h5, h6, h7, h8, ?_⟩
  have hq : ∀ t ∈ (session overflow_ops.dropLast).toOption,
      failure (t.insert (key_of [9]) 9) = some Err.overflow := by decide
  have hf := hq t (by rw [h1]; rfl)
  cases hi : t.insert (key_of [9]) 9 with
  | ok t1 => rw [hi] at hf; cases hf
  | error e =>
    rw [hi] at hf
    simp only [failure, Option.some.injEq] at hf
    rw [hf]

/-! ## The shrink of the root -/

/-- The block `if (root_node.count == 1) { ... }` of the public `remove`, on a state with a
write-through cache and any free list: the block succeeds.  Over a leaf nothing changes in the
file.  Over an internal node the root page becomes the head of the free list, `root_page` and
header slot 1 become the page of the child, and no other page changes: the promoted node is left
as it was, with the `parent` field it had. -/
theorem shrink_root_total (t : BPT Value) (root_node n0 c : BPTNode Value) (e : InternalEntry)
    (fl : List Nat) (hc : t.coherent) (hch : t.file.free_chain t.file.slot2 fl)
    (hl : root_node.is_leaf = false) (hes : root_node.internal_entries = [e])
    (hroot : t.file.node_at t.root_page = some n0) (hchild : t.file.node_at e.child = some c)
    (hne : e.child ≠ t.root_page) :
    ∃ t1, shrink_root root_node t = .ok t1 ∧ t1.coherent ∧
      (c.is_leaf = true → t1.file = t.file ∧ t1.root_page = t.root_page) ∧
      (c.is_leaf = false →
        t1.root_page = e.child ∧ t1.file.get_info 1 = e.child ∧
          t1.file.get_info 2 = t.root_page ∧ t1.file.node_at t.root_page = none ∧
          t1.file.free_chain (t1.file.get_info 2) (t.root_page :: fl) ∧
          t1.file.node_at e.child = some c ∧
          ∀ q, q ≠ t.root_page → t1.file.block q = t.file.block q) := by
  obtain ⟨ta, hr, fa, ra, ca⟩ := disk_read_ok hc hchild
  cases hcl : c.is_leaf with
  | true =>
    refine ⟨ta, ?_, ca, fun _ => ⟨fa, ra⟩, fun h => by cases h⟩
    simp only [shrink_root, hl, Bool.false_eq_true, if_false, hes, bind, Except.bind, hr, hcl,
      if_true, pure, Except.pure]
  | false =>
    obtain ⟨td, hd, cd, sd, rd, ld, nd, fd, chd⟩ := @free_at Value ta ca fl
      (by rw [fa]; exact hch) ta.root_page n0 (by rw [fa, ra]; exact hroot)
    have hs2 : td.file.slot2 = t.root_page := by
      have := chd.1
      rw [this, ra]
    refine ⟨{ td with root_page := e.child, file := td.file.write_info e.child 1 }, ?_, ?_,
      (fun h => by cases h), fun _ => ⟨rfl, ?_, ?_, ?_, ?_, ?_, ?_⟩⟩
    · simp only [shrink_root, hl, Bool.false_eq_true, if_false, hes, bind, Except.bind, hr, hcl,
        hd, pure, Except.pure]
    · exact coherent_write_info (t := ({ td with root_page := e.child } : BPT Value)) cd _ 1
    · simp [MemoryRiver.get_info, MemoryRiver.write_info]
    · simp only [MemoryRiver.get_info, MemoryRiver.write_info]
      simpa using hs2
    · show (td.file.write_info e.child 1).node_at t.root_page = none
      rw [node_at_write_info, ← ra]
      exact nd
    · show (td.file.write_info e.child 1).free_chain
        ((td.file.write_info e.child 1).get_info 2) (t.root_page :: fl)
      have hg : (td.file.write_info e.child 1).get_info 2 = td.file.slot2 := by
        simp [MemoryRiver.get_info, MemoryRiver.write_info]
      rw [hg, ← ra]
      exact @free_chain_congr Value td.file _ _ td.file.slot2
        (fun x _ => by rw [block_write_info]) chd
    · show (td.file.write_info e.child 1).node_at e.child = some c
      rw [node_at_write_info, node_at_of_block_eq (fd _ (by rw [ra]; exact hne)), fa]
      exact hchild
    · intro q hq
      show (td.file.write_info e.child 1).block q = t.file.block q
      rw [block_write_info, fd q (by rw [ra]; exact hq), fa]

/-- C21 (evaluation at the failing input).  On the tree whose root has grown once, the remove
of the first pair merges the first two leaves, then the two children of the root, and shrinks
the root: the root page 61 becomes the head of the free list and holds no node, `root_page` and
header slot 1 become page 2, and the node at page 2, now the root, has 57 entries and still the
`parent` field 61, the freed page, not 0. -/
theorem promoted_root_keeps_parent :
    ∃ t1 n, BPT.open grown_file = .ok grown_state ∧
      grown_state.remove (asc_key 0) 0 = .ok t1 ∧
      t1.root_page = 2 ∧ t1.file.get_info 1 = 2 ∧ t1.file.get_info 2 = 61 ∧
      t1.file.node_at 61 = none ∧ t1.file.node_at 2 = some n ∧
      n.is_leaf = false ∧ n.count = 57 ∧ n.parent = 61 := by
  have h : ∃ t, grown_state.remove (asc_key 0) 0 = .ok t := by
    cases hs : grown_state.remove (asc_key 0) 0 with
    | ok t => exact ⟨t, rfl⟩
    | error e =>
      have : failure (grown_state.remove (asc_key 0) 0) = none := by decide
      rw [hs] at this
      cases this
  obtain ⟨t, ht⟩ := h
  have hq : ∀ t ∈ (grown_state.remove (asc_key 0) 0).toOption,
      t.root_page = 2 ∧ t.file.get_info 1 = 2 ∧ t.file.get_info 2 = 61 ∧
        t.file.node_at 61 = none ∧
        (t.file.node_at 2).map (fun n => (n.is_leaf, n.count, n.parent)) =
          some (false, 57, 61) := by decide
  obtain ⟨h1, h2, h3, h4, h5⟩ := hq t (by rw [ht]; rfl)
  cases hn : t.file.node_at 2 with
  | none => rw [hn] at h5; cases h5
  | some n =>
    rw [hn] at h5
    simp only [Option.map_some', Option.some.injEq, Prod.mk.injEq] at h5
    exact ⟨t, n, rfl, ht, h1, h2, h3, h4, hn, h5.1, h5.2.1, h5.2.2⟩

/-! ## The rebalancing step of `remove`, with any free list -/

theorem append_fields (a b : BPTNode Value) :
    (a.append b).is_leaf = a.is_leaf ∧
      (a.is_leaf = true → (a.append b).leaf_entries = a.leaf_entries ++ b.leaf_entries) ∧
      (a.is_leaf = false →
        (a.append b).internal_entries = a.internal_entries ++ b.internal_entries) := by
  cases hl : a.is_leaf <;> simp [BPTNode.append, hl]

/-- The borrow from the left sibling succeeds when the child is below half its limit and the
two nodes together hold more than the limit; one entry moves. -/
theorem borrow_left_total (child sibling : BPTNode Value)
    (hkind : sibling.is_leaf = child.is_leaf) (hlow : child.count < child.limit / 2)
    (hbig : child.limit < sibling.count + child.count) :
    ∃ c1 s1 key, borrow_left child sibling = .ok (c1, s1) ∧ c1.first_key = .ok key ∧
      c1.is_leaf = child.is_leaf ∧ s1.is_leaf = child.is_leaf ∧
      (child.is_leaf = true →
        s1.leaf_entries ++ c1.leaf_entries = sibling.leaf_entries ++ child.leaf_entries) ∧
      (child.is_leaf = false →
        s1.internal_entries ++ c1.internal_entries =
          sibling.internal_entries ++ child.internal_entries) ∧
      c1.count = child.count + 1 ∧ sibling.count = s1.count + 1 := by
  cases hl : child.is_leaf with
  | true =>
    rw [hl] at hkind
    simp only [BPTNode.count, BPTNode.limit, hl, hkind, if_true] at hlow hbig
    have hL : (L : Nat) = 48 := rfl
    have hne : sibling.leaf_entries ≠ [] := by
      intro h; rw [h] at hbig; simp at hbig; omega
    have hlast := List.getLast?_eq_getLast _ hne
    refine ⟨{ child with leaf_entries := sibling.leaf_entries.getLast hne :: child.leaf_entries },
      sibling.drop_last, (sibling.leaf_entries.getLast hne).index, ?_, ?_, hl, ?_, ?_,
      (fun h => by cases h), ?_, ?_⟩
    · have hs : ¬ leaf_slots ≤ child.leaf_entries.length := by
        have : (leaf_slots : Nat) = 48 := rfl
        omega
      simp only [borrow_left, hl, if_true, hs, if_false, hlast]
    · simp [BPTNode.first_key, hl]
    · simp [BPTNode.drop_last, hkind]
    · intro _
      simp only [BPTNode.drop_last, hkind, if_true]
      have hdl := List.dropLast_append_getLast hne
      conv_rhs => rw [← hdl]
      simp
    · simp [BPTNode.count, hl]
    · have := List.length_dropLast sibling.leaf_entries
      have := List.length_pos.mpr hne
      simp only [BPTNode.count, BPTNode.drop_last, hkind, if_true]
      omega
  | false =>
    rw [hl] at hkind
    simp only [BPTNode.count, BPTNode.limit, hl, hkind, Bool.false_eq_true, if_false]
      at hlow hbig
    have hM : (M : Nat) = 58 := rfl
    have hne : sibling.internal_entries ≠ [] := by
      intro h; rw [h] at hbig; simp at hbig; omega
    have hlast := List.getLast?_eq_getLast _ hne
    refine ⟨{ child with
        internal_entries := sibling.internal_entries.getLast hne :: child.internal_entries },
      sibling.drop_last, (sibling.internal_entries.getLast hne).index, ?_, ?_, hl, ?_,
      (fun h => by cases h), ?_, ?_, ?_⟩
    · have hs : ¬ internal_slots ≤ child.internal_entries.length := by
        have : (internal_slots : Nat) = 60 := rfl
        omega
      simp only [borrow_left, hl, Bool.false_eq_true, if_false, hs, hlast]
    · simp [BPTNode.first_key, hl]
    · simp [BPTNode.drop_last, hkind]
    · intro _
      simp only [BPTNode.drop_last, hkind, Bool.false_eq_true, if_false]
      have hdl := List.dropLast_append_getLast hne
      conv_rhs => rw [← hdl]
      simp
    · simp [BPTNode.count, hl]
    · have := List.length_dropLast sibling.internal_entries
      have := List.length_pos.mpr hne
      simp only [BPTNode.count, BPTNode.drop_last, hkind, Bool.false_eq_true, if_false]
      omega

/-- The borrow from the right sibling succeeds when the child is below half its limit and the
two nodes together hold more than the limit; one entry moves, and the sibling keeps a first
entry. -/
theorem borrow_right_total (child sibling : BPTNode Value)
    (hkind : sibling.is_leaf = child.is_leaf) (hlow : child.count < child.limit / 2)
    (hbig : child.limit < child.count + sibling.count) :
    ∃ c1 s1 key, borrow_right child sibling = .ok (c1, s1) ∧ s1.first_key = .ok key ∧
      c1.is_leaf = child.is_leaf ∧ s1.is_leaf = child.is_leaf ∧
      (child.is_leaf = true →
        c1.leaf_entries ++ s1.leaf_entries = child.leaf_entries ++ sibling.leaf_entries) ∧
      (child.is_leaf = false →
        c1.internal_entries ++ s1.internal_entries =
          child.internal_entries ++ sibling.internal_entries) ∧
      c1.count = child.count + 1 ∧ sibling.count = s1.count + 1 := by
  cases hl : child.is_leaf with
  | true =>
    rw [hl] at hkind
    simp only [BPTNode.count, BPTNode.limit, hl, hkind, if_true] at hlow hbig
    have hL : (L : Nat) = 48 := rfl
    obtain ⟨x, y, rest, hes⟩ : ∃ x y rest, sibling.leaf_entries = x :: y :: rest := by
      match h : sibling.leaf_entries with
      | [] => rw [h] at hbig; simp at hbig; omega
      | [_] => rw [h] at hbig; simp at hbig; omega
      | x :: y :: rest => exact ⟨x, y, rest, rfl⟩
    refine ⟨{ child with leaf_entries := child.leaf_entries ++ [x] }, sibling.drop_first,
      y.index, ?_, ?_, hl, ?_, ?_, (fun h => by cases h), ?_, ?_⟩
    · have hs : ¬ leaf_slots ≤ child.leaf_entries.length := by
        have : (leaf_slots : Nat) = 48 := rfl
        omega
      simp only [borrow_right, hl, if_true, hs, if_false, hes]
    · simp [BPTNode.first_key, BPTNode.drop_first, hkind, hes]
    · simp [BPTNode.drop_first, hkind]
    · intro _
      simp [BPTNode.drop_first, hkind, hes]
    · simp [BPTNode.count, hl]
    · simp [BPTNode.count, BPTNode.drop_first, hkind, hes]
  | false =>
    rw [hl] at hkind
    simp only [BPTNode.count, BPTNode.limit, hl, hkind, Bool.false_eq_true, if_false]
      at hlow hbig
    have hM : (M : Nat) = 58 := rfl
    obtain ⟨x, y, rest, hes⟩ : ∃ x y rest, sibling.internal_entries = x :: y :: rest := by
      match h : sibling.internal_entries with
      | [] => rw [h] at hbig; simp at hbig; omega
      | [_] => rw [h] at hbig; simp at hbig; omega
      | x :: y :: rest => exact ⟨x, y, rest, rfl⟩
    refine ⟨{ child with internal_entries := child.internal_entries ++ [x] },
      sibling.drop_first, y.index, ?_, ?_, hl, ?_, (fun h => by cases h), ?_, ?_, ?_⟩
    · have hs : ¬ internal_slots ≤ child.internal_entries.length := by
        have : (internal_slots : Nat) = 60 := rfl
        omega
      simp only [borrow_right, hl, Bool.false_eq_true, if_false, hs, hes]
    · simp [BPTNode.first_key, BPTNode.drop_first, hkind, hes]
    · simp [BPTNode.drop_first, hkind]
    · intro _
      simp [BPTNode.drop_first, hkind, hes]
    · simp [BPTNode.count, hl]
    · simp [BPTNode.count, BPTNode.drop_first, hkind, hes]

theorem MAX_PAGES_eq : MAX_PAGES = 524288 := by decide

theorem int_offset_ok {p : Nat} (h1 : 1 ≤ p) (h2 : p ≤ MAX_PAGES) :
    int_offset p = .ok (HEADER_SIZE + (p - 1) * BLOCK_SIZE) := by
  rw [MAX_PAGES_eq] at h2
  have hm : p % 2 ^ 32 = p := Nat.mod_eq_of_lt (by omega)
  have hi : to_int p = (p : Int) := by
    unfold to_int
    rw [hm, if_pos (by unfold INT_MAX; omega)]
  unfold int_offset
  simp only [hi, HEADER_SIZE, BLOCK_SIZE, INT_MAX]
  rw [if_neg (by omega), if_neg (by omega)]
  congr 1
  omega

theorem int_offset_zero : int_offset 0 = .error .io := by rfl

theorem int_offset_above {p : Nat} (h1 : MAX_PAGES < p) (h2 : p ≤ INT_MAX) :
    int_offset p = .error .overflow := by
  rw [MAX_PAGES_eq] at h1
  unfold INT_MAX at h2
  have hm : p % 2 ^ 32 = p := Nat.mod_eq_of_lt (by omega)
  have hi : to_int p = (p : Int) := by
    unfold to_int
    rw [hm, if_pos (by unfold INT_MAX; omega)]
  unfold int_offset
  simp only [hi, HEADER_SIZE, BLOCK_SIZE, INT_MAX]
  rw [if_pos (by omega)]

theorem page_at_offset {p : Nat} (h1 : 1 ≤ p) : page_at (HEADER_SIZE + (p - 1) * BLOCK_SIZE) = p := by
  unfold page_at
  simp only [HEADER_SIZE, BLOCK_SIZE]
  omega

theorem unsigned_offset_ok {p : Nat} (h1 : 1 ≤ p) (h2 : p ≤ 2 * MAX_PAGES) :
    unsigned_offset p = HEADER_SIZE + (p - 1) * BLOCK_SIZE := by
  rw [MAX_PAGES_eq] at h2
  unfold unsigned_offset
  simp only [HEADER_SIZE, BLOCK_SIZE]
  omega

namespace MemoryRiver

/-- On a page id up to `MAX_PAGES`, `read_page` with the offset in `int` is `read_page`. -/
theorem read_page32_eq (f : MemoryRiver Value) {p : Nat} (hp : p ≤ MAX_PAGES) :
    f.read_page32 p = f.read_page p := by
  rcases Nat.eq_zero_or_pos p with h0 | h0
  · subst h0
    simp [read_page32, read_page, int_offset_zero, block]
  · simp only [read_page32, read_page, int_offset_ok h0 hp, page_at_offset h0]

theorem update_page32_eq (f : MemoryRiver Value) (t : BPTNode Value) {p : Nat}
    (hp : p ≤ MAX_PAGES) : f.update_page32 t p = f.update_page t p := by
  rcases Nat.eq_zero_or_pos p with h0 | h0
  · subst h0
    simp [update_page32, update_page, int_offset_zero, put_block]
  · simp only [update_page32, update_page, int_offset_ok h0 hp, page_at_offset h0]

theorem delete_page32_eq (f : MemoryRiver Value) {p : Nat} (hp : p ≤ MAX_PAGES) :
    f.delete_page32 p = f.delete_page p := by
  rcases Nat.eq_zero_or_pos p with h0 | h0
  · subst h0
    simp [delete_page32, delete_page, int_offset_zero, block]
  · simp only [delete_page32, delete_page, int_offset_ok h0 hp, page_at_offset h0]

/-- While the free-list head and the page after the end of the file are at most `MAX_PAGES`,
`write_page` with its arithmetic in `unsigned int` is `write_page`. -/
theorem write_page32_eq (f : MemoryRiver Value) (t : BPTNode Value)
    (h1 : f.get_info 2 ≤ MAX_PAGES) (h2 : f.pages.length < MAX_PAGES) :
    f.write_page32 t = f.write_page t := by
  have hM := MAX_PAGES_eq
  unfold write_page32 write_page
  by_cases h0 : f.get_info 2 = 0
  · simp only [h0, ne_eq, not_true_eq_false, if_false, file_size_page_num]
    have hm : (f.pages.length + 1) % 2 ^ 32 = f.pages.length + 1 :=
      Nat.mod_eq_of_lt (by omega)
    rw [hm, unsigned_offset_ok (by omega) (by omega), page_at_offset (by omega)]
  · simp only [h0, ne_eq, not_false_eq_true, if_true]
    have hm : f.get_info 2 % 2 ^ 32 = f.get_info 2 := Nat.mod_eq_of_lt (by omega)
    rw [hm, unsigned_offset_ok (by omega) (by omega), page_at_offset (by omega)]

/-- A page taken from the free list: `write_page` with its arithmetic in `unsigned int` is
`write_page` when the head is at most `MAX_PAGES`. -/
theorem write_page32_eq_of_head (f : MemoryRiver Value) (t : BPTNode Value)
    (h0 : f.get_info 2 ≠ 0) (h1 : f.get_info 2 ≤ MAX_PAGES) :
    f.write_page32 t = f.write_page t := by
  have hM := MAX_PAGES_eq
  have hm : f.get_info 2 % 2 ^ 32 = f.get_info 2 := Nat.mod_eq_of_lt (by omega)
  unfold write_page32 write_page
  simp only [h0, ne_eq, not_false_eq_true, if_true]
  rw [hm, unsigned_offset_ok (by omega) (by omega), page_at_offset (by omega)]

theorem read_page_bound {f : MemoryRiver Value} {p : Nat} {n : BPTNode Value}
    (h : f.read_page p = .ok n) : 1 ≤ p ∧ p ≤ f.pages.length := by
  apply (block_isSome_iff f p).mp
  unfold read_page at h
  cases hb : f.block p with
  | none => rw [hb] at h; cases h
  | some b => rfl

theorem put_block_bound {f g : MemoryRiver Value} {p : Nat} {b : Page Value}
    (h : f.put_block p b = .ok g) :
    1 ≤ p ∧ p ≤ g.pages.length ∧ f.pages.length ≤ g.pages.length := by
  unfold put_block at h
  split at h
  · cases h
  · split at h
    · cases h
      simp only [List.length_set]
      omega
    · split at h
      · cases h
        simp only [List.length_append, List.length_singleton]
        omega
      · cases h

theorem delete_page_bound {f g : MemoryRiver Value} {p : Nat} (h : f.delete_page p = .ok g) :
    1 ≤ p ∧ p ≤ g.pages.length ∧ f.pages.length ≤ g.pages.length := by
  unfold delete_page at h
  split at h
  · cases h
  all_goals
    simp only at h
    split at h
    · cases h
    · rename_i f1 hp
      cases h
      have := put_block_bound hp
      simpa [write_info] using this

theorem write_page_bound {f g : MemoryRiver Value} {t : BPTNode Value} {p : Nat}
    (h : f.write_page t = .ok (p, g)) :
    1 ≤ p ∧ p ≤ g.pages.length ∧ f.pages.length ≤ g.pages.length ∧
      (f.get_info 2 = 0 ∨ f.get_info 2 = p) := by
  unfold write_page at h
  simp only at h
  split at h
  · rename_i h0
    split at h
    · cases h
    · split at h
      · cases h
      · rename_i f2 hp
        simp only [Except.ok.injEq, Prod.mk.injEq] at h
        obtain ⟨rfl, rfl⟩ := h
        have := put_block_bound hp
        simp only [write_info] at this
        exact ⟨this.1, this.2.1, by simpa using this.2.2, Or.inr rfl⟩
  · rename_i h0
    split at h
    · cases h
    · rename_i f2 hp
      simp only [Except.ok.injEq, Prod.mk.injEq] at h
      obtain ⟨rfl, rfl⟩ := h
      have := put_block_bound hp
      exact ⟨this.1, this.2.1, this.2.2, Or.inl (by simpa using h0)⟩

/-- Every call of the pager that returns on a file that has at most `MAX_PAGES` pages after
the call took a page id up to `MAX_PAGES`, and the same call with the 32-bit arithmetic of the
source returns the same result. -/
theorem pager_agrees (f : MemoryRiver Value) :
    (∀ p n, f.pages.length ≤ MAX_PAGES → f.read_page p = .ok n → f.read_page32 p = .ok n) ∧
    (∀ p n g, g.pages.length ≤ MAX_PAGES → f.update_page n p = .ok g →
      f.update_page32 n p = .ok g) ∧
    (∀ p g, g.pages.length ≤ MAX_PAGES → f.delete_page p = .ok g →
      f.delete_page32 p = .ok g) ∧
    (∀ n p g, g.pages.length ≤ MAX_PAGES → f.write_page n = .ok (p, g) →
      f.write_page32 n = .ok (p, g)) := by
  refine ⟨?_, ?_, ?_, ?_⟩
  · intro p n hs h
    rw [read_page32_eq f (by have := read_page_bound h; omega)]
    exact h
  · intro p n g hs h
    rw [update_page32_eq f n (by have := put_block_bound h; omega)]
    exact h
  · intro p g hs h
    rw [delete_page32_eq f (by have := delete_page_bound h; omega)]
    exact h
  · intro n p g hs h
    obtain ⟨b1, b2, b3, b4⟩ := write_page_bound h
    by_cases hl : f.pages.length < MAX_PAGES
    · rw [write_page32_eq f n (by rcases b4 with h0 | h0 <;> omega) hl]
      exact h
    · -- the file is full and the page comes from the free list
      have hlen : f.pages.length = MAX_PAGES := by omega
      have hM := MAX_PAGES_eq
      rcases b4 with h0 | h0
      · exfalso
        unfold write_page at h
        simp only [h0, ne_eq, not_true_eq_false, if_false, file_size_page_num,
          put_block_append] at h
        cases h
        simp only [List.length_append, List.length_singleton] at hs
        omega
      · rw [write_page32_eq_of_head f n (by omega) (by omega)]
        exact h

end MemoryRiver

namespace MemoryRiver

theorem read_page32_overflow (f : MemoryRiver Value) : f.read_page32 (MAX_PAGES + 1) = .error .overflow := by
  unfold read_page32
  rw [int_offset_above (by omega) (by rw [MAX_PAGES_eq]; decide)]

/-- The page appended to a file of `MAX_PAGES` pages. -/
theorem write_page32_full (f : MemoryRiver Value) (t : BPTNode Value) (h0 : f.get_info 2 = 0)
    (hl : f.pages.length = MAX_PAGES) :
    ∃ g, f.write_page32 t = .ok (MAX_PAGES + 1, g) ∧
      g.block (MAX_PAGES + 1) = some (.image t) ∧
      g.read_page32 (MAX_PAGES + 1) = .error .overflow := by
  have hM := MAX_PAGES_eq
  refine ⟨{ f with pages := f.pages ++ [.image t] }, ?_, ?_, read_page32_overflow _⟩
  · unfold write_page32
    simp only [h0, ne_eq, not_true_eq_false, if_false, file_size_page_num, hl]
    have hm : (MAX_PAGES + 1) % 2 ^ 32 = MAX_PAGES + 1 := Nat.mod_eq_of_lt (by omega)
    rw [hm, unsigned_offset_ok (by omega) (by omega), page_at_offset (by omega), ← hl,
      put_block_append]
  · rw [← hl]
    exact block_append_self f _

/-- C5 (amended).  `write_page`, with the 32-bit arithmetic of the source, on a file whose
free-list head `h` is not 0, names an existing page and is at most 524288: it returns `h`, sets
header slot 2 to the word in the first four bytes of page `h`, and leaves the file size alone.
With head 0, and `(file_size - 8) / 4096 + 1` at most 524288: it returns that number, the file
grows by one block of 4096 bytes and slot 2 stays 0.  In both cases `read_page` of the returned
id yields the node supplied by the caller, every other page is unchanged and so is header
slot 1. -/
theorem write_page32_allocates (f : MemoryRiver Value) (t : BPTNode Value) :
    (∀ b, f.get_info 2 ≠ 0 → f.block (f.get_info 2) = some b → f.get_info 2 ≤ MAX_PAGES →
      ∃ g, f.write_page32 t = .ok (f.get_info 2, g) ∧
        g.get_info 2 = b.first_word ∧ g.get_info 1 = f.get_info 1 ∧
        g.file_size = f.file_size ∧
        g.read_page32 (f.get_info 2) = .ok t ∧
        ∀ p, p ≠ f.get_info 2 → g.block p = f.block p) ∧
    (f.get_info 2 = 0 → (f.file_size - 8) / 4096 + 1 ≤ MAX_PAGES →
      ∃ g, f.write_page32 t = .ok ((f.file_size - 8) / 4096 + 1, g) ∧
        g.get_info 2 = 0 ∧ g.get_info 1 = f.get_info 1 ∧
        g.file_size = f.file_size + 4096 ∧
        g.read_page32 ((f.file_size - 8) / 4096 + 1) = .ok t ∧
        ∀ p, p ≠ (f.file_size - 8) / 4096 + 1 → g.block p = f.block p) := by
  have hM := MAX_PAGES_eq
  constructor
  · intro b h0 hb hs
    obtain ⟨g, h1, h2, h3, h4, h5, h6⟩ := (write_page_spec f t).1 b h0 hb
    have hlen : g.pages.length = f.pages.length := by
      simp only [file_size, BLOCK_SIZE] at h4
      omega
    have hbound := (block_isSome_iff f (f.get_info 2)).mp (by rw [hb]; rfl)
    refine ⟨g, ?_, h2, h3, h4, ?_, h6⟩
    · rw [write_page32_eq_of_head f t h0 hs]
      exact h1
    · rw [read_page32_eq g hs]
      exact h5
  · intro h0 hs
    obtain ⟨g, h1, h2, h3, h4, h5, h6⟩ := (write_page_spec f t).2 h0
    have hn : (f.file_size - 8) / 4096 + 1 = f.pages.length + 1 := file_size_page_num f
    rw [hn] at hs
    refine ⟨g, ?_, h2, h3, h4, ?_, h6⟩
    · rw [write_page32_eq f t (by rw [h0]; omega) (by omega)]
      exact h1
    · rw [read_page32_eq g (by rw [hn]; exact hs)]
      exact h5

/-- C6 (amended).  With the 32-bit arithmetic of the source, `delete_page` of an existing page
`p` up to 524288 makes `p` the free-list head and stores the previous head in the first four
bytes of page `p`; the `write_page` that follows returns `p` and restores header slot 2 to its
value before the free. -/
theorem delete_page32_then_write_page32 (f : MemoryRiver Value) (p : Nat) (t : BPTNode Value)
    (hp : (f.block p).isSome) (hsize : p ≤ MAX_PAGES) :
    ∃ g, f.delete_page32 p = .ok g ∧ g.get_info 2 = p ∧
      (g.block p).map Page.first_word = some (f.get_info 2) ∧
      (∀ q, q ≠ p → g.block q = f.block q) ∧ g.get_info 1 = f.get_info 1 ∧
      ∃ k, g.write_page32 t = .ok (p, k) ∧ k.get_info 2 = f.get_info 2 ∧
        k.read_page32 p = .ok t ∧ (∀ q, q ≠ p → k.block q = f.block q) := by
  have hM := MAX_PAGES_eq
  have hp1 := (block_isSome_iff f p).mp hp
  have hp0 : p ≠ 0 := by omega
  obtain ⟨b, hb⟩ := Option.isSome_iff_exists.mp hp
  have hdel : ∃ n, f.delete_page p
      = .ok (({ f with pages := f.pages.set (p - 1) (.freed (f.get_info 2) n) } :
          MemoryRiver Value).write_info p 2) := by
    cases b with
    | image n => exact ⟨n, by simp [delete_page, hb, put_block_existing _ _ _ hp]⟩
    | freed x n => exact ⟨n, by simp [delete_page, hb, put_block_existing _ _ _ hp]⟩
  obtain ⟨n, hdel⟩ := hdel
  have hblk : (({ f with pages := f.pages.set (p - 1) (.freed (f.get_info 2) n) } :
      MemoryRiver Value).write_info p 2).block p = some (.freed (f.get_info 2) n) := by
    have := block_set_self f p (.freed (f.get_info 2) n) hp
    simpa [block, write_info] using this
  have hoth : ∀ q, q ≠ p → (({ f with pages := f.pages.set (p - 1) (.freed (f.get_info 2) n) } :
      MemoryRiver Value).write_info p 2).block q = f.block q := by
    intro q hq
    have := block_set_other f p q (.freed (f.get_info 2) n) hp0 hq
    simpa [block, write_info] using this
  refine ⟨_, by rw [delete_page32_eq f hsize]; exact hdel, ?_, ?_, hoth, ?_, ?_⟩
  · simp [get_info, write_info]
  · rw [hblk]; rfl
  · simp [get_info, write_info]
  · have h2 : (({ f with pages := f.pages.set (p - 1) (.freed (f.get_info 2) n) } :
        MemoryRiver Value).write_info p 2).get_info 2 = p := by simp [get_info, write_info]
    obtain ⟨k, hk1, hk2, _, hk4, hk5, hk6⟩ :=
      (write_page_spec (({ f with pages := f.pages.set (p - 1) (.freed (f.get_info 2) n) } :
        MemoryRiver Value).write_info p 2) t).1 _ (by rw [h2]; exact hp0) (by rw [h2]; exact hblk)
    rw [h2] at hk1 hk5 hk6
    refine ⟨k, ?_, ?_, ?_, ?_⟩
    · rw [write_page32_eq_of_head _ t (by rw [h2]; exact hp0) (by rw [h2]; exact hsize), hk1]
    · rw [hk2]; rfl
    · rw [read_page32_eq k hsize]; exact hk5
    · intro q hq
      rw [hk6 q hq, hoth q hq]

end MemoryRiver

theorem plain_file_length (n : Nat) : (plain_file n).pages.length = n := by
  simp [plain_file]

theorem new_page_id (f : MemoryRiver Value) :
    (f.file_size - 8) / 4096 + 1 = f.pages.length + 1 :=
  MemoryRiver.file_size_page_num f

theorem write_page32_allocates_witness :
    (freed_file.get_info 2 ≠ 0 ∧
      freed_file.block (freed_file.get_info 2) = some (.freed 0 { is_leaf := true, parent := 2 }) ∧
      freed_file.get_info 2 ≤ MAX_PAGES ∧
      ∃ g, freed_file.write_page32 { is_leaf := true } = .ok (1, g) ∧ g.get_info 2 = 0 ∧
        g.file_size = freed_file.file_size ∧ g.read_page32 1 = .ok { is_leaf := true }) ∧
    (demo_file.get_info 2 = 0 ∧ (demo_file.file_size - 8) / 4096 + 1 ≤ MAX_PAGES ∧
      ∃ g, demo_file.write_page32 { is_leaf := true } = .ok (3, g) ∧
        g.file_size = demo_file.file_size + 4096 ∧ g.read_page32 3 = .ok { is_leaf := true }) :=
  ⟨⟨by decide, rfl, by decide,
      match (MemoryRiver.write_page32_allocates freed_file { is_leaf := true }).1 _
        (by decide) rfl (by decide) with
      | ⟨g, h1, h2, _, h4, h5, _⟩ => ⟨g, h1, h2, h4, h5⟩⟩,
    ⟨rfl, by decide,
      match (MemoryRiver.write_page32_allocates demo_file { is_leaf := true }).2 rfl
        (by decide) with
      | ⟨g, h1, _, _, h4, h5, _⟩ => ⟨g, h1, h4, h5⟩⟩⟩

/-- C5 (counterexample).  On a file of 524288 pages with an empty free list, `write_page`
returns `(file_size - 8) / 4096 + 1 = 524289` and the block of that page holds the node, but
`read_page` of the returned id does not return it: the offset `8 + 524288 * 4096` that
`read_page` computes in `int` is above `INT_MAX`.  And on a file of two pages whose header
slot 2 holds 7, the read of the first four bytes of page 7 fails, and no page comes to hold
the node. -/
theorem read_page_overflows_past_two_gib :
    ((plain_file MAX_PAGES).get_info 2 = 0 ∧
      ((plain_file MAX_PAGES).file_size - 8) / 4096 + 1 = 524289 ∧
      ∃ g, (plain_file MAX_PAGES).write_page32 { is_leaf := true } = .ok (524289, g) ∧
        g.block 524289 = some (.image { is_leaf := true }) ∧
        g.read_page32 524289 = .error .overflow) ∧
    (stray_head_file.get_info 2 = 7 ∧ stray_head_file.block 7 = none ∧
      stray_head_file.write_page32 { is_leaf := true } = .error .io) := by
  refine ⟨⟨rfl, ?_, ?_⟩, rfl, rfl, rfl⟩
  · rw [new_page_id, plain_file_length, MAX_PAGES_eq]
  · have := MemoryRiver.write_page32_full (plain_file MAX_PAGES) { is_leaf := true } rfl
      (plain_file_length _)
    rw [MAX_PAGES_eq] at this
    exact this

theorem delete_page32_then_write_page32_witness :
    (demo_file.block 1).isSome ∧ 1 ≤ MAX_PAGES ∧
    ∃ g, demo_file.delete_page32 1 = .ok g ∧ g.get_info 2 = 1 ∧
      (g.block 1).map Page.first_word = some (demo_file.get_info 2) ∧
      ∃ k, g.write_page32 { is_leaf := true } = .ok (1, k) ∧
        k.get_info 2 = demo_file.get_info 2 :=
  ⟨rfl, by decide,
    match MemoryRiver.delete_page32_then_write_page32 demo_file 1 { is_leaf := true } rfl
      (by decide) with
    | ⟨g, h1, h2, h3, _, _, k, h6, h7, _⟩ => ⟨g, h1, h2, h3, k, h6, h7⟩⟩

/-- C6 (counterexample).  In a file of 524289 pages, page 524289 exists, and `delete_page` of
it does not make it the free-list head: the offset `8 + 524288 * 4096` that `delete_page`
computes in `int` is above `INT_MAX`. -/
theorem delete_page_overflows_past_two_gib :
    ((plain_file 524289).block 524289).isSome ∧
      (plain_file 524289).delete_page32 524289 = .error .overflow := by
  constructor
  · rw [MemoryRiver.block_isSome_iff, plain_file_length]
    omega
  · unfold MemoryRiver.delete_page32
    rw [int_offset_above (by rw [MAX_PAGES_eq]; omega) (by decide)]

/-! ## `operator<` on records whose strings end inside their arrays -/

/-- On two arrays that hold a zero byte, `strcmp` stops inside the arrays, whatever follows
them. -/
theorem strcmp_past_eq (ra rb : List Nat) :
    ∀ (a b : List Nat), 0 ∈ a → 0 ∈ b → strcmp_past (a ++ ra) (b ++ rb) = .ok (strcmp a b) := by
  intro a
  induction a with
  | nil => intro b ha; simp at ha
  | cons x a ih =>
    intro b ha hb
    cases b with
    | nil => simp at hb
    | cons y b =>
      simp only [List.cons_append, strcmp_past]
      by_cases hxy : x < y
      · rw [if_pos hxy]
        congr 1
        unfold strcmp c_str
        by_cases hx : x = 0
        · subst hx
          have hy : y ≠ 0 := by omega
          simp [List.takeWhile, hy, memcmpBytes]
        · have hy : y ≠ 0 := by omega
          simp [List.takeWhile, hx, hy, memcmpBytes, hxy]
      · rw [if_neg hxy]
        by_cases hyx : y < x
        · rw [if_pos hyx]
          congr 1
          unfold strcmp c_str
          by_cases hy : y = 0
          · subst hy
            have hx : x ≠ 0 := by omega
            simp [List.takeWhile, hx, memcmpBytes]
          · have hx : x ≠ 0 := by omega
            simp [List.takeWhile, hx, hy, memcmpBytes, hxy, hyx]
        · rw [if_neg hyx]
          have he : x = y := by omega
          subst he
          by_cases hx : x = 0
          · subst hx
            rw [if_pos rfl]
            congr 1
          · rw [if_neg hx]
            have ha' : 0 ∈ a := by
              rcases List.mem_cons.mp ha with h | h
              · exact absurd h.symm hx
              · exact h
            have hb' : 0 ∈ b := by
              rcases List.mem_cons.mp hb with h | h
              · exact absurd h.symm hx
              · exact h
            show strcmp_past (a ++ ra) (b ++ rb) = _
            rw [ih b ha' hb']
            congr 1
            unfold strcmp c_str
            simp [List.takeWhile, hx, memcmpBytes]

/-- On records whose two arrays hold a zero byte, `operator<` on the bytes of the structs is
`ValueRecord.lt`. -/
theorem ValueRecord.less_eq_lt {a b : ValueRecord} (ha : a.valid) (hb : b.valid) :
    a.less b = .ok (a.lt b) := by
  obtain ⟨_, _, _, _, a1, a2, _⟩ := ha
  obtain ⟨_, _, _, _, b1, b2, _⟩ := hb
  unfold ValueRecord.less ValueRecord.lt
  rw [strcmp_past_eq _ _ _ _ a1 b1, strcmp_past_eq _ _ _ _ a2 b2]
  simp only
  by_cases h1 : strcmp a.emoji b.emoji ≠ 0
  · rw [if_pos h1, if_pos h1]
  · rw [if_neg h1, if_neg h1]
    by_cases h2 : strcmp a.hanzi b.hanzi ≠ 0
    · rw [if_pos h2, if_pos h2]
    · rw [if_neg h2, if_neg h2]

/-- C23 (amended).  For every segment `[l, r)` of an array of value records whose strings end
inside their arrays, `sort(l, r)` returns, with any recursion bound above the length of the
segment.  It reads no element outside `[l, r)` (such a read stops the run of the model), the
positions it swaps are the results of its two scans, which lie in `[l, r)`, and it leaves the
elements outside the segment in place.  The segment ends as a permutation of its input that is
non-decreasing under `operator<`.  On such records `operator<`, with `strcmp` reading the bytes
of the structs, returns, and it is the lexicographic order over the first string, the second
string and the number, the strings being compared as the byte strings before the first zero
byte. -/
theorem sort_orders_terminated_records (a : List ValueRecord) (l r : Nat) (hr : r ≤ a.length)
    (hv : ∀ v ∈ a, v.valid) :
    (∀ n, r - l < n → ∃ a1, sort_rec ValueRecord.lt n a l r = .ok a1 ∧
      a1.length = a.length ∧ (∀ k, k < l ∨ r ≤ k → a1[k]? = a[k]?) ∧
      ((a1.drop l).take (r - l)).Perm ((a.drop l).take (r - l)) ∧
      ((a1.drop l).take (r - l)).Pairwise (fun x y => y.lt x = false)) ∧
    (∀ (b : List ValueRecord) (p : ValueRecord) (n i i1 : Nat),
      scan_up ValueRecord.lt b l r p n i = .ok i1 → l ≤ i1 ∧ i1 < r) ∧
    (∀ (b : List ValueRecord) (p : ValueRecord) (n hi h1 : Nat),
      scan_down ValueRecord.lt b l r p n hi = .ok h1 → l ≤ h1 - 1 ∧ h1 - 1 < r) ∧
    ∀ x ∈ a, ∀ y ∈ a, x.less y = .ok (x.lt y) ∧
      (x.lt y = true ↔
        List.Lex (fun b c => b < c) (c_str x.emoji) (c_str y.emoji) ∨
          (c_str x.emoji = c_str y.emoji ∧
            (List.Lex (fun b c => b < c) (c_str x.hanzi) (c_str y.hanzi) ∨
              (c_str x.hanzi = c_str y.hanzi ∧ x.index < y.index)))) := by
  refine ⟨?_, fun b p => scan_up_range _ b l r p, fun b p => scan_down_range _ b l r p, ?_⟩
  · intro n hn
    obtain ⟨a1, he, hperm, hout, -, hs⟩ := sort_rec_spec ValueRecord.strictWeak n a l r hr hn
    refine ⟨a1, he, hperm.length_eq, hout, ?_, segment_pairwise hs⟩
    by_cases hlr : l ≤ r
    · exact segment_perm hlr hperm hout
    · have : r - l = 0 := by omega
      rw [this]
      simp
  · intro x hx y hy
    refine ⟨ValueRecord.less_eq_lt (hv x hx) (hv y hy), ?_⟩
    rw [ValueRecord.lt_iff_lex, strcmp_eq_zero_iff, strcmp_eq_zero_iff]
    unfold strcmp
    rw [memcmpBytes_neg_iff_lex, memcmpBytes_neg_iff_lex]

theorem sort_orders_terminated_records_witness :
    (∀ v ∈ demo_values, v.valid) ∧
    ∃ a1, sort_rec ValueRecord.lt 4 demo_values 0 3 = .ok a1 ∧
      ((a1.drop 0).take (3 - 0)).Perm ((demo_values.drop 0).take (3 - 0)) ∧
      ((a1.drop 0).take (3 - 0)).Pairwise (fun x y => y.lt x = false) := by
  have hv : ∀ v ∈ demo_values, v.valid := by
    intro v hv
    simp only [demo_values, List.mem_cons, List.mem_singleton, List.not_mem_nil,
      or_false] at hv
    rcases hv with rfl | rfl | rfl <;> decide
  obtain ⟨a1, h1, -, -, h2, h3⟩ :=
    (sort_orders_terminated_records demo_values 0 3 (by decide) hv).1 4 (by decide)
  exact ⟨hv, a1, h1, h2, h3⟩

/-- C23 (counterexample).  Two records whose arrays `emoji` and `hanzi` are full and equal, with
the numbers 256 and 1: `operator<` puts the record with 256 first, because `strcmp` reads on
through `hanzi` into the bytes of `index`, 0 1 0 0 against 1 0 0 0, while the order over the
first string, the second string and the number puts the record with 1 first.  And on two equal
records without a zero byte, here with the number 16843009 whose four bytes are 1, `strcmp`
reads past the end of both structs. -/
theorem full_arrays_change_the_order :
    (full_record 256).less (full_record 1) = .ok true ∧
      (full_record 1).less (full_record 256) = .ok false ∧
      (full_record 256).emoji = (full_record 1).emoji ∧
      (full_record 256).hanzi = (full_record 1).hanzi ∧
      (full_record 1).index < (full_record 256).index ∧
      (full_record 16843009).less (full_record 16843009) = .error .overflow := by
  refine ⟨by rfl, by rfl, rfl, rfl, by decide, by rfl⟩

/-! ## Runs of inserts that outgrow 2 GiB -/

/-- After inserts alone every leaf holds at most 47 entries: the leaf entries of a subtree are
at most 47 times its pages. -/
theorem ordered_contents_le {m : Nat → Option (BPTNode Value)} :
    ∀ (h p : Nat) (lo : Key) (hi : Option Key) (low lowkids : Bool),
      ordered m h p lo hi low lowkids 0 →
      (contents m h p).length ≤ 47 * (subtree m h p).length := by
  intro h
  induction h with
  | zero =>
    intro p lo hi low lowkids ho
    obtain ⟨n, hn, hl, hsz, _⟩ := ho
    have h1 := hsz.1
    simp only [BPTNode.count, BPTNode.limit, hl, if_true, L] at h1
    simp only [contents, hn, subtree, List.length_singleton]
    omega
  | succ h ih =>
    intro p lo hi low lowkids ho
    obtain ⟨n, hn, hl, _, _, hk⟩ := ho
    have key : ∀ (l : List InternalEntry) (hi : Option Key),
        kids (fun c k hi1 => ordered m h c k hi1 lowkids true 0) l hi →
        (l.flatMap (fun e => contents m h e.child)).length
          ≤ 47 * (l.flatMap (fun e => subtree m h e.child)).length := by
      intro l
      induction l with
      | nil => intro hi _; simp
      | cons e l ihl =>
        intro hi hk
        obtain ⟨k1, _, k3⟩ := hk
        have h1 := ih e.child _ _ _ _ k1
        have h2 := ihl hi k3
        simp only [List.flatMap_cons, List.length_append]
        omega
    have := key _ _ hk
    simp only [contents, hn, subtree, List.length_cons]
    omega

/-- The file after a run of inserts has at least one page for every 47 pairs, and every page of
the file is a page of the tree. -/
theorem inserts_fill_pages [BEq Value] (pairs : List (Key × Value)) :
    ∃ t, session (inserts pairs) = .ok t ∧ pairs.length ≤ 47 * t.file.pages.length ∧
      ∀ p, 1 ≤ p → p ≤ t.file.pages.length → p ∈ t.pages := by
  obtain ⟨t, h, items, hs, hg, hp⟩ := session_inserts_good pairs
  obtain ⟨h1, fl, hsd⟩ := session_sound hs
  obtain ⟨_, hs2, _, n, hn, ho, hnd, hperm⟩ := hg
  refine ⟨t, hs, ?_, ?_⟩
  · have e1 := ordered_contents_le (h + 1) t.root_page _ _ _ _ ho
    have e2 := length_le_of_nodup_bounded _ t.file.pages.length hnd (by
      intro x hx
      obtain ⟨nx, hnx⟩ := ordered_defined (h + 1) t.root_page _ _ _ _ _ ho x hx
      exact MemoryRiver.node_at_bound hnx)
    have e3 := hperm.length_eq
    have e4 := hp.length_eq
    simp only [List.length_map] at e4
    calc pairs.length = items.length := e4.symm
      _ = (contents t.file.node_at (h + 1) t.root_page).length := e3.symm
      _ ≤ 47 * (subtree t.file.node_at (h + 1) t.root_page).length := e1
      _ ≤ 47 * t.file.pages.length := Nat.mul_le_mul_left _ e2
  · intro p hp1 hp2
    have hfl : fl = [] := (free_chain_head hsd.2.2.2.1).mp hs2
    subst hfl
    have hperm2 := hsd.2.2.2.2.1
    rw [List.append_nil, ← hsd.pages] at hperm2
    rw [hperm2.mem_iff, List.mem_range']
    exact ⟨p - 1, by omega, by omega⟩

/-- A run of more than 47 times 524288 inserts builds, in exact arithmetic, a tree in which
page 524289 is reachable from the root; the offset of that page, which `read_page` and
`update_page` compute in `int`, is above `INT_MAX`. -/
theorem inserts_pass_two_gib [BEq Value] (pairs : List (Key × Value))
    (hbig : 47 * MAX_PAGES < pairs.length) :
    ∃ t, session (inserts pairs) = .ok t ∧ MAX_PAGES < file_pages (inserts pairs) ∧
      MAX_PAGES + 1 ∈ t.pages ∧
      t.file.read_page32 (MAX_PAGES + 1) = .error .overflow ∧
      ∀ n, t.file.update_page32 n (MAX_PAGES + 1) = .error .overflow := by
  obtain ⟨t, hs, h1, h2⟩ := inserts_fill_pages pairs
  have hlen : MAX_PAGES < t.file.pages.length := by
    by_contra hno
    have := Nat.mul_le_mul_left 47 (Nat.le_of_not_lt hno)
    omega
  refine ⟨t, hs, ?_, h2 _ (by omega) (by omega), MemoryRiver.read_page32_overflow _, ?_⟩
  · unfold file_pages
    rw [hs]
    exact hlen
  · intro n
    unfold MemoryRiver.update_page32
    rw [int_offset_above (by omega) (by rw [MAX_PAGES_eq]; decide)]

theorem flood_length (k : Key) (v : Nat) : 47 * MAX_PAGES < (flood k v).length := by
  unfold flood
  rw [List.length_replicate]
  omega

/-! ## The file never shrinks -/

theorem disk_write_len {t t1 : BPT Value} {n : BPTNode Value} {p : Nat}
    (h : disk_write t n p = .ok t1) : t.file.pages.length ≤ t1.file.pages.length := by
  unfold disk_write MemoryRiver.update_page at h
  split at h
  · cases h
  · rename_i f hf
    cases h
    exact (MemoryRiver.put_block_bound hf).2.2

theorem disk_alloc_len {t t1 : BPT Value} {n : BPTNode Value} {p : Nat}
    (h : disk_alloc t n = .ok (p, t1)) : t.file.pages.length ≤ t1.file.pages.length := by
  unfold disk_alloc at h
  split at h
  · cases h
  · rename_i pg f hf
    simp only [Except.ok.injEq, Prod.mk.injEq] at h
    obtain ⟨rfl, rfl⟩ := h
    exact (MemoryRiver.write_page_bound hf).2.2.1

theorem disk_delete_len {t t1 : BPT Value} {p : Nat}
    (h : disk_delete t p = .ok t1) : t.file.pages.length ≤ t1.file.pages.length := by
  unfold disk_delete at h
  split at h
  · cases h
  · rename_i f hf
    cases h
    exact (MemoryRiver.delete_page_bound hf).2.2

theorem disk_read_file {t t1 : BPT Value} {n : BPTNode Value} {p : Nat}
    (h : disk_read t p = .ok (n, t1)) : t1.file = t.file := by
  unfold disk_read at h
  split at h
  · cases h
    rfl
  · split at h
    · cases h
    · cases h
      rfl

theorem grow_root_len {t t1 : BPT Value} {n : BPTNode Value} (h : grow_root n t = .ok t1) :
    t.file.pages.length ≤ t1.file.pages.length := by
  simp only [grow_root, bind, Except.bind] at h
  split at h
  · cases h
  · split at h
    · cases h
    · rename_i v1 ha
      obtain ⟨q1, ta⟩ := v1
      have l1 := disk_alloc_len ha
      simp only at h
      split at h
      · cases h
      · split at h
        · cases h
        · split at h
          · cases h
          · rename_i v2 hb
            obtain ⟨q2, tb⟩ := v2
            have l2 := disk_alloc_len hb
            simp only at h
            split at h
            · cases h
            · rename_i tc hc
              have l3 := disk_write_len hc
              simp only at l3
              split at h
              · cases h
              · rename_i td hd
                have l4 := disk_write_len hd
                simp only [pure, Except.pure, Except.ok.injEq] at h
                subst h
                show _ ≤ (td.file.write_info _ 1).pages.length
                simp only [MemoryRiver.write_info, if_true]
                omega

theorem shrink_root_len {t t1 : BPT Value} {n : BPTNode Value} (h : shrink_root n t = .ok t1) :
    t.file.pages.length ≤ t1.file.pages.length := by
  simp only [shrink_root, bind, Except.bind] at h
  split at h
  · cases h
  · split at h
    · cases h
    · split at h
      · cases h
      · rename_i v hr
        obtain ⟨c, ta⟩ := v
        have e1 := disk_read_file hr
        simp only at h
        split at h
        · simp only [pure, Except.pure, Except.ok.injEq] at h
          subst h
          rw [e1]
        · split at h
          · cases h
          · rename_i tb hd
            have l1 := disk_delete_len hd
            simp only [pure, Except.pure, Except.ok.injEq] at h
            subst h
            show _ ≤ (tb.file.write_info _ 1).pages.length
            simp only [MemoryRiver.write_info, if_true]
            rw [e1] at l1
            exact l1

/-- A public call that returns leaves the file with at least as many pages as before. -/
theorem apply_len [BEq Value] {t t1 : BPT Value} {h : Nat} {fl : List Nat} (hs : t.sound h fl)
    (op : Op Value) (ha : t.apply op = .ok t1) :
    t.file.pages.length ≤ t1.file.pages.length := by
  have ho := hs.owned
  obtain ⟨n, hn, _⟩ := ho.node
  obtain ⟨ta, hr, fa, ra, ca⟩ := disk_read_ok ho.coherent hn
  cases op with
  | insert k v =>
    simp only [BPT.apply, BPT.insert, bind, Except.bind, hr] at ha
    split at ha
    · cases ha
    · rename_i _ r hrec
      obtain ⟨n1, tb⟩ := r
      rw [ra] at hrec
      obtain ⟨fl1, hr1, _⟩ := insert_rec_shape k v (h + 1) _ t.root_page n n1 ta tb fl
        (ho.on_same_file fa ca) (by rw [fa]; exact hn) hrec
      have l1 := hr1.len
      rw [fa] at l1
      simp only at ha
      split at ha
      · have := grow_root_len ha
        omega
      · simp only [pure, Except.pure, Except.ok.injEq] at ha
        subst ha
        exact l1
  | remove k v =>
    simp only [BPT.apply, BPT.remove, bind, Except.bind, hr] at ha
    split at ha
    · cases ha
    · rename_i _ r hrec
      obtain ⟨flag, n1, tb⟩ := r
      rw [ra] at hrec
      obtain ⟨fl1, hr1, _, _⟩ := remove_rec_shape k v (h + 1) _ t.root_page n n1 ta tb fl flag
        (ho.on_same_file fa ca) (by rw [fa]; exact hn) hrec
      have l1 := hr1.len
      rw [fa] at l1
      simp only at ha
      split at ha
      · have := shrink_root_len ha
        omega
      · simp only [pure, Except.pure, Except.ok.injEq] at ha
        subst ha
        exact l1

theorem run_len [BEq Value] (ops : List (Op Value)) :
    ∀ (t t1 : BPT Value) (h : Nat) (fl : List Nat), t.sound h fl → t.run ops = .ok t1 →
      t.file.pages.length ≤ t1.file.pages.length := by
  induction ops with
  | nil =>
    intro t t1 h fl hs hr
    simp only [BPT.run, Except.ok.injEq] at hr
    subst hr
    exact Nat.le_refl _
  | cons op ops ih =>
    intro t t1 h fl hs hr
    simp only [BPT.run] at hr
    split at hr
    · cases hr
    · rename_i t2 hop
      have l1 := apply_len hs op hop
      have h2 : ∃ h2 fl2, t2.sound h2 fl2 := by
        cases op with
        | insert k v => exact insert_sound hs k v hop
        | remove k v => exact remove_sound hs k v hop
      obtain ⟨h2, fl2, hs2⟩ := h2
      have l2 := ih t2 t1 h2 fl2 hs2 hr
      omega

theorem run_append [BEq Value] (a b : List (Op Value)) (t t1 : BPT Value)
    (h : t.run (a ++ b) = .ok t1) : ∃ t0, t.run a = .ok t0 ∧ t0.run b = .ok t1 := by
  induction a generalizing t with
  | nil => exact ⟨t, rfl, h⟩
  | cons op a ih =>
    simp only [List.cons_append, BPT.run] at h ⊢
    split at h
    · cases h
    · rename_i t2 hop
      exact ih t2 h

/-- The file never shrinks in a run: when a run returns, every beginning of it returned, with a
file of at most as many pages.  A bound on the pages of the file after the run is a bound on
the pages of the file at every call of the run. -/
theorem session_file_grows [BEq Value] (a b : List (Op Value)) (t : BPT Value)
    (h : session (a ++ b) = .ok t) :
    ∃ t0, session a = .ok t0 ∧ t0.file.pages.length ≤ t.file.pages.length := by
  unfold session at h ⊢
  split at h
  · cases h
  · rename_i s hopen
    obtain ⟨t0, h1, h2⟩ := run_append a b s t h
    refine ⟨t0, ?_, ?_⟩
    · exact h1
    · obtain ⟨h0, fl0, hs0⟩ := run_sound a s t0 0 [] (sound_fresh hopen) h1
      exact run_len b t0 t h0 fl0 hs0 h2

/-! ## The claims about runs, for files of at most 2 GiB -/

/-- The pages reachable from the root after a run that leaves at most `MAX_PAGES` pages have
offsets that fit an `int`: `read_page` with its offset computed in `int` reads them as
`read_page` does. -/
theorem pages_below_two_gib [BEq Value] {ops : List (Op Value)} {t : BPT Value}
    (hs : session ops = .ok t) (hsize : t.file.pages.length ≤ MAX_PAGES) :
    ∀ p ∈ t.pages, int_offset p = .ok (HEADER_SIZE + (p - 1) * BLOCK_SIZE) ∧
      t.file.read_page32 p = t.file.read_page p := by
  obtain ⟨h, fl, hsd⟩ := session_sound hs
  intro p hp
  rw [hsd.pages] at hp
  obtain ⟨n0, hn0⟩ := shaped_defined _ _ hsd.2.2.1 p hp
  have hb := MemoryRiver.node_at_bound hn0
  exact ⟨int_offset_ok hb.1 (by omega), MemoryRiver.read_page32_eq _ (by omega)⟩

/-- C1 (amended).  After inserting any finite sequence of (key, value) pairs into a tree
constructed on a new file, the file having at most 524288 pages after the run, `find` of any
key `k` returns, and the values it returns are, as a multiset (a list up to order), exactly the
values of the inserted pairs whose key equals `k`: every occurrence once, nothing else.  On
every page reachable from the root, `read_page` with its offset computed in `int` reads what
`read_page` reads. -/
theorem find_after_inserts_below_two_gib [BEq Value] (pairs : List (Key × Value)) (k : Key)
    (hsize : file_pages (inserts pairs) ≤ MAX_PAGES) :
    ∃ t vs t1, session (inserts pairs) = .ok t ∧
      (∀ p ∈ t.pages, t.file.read_page32 p = t.file.read_page p) ∧
      t.find k = .ok (vs, t1) ∧
      vs.Perm ((pairs.filter (fun p => p.1 = k)).map (·.2)) := by
  obtain ⟨t, h, items, hs, hg, hp⟩ := session_inserts_good pairs
  obtain ⟨vs, t1, hf, hv, _⟩ := find_good hg k
  have hlen : t.file.pages.length ≤ MAX_PAGES := by
    unfold file_pages at hsize
    rw [hs] at hsize
    exact hsize
  refine ⟨t, vs, t1, hs, fun p hp => (pages_below_two_gib hs hlen p hp).2, hf, hv.trans ?_⟩
  · rw [← matching_pairs]
    unfold matching
    exact (hp.filter _).map _

theorem find_after_inserts_below_two_gib_witness :
    file_pages (inserts demo_pairs) ≤ MAX_PAGES ∧
    ∃ t vs t1, session (inserts demo_pairs) = .ok t ∧ t.find (key_of [1]) = .ok (vs, t1) ∧
      vs.Perm ((List.range 20).map (fun i => 3 * i + 1)) := by
  have hsize : file_pages (inserts demo_pairs) ≤ MAX_PAGES := by decide
  obtain ⟨t, vs, t1, h1, _, h3, h4⟩ :=
    find_after_inserts_below_two_gib demo_pairs (key_of [1]) hsize
  refine ⟨hsize, t, vs, t1, h1, h3, h4.trans ?_⟩
  have : (demo_pairs.filter (fun p => p.1 = key_of [1])).map (·.2)
      = (List.range 20).map (fun i => 3 * i + 1) := by decide
  rw [this]

/-- C3 (amended).  In every tree reached from a fresh tree by inserts and removes that run to
their end and leave a file of at most 524288 pages, when no leaf entry reachable from the root
equals `(k, v)` in both key and value, the recursive `remove` called on the root returns
`false`, the public `remove(k, v)` returns, and afterwards header slot 1, header slot 2 and
every page of the file are those of before the call, and so is the member `root_page`.  On
every page reachable from the root, `read_page` with its offset computed in `int` reads what
`read_page` reads. -/
theorem remove_absent_keeps_file [BEq Value] (ops : List (Op Value)) (t : BPT Value) (k : Key)
    (v : Value) (hs : session ops = .ok t) (hsize : t.file.pages.length ≤ MAX_PAGES)
    (habs : ∀ e ∈ t.entries, ¬ (memcmp k e.index = 0 ∧ (e.value == v) = true)) :
    ∃ n ta tb t1, disk_read t t.root_page = .ok (n, ta) ∧
      remove_rec k v t.depth n ta.root_page ta = .ok (false, n, tb) ∧
      t.remove k v = .ok t1 ∧
      t1.file.get_info 1 = t.file.get_info 1 ∧ t1.file.get_info 2 = t.file.get_info 2 ∧
      t1.file.pages = t.file.pages ∧ t1.root_page = t.root_page ∧
      ∀ p ∈ t.pages, t.file.read_page32 p = t.file.read_page p := by
  obtain ⟨h, fl, hsd⟩ := session_sound hs
  obtain ⟨n, ta, tb, t1, h1, h2, h3, h4, h5⟩ := remove_absent_sound hsd k v habs
  exact ⟨n, ta, tb, t1, h1, h2, h3, by rw [h4], by rw [h4], by rw [h4], h5,
    fun p hp => (pages_below_two_gib hs hsize p hp).2⟩

theorem remove_absent_keeps_file_witness :
    ∃ t : BPT Nat, session mixed_ops = .ok t ∧ t.file.pages.length ≤ MAX_PAGES ∧
      (∀ e ∈ t.entries, ¬ (memcmp (key_of [2]) e.index = 0 ∧ (e.value == 7) = true)) ∧
      ∃ t1, t.remove (key_of [2]) 7 = .ok t1 ∧ t1.file.pages = t.file.pages := by
  cases h : session mixed_ops with
  | error e =>
    have hf : failure (session mixed_ops) = none := by decide
    rw [h] at hf
    cases hf
  | ok t =>
    have hq : ∀ t ∈ (session mixed_ops).toOption, t.file.pages.length ≤ MAX_PAGES ∧
        ∀ e ∈ BPT.entries t,
          ¬ (memcmp (key_of [2]) e.index = 0 ∧ (e.value == 7) = true) := by decide
    obtain ⟨hsize, habs⟩ := hq t (by rw [h]; rfl)
    obtain ⟨_, _, _, t1, _, _, h3, _, _, h6, _⟩ :=
      remove_absent_keeps_file mixed_ops t (key_of [2]) 7 h hsize habs
    exact ⟨t, rfl, hsize, habs, t1, h3, h6⟩

/-- C3 (counterexample).  First, the run `overflow_ops` followed by the remove of a pair that
no leaf holds: the last insert of `overflow_ops` writes past the end of a leaf array, the run
stops there, and the remove is not reached.  Second, a run of inserts whose tree, in exact
arithmetic, has page 524289 among the pages reachable from the root, where `read_page` of that
page overflows `int`: on that tree a remove cannot read the page. -/
theorem remove_after_overflow_is_not_reached :
    failure (session (overflow_ops ++ [Op.remove (key_of [200]) 0])) = some Err.overflow ∧
    ∃ t, session (inserts (flood (key_of [3]) 3)) = .ok t ∧
      MAX_PAGES < file_pages (inserts (flood (key_of [3]) 3)) ∧ MAX_PAGES + 1 ∈ t.pages ∧
      t.file.read_page32 (MAX_PAGES + 1) = .error .overflow := by
  refine ⟨by decide, ?_⟩
  obtain ⟨t, h1, h2, h3, h4, _⟩ := inserts_pass_two_gib _ (flood_length (key_of [3]) 3)
  exact ⟨t, h1, h2, h3, h4⟩

/-- C1 (counterexample).  A run of 24641537 inserts: in exact arithmetic it builds a tree in
which page 524289 is reachable from the root, and the seek offset of that page overflows the
`int` in which `read_page` and `update_page` compute it, so that the insert that writes to the
page and the `find` that reads it leave the behaviour the source defines. -/
theorem inserts_outgrow_int_offsets :
    ∃ t, session (inserts (flood (key_of [1]) 1)) = .ok t ∧
      MAX_PAGES < file_pages (inserts (flood (key_of [1]) 1)) ∧ MAX_PAGES + 1 ∈ t.pages ∧
      t.file.read_page32 (MAX_PAGES + 1) = .error .overflow ∧
      ∀ n, t.file.update_page32 n (MAX_PAGES + 1) = .error .overflow :=
  inserts_pass_two_gib _ (flood_length (key_of [1]) 1)

/-- C4 (amended).  After every sequence of insert and remove calls that runs to its end and
leaves a file of at most 524288 pages, an instance opened on the resulting file (empty cache,
`root_page` read from header slot 1) returns for every key the same `find` result as the live
instance with its warm cache; and every node that the live instance reads through `disk_read`
for a page reachable from the root is the node that `read_page`, with its offset computed in
`int`, reads from the file. -/
theorem reopened_find_agrees_below_two_gib [BEq Value] (ops : List (Op Value)) (t : BPT Value)
    (hs : session ops = .ok t) (hsize : t.file.pages.length ≤ MAX_PAGES) :
    ∃ t2, BPT.open t.file = .ok t2 ∧ t2.cache.cache_list = [] ∧
      t2.root_page = t.file.get_info 1 ∧
      (∀ k, ∃ vs ta tb, t.find k = .ok (vs, ta) ∧ t2.find k = .ok (vs, tb)) ∧
      ∀ p ∈ t.pages, ∀ n t1, disk_read t p = .ok (n, t1) → t.file.read_page32 p = .ok n := by
  obtain ⟨h, fl, hsd⟩ := session_sound hs
  obtain ⟨t2, _, _, _, hopen, hcache, hroot, _, _⟩ := find_reopened hsd zero_key
  refine ⟨t2, hopen, hcache, hroot, ?_, ?_⟩
  · intro k
    obtain ⟨t3, vs, ta, tb, hopen3, _, _, h1, h2⟩ := find_reopened hsd k
    rw [hopen] at hopen3
    cases hopen3
    exact ⟨vs, ta, tb, h1, h2⟩
  · intro p hp n t1 hr
    rw [hsd.pages] at hp
    obtain ⟨n0, hn0⟩ := shaped_defined _ _ hsd.2.2.1 p hp
    obtain ⟨_, _, _, b, hb1, hb2⟩ := disk_read_inv hr hsd.1
    rw [(MemoryRiver.node_at_eq_some _ _ _).mp hn0] at hb1
    cases hb1
    apply (MemoryRiver.pager_agrees t.file).1 p n hsize
    rw [MemoryRiver.read_page_eq_ok, hn0]
    exact congrArg some hb2

theorem reopened_find_agrees_below_two_gib_witness :
    ∃ t : BPT Nat, session mixed_ops = .ok t ∧ t.file.pages.length ≤ MAX_PAGES ∧
      ∃ t2, BPT.open t.file = .ok t2 ∧
        ∀ k, ∃ vs ta tb, t.find k = .ok (vs, ta) ∧ t2.find k = .ok (vs, tb) := by
  cases h : session mixed_ops with
  | error e =>
    have hf : failure (session mixed_ops) = none := by decide
    rw [h] at hf
    cases hf
  | ok t =>
    have hq : ∀ t ∈ (session mixed_ops).toOption, t.file.pages.length ≤ MAX_PAGES := by
      decide
    have hsize := hq t (by rw [h]; rfl)
    obtain ⟨t2, h1, _, _, h4, _⟩ := reopened_find_agrees_below_two_gib mixed_ops t h hsize
    exact ⟨t, rfl, hsize, t2, h1, h4⟩

/-- C4 (counterexample).  First, a run of inserts and one remove whose last insert writes past
the end of a leaf array: the run stops and leaves no file to reopen.  Second, a run of inserts
whose tree, in exact arithmetic, has page 524289 among the pages reachable from the root: the
instance reopened on that file has an empty cache and reads the page with `read_page`, whose
offset overflows `int`. -/
theorem reopened_instance_cannot_read_past_two_gib :
    failure (session (overflow_ops.dropLast ++ [Op.insert (key_of [30]) 30]))
      = some Err.overflow ∧
    ∃ t, session (inserts (flood (key_of [4]) 4)) = .ok t ∧
      MAX_PAGES < file_pages (inserts (flood (key_of [4]) 4)) ∧ MAX_PAGES + 1 ∈ t.pages ∧
      t.file.read_page32 (MAX_PAGES + 1) = .error .overflow := by
  refine ⟨by decide, ?_⟩
  obtain ⟨t, h1, h2, h3, h4, _⟩ := inserts_pass_two_gib _ (flood_length (key_of [4]) 4)
  exact ⟨t, h1, h2, h3, h4⟩

/-- C11 (amended).  After every sequence of inserts and removes on a new file that runs to its
end and leaves a file of at most 524288 pages, the keys of every node reachable from the root
are non-decreasing under `memcmp` over the 64 bytes, and so are the keys of the leaf entries of
the tree, read from left to right with the children visited in the order of their entries. -/
theorem keys_stay_sorted_below_two_gib [BEq Value] (ops : List (Op Value)) (t : BPT Value)
    (hs : session ops = .ok t) (hsize : t.file.pages.length ≤ MAX_PAGES) :
    (∀ p ∈ t.pages, ∀ n, t.file.read_page32 p = .ok n →
        n.keys.Pairwise (fun a b => memcmp a b ≤ 0)) ∧
      t.entries.Pairwise (fun a b => memcmp a.index b.index ≤ 0) := by
  obtain ⟨h, fl, hsd, hk⟩ := session_sorted hs
  have hpages := hsd.pages
  rw [hsd.entries]
  refine ⟨?_, (keyed_contents _ _ _ _ hk).1⟩
  intro p hp n hn
  rw [hpages] at hp
  obtain ⟨n0, hn0⟩ := shaped_defined _ _ hsd.2.2.1 p hp
  rw [MemoryRiver.read_page32_eq _ (by have := MemoryRiver.node_at_bound hn0; omega),
    MemoryRiver.read_page_eq_ok] at hn
  exact keyed_node_keys _ _ _ _ hsd.2.2.1 hk p hp n hn

theorem keys_stay_sorted_below_two_gib_witness :
    ∃ t : BPT Nat, session mixed_ops = .ok t ∧ t.file.pages.length ≤ MAX_PAGES ∧
      t.pages = [2, 1, 4, 5] ∧
      (∀ p ∈ t.pages, ∀ n, t.file.read_page32 p = .ok n →
        n.keys.Pairwise (fun a b => memcmp a b ≤ 0)) ∧
      t.entries.Pairwise (fun a b => memcmp a.index b.index ≤ 0) ∧
      t.entries.map (fun e => e.value) = (List.range 95).map (fun i => i + 1) := by
  cases h : session mixed_ops with
  | error e =>
    have hf : failure (session mixed_ops) = none := by decide
    rw [h] at hf
    cases hf
  | ok t =>
    have hq : ∀ t ∈ (session mixed_ops).toOption, t.file.pages.length ≤ MAX_PAGES ∧
        BPT.pages t = [2, 1, 4, 5] ∧
        (BPT.entries t).map (fun e => e.value) = (List.range 95).map (fun i => i + 1) := by
      decide
    obtain ⟨hsize, hp, he⟩ := hq t (by rw [h]; rfl)
    obtain ⟨h1, h2⟩ := keys_stay_sorted_below_two_gib mixed_ops t h hsize
    exact ⟨t, rfl, hsize, hp, h1, h2, he⟩

/-- C11 (counterexample).  First, a run of inserts and one remove whose last insert writes its
key past the end of a leaf array: the run stops.  Second, a run of inserts whose tree, in exact
arithmetic, has page 524289 among the pages reachable from the root: the insert that puts a key
into the node of that page writes it with `update_page`, whose offset overflows `int`. -/
theorem keys_are_lost_past_the_array :
    failure (session (overflow_ops.dropLast ++ [Op.insert (key_of [20]) 20]))
      = some Err.overflow ∧
    ∃ t, session (inserts (flood (key_of [5]) 5)) = .ok t ∧
      MAX_PAGES < file_pages (inserts (flood (key_of [5]) 5)) ∧ MAX_PAGES + 1 ∈ t.pages ∧
      ∀ n, t.file.update_page32 n (MAX_PAGES + 1) = .error .overflow := by
  refine ⟨by decide, ?_⟩
  obtain ⟨t, h1, h2, h3, _, h5⟩ := inserts_pass_two_gib _ (flood_length (key_of [5]) 5)
  exact ⟨t, h1, h2, h3, h5⟩

/-- C14 (amended).  After every sequence of inserts and removes on a new file that runs to its
end and leaves a file of at most 524288 pages, the links from header slot 2 lead through a
finite list `fl` of freed pages to 0; no page id occurs twice among the pages reachable from
the root, none occurs twice in `fl`, none is in both, and the page ids in one of the two are
exactly 1, ..., `(file_size - 8) / 4096`; the seek offset of each of them fits an `int`. -/
theorem pages_are_partitioned_below_two_gib [BEq Value] (ops : List (Op Value)) (t : BPT Value)
    (hs : session ops = .ok t) (hsize : t.file.pages.length ≤ MAX_PAGES) :
    ∃ fl, t.file.free_chain (t.file.get_info 2) fl ∧ t.pages.Nodup ∧ fl.Nodup ∧
      (∀ p ∈ t.pages, p ∉ fl) ∧
      (∀ p, (p ∈ t.pages ∨ p ∈ fl) ↔
        (1 ≤ p ∧ p ≤ (t.file.file_size - HEADER_SIZE) / BLOCK_SIZE)) ∧
      ∀ p, p ∈ t.pages ∨ p ∈ fl → int_offset p = .ok (HEADER_SIZE + (p - 1) * BLOCK_SIZE) := by
  obtain ⟨h, fl, hsd⟩ := session_sound hs
  have hperm := hsd.2.2.2.2.1
  rw [← hsd.pages] at hperm
  have hnd : (t.pages ++ fl).Nodup := hperm.nodup_iff.mpr (List.nodup_range' _ _)
  obtain ⟨h1, h2, h3⟩ := List.nodup_append.mp hnd
  have hsz : (t.file.file_size - HEADER_SIZE) / BLOCK_SIZE = t.file.pages.length := by
    simp [MemoryRiver.file_size, BLOCK_SIZE]
  have hiff : ∀ p, (p ∈ t.pages ∨ p ∈ fl) ↔ (1 ≤ p ∧ p ≤ t.file.pages.length) := by
    intro p
    rw [← List.mem_append, hperm.mem_iff, List.mem_range']
    constructor
    · rintro ⟨i, hi, rfl⟩
      omega
    · intro hp
      exact ⟨p - 1, by omega, by omega⟩
  refine ⟨fl, hsd.2.2.2.1, h1, h2, fun p hp hq => h3 hp hq, ?_, ?_⟩
  · intro p
    rw [hsz]
    exact hiff p
  · intro p hp
    have := (hiff p).mp hp
    exact int_offset_ok this.1 (by omega)

theorem pages_are_partitioned_below_two_gib_witness :
    ∃ (t : BPT Nat) (fl : List Nat), session mixed_ops = .ok t ∧
      t.file.pages.length ≤ MAX_PAGES ∧
      t.file.free_chain (t.file.get_info 2) fl ∧ t.file.get_info 2 = 3 ∧
      t.pages = [2, 1, 4, 5] ∧ 3 ∈ fl ∧ fl.Nodup ∧
      ∀ p, (p ∈ t.pages ∨ p ∈ fl) ↔ (1 ≤ p ∧ p ≤ 5) := by
  cases h : session mixed_ops with
  | error e =>
    have hf : failure (session mixed_ops) = none := by decide
    rw [h] at hf
    cases hf
  | ok t =>
    have hq : ∀ t ∈ (session mixed_ops).toOption, t.file.pages.length = 5 ∧
        t.file.get_info 2 = 3 ∧ BPT.pages t = [2, 1, 4, 5] := by
      decide
    obtain ⟨hlen, hslot, hp⟩ := hq t (by rw [h]; rfl)
    have hsize : t.file.pages.length ≤ MAX_PAGES := by rw [hlen]; decide
    obtain ⟨fl, h1, h2, h3, h4, h5, _⟩ :=
      pages_are_partitioned_below_two_gib mixed_ops t h hsize
    have hsz : (t.file.file_size - HEADER_SIZE) / BLOCK_SIZE = 5 := by
      simp [MemoryRiver.file_size, BLOCK_SIZE, hlen]
    rw [hsz] at h5
    have h3in : 3 ∈ fl := by
      rcases (h5 3).mpr (by omega) with h | h
      · rw [hp] at h
        simp at h
      · exact h
    exact ⟨t, fl, rfl, hsize, h1, hslot, hp, h3in, h3, h5⟩

/-- C14 (counterexample).  First, a run of inserts and one remove whose last insert writes past
the end of a leaf array: the run stops.  Second, a run of inserts whose tree, in exact
arithmetic, has page 524289 among the pages reachable from the root, a page that `read_page`,
`update_page` and `delete_page` cannot address: their offset overflows `int`. -/
theorem pages_past_two_gib_are_not_addressed :
    failure (session (overflow_ops.dropLast ++ [Op.insert (key_of [40]) 40]))
      = some Err.overflow ∧
    ∃ t, session (inserts (flood (key_of [6]) 6)) = .ok t ∧
      MAX_PAGES < file_pages (inserts (flood (key_of [6]) 6)) ∧ MAX_PAGES + 1 ∈ t.pages ∧
      t.file.read_page32 (MAX_PAGES + 1) = .error .overflow ∧
      t.file.delete_page32 (MAX_PAGES + 1) = .error .overflow := by
  refine ⟨by decide, ?_⟩
  obtain ⟨t, h1, h2, h3, h4, _⟩ := inserts_pass_two_gib _ (flood_length (key_of [6]) 6)
  refine ⟨t, h1, h2, h3, h4, ?_⟩
  unfold MemoryRiver.delete_page32
  rw [int_offset_above (by omega) (by rw [MAX_PAGES_eq]; decide)]

/-! ## The counts of the nodes of a tree -/

theorem dense_iff (m : Nat → Option (BPTNode Value)) (h p : Nat) (low : Bool) :
    dense m h p low ↔
      ∃ n, m p = some n ∧ n.within low ∧ packed m h n (low || decide (2 ≤ n.count)) := by
  cases h with
  | zero => simp [dense, packed]
  | succ h => rfl

theorem dense_congr {m m1 : Nat → Option (BPTNode Value)} :
    ∀ (h p : Nat) (low : Bool), (∀ q ∈ subtree m h p, m1 q = m q) →
      dense m h p low → dense m1 h p low := by
  intro h
  induction h with
  | zero =>
    intro p low hag hd
    obtain ⟨n, hn, h1⟩ := hd
    exact ⟨n, by rw [hag p (subtree_root_mem _ _ _)]; exact hn, h1⟩
  | succ h ih =>
    intro p low hag hd
    obtain ⟨n, hn, h1, h2⟩ := hd
    refine ⟨n, by rw [hag p (subtree_root_mem _ _ _)]; exact hn, h1, ?_⟩
    intro e he
    exact ih e.child _ (fun q hq => hag q (subtree_child_mem hn he hq)) (h2 e he)

theorem packed_congr {m m1 : Nat → Option (BPTNode Value)} (h : Nat) {n : BPTNode Value}
    {low : Bool} (hag : ∀ q ∈ under m h n, m1 q = m q) (hp : packed m h n low) :
    packed m1 h n low := by
  cases h with
  | zero => trivial
  | succ h =>
    intro e he
    exact dense_congr h e.child low
      (fun q hq => hag q (List.mem_flatMap.mpr ⟨e, he, hq⟩)) (hp e he)

theorem within_weaken {n : BPTNode Value} {low : Bool} (h : n.within true) : n.within low :=
  ⟨h.1, fun _ => h.2 rfl⟩

/-- A subtree whose top node is at least half full is a subtree with any flag. -/
theorem dense_weaken {m : Nat → Option (BPTNode Value)} :
    ∀ (h p : Nat) (low : Bool), dense m h p true → dense m h p low := by
  intro h
  induction h with
  | zero =>
    intro p low hd
    obtain ⟨n, hn, h1⟩ := hd
    exact ⟨n, hn, within_weaken h1⟩
  | succ h ih =>
    intro p low hd
    obtain ⟨n, hn, h1, h2⟩ := hd
    refine ⟨n, hn, within_weaken h1, ?_⟩
    intro e he
    have := h2 e he
    simp only [Bool.true_or] at this
    exact ih e.child _ this

theorem dense_of_le {m : Nat → Option (BPTNode Value)} (h p : Nat) {low low1 : Bool}
    (hl : low1 = true → low = true) (hd : dense m h p low) : dense m h p low1 := by
  cases low with
  | true => exact dense_weaken h p low1 hd
  | false =>
    cases low1 with
    | true => exact absurd (hl rfl) (by simp)
    | false => exact hd

theorem packed_of_le {m : Nat → Option (BPTNode Value)} (h : Nat) {n : BPTNode Value}
    {low low1 : Bool} (hl : low1 = true → low = true) (hp : packed m h n low) :
    packed m h n low1 := by
  cases h with
  | zero => trivial
  | succ h => exact fun e he => dense_of_le h e.child hl (hp e he)

/-- A node written at a page, the pages below it untouched. -/
theorem dense_rebuild {m m1 : Nat → Option (BPTNode Value)} (h : Nat) {q : Nat}
    {n : BPTNode Value} {low : Bool} (hq : m1 q = some n) (hw : n.within low)
    (hp : packed m h n (low || decide (2 ≤ n.count)))
    (hag : ∀ x ∈ under m h n, m1 x = m x) : dense m1 h q low :=
  (dense_iff _ _ _ _).mpr ⟨n, hq, hw, packed_congr h hag hp⟩

theorem packed_of_entries {m : Nat → Option (BPTNode Value)} (h : Nat) {a b : BPTNode Value}
    {low : Bool} (h2 : b.internal_entries = a.internal_entries) (hp : packed m h a low) :
    packed m h b low := by
  cases h with
  | zero => trivial
  | succ h =>
    show ∀ e ∈ b.internal_entries, _
    rw [h2]
    exact hp

theorem packed_sub {m : Nat → Option (BPTNode Value)} (h : Nat) {a b : BPTNode Value}
    {low : Bool} (h2 : ∀ e ∈ b.internal_entries, e ∈ a.internal_entries)
    (hp : packed m h a low) : packed m h b low := by
  cases h with
  | zero => trivial
  | succ h => exact fun e he => hp e (h2 e he)

theorem count_leaf {n : BPTNode Value} (h : n.is_leaf = true) :
    n.count = n.leaf_entries.length ∧ n.limit = 48 := by
  simp [BPTNode.count, BPTNode.limit, h, L]

theorem count_internal {n : BPTNode Value} (h : n.is_leaf = false) :
    n.count = n.internal_entries.length ∧ n.limit = 58 := by
  simp [BPTNode.count, BPTNode.limit, h, M]


/-- The two halves of a node that reached its limit are at least half full and within their
limits, and so are the subtrees of their children. -/
theorem packed_halves {m : Nat → Option (BPTNode Value)} (h q : Nat) {c : BPTNode Value}
    (hfull : c.limit ≤ c.count) (hmax : c.count ≤ c.limit + 1)
    (hp : packed m h c true) :
    (c.left_half q).within true ∧ c.right_half.within true ∧
      packed m h (c.left_half q) true ∧ packed m h c.right_half true := by
  obtain ⟨c1, c2⟩ := halves_counts c q hfull
  obtain ⟨l1, _, _, _, l5⟩ := left_half_fields c q
  obtain ⟨r1, _, _, _, r5⟩ := right_half_fields c
  have hl1 : (c.left_half q).limit = c.limit := by simp [BPTNode.limit, l1]
  have hr1 : c.right_half.limit = c.limit := by simp [BPTNode.limit, r1]
  have hlim := limit_cases c
  refine ⟨⟨by rw [c1, hl1]; omega, fun _ => by rw [c1, hl1]⟩,
    ⟨by rw [c2, hr1]; omega, fun _ => by rw [c2, hr1]; omega⟩, ?_, ?_⟩
  · cases hc : c.is_leaf with
    | true =>
      cases h with
      | zero => trivial
      | succ h =>
        intro e he
        have : (c.left_half q).internal_entries = c.internal_entries := by
          simp [BPTNode.left_half, BPTNode.truncate, hc]
        rw [this] at he
        exact hp e he
    | false =>
      refine packed_sub h ?_ hp
      intro e he
      rw [l5 hc] at he
      exact List.mem_of_mem_take he
  · cases hc : c.is_leaf with
    | true =>
      cases h with
      | zero => trivial
      | succ h =>
        intro e he
        have : c.right_half.internal_entries = [] := by
          simp [BPTNode.right_half, hc]
        rw [this] at he
        cases he
    | false =>
      refine packed_sub h ?_ hp
      intro e he
      rw [r5 hc] at he
      exact List.mem_of_mem_drop he

/-! ## The counts under `insert` -/

/-- The split step leaves the two halves at least half full; the other children keep their
counts. -/
theorem split_child_dense {t t1 : BPT Value} {h p : Nat} {fl : List Nat}
    {n n1 cn : BPTNode Value}
    (pre : List InternalEntry) (e : InternalEntry) (post : List InternalEntry)
    (ho : Owned t (h + 1) p fl) (hn : t.file.node_at p = some n)
    (hes : n.internal_entries = pre ++ e :: post)
    (hcn : t.file.node_at e.child = some cn) (hfull : cn.limit ≤ cn.count)
    (hmax : cn.count ≤ cn.limit + 1) (hpc : packed t.file.node_at h cn true)
    (hside : ∀ e1 ∈ pre ++ post, dense t.file.node_at h e1.child true)
    (hsp : split_child n p pre.length cn e.child t = .ok (n1, t1)) :
    packed t1.file.node_at (h + 1) n1 true ∧
      n1.internal_entries.length = n.internal_entries.length + 1 ∧ n1.is_leaf = n.is_leaf := by
  have hnd_fl : fl.Nodup := (List.nodup_append.mp ho.nodup).2.1
  have hroom := split_child_room ho.coherent ho.chain hnd_fl hcn hfull hsp
  obtain ⟨n0, hn0, hl, hne, hshape⟩ := ho.shape
  rw [hn] at hn0
  cases hn0
  have hmem : e ∈ n.internal_entries := by rw [hes]; simp
  have hpc1 : e.child ≠ p := by
    have hnd := ho.nodup
    rw [subtree_succ_split _ _ _ _ hn pre e post hes] at hnd
    obtain ⟨_, hpB, _, _, _⟩ := nodup_parts _ _ _ _ _ hnd
    exact fun h => hpB (h ▸ subtree_root_mem _ _ _)
  obtain ⟨S, t2, fl1, key, heq, hkey, hS, hSp, hSc, _, _, _, _, hcase, hnS, hnc, hnp, hblk⟩ :=
    split_child_total t n n cn cn p e.child pre.length fl ho.coherent ho.chain hnd_fl hn hcn
      hpc1 hfull hroom
  rw [hsp] at heq
  simp only [Except.ok.injEq, Prod.mk.injEq] at heq
  obtain ⟨hn1, rfl⟩ := heq
  have htd := take_drop_middle pre e post
  rw [← hes] at htd
  have hes1 : n1.internal_entries = pre ++ [e, { index := key, child := S }] ++ post := by
    rw [hn1]
    simp only [htd.1, htd.2, List.append_assoc, List.singleton_append, List.cons_append,
      List.nil_append]
  obtain ⟨cfit⟩ : Nonempty (fits t.file.node_at h cn) := by
    obtain ⟨c0, hc0, hf⟩ := (shaped_iff_fits _ _ _).mp (hshape e hmem)
    rw [hcn] at hc0; cases hc0; exact ⟨hf⟩
  have hes' : n.internal_entries = pre ++ [e] ++ post := by
    rw [hes]; simp
  obtain ⟨_, _, hund⟩ := fits_halves h S cfit hfull
  have hgf : ∀ x ∈ under t.file.node_at h cn, t1.file.node_at x = t.file.node_at x := by
    intro x hx
    obtain ⟨_, g1, g2, _, _, g5⟩ := grand_frame pre [e] post ho hn hes' e (by simp) cn hcn x hx
    apply node_at_of_block_eq
    exact hblk x g1 (g2 e (by simp)) (fun h => g5 (h ▸ hS))
  have hsib : ∀ e1 ∈ pre ++ post, ∀ x ∈ subtree t.file.node_at h e1.child,
      t1.file.node_at x = t.file.node_at x := by
    refine sibling_frame pre [e] post ho hn hes' ?_
    intro q hq1 hq2 hq3 hq4
    refine hblk q hq2 (fun h => hq1 (by rw [h]; simp [subtree_root_mem])) ?_
    rcases hcase with ⟨c1, _⟩ | ⟨_, _, c3, _⟩
    · intro h; apply hq3; rw [c1, h]; exact List.mem_cons_self _ _
    · omega
  obtain ⟨w1, w2, p1, p2⟩ := packed_halves h S hfull hmax hpc
  refine ⟨?_, by
    rw [hes1, hes]
    simp only [List.length_append, List.length_cons, List.length_nil]
    omega, by rw [hn1]⟩
  intro e1 he1
  rw [hes1] at he1
  simp only [List.mem_append, List.mem_cons, List.mem_singleton, List.not_mem_nil,
    or_false] at he1
  rcases he1 with (he1 | he1 | he1) | he1
  · exact dense_congr h e1.child true (hsib e1 (List.mem_append_left _ he1))
      (hside e1 (List.mem_append_left _ he1))
  · subst he1
    exact dense_rebuild h hnc w1 (by simpa using p1)
      (fun x hx => hgf x (by rw [← hund]; exact List.mem_append_left _ hx))
  · subst he1
    exact dense_rebuild h hnS w2 (by simpa using p2)
      (fun x hx => hgf x (by rw [← hund]; exact List.mem_append_right _ hx))
  · exact dense_congr h e1.child true (hsib e1 (List.mem_append_right _ he1))
      (hside e1 (List.mem_append_right _ he1))

/-- The recursive `insert` on a subtree whose nodes are within their limits: the node comes
back with at most one entry above its limit, and the subtrees of its children are within their
limits and as full as before. -/
theorem insert_rec_dense (k : Key) (v : Value) :
    ∀ (h d p : Nat) (n n1 : BPTNode Value) (t t1 : BPT Value) (fl : List Nat) (low : Bool),
      Owned t h p fl → t.file.node_at p = some n → dense t.file.node_at h p low →
      insert_rec k v d n p t = .ok (n1, t1) →
      n1.count ≤ n.limit + 1 ∧ n1.limit = n.limit ∧
        packed t1.file.node_at h n1 (low || decide (2 ≤ n1.count)) := by
  intro h
  induction h with
  | zero =>
    intro d p n n1 t t1 fl low ho hn hd hi0
    obtain ⟨n0, hn0, hl⟩ := ho.shape
    rw [hn] at hn0
    cases hn0
    cases d with
    | zero => simp [insert_rec] at hi0
    | succ d =>
      simp only [insert_rec] at hi0
      rw [if_pos hl] at hi0
      split at hi0
      · cases hi0
      · rename_i hroom
        split at hi0
        · cases hi0
        · rename_i t2 hw
          simp only [Except.ok.injEq, Prod.mk.injEq] at hi0
          obtain ⟨hn1, rfl⟩ := hi0
          have hL : leaf_slots = 48 := by decide
          rw [hL] at hroom
          have hl1 : n1.is_leaf = true := by rw [← hn1]; exact hl
          refine ⟨?_, by simp [BPTNode.limit, hl, hl1], trivial⟩
          rw [(count_leaf hl1).1, (count_leaf hl).2, ← hn1]
          simp only [List.length_append, List.length_cons, List.length_take, List.length_drop]
          omega
  | succ h ih =>
    intro d p n n1 t t1 fl low ho hn hd hi0
    obtain ⟨n0, hn0, hl, hne, hshape⟩ := ho.shape
    rw [hn] at hn0
    cases hn0
    obtain ⟨n2, hn2, hw, hkids⟩ := hd
    rw [hn] at hn2
    cases hn2
    cases d with
    | zero => simp [insert_rec] at hi0
    | succ d =>
      simp only [insert_rec] at hi0
      rw [if_neg (by simp [hl])] at hi0
      split at hi0
      · cases hi0
      · rename_i e hei
        obtain ⟨hes, hlen⟩ := split_at_index _ _ _ hei
        have hmem : e ∈ n.internal_entries := by
          obtain ⟨g1, g2⟩ := List.getElem?_eq_some_iff.mp hei
          exact g2 ▸ List.getElem_mem g1
        obtain ⟨cn, hcn, _⟩ := (shaped_iff_fits _ _ _).mp (hshape e hmem)
        obtain ⟨ta, hr, fa, ra, ca⟩ := disk_read_ok ho.coherent hcn
        simp only [hr] at hi0
        split at hi0
        · cases hi0
        · rename_i cn1 tb hrec
          have hoa : Owned ta (h + 1) p fl := ho.on_same_file fa ca
          have hna : ta.file.node_at p = some n := by rw [fa]; exact hn
          obtain ⟨fl1, hr1, hcnt⟩ := insert_rec_shape k v h d e.child cn cn1 ta tb fl
            (hoa.child hna hmem) (by rw [fa]; exact hcn) hrec
          have hr2 : Reshaped t tb (h + 1) p fl fl1 n :=
            (Reshaped.lift _ e _ hoa hna hes hr1).of_file_eq fa ra
          obtain ⟨pre, hpre⟩ : ∃ pre, pre = n.internal_entries.take
            (insert_child_index k n.internal_entries) := ⟨_, rfl⟩
          obtain ⟨post, hpost⟩ : ∃ post, post = n.internal_entries.drop
            (insert_child_index k n.internal_entries + 1) := ⟨_, rfl⟩
          rw [← hpre, ← hpost] at hes
          rw [← hpre] at hlen
          have hdc := hkids e hmem
          obtain ⟨g1, g2, g3⟩ := ih d e.child cn cn1 ta tb fl _ (hoa.child hna hmem)
            (by rw [fa]; exact hcn) (by rw [fa]; exact hdc) hrec
          have hcw : cn.within (low || decide (2 ≤ n.count)) := by
            obtain ⟨c0, hc0, hcw, _⟩ := (dense_iff _ _ _ _).mp hdc
            rw [hcn] at hc0
            cases hc0
            exact hcw
          have hsib := child_step_frame pre e post hoa hna hes hr1
          have hside : ∀ e1 ∈ pre ++ post,
              dense tb.file.node_at h e1.child (low || decide (2 ≤ n.count)) := by
            intro e1 he1
            have hm1 : e1 ∈ n.internal_entries := by
              rw [hes]
              rcases List.mem_append.mp he1 with h1 | h1
              · exact List.mem_append_left _ h1
              · exact List.mem_append_right _ (List.mem_cons_of_mem _ h1)
            refine dense_congr h e1.child _ ?_ (hkids e1 hm1)
            intro x hx
            rw [hsib e1 he1 x (by rw [fa]; exact hx), fa]
          have hcount := (count_internal hl).1
          have hlim : (if cn1.is_leaf = true then L else M) = cn1.limit := rfl
          simp only [hlim] at hi0
          split at hi0
          · rename_i hfull
            rw [← hlen] at hi0
            have hbig : 2 ≤ cn1.count := by
              rcases limit_cases cn1 with h1 | h1 <;> omega
            have hside1 : ∀ e1 ∈ pre ++ post, dense tb.file.node_at h e1.child true := by
              intro e1 he1
              have h2 : 2 ≤ n.count := by
                rw [hcount, hes]
                have := List.length_pos_of_mem he1
                simp only [List.length_append, List.length_cons] at this ⊢
                omega
              have := hside e1 he1
              simpa [h2] using this
            obtain ⟨q1, q2, q3⟩ := split_child_dense pre e post (hr2.keeps_owned ho) hr2.node
              hes hr1.node hfull (by rw [g2] at *; exact g1)
              (packed_of_le h (by simp [hbig]) g3) hside1 hi0
            have hl1 : n1.is_leaf = false := by rw [q3]; exact hl
            refine ⟨?_, by simp [BPTNode.limit, hl, hl1], packed_of_le (h + 1) (by simp) q1⟩
            rw [(count_internal hl1).1, q2, ← hcount]
            have := hw.1
            omega
          · rename_i hnot
            simp only [Except.ok.injEq, Prod.mk.injEq] at hi0
            obtain ⟨rfl, rfl⟩ := hi0
            refine ⟨by have := hw.1; omega, rfl, ?_⟩
            intro e1 he1
            rw [hes] at he1
            rcases List.mem_append.mp he1 with h1 | h1
            · exact hside e1 (List.mem_append_left _ h1)
            · rcases List.mem_cons.mp h1 with rfl | h1
              · refine (dense_iff _ _ _ _).mpr ⟨cn1, hr1.node, ⟨by omega, ?_⟩, g3⟩
                intro hlow
                have := hcw.2 hlow
                omega
              · exact hside e1 (List.mem_append_right _ h1)

/-- The growth of the root: the new root has two entries, and the two halves of the old root
are at least half full. -/
theorem grow_root_dense {t t1 : BPT Value} {h : Nat} {fl : List Nat} {n : BPTNode Value}
    (ho : Owned t (h + 1) t.root_page fl) (hn : t.file.node_at t.root_page = some n)
    (hfull : M ≤ n.count) (hmax : n.count ≤ M + 1)
    (hp : packed t.file.node_at (h + 1) n true)
    (hg : grow_root n t = .ok t1) :
    dense t1.file.node_at (h + 1 + 1) t1.root_page false := by
  obtain ⟨n0, hn0, hl, hne, hshape⟩ := ho.shape
  rw [hn] at hn0
  cases hn0
  have hnd_fl : fl.Nodup := (List.nodup_append.mp ho.nodup).2.1
  obtain ⟨C, R, t2, e0, rest0, e1, rest1, heq, htake, hdrop, hC, hR, hCR, hCr, hRr, _, hroot,
    _, hnR, hnold, hnC, hblk⟩ := grow_root_total t n n fl ho.coherent ho.chain hnd_fl hn hl hfull
  rw [hg] at heq
  cases heq
  have hM : (M : Nat) = 58 := rfl
  have hcount := (count_internal hl).1
  have hgf : ∀ x ∈ under t.file.node_at (h + 1) n, t1.file.node_at x = t.file.node_at x := by
    intro x hx
    have hxs : x ∈ subtree t.file.node_at (h + 1) t.root_page := by
      rw [subtree_eq_under (h + 1) hn]; exact List.mem_cons_of_mem _ hx
    obtain ⟨nx, hnx⟩ := shaped_defined (h + 1) t.root_page ho.shape x hxs
    have hnd := (List.nodup_append.mp ho.nodup).1
    rw [subtree_eq_under (h + 1) hn] at hnd
    apply node_at_of_block_eq
    refine hblk x ?_ ?_ ?_
    · rintro rfl
      exact (List.nodup_cons.mp hnd).1 hx
    · rintro rfl
      rw [hC] at hnx; cases hnx
    · rintro rfl
      rw [hR] at hnx; cases hnx
  rw [hroot]
  refine ⟨_, hnR, ⟨by simp [BPTNode.count, BPTNode.limit, M], fun h => by cases h⟩, ?_⟩
  intro e he
  simp only [List.mem_cons, List.mem_singleton, List.not_mem_nil, or_false] at he
  show dense _ _ _ true
  rcases he with rfl | rfl
  · refine dense_rebuild (m := t.file.node_at) (h + 1) hnold ⟨?_, fun _ => ?_⟩ ?_ ?_
    · simp only [BPTNode.count, BPTNode.limit, hl, Bool.false_eq_true, if_false,
        List.length_take]
      omega
    · simp only [BPTNode.count, BPTNode.limit, hl, Bool.false_eq_true, if_false,
        List.length_take]
      omega
    · simp only [Bool.true_or]
      exact packed_sub (h + 1) (fun e he => List.mem_of_mem_take he) hp
    · intro x hx
      refine hgf x ?_
      simp only [under, List.mem_flatMap] at hx ⊢
      obtain ⟨a, ha, hxa⟩ := hx
      exact ⟨a, List.mem_of_mem_take ha, hxa⟩
  · refine dense_rebuild (m := t.file.node_at) (h + 1) hnC ⟨?_, fun _ => ?_⟩ ?_ ?_
    · simp only [BPTNode.count, BPTNode.limit, Bool.false_eq_true, if_false,
        List.length_drop]
      omega
    · simp only [BPTNode.count, BPTNode.limit, Bool.false_eq_true, if_false,
        List.length_drop]
      omega
    · simp only [Bool.true_or]
      exact packed_sub (h + 1) (fun e he => List.mem_of_mem_drop he) hp
    · intro x hx
      refine hgf x ?_
      simp only [under, List.mem_flatMap] at hx ⊢
      obtain ⟨a, ha, hxa⟩ := hx
      exact ⟨a, List.mem_of_mem_drop ha, hxa⟩

/-- The tree built by the constructor on a new file has its counts in range. -/
theorem compact_fresh {t : BPT Value}
    (h : BPT.open (MemoryRiver.fresh : MemoryRiver Value) = .ok t) : t.compact 0 [] := by
  refine ⟨sound_fresh h, ?_⟩
  obtain ⟨t1, l0, r, e, _, hc, hl, hr, hroot, hs1, hs2, hfresh, hoth⟩ :=
    initialize_new_tree_spec
      ({ file := MemoryRiver.fresh, root_page := (MemoryRiver.fresh : MemoryRiver Value).get_info 1,
         cache := { cache_list := [], capacity := 128 } } : BPT Value)
      (coherent_empty _ _ _) (Or.inl rfl)
  have ht : t = t1 := by
    have : BPT.open (MemoryRiver.fresh : MemoryRiver Value) = .ok t1 := by
      simp only [BPT.open]
      exact e
    rw [h] at this
    cases this; rfl
  subst ht
  rw [hroot]
  refine ⟨_, hr, ⟨by simp [BPTNode.count, BPTNode.limit, M], fun h => by cases h⟩, ?_⟩
  intro e he
  simp only [List.mem_singleton] at he
  subst he
  exact ⟨_, hl, ⟨by simp [BPTNode.count, BPTNode.limit, L], fun h => by simp [BPTNode.count] at h⟩⟩

/-- The public `insert` keeps the counts in range, and leaves the root with fewer than `M`
entries. -/
theorem insert_compact {t t1 : BPT Value} {h : Nat} {fl : List Nat} (hs : t.compact h fl)
    (k : Key) (v : Value) (hi : t.insert k v = .ok t1) :
    ∃ h1 fl1, t1.compact h1 fl1 ∧
      ∀ r, t1.file.node_at t1.root_page = some r → r.count < M := by
  obtain ⟨hsd, hd⟩ := hs
  obtain ⟨h1, fl1, hs1⟩ := insert_sound hsd k v hi
  have ho := hsd.owned
  obtain ⟨n, hn, hfit⟩ := ho.node
  obtain ⟨ta, hr, fa, ra, ca⟩ := disk_read_ok ho.coherent hn
  simp only [BPT.insert, bind, Except.bind, hr] at hi
  split at hi
  · cases hi
  · rename_i _ r hrec
    obtain ⟨n1, tb⟩ := r
    rw [ra] at hrec
    obtain ⟨fl2, hr1, hcnt⟩ := insert_rec_shape k v (h + 1) _ t.root_page n n1 ta tb fl
      (ho.on_same_file fa ca) (by rw [fa]; exact hn) hrec
    have hr2 : Reshaped t tb (h + 1) t.root_page fl fl2 n1 := hr1.of_file_eq fa ra
    obtain ⟨g1, g2, g3⟩ := insert_rec_dense k v (h + 1) _ t.root_page n n1 ta tb fl false
      (ho.on_same_file fa ca) (by rw [fa]; exact hn) (by rw [fa]; exact hd) hrec
    have hlim : n.limit = M := by simp [BPTNode.limit, hfit.1]
    simp only at hi
    split at hi
    · rename_i hfull
      have hsb : tb.sound h fl2 := hr2.sound hsd hn (fun h1 => by omega)
      have hob := hsb.owned
      have hM : (M : Nat) = 58 := rfl
      have hkg := grow_root_dense hob (by rw [hr2.root]; exact hr2.node) hfull
        (by rw [← hlim]; exact g1)
        (packed_of_le (h + 1) (by simp; omega) g3) hi
      obtain ⟨fl3, h3⟩ := grow_root_sound hsb (by rw [hr2.root]; exact hr2.node) hfull hi
      have hh := @BPT.sound.height _ _ _ (h + 1) _ hs1 h3.2.2.1
      subst hh
      refine ⟨_, fl1, ⟨hs1, hkg⟩, ?_⟩
      intro r hr
      obtain ⟨C, R, t2, e0, rest0, e1, rest1, heq, _, _, _, _, _, _, _, _, hroot,
        _, hnR, _⟩ := grow_root_total tb n1 n1 fl2 hob.coherent hob.chain
        (List.nodup_append.mp hob.nodup).2.1 (by rw [hr2.root]; exact hr2.node)
        hr2.internal.1 hfull
      rw [hi] at heq
      cases heq
      rw [hroot, hnR] at hr
      cases hr
      simp [BPTNode.count, M]
    · rename_i hnot
      simp only [pure, Except.pure, Except.ok.injEq] at hi
      subst hi
      have hh := @BPT.sound.height _ _ _ h _ hs1 (by rw [hr2.root]; exact hr2.shape)
      subst hh
      refine ⟨_, fl1, ⟨hs1, ?_⟩, ?_⟩
      · rw [hr2.root]
        have hl1 : n1.limit = M := by rw [g2, hlim]
        exact (dense_iff _ _ _ _).mpr ⟨n1, hr2.node, ⟨by omega, fun h => by cases h⟩, g3⟩
      · intro r hr
        rw [hr2.root, hr2.node] at hr
        cases hr
        omega

/-! ## The counts under `remove` -/

theorem index_of_mem_take {α : Type} {l : List α} {k : Nat} {e : α} (h : e ∈ l.take k) :
    ∃ j, j < k ∧ l[j]? = some e := by
  obtain ⟨j, hj, he⟩ := List.mem_iff_getElem.mp h
  rw [List.length_take] at hj
  refine ⟨j, by omega, ?_⟩
  rw [← he, List.getElem_take]
  exact List.getElem?_eq_getElem (by omega)

theorem index_of_mem_drop {α : Type} {l : List α} {k : Nat} {e : α} (h : e ∈ l.drop k) :
    ∃ j, k ≤ j ∧ l[j]? = some e := by
  obtain ⟨j, hj, he⟩ := List.mem_iff_getElem.mp h
  rw [List.length_drop] at hj
  refine ⟨k + j, by omega, ?_⟩
  rw [← he, List.getElem_drop]
  exact List.getElem?_eq_getElem (by omega)

theorem mem_around_of_index {α : Type} {l : List α} {i j : Nat} {e : α} (h : l[j]? = some e)
    (hne : j ≠ i) : e ∈ l.take i ++ l.drop (i + 1) := by
  obtain ⟨hj, he⟩ := List.getElem?_eq_some_iff.mp h
  rcases Nat.lt_or_gt_of_ne hne with hlt | hgt
  · apply List.mem_append_left
    rw [List.mem_iff_getElem]
    refine ⟨j, by rw [List.length_take]; omega, ?_⟩
    rw [List.getElem_take]
    exact he
  · apply List.mem_append_right
    rw [List.mem_iff_getElem]
    refine ⟨j - (i + 1), by rw [List.length_drop]; omega, ?_⟩
    rw [List.getElem_drop]
    rw [← he]
    congr 1
    omega

/-- Two neighbouring entries of a node are replaced by entries whose subtrees have their counts
in range. -/
theorem pair_dense {t t1 : BPT Value} {h p : Nat} {fl : List Nat} {n n1 : BPTNode Value}
    (pre : List InternalEntry) (ea eb : InternalEntry) (post mid1 : List InternalEntry)
    (ho : Owned t (h + 1) p fl) (hn : t.file.node_at p = some n)
    (hes : n.internal_entries = pre ++ [ea, eb] ++ post)
    (hside : ∀ e1 ∈ pre ++ post, dense t.file.node_at h e1.child true)
    (hblk : ∀ x, x ≠ p → x ≠ ea.child → x ≠ eb.child → t1.file.block x = t.file.block x)
    (hes1 : n1.internal_entries = pre ++ mid1 ++ post)
    (hmid : ∀ e1 ∈ mid1, dense t1.file.node_at h e1.child true) :
    packed t1.file.node_at (h + 1) n1 true := by
  have hsib : ∀ e1 ∈ pre ++ post, ∀ x ∈ subtree t.file.node_at h e1.child,
      t1.file.node_at x = t.file.node_at x := by
    refine sibling_frame pre [ea, eb] post ho hn hes ?_
    intro q hq1 hq2 _ _
    simp only [List.flatMap_cons, List.flatMap_nil, List.append_nil, List.mem_append,
      not_or] at hq1
    exact hblk q hq2 (fun h => hq1.1 (h ▸ subtree_root_mem _ _ _))
      (fun h => hq1.2 (h ▸ subtree_root_mem _ _ _))
  intro e1 he1
  rw [hes1] at he1
  rcases List.mem_append.mp he1 with h1 | h1
  · rcases List.mem_append.mp h1 with h2 | h2
    · exact dense_congr h e1.child true (hsib e1 (List.mem_append_left _ h2))
        (hside e1 (List.mem_append_left _ h2))
    · exact hmid e1 h2
  · exact dense_congr h e1.child true (hsib e1 (List.mem_append_right _ h1))
      (hside e1 (List.mem_append_right _ h1))

theorem append_count {a b : BPTNode Value} (hk : a.is_leaf = b.is_leaf) :
    (a.append b).count = a.count + b.count ∧ (a.append b).limit = a.limit := by
  cases hl : a.is_leaf <;>
    simp [BPTNode.append, BPTNode.count, BPTNode.limit, hl, ← hk]

theorem packed_append {m : Nat → Option (BPTNode Value)} (h : Nat) {a b : BPTNode Value}
    (ha : fits m h a) (pa : packed m h a true) (pb : packed m h b true) :
    packed m h (a.append b) true := by
  cases h with
  | zero => trivial
  | succ h =>
    have hl : a.is_leaf = false := ha.1
    intro e he
    rw [(append_fields a b).2.2 hl] at he
    rcases List.mem_append.mp he with h1 | h1
    · exact pa e h1
    · exact pb e h1

/-- The subtrees of the children of two nodes that share out the entries of two nodes. -/
theorem packed_shared {m : Nat → Option (BPTNode Value)} (h : Nat) {a b a1 b1 : BPTNode Value}
    (hes : a1.internal_entries ++ b1.internal_entries = a.internal_entries ++ b.internal_entries)
    (pa : packed m h a true) (pb : packed m h b true) :
    packed m h a1 true ∧ packed m h b1 true := by
  cases h with
  | zero => exact ⟨trivial, trivial⟩
  | succ h =>
    have key : ∀ e ∈ a1.internal_entries ++ b1.internal_entries, dense m h e.child true := by
      intro e he
      rw [hes] at he
      rcases List.mem_append.mp he with h1 | h1
      · exact pa e h1
      · exact pb e h1
    exact ⟨fun e he => key e (List.mem_append_left _ he),
      fun e he => key e (List.mem_append_right _ he)⟩

theorem limit_of_is_leaf {a b : BPTNode Value} (h : a.is_leaf = b.is_leaf) : a.limit = b.limit := by
  simp [BPTNode.limit, h]

/-- The rebalancing step of `remove` on a child that fell one entry below half its limit, the
other children being at least half full: afterwards every child is at least half full and
within its limit, and the node has lost at most one entry. -/
theorem rebalance_dense {t t1 : BPT Value} {h p i : Nat} {fl : List Nat}
    {n n1 cn : BPTNode Value} {e : InternalEntry}
    (ho : Owned t (h + 1) p fl) (hn : t.file.node_at p = some n)
    (hei : n.internal_entries[i]? = some e)
    (hcn : t.file.node_at e.child = some cn)
    (hlow : cn.count < cn.limit / 2) (hnear : cn.limit / 2 ≤ cn.count + 1)
    (hpc : packed t.file.node_at h cn true)
    (hside : ∀ j e1, n.internal_entries[j]? = some e1 → j ≠ i →
      dense t.file.node_at h e1.child true)
    (hrb : rebalance n p i cn e.child t = .ok (n1, t1)) :
    packed t1.file.node_at (h + 1) n1 true ∧
      n1.internal_entries.length ≤ n.internal_entries.length ∧
      n.internal_entries.length ≤ n1.internal_entries.length + 1 ∧
      n1.is_leaf = n.is_leaf := by
  obtain ⟨n0, hn0, hl, hne, hshape⟩ := ho.shape
  rw [hn] at hn0
  cases hn0
  have hmem : ∀ {j : Nat} {x : InternalEntry}, n.internal_entries[j]? = some x →
      x ∈ n.internal_entries := by
    intro j x hx
    obtain ⟨h1, h2⟩ := List.getElem?_eq_some_iff.mp hx
    exact h2 ▸ List.getElem_mem h1
  have hfc : fits t.file.node_at h cn := by
    obtain ⟨c0, hc0, hf⟩ := (shaped_iff_fits _ _ _).mp (hshape e (hmem hei))
    rw [hcn] at hc0; cases hc0; exact hf
  have hlim : (if cn.is_leaf = true then L else M) = cn.limit := rfl
  simp only [rebalance, bind, Except.bind, hlim] at hrb
  split at hrb
  · cases hrb
  · rename_i se hse
    obtain ⟨sn, hsn, hfs⟩ := (shaped_iff_fits _ _ _).mp (hshape se (hmem hse))
    obtain ⟨ta, hr, fa, ra, ca⟩ := disk_read_ok ho.coherent hsn
    simp only [hr] at hrb
    have hoa : Owned ta (h + 1) p fl := ho.on_same_file fa ca
    have hkind : sn.is_leaf = cn.is_leaf := fits_is_leaf hfs hfc
    have hslim : sn.limit = cn.limit := limit_of_is_leaf hkind
    have hsd : dense t.file.node_at h se.child true := by
      by_cases hi0 : 0 < i
      · simp only [hi0, if_true] at hse
        exact hside _ se hse (by omega)
      · simp only [hi0, if_false] at hse
        exact hside _ se hse (by omega)
    obtain ⟨sn0, hsn0, hsw, hsp⟩ := (dense_iff _ _ _ _).mp hsd
    rw [hsn] at hsn0
    cases hsn0
    simp only [Bool.true_or] at hsp
    have hsw1 := hsw.1
    have hsw2 := hsw.2 rfl
    have hc2 := limit_cases cn
    rw [← fa] at hn hcn hsn hfc hfs hpc hsp
    have hside' : ∀ j e1, n.internal_entries[j]? = some e1 → j ≠ i →
        dense ta.file.node_at h e1.child true := by
      rw [fa]; exact hside
    split at hrb
    · cases hrb
    · by_cases hi0 : 0 < i
      · simp only [hi0, if_true] at hrb hse
        obtain ⟨hes, hpl, her, hset⟩ := pair_at n.internal_entries (i - 1) se e hse
          (by rw [show i - 1 + 1 = i by omega]; exact hei)
        rw [show i - 1 + 1 = i by omega] at her hset
        have hsd2 : ∀ e1 ∈ n.internal_entries.take (i - 1) ++ n.internal_entries.drop (i - 1 + 2),
            dense ta.file.node_at h e1.child true := by
          intro e1 he1
          rcases List.mem_append.mp he1 with h1 | h1
          · obtain ⟨j, hj, hje⟩ := index_of_mem_take h1
            exact hside' j e1 hje (by omega)
          · obtain ⟨j, hj, hje⟩ := index_of_mem_drop h1
            exact hside' j e1 hje (by omega)
        split at hrb
        · -- merge into the left sibling
          rename_i hsum
          rw [her] at hrb
          split at hrb
          · cases hrb
          · rename_i tb hw1
            split at hrb
            · cases hrb
            · rename_i tc hw2
              split at hrb
              · cases hrb
              · rename_i td hd
                simp only [pure, Except.pure, Except.ok.injEq, Prod.mk.injEq] at hrb
                obtain ⟨rfl, rfl⟩ := hrb
                obtain ⟨f1, f2⟩ := fits_append h hfs hfc
                obtain ⟨f3, f4⟩ := fits_of_entries h
                  (a := sn.append cn)
                  (b := { sn.append cn with next_leaf := cn.next_leaf }) rfl rfl f1
                obtain ⟨m1, m2, m3⟩ := merge_frame _ se e _ hoa hn hes hsn hcn hw1 hw2 hd
                have hgf := pair_frame _ se e _ hoa hn hes hsn hcn m3
                obtain ⟨a1, a2⟩ := append_count hkind
                have hpa : packed ta.file.node_at h
                    ({ sn.append cn with next_leaf := cn.next_leaf } : BPTNode Value) true :=
                  packed_of_entries h (a := sn.append cn) rfl (packed_append h hfs hsp hpc)
                have hwa : ({ sn.append cn with next_leaf := cn.next_leaf } :
                    BPTNode Value).within true := by
                  constructor
                  · show (sn.append cn).count ≤ (sn.append cn).limit
                    rw [a1, a2, hslim]; exact hsum
                  · intro _
                    show (sn.append cn).limit / 2 ≤ (sn.append cn).count
                    rw [a1, a2]
                    omega
                refine ⟨pair_dense _ se e _ [se] hoa hn hes hsd2 m3 rfl ?_, ?_, ?_, rfl⟩
                · intro e1 he1
                  simp only [List.mem_singleton] at he1
                  subst he1
                  exact dense_rebuild h m1 hwa (by simpa using hpa)
                    (fun x hx => hgf x (by rw [← f2, ← f4]; exact hx))
                · simp only [List.length_append, List.length_cons, List.length_nil]
                  simp only [congrArg List.length hes, List.length_append, List.length_cons,
                    List.length_nil]
                  omega
                · simp only [List.length_append, List.length_cons, List.length_nil]
                  simp only [congrArg List.length hes, List.length_append, List.length_cons,
                    List.length_nil]
                  omega
        · -- borrow from the left sibling
          rename_i hsum
          obtain ⟨c1', s1', key', hb', hk', l1, l2, _, q2, q3, q4⟩ :=
            borrow_left_total cn sn hkind hlow (by omega)
          rw [hb'] at hrb
          simp only [hk'] at hrb
          simp only [BPTNode.set_key, hei, hset] at hrb
          obtain ⟨g1, g2, g3⟩ := fits_borrow_left h hfc hfs hlow hsum hb'
          split at hrb
          · cases hrb
          · rename_i tb hw1
            split at hrb
            · cases hrb
            · rename_i tc hw2
              split at hrb
              · cases hrb
              · rename_i td hw3
                simp only [pure, Except.pure, Except.ok.injEq, Prod.mk.injEq] at hrb
                obtain ⟨rfl, rfl⟩ := hrb
                obtain ⟨m1, m2, m3, m4⟩ := borrow_frame _ se e _ hoa hn hes hsn hcn
                  (Or.inr ⟨rfl, rfl, rfl, rfl⟩) hw1 hw2 hw3
                have hgf := pair_frame _ se e _ hoa hn hes hsn hcn m4
                have hps : packed ta.file.node_at h s1' true ∧
                    packed ta.file.node_at h c1' true := by
                  cases h with
                  | zero => exact ⟨trivial, trivial⟩
                  | succ h => exact packed_shared (h + 1) (q2 hfc.1) hsp hpc
                have hlc : c1'.limit = cn.limit := limit_of_is_leaf l1
                have hls : s1'.limit = cn.limit := limit_of_is_leaf l2
                refine ⟨pair_dense _ se e _ [se, { e with index := key' }] hoa hn hes hsd2 m4
                  rfl ?_, ?_, ?_, rfl⟩
                · intro e1 he1
                  simp only [List.mem_cons, List.mem_singleton, List.not_mem_nil,
                    or_false] at he1
                  rcases he1 with rfl | rfl
                  · refine dense_rebuild h m1 ⟨by omega, fun _ => by omega⟩
                      (by simpa using hps.1) ?_
                    intro x hx
                    exact hgf x (by rw [← g3]; exact List.mem_append_left _ hx)
                  · refine dense_rebuild h m2 ⟨by omega, fun _ => by omega⟩
                      (by simpa using hps.2) ?_
                    intro x hx
                    exact hgf x (by rw [← g3]; exact List.mem_append_right _ hx)
                · simp only [List.length_append, List.length_cons, List.length_nil]
                  simp only [congrArg List.length hes, List.length_append, List.length_cons,
                    List.length_nil]
                  omega
                · simp only [List.length_append, List.length_cons, List.length_nil]
                  simp only [congrArg List.length hes, List.length_append, List.length_cons,
                    List.length_nil]
                  omega
      · have hi : i = 0 := by omega
        subst hi
        simp only [Nat.lt_irrefl, if_false] at hrb hse
        obtain ⟨hes, hpl, her, hset⟩ := pair_at n.internal_entries 0 e se hei hse
        have hsd2 : ∀ e1 ∈ n.internal_entries.take 0 ++ n.internal_entries.drop (0 + 2),
            dense ta.file.node_at h e1.child true := by
          intro e1 he1
          rcases List.mem_append.mp he1 with h1 | h1
          · simp at h1
          · obtain ⟨j, hj, hje⟩ := index_of_mem_drop h1
            exact hside' j e1 hje (by omega)
        split at hrb
        · -- merge with the right sibling
          rename_i hsum
          rw [her] at hrb
          split at hrb
          · cases hrb
          · rename_i tb hw1
            split at hrb
            · cases hrb
            · rename_i tc hw2
              split at hrb
              · cases hrb
              · rename_i td hd
                simp only [pure, Except.pure, Except.ok.injEq, Prod.mk.injEq] at hrb
                obtain ⟨rfl, rfl⟩ := hrb
                obtain ⟨f1, f2⟩ := fits_append h hfc hfs
                obtain ⟨m1, m2, m3⟩ := merge_frame _ e se _ hoa hn hes hcn hsn hw1 hw2 hd
                have hgf := pair_frame _ e se _ hoa hn hes hcn hsn m3
                obtain ⟨a1, a2⟩ := append_count hkind.symm
                have hwa : (cn.append sn).within true := by
                  constructor
                  · rw [a1, a2]; omega
                  · intro _
                    rw [a1, a2]
                    omega
                refine ⟨pair_dense _ e se _ [e] hoa hn hes hsd2 m3 rfl ?_, ?_, ?_, rfl⟩
                · intro e1 he1
                  simp only [List.mem_singleton] at he1
                  subst he1
                  exact dense_rebuild h m1 hwa (by simpa using packed_append h hfc hpc hsp)
                    (fun x hx => hgf x (by rw [← f2]; exact hx))
                · simp only [List.length_append, List.length_cons, List.length_nil]
                  simp only [congrArg List.length hes, List.length_append, List.length_cons,
                    List.length_nil]
                  omega
                · simp only [List.length_append, List.length_cons, List.length_nil]
                  simp only [congrArg List.length hes, List.length_append, List.length_cons,
                    List.length_nil]
                  omega
        · -- borrow from the right sibling
          rename_i hsum
          obtain ⟨c1', s1', key', hb', hk', l1, l2, _, q2, q3, q4⟩ :=
            borrow_right_total cn sn hkind hlow (by omega)
          rw [hb'] at hrb
          simp only [hk'] at hrb
          simp only [BPTNode.set_key, hse, hset] at hrb
          obtain ⟨g1, g2, g3⟩ := fits_borrow_right h hfc hfs hlow hsum hb'
          split at hrb
          · cases hrb
          · rename_i tb hw1
            split at hrb
            · cases hrb
            · rename_i tc hw2
              split at hrb
              · cases hrb
              · rename_i td hw3
                simp only [pure, Except.pure, Except.ok.injEq, Prod.mk.injEq] at hrb
                obtain ⟨rfl, rfl⟩ := hrb
                obtain ⟨m1, m2, m3, m4⟩ := borrow_frame _ e se _ hoa hn hes hcn hsn
                  (Or.inl ⟨rfl, rfl, rfl, rfl⟩) hw1 hw2 hw3
                have hgf := pair_frame _ e se _ hoa hn hes hcn hsn m4
                have hps : packed ta.file.node_at h c1' true ∧
                    packed ta.file.node_at h s1' true := by
                  cases h with
                  | zero => exact ⟨trivial, trivial⟩
                  | succ h => exact packed_shared (h + 1) (q2 hfc.1) hpc hsp
                have hlc : c1'.limit = cn.limit := limit_of_is_leaf l1
                have hls : s1'.limit = cn.limit := limit_of_is_leaf l2
                refine ⟨pair_dense _ e se _ [e, { se with index := key' }] hoa hn hes hsd2 m4
                  rfl ?_, ?_, ?_, rfl⟩
                · intro e1 he1
                  simp only [List.mem_cons, List.mem_singleton, List.not_mem_nil,
                    or_false] at he1
                  rcases he1 with rfl | rfl
                  · refine dense_rebuild h m1 ⟨by omega, fun _ => by omega⟩
                      (by simpa using hps.1) ?_
                    intro x hx
                    exact hgf x (by rw [← g3]; exact List.mem_append_left _ hx)
                  · refine dense_rebuild h m2 ⟨by omega, fun _ => by omega⟩
                      (by simpa using hps.2) ?_
                    intro x hx
                    exact hgf x (by rw [← g3]; exact List.mem_append_right _ hx)
                · simp only [List.length_append, List.length_cons, List.length_nil]
                  simp only [congrArg List.length hes, List.length_append, List.length_cons,
                    List.length_nil]
                  omega
                · simp only [List.length_append, List.length_cons, List.length_nil]
                  simp only [congrArg List.length hes, List.length_append, List.length_cons,
                    List.length_nil]
                  omega

/-- The loop over the children in the recursive `remove` keeps the counts of the children in
range, given that the recursive call on a child does; the node loses at most one entry. -/
theorem remove_scan_dense [BEq Value] (k : Key) (v : Value) (h d : Nat)
    (ih : ∀ (p : Nat) (n n1 : BPTNode Value) (t t1 : BPT Value) (fl : List Nat) (flag : Bool)
      (low : Bool),
      Owned t h p fl → t.file.node_at p = some n → dense t.file.node_at h p low →
      remove_rec k v d n p t = .ok (flag, n1, t1) →
      n1.count ≤ n.count ∧ n.count ≤ n1.count + 1 ∧ n1.limit = n.limit ∧
        packed t1.file.node_at h n1 (low || decide (2 ≤ n1.count))) :
    ∀ (cnt i p : Nat) (n n1 : BPTNode Value) (t t1 : BPT Value) (fl : List Nat) (flag : Bool)
      (low : Bool),
      Owned t (h + 1) p fl → t.file.node_at p = some n →
      dense t.file.node_at (h + 1) p low →
      remove_scan k (remove_rec k v d) cnt i n p t = .ok (flag, n1, t1) →
      n1.count ≤ n.count ∧ n.count ≤ n1.count + 1 ∧ n1.limit = n.limit ∧
        packed t1.file.node_at (h + 1) n1 (low || decide (2 ≤ n1.count)) := by
  intro cnt
  induction cnt with
  | zero =>
    intro i p n n1 t t1 fl flag low ho hn hd hs
    simp only [remove_scan, Except.ok.injEq, Prod.mk.injEq] at hs
    obtain ⟨rfl, rfl, rfl⟩ := hs
    obtain ⟨n2, hn2, _, hkids⟩ := hd
    rw [hn] at hn2
    cases hn2
    exact ⟨Nat.le_refl _, Nat.le_succ _, rfl, hkids⟩
  | succ cnt ihc =>
    intro i p n n1 t t1 fl flag low ho hn hd hs
    obtain ⟨n0, hn0, hl, hne, hshape⟩ := ho.shape
    rw [hn] at hn0
    cases hn0
    have hd' := hd
    obtain ⟨n2, hn2, hw, hkids⟩ := hd'
    rw [hn] at hn2
    cases hn2
    have hsame : n.count ≤ n.count ∧ n.count ≤ n.count + 1 ∧ n.limit = n.limit ∧
        packed t.file.node_at (h + 1) n (low || decide (2 ≤ n.count)) :=
      ⟨Nat.le_refl _, Nat.le_succ _, rfl, hkids⟩
    simp only [remove_scan] at hs
    split at hs
    · simp only [Except.ok.injEq, Prod.mk.injEq] at hs
      obtain ⟨rfl, rfl, rfl⟩ := hs
      exact hsame
    · rename_i e hei
      split at hs
      · obtain ⟨hes, _⟩ := split_at_index _ _ _ hei
        have hmem : e ∈ n.internal_entries := by
          obtain ⟨h1, h2⟩ := List.getElem?_eq_some_iff.mp hei
          exact h2 ▸ List.getElem_mem h1
        obtain ⟨cn, hcn, _⟩ := (shaped_iff_fits _ _ _).mp (hshape e hmem)
        obtain ⟨ta, hr, fa, ra, ca⟩ := disk_read_ok ho.coherent hcn
        simp only [hr] at hs
        have hoa : Owned ta (h + 1) p fl := ho.on_same_file fa ca
        have hna : ta.file.node_at p = some n := by rw [fa]; exact hn
        split at hs
        · cases hs
        · rename_i flag1 cn1 tb hrec
          obtain ⟨fl1, hr1, hf1, _⟩ := remove_rec_shape k v h d e.child cn cn1 ta tb fl flag1
            (hoa.child hna hmem) (by rw [fa]; exact hcn) hrec
          cases flag1 with
          | false =>
            simp only [Bool.not_false, if_true] at hs
            obtain ⟨hfb, _⟩ := hf1 rfl
            have hfb2 : tb.file = t.file := hfb.trans fa
            have := ihc (i + 1) p n n1 tb t1 fl flag low
              (ho.on_same_file hfb2 hr1.coherent) (by rw [hfb2]; exact hn)
              (by rw [hfb2]; exact hd) hs
            exact this
          | true =>
            simp only [Bool.not_true, Bool.false_eq_true, if_false] at hs
            have hr2 : Reshaped t tb (h + 1) p fl fl1 n :=
              (Reshaped.lift _ e _ hoa hna hes hr1).of_file_eq fa ra
            have hdc := hkids e hmem
            obtain ⟨g1, g2, g3, g4⟩ := ih e.child cn cn1 ta tb fl true _ (hoa.child hna hmem)
              (by rw [fa]; exact hcn) (by rw [fa]; exact hdc) hrec
            have hcw : cn.within (low || decide (2 ≤ n.count)) := by
              obtain ⟨c0, hc0, hcw, _⟩ := (dense_iff _ _ _ _).mp hdc
              rw [hcn] at hc0
              cases hc0
              exact hcw
            have hsib := child_step_frame _ e _ hoa hna hes hr1
            have hside : ∀ e1 ∈ n.internal_entries.take i ++ n.internal_entries.drop (i + 1),
                dense tb.file.node_at h e1.child (low || decide (2 ≤ n.count)) := by
              intro e1 he1
              have hm1 : e1 ∈ n.internal_entries := by
                rcases List.mem_append.mp he1 with h1 | h1
                · exact List.mem_of_mem_take h1
                · exact List.mem_of_mem_drop h1
              refine dense_congr h e1.child _ ?_ (hkids e1 hm1)
              intro x hx
              rw [hsib e1 he1 x (by rw [fa]; exact hx), fa]
            have hcount := (count_internal hl).1
            have hnlim := (count_internal hl).2
            have hlim : (if cn1.is_leaf = true then L else M) = cn1.limit := rfl
            simp only [hlim] at hs
            split at hs
            · rename_i hcond
              simp only [Bool.and_eq_true, decide_eq_true_eq] at hcond
              have hflag : (low || decide (2 ≤ n.count)) = true := by
                simp only [Bool.or_eq_true, decide_eq_true_eq]
                exact Or.inr hcond.2
              rw [hflag] at hside hcw g4
              simp only [Bool.true_or] at g4
              split at hs
              · cases hs
              · rename_i n2 t2 hrb
                simp only [Except.ok.injEq, Prod.mk.injEq] at hs
                obtain ⟨rfl, rfl, rfl⟩ := hs
                obtain ⟨q1, q2, q3, q4⟩ := rebalance_dense (hr2.keeps_owned ho) hr2.node hei
                  hr1.node hcond.1 (by have := hcw.2 rfl; rw [g3]; omega) g4
                  (fun j e1 hj hne => hside e1 (mem_around_of_index hj hne)) hrb
                have hl1 : n2.is_leaf = false := by rw [q4]; exact hl
                have hc1 := (count_internal hl1).1
                refine ⟨by omega, by omega, by rw [(count_internal hl1).2, hnlim],
                  packed_of_le (h + 1) (by simp) q1⟩
            · rename_i hcond
              simp only [Bool.and_eq_true, decide_eq_true_eq, not_and_or, not_lt] at hcond
              simp only [Except.ok.injEq, Prod.mk.injEq] at hs
              obtain ⟨rfl, rfl, rfl⟩ := hs
              refine ⟨Nat.le_refl _, Nat.le_succ _, rfl, ?_⟩
              intro e1 he1
              rw [hes] at he1
              have hself : dense tb.file.node_at h e.child (low || decide (2 ≤ n.count)) := by
                refine (dense_iff _ _ _ _).mpr ⟨cn1, hr1.node, ⟨?_, ?_⟩, g4⟩
                · have := hcw.1
                  rw [g3]
                  omega
                · intro hlow
                  rcases hcond with hc | hc
                  · exact hc
                  · exfalso
                    have h2 : decide (2 ≤ n.count) = false := by
                      simp only [decide_eq_false_iff_not, not_le]
                      omega
                    rw [h2, Bool.or_false] at hlow
                    have := hw.2 hlow
                    omega
              rcases List.mem_append.mp he1 with h1 | h1
              · exact hside e1 (List.mem_append_left _ h1)
              · rcases List.mem_cons.mp h1 with rfl | h1
                · exact hself
                · exact hside e1 (List.mem_append_right _ h1)
      · simp only [Except.ok.injEq, Prod.mk.injEq] at hs
        obtain ⟨rfl, rfl, rfl⟩ := hs
        exact hsame

/-- The recursive `remove` on a subtree whose nodes have their counts in range: the node loses
at most one entry, and the subtrees of its children keep their counts in range. -/
theorem remove_rec_dense [BEq Value] (k : Key) (v : Value) :
    ∀ (h d p : Nat) (n n1 : BPTNode Value) (t t1 : BPT Value) (fl : List Nat) (flag : Bool)
      (low : Bool),
      Owned t h p fl → t.file.node_at p = some n → dense t.file.node_at h p low →
      remove_rec k v d n p t = .ok (flag, n1, t1) →
      n1.count ≤ n.count ∧ n.count ≤ n1.count + 1 ∧ n1.limit = n.limit ∧
        packed t1.file.node_at h n1 (low || decide (2 ≤ n1.count)) := by
  intro h
  induction h with
  | zero =>
    intro d p n n1 t t1 fl flag low ho hn hd hi0
    obtain ⟨n0, hn0, hl⟩ := ho.shape
    rw [hn] at hn0
    cases hn0
    cases d with
    | zero => simp [remove_rec] at hi0
    | succ d =>
      simp only [remove_rec] at hi0
      rw [if_pos hl] at hi0
      split at hi0
      · simp only [Except.ok.injEq, Prod.mk.injEq] at hi0
        obtain ⟨rfl, rfl, rfl⟩ := hi0
        exact ⟨Nat.le_refl _, Nat.le_succ _, rfl, trivial⟩
      · rename_i hj
        split at hi0
        · cases hi0
        · rename_i t2 hw
          simp only [Except.ok.injEq, Prod.mk.injEq] at hi0
          obtain ⟨rfl, hn1, rfl⟩ := hi0
          have hl1 : n1.is_leaf = true := by rw [← hn1]; exact hl
          have hlen : n1.leaf_entries.length + 1 = n.leaf_entries.length ∨
              n1.leaf_entries.length = n.leaf_entries.length := by
            rw [← hn1]
            simp only [List.length_eraseIdx]
            split <;> omega
          rw [(count_leaf hl1).1, (count_leaf hl).1]
          refine ⟨by omega, by omega, by simp [BPTNode.limit, hl, hl1], trivial⟩
  | succ h ih =>
    intro d p n n1 t t1 fl flag low ho hn hd hi0
    obtain ⟨n0, hn0, hl, hne, hshape⟩ := ho.shape
    rw [hn] at hn0
    cases hn0
    cases d with
    | zero => simp [remove_rec] at hi0
    | succ d =>
      simp only [remove_rec] at hi0
      rw [if_neg (by simp [hl])] at hi0
      exact remove_scan_dense k v h d (ih d) _ _ p n n1 t t1 fl flag low ho hn hd hi0

/-- The block of the public `remove` that replaces a root with a single entry keeps the counts
in range: the promoted node is within its limit, and the nodes below it are as full as
before. -/
theorem shrink_root_dense {t t1 : BPT Value} {h : Nat} {fl : List Nat} {n : BPTNode Value}
    (ho : Owned t (h + 1) t.root_page fl)
    (hn : t.file.node_at t.root_page = some n) (hc1 : n.count = 1)
    (hd : dense t.file.node_at (h + 1) t.root_page false)
    (hsh : shrink_root n t = .ok t1) :
    ∃ h1, shaped t1.file.node_at (h1 + 1) t1.root_page ∧
      dense t1.file.node_at (h1 + 1) t1.root_page false := by
  obtain ⟨n0, hn0, hl, hne, hshape⟩ := ho.shape
  rw [hn] at hn0
  cases hn0
  have hc1' := hc1
  simp only [BPTNode.count, hl, Bool.false_eq_true, if_false] at hc1
  obtain ⟨e, hes⟩ : ∃ e, n.internal_entries = [e] := List.length_eq_one.mp hc1
  simp only [shrink_root, hl, Bool.false_eq_true, if_false, hes, bind, Except.bind] at hsh
  obtain ⟨cn, hcn, hfit⟩ := (shaped_iff_fits _ _ _).mp (hshape e (by rw [hes]; simp))
  obtain ⟨ta, hr, fa, ra, ca⟩ := disk_read_ok ho.coherent hcn
  simp only [hr] at hsh
  have hsub : subtree t.file.node_at (h + 1) t.root_page =
      t.root_page :: subtree t.file.node_at h e.child := by
    simp only [subtree, hn, hes, List.flatMap_cons, List.flatMap_nil, List.append_nil]
  split at hsh
  · simp only [pure, Except.pure, Except.ok.injEq] at hsh
    subst hsh
    exact ⟨h, by rw [fa, ra]; exact ho.shape, by rw [fa, ra]; exact hd⟩
  · rename_i hleaf
    have hcl : cn.is_leaf = false := by simpa using hleaf
    obtain ⟨h', rfl⟩ : ∃ h', h = h' + 1 := by
      cases h with
      | zero => rw [show cn.is_leaf = true from hfit] at hcl; cases hcl
      | succ h => exact ⟨h, rfl⟩
    obtain ⟨td, hd1, cd, sd, rd, ld, nd, fd, chd⟩ := @free_at Value ta ca fl
      (by rw [fa]; exact ho.chain) ta.root_page n (by rw [fa, ra]; exact hn)
    simp only [hd1, pure, Except.pure, Except.ok.injEq] at hsh
    have hf1 : t1.file = td.file.write_info e.child 1 := by rw [← hsh]
    have hr1 : t1.root_page = e.child := by rw [← hsh]
    have hblk : ∀ x, x ≠ t.root_page → t1.file.block x = t.file.block x := by
      intro x hx
      rw [hf1, block_write_info, fd x (by rw [ra]; exact hx), fa]
    have hnd := ho.nodup
    rw [hsub] at hnd
    have hfr : ∀ x ∈ subtree t.file.node_at (h' + 1) e.child,
        t1.file.node_at x = t.file.node_at x := by
      intro x hx
      apply node_at_of_block_eq
      apply hblk
      rintro rfl
      exact (List.nodup_cons.mp (List.nodup_append.mp hnd).1).1 hx
    obtain ⟨n2, hn2, _, hkids⟩ := hd
    rw [hn] at hn2
    cases hn2
    have hke := hkids e (by rw [hes]; simp)
    refine ⟨h', ?_, ?_⟩
    · rw [hr1]
      exact shaped_congr _ _ hfr (hshape e (by rw [hes]; simp))
    · rw [hr1]
      exact dense_congr _ _ _ hfr (dense_of_le _ _ (by simp) hke)

/-- The public `remove` keeps the counts in range. -/
theorem remove_compact [BEq Value] {t t1 : BPT Value} {h : Nat} {fl : List Nat}
    (hs : t.compact h fl) (k : Key) (v : Value) (hi : t.remove k v = .ok t1) :
    ∃ h1 fl1, t1.compact h1 fl1 := by
  obtain ⟨hsd, hd⟩ := hs
  obtain ⟨h1, fl1, hs1⟩ := remove_sound hsd k v hi
  have ho := hsd.owned
  obtain ⟨n, hn, hfit⟩ := ho.node
  obtain ⟨ta, hr, fa, ra, ca⟩ := disk_read_ok ho.coherent hn
  simp only [BPT.remove, bind, Except.bind, hr] at hi
  split at hi
  · cases hi
  · rename_i _ r hrec
    obtain ⟨flag, n1, tb⟩ := r
    rw [ra] at hrec
    obtain ⟨fl2, hr1, _, _⟩ := remove_rec_shape k v (h + 1) _ t.root_page n n1 ta tb fl flag
      (ho.on_same_file fa ca) (by rw [fa]; exact hn) hrec
    have hr2 : Reshaped t tb (h + 1) t.root_page fl fl2 n1 := hr1.of_file_eq fa ra
    obtain ⟨g1, g2, g3, g4⟩ := remove_rec_dense k v (h + 1) _ t.root_page n n1 ta tb fl flag
      false (ho.on_same_file fa ca) (by rw [fa]; exact hn) (by rw [fa]; exact hd) hrec
    have hw : n.within false := by
      obtain ⟨n2, hn2, hw, _⟩ := hd
      rw [hn] at hn2
      cases hn2
      exact hw
    have hdb : dense tb.file.node_at (h + 1) t.root_page false :=
      (dense_iff _ _ _ _).mpr ⟨n1, hr2.node,
        ⟨by have := hw.1; rw [g3]; omega, fun h => by cases h⟩, g4⟩
    simp only at hi
    split at hi
    · rename_i hone
      have hob := hr2.keeps_owned ho
      rw [← hr2.root] at hob
      obtain ⟨h2, hsh2, hk2⟩ := shrink_root_dense hob (by rw [hr2.root]; exact hr2.node) hone
        (by rw [hr2.root]; exact hdb) hi
      have hh := hs1.height hsh2
      subst hh
      exact ⟨_, fl1, hs1, hk2⟩
    · simp only [pure, Except.pure, Except.ok.injEq] at hi
      subst hi
      have hh := @BPT.sound.height _ _ _ h _ hs1 (by rw [hr2.root]; exact hr2.shape)
      subst hh
      exact ⟨_, fl1, hs1, by rw [hr2.root]; exact hdb⟩

/-- Every public call keeps the counts in range. -/
theorem run_compact [BEq Value] (ops : List (Op Value)) :
    ∀ (t t1 : BPT Value) (h : Nat) (fl : List Nat), t.compact h fl → t.run ops = .ok t1 →
      ∃ h1 fl1, t1.compact h1 fl1 := by
  induction ops with
  | nil =>
    intro t t1 h fl hs hr
    simp only [BPT.run, Except.ok.injEq] at hr
    subst hr
    exact ⟨h, fl, hs⟩
  | cons op ops ih =>
    intro t t1 h fl hs hr
    simp only [BPT.run] at hr
    split at hr
    · cases hr
    · rename_i t2 hop
      have h2 : ∃ h2 fl2, t2.compact h2 fl2 := by
        cases op with
        | insert k v =>
          obtain ⟨h2, fl2, hc2, _⟩ := insert_compact hs k v hop
          exact ⟨h2, fl2, hc2⟩
        | remove k v => exact remove_compact hs k v hop
      obtain ⟨h2, fl2, hs2⟩ := h2
      exact ih t2 t1 h2 fl2 hs2 hr

/-- The counts of the tree reached by a sequence of public calls on a new file are in range. -/
theorem session_compact [BEq Value] {ops : List (Op Value)} {t : BPT Value}
    (h : session ops = .ok t) : ∃ h1 fl1, t.compact h1 fl1 := by
  unfold session at h
  split at h
  · cases h
  · rename_i t0 h0
    exact run_compact ops t0 t 0 [] (compact_fresh h0) h

/-- After a run that ends with an insert the root has fewer than `M` entries. -/
theorem root_after_insert [BEq Value] (ops : List (Op Value)) (k : Key) (v : Value)
    (t : BPT Value) (h : session (ops ++ [Op.insert k v]) = .ok t) :
    ∀ r, t.file.node_at t.root_page = some r → r.count < M := by
  unfold session at h
  split at h
  · cases h
  · rename_i s hopen
    obtain ⟨t0, h1, h2⟩ := run_append ops [Op.insert k v] s t h
    obtain ⟨h0, fl0, hc0⟩ := run_compact ops s t0 0 [] (compact_fresh hopen) h1
    simp only [BPT.run, BPT.apply] at h2
    split at h2
    · cases h2
    · rename_i t2 hop
      cases h2
      obtain ⟨_, _, _, hlt⟩ := insert_compact hc0 k v hop
      exact hlt

/-- The counts of the nodes of a subtree whose counts are in range, and the closure of its page
list under the child links. -/
theorem dense_all {m : Nat → Option (BPTNode Value)} :
    ∀ (h p : Nat) (low : Bool), shaped m h p → dense m h p low →
      ∀ q ∈ subtree m h p, ∃ n, m q = some n ∧ n.count ≤ n.limit ∧
        (q ≠ p → ∀ np, m p = some np → (low || decide (2 ≤ np.count)) = true →
          n.limit / 2 ≤ n.count) ∧
        (n.is_leaf = false → ∀ e ∈ n.internal_entries, e.child ∈ subtree m h p) := by
  intro h
  induction h with
  | zero =>
    intro p low hs hd q hq
    obtain ⟨n, hn, hw⟩ := hd
    obtain ⟨n1, hn1, hl⟩ := hs
    rw [hn] at hn1
    cases hn1
    simp only [subtree, List.mem_singleton] at hq
    subst hq
    exact ⟨n, hn, hw.1, fun h => absurd rfl h, fun h => by rw [hl] at h; cases h⟩
  | succ h ih =>
    intro p low hs hd q hq
    obtain ⟨n, hn, hw, hkids⟩ := hd
    obtain ⟨n1, hn1, hl, _, hshape⟩ := hs
    rw [hn] at hn1
    cases hn1
    have hq' := hq
    simp only [subtree, hn, List.mem_cons, List.mem_flatMap] at hq'
    by_cases hqp : q = p
    · subst hqp
      exact ⟨n, hn, hw.1, fun h => absurd rfl h,
        fun _ e he => subtree_child_mem hn he (subtree_root_mem _ _ _)⟩
    · rcases hq' with h1 | ⟨e, he, hqe⟩
      · exact absurd h1 hqp
      · obtain ⟨nq, hnq, h2, h3, h4⟩ := ih e.child _ (hshape e he) (hkids e he) q hqe
        refine ⟨nq, hnq, h2, ?_, fun hlf e1 he1 => subtree_child_mem hn he (h4 hlf e1 he1)⟩
        intro _ np hnp hflag
        rw [hn] at hnp
        cases hnp
        by_cases hqc : q = e.child
        · subst hqc
          obtain ⟨c, hc, hcw, _⟩ := (dense_iff _ _ _ _).mp (hkids e he)
          rw [hnq] at hc
          cases hc
          exact hcw.2 hflag
        · obtain ⟨c, hc, _, _⟩ := (dense_iff _ _ _ _).mp (hkids e he)
          exact h3 hqc c hc (by rw [hflag]; rfl)

/-! ## The counts of the nodes after a run -/

/-- C10 (amended).  After every sequence of inserts and removes on a new file that runs to its
end and leaves a file of at most 524288 pages, the root is an internal node with count from 1
to 58, below 58 when the last call was an insert.  Every other node reachable from the root has
a count of at most its limit (48 for a leaf, 58 for an internal node), below its limit when the
run had no remove, and, when the root has two entries or more, of at least half its limit.  A
root with a single entry has a leaf as its only child, and no bound from below is stated for
that leaf.  The list of pages is closed under the child links, so it holds every node reachable
from the root. -/
theorem counts_stay_in_range [BEq Value] (ops : List (Op Value)) (t : BPT Value)
    (hs : session ops = .ok t) (hsize : t.file.pages.length ≤ MAX_PAGES) :
    ∃ r, t.file.read_page32 t.root_page = .ok r ∧ r.is_leaf = false ∧
      1 ≤ r.count ∧ r.count ≤ M ∧
      (∀ ops1 k v, ops = ops1 ++ [Op.insert k v] → r.count < M) ∧
      t.root_page ∈ t.pages ∧
      (r.count = 1 → ∃ e l, r.internal_entries = [e] ∧ t.pages = [t.root_page, e.child] ∧
        t.file.read_page32 e.child = .ok l ∧ l.is_leaf = true) ∧
      ∀ q ∈ t.pages, ∃ n, t.file.read_page32 q = .ok n ∧
        (q ≠ t.root_page →
          n.count ≤ n.limit ∧ (2 ≤ r.count → n.limit / 2 ≤ n.count) ∧
            (∀ pairs, ops = inserts pairs → n.count < n.limit)) ∧
        (n.is_leaf = false → ∀ e ∈ n.internal_entries, e.child ∈ t.pages) := by
  obtain ⟨h, fl, hsd, hd⟩ := session_compact hs
  have hpages := hsd.pages
  have hread : ∀ q n, t.file.node_at q = some n → t.file.read_page32 q = .ok n := by
    intro q n hq
    rw [MemoryRiver.read_page32_eq _ (by have := MemoryRiver.node_at_bound hq; omega),
      MemoryRiver.read_page_eq_ok]
    exact hq
  obtain ⟨r, hr, hl, hne, hshape⟩ := hsd.2.2.1
  have hcount := (count_internal hl).1
  have hwr : r.within false := by
    obtain ⟨r2, hr2, hw, _⟩ := hd
    rw [hr] at hr2
    cases hr2
    exact hw
  refine ⟨r, hread _ _ hr, hl, ?_, ?_, ?_, ?_, ?_, ?_⟩
  · rw [hcount]
    exact List.length_pos.mpr hne
  · have := hwr.1
    rw [(count_internal hl).2] at this
    exact this
  · intro ops1 k v ho
    subst ho
    exact root_after_insert ops1 k v t hs r hr
  · rw [hpages]
    exact subtree_root_mem _ _ _
  · intro hone
    have h0 : h = 0 := hsd.2.2.2.2.2 r hr hone
    subst h0
    rw [hcount] at hone
    obtain ⟨e, hes⟩ : ∃ e, r.internal_entries = [e] := List.length_eq_one.mp hone
    obtain ⟨l, hl1, hl2⟩ := hshape e (by rw [hes]; simp)
    refine ⟨e, l, hes, ?_, hread _ _ hl1, hl2⟩
    rw [hpages]
    simp only [subtree, hr, hes, List.flatMap_cons, List.flatMap_nil, List.append_nil]
  · intro q hq
    rw [hpages] at hq
    obtain ⟨n, hn, h1, h2, h3⟩ := dense_all (h + 1) t.root_page false hsd.2.2.1 hd q hq
    refine ⟨n, hread _ _ hn, ?_, ?_⟩
    · intro hqr
      refine ⟨h1, fun h2r => h2 hqr r hr (by simpa using h2r), ?_⟩
      intro pairs hp
      subst hp
      obtain ⟨t', h', items, hs', hg, _⟩ := session_inserts_good pairs
      rw [hs] at hs'
      cases hs'
      obtain ⟨_, _, _, r', hr', ho, _, _⟩ := hg
      have hh := hsd.height (ordered_shaped _ _ _ _ _ _ _ ho)
      subst hh
      obtain ⟨n', hn', g1, _⟩ := ordered_all (h + 1) t.root_page _ _ _ _ ho q hq
      rw [hn] at hn'
      cases hn'
      exact (g1 hqr).1
    · intro hlf e he
      rw [hpages]
      exact h3 hlf e he

theorem counts_stay_in_range_witness :
    ∃ (t : BPT Nat) (r : BPTNode Nat), session mixed_ops = .ok t ∧
      t.file.pages.length ≤ MAX_PAGES ∧ t.pages = [2, 1, 4, 5] ∧
      t.file.read_page32 t.root_page = .ok r ∧ r.count = 3 ∧
      ∀ q ∈ t.pages, q ≠ t.root_page →
        ∃ n, t.file.read_page32 q = .ok n ∧ n.count ≤ n.limit ∧ n.limit / 2 ≤ n.count := by
  cases h : session mixed_ops with
  | error e =>
    have hf : failure (session mixed_ops) = none := by decide
    rw [h] at hf
    cases hf
  | ok t =>
    have hq : ∀ t ∈ (session mixed_ops).toOption, t.file.pages.length ≤ MAX_PAGES ∧
        BPT.pages t = [2, 1, 4, 5] ∧
        (t.file.node_at t.root_page).map (fun (r : BPTNode Nat) => r.count) = some 3 := by
      decide
    obtain ⟨hsize, hp, hc⟩ := hq t (by rw [h]; rfl)
    obtain ⟨r, h1, _, _, _, _, _, _, h8⟩ := counts_stay_in_range mixed_ops t h hsize
    have hr3 : r.count = 3 := by
      rw [MemoryRiver.read_page32_eq _ (by
        cases hn : t.file.node_at t.root_page with
        | none => rw [hn] at hc; cases hc
        | some r0 => have := MemoryRiver.node_at_bound hn; omega),
        MemoryRiver.read_page_eq_ok] at h1
      rw [h1] at hc
      simpa using hc
    refine ⟨t, r, rfl, hsize, hp, h1, hr3, ?_⟩
    intro q hq hqr
    obtain ⟨n, g1, g2, _⟩ := h8 q hq
    obtain ⟨g3, g4, _⟩ := g2 hqr
    exact ⟨n, g1, g3, g4 (by omega)⟩

/-- C10 (counterexample).  Five runs.  Right after initialisation the root has one entry and
its child, the leaf at page 1, has count 0, below `L / 2 = 24`.  After the first fifty calls of
`overflow_ops` the merge in `remove` has left a leaf with count 48, not below `L = 48`.  After
the calls `grown_tail_ops` on the tree whose root has grown once, the merge of two internal
nodes with 28 and 30 entries and the replacement of the root have left a root with count 58, not
below `M = 58`.  A run whose last insert writes past the end of a leaf array stops.  And a run
of inserts builds, in exact arithmetic, a tree in which page 524289 is reachable from the root,
a page whose offset overflows the `int` in which `read_page` computes it. -/
theorem counts_leave_the_range :
    (∃ t r l, session ([] : List (Op Nat)) = .ok t ∧
      t.file.node_at t.root_page = some r ∧ r.is_leaf = false ∧
      r.internal_entries.map (fun e => e.child) = [1] ∧
      t.file.node_at 1 = some l ∧ l.is_leaf = true ∧
      ¬ (l.limit / 2 ≤ l.count ∧ l.count < l.limit)) ∧
    (∃ t r l, session overflow_ops.dropLast = .ok t ∧
      t.file.node_at t.root_page = some r ∧ r.is_leaf = false ∧
      r.internal_entries.map (fun e => e.child) = [1] ∧
      t.file.node_at 1 = some l ∧ l.is_leaf = true ∧ l.count = 48 ∧ ¬ l.count < l.limit) ∧
    (∃ t r, grown_state.run grown_tail_ops = .ok t ∧
      t.file.node_at t.root_page = some r ∧ r.is_leaf = false ∧ r.count = 58 ∧
      ¬ r.count < M) ∧
    failure (session (overflow_ops.dropLast ++ [Op.insert (key_of [10]) 10]))
      = some Err.overflow ∧
    ∃ t, session (inserts (flood (key_of [7]) 7)) = .ok t ∧
      MAX_PAGES < file_pages (inserts (flood (key_of [7]) 7)) ∧ MAX_PAGES + 1 ∈ t.pages ∧
      t.file.read_page32 (MAX_PAGES + 1) = .error .overflow := by
  refine ⟨fresh_leaf_is_below_half, ?_, ?_, by decide, ?_⟩
  · obtain ⟨t, r, l, h1, h2, h3, h4, h5, h6, h7, _⟩ := merge_fills_leaf
    refine ⟨t, r, l, h1, h2, h3, h4, h5, h6, h7, ?_⟩
    rw [h7, (count_leaf h6).2]
    decide
  · have h : ∃ t, grown_state.run grown_tail_ops = .ok t := by
      cases hs : grown_state.run grown_tail_ops with
      | ok t => exact ⟨t, rfl⟩
      | error e =>
        have : failure (grown_state.run grown_tail_ops) = none := by decide
        rw [hs] at this
        cases this
    obtain ⟨t, ht⟩ := h
    have hq : ∀ t ∈ (grown_state.run grown_tail_ops).toOption,
        (t.file.node_at t.root_page).map (fun (r : BPTNode Nat) => (r.is_leaf, r.count))
          = some (false, 58) := by decide
    have h5 := hq t (by rw [ht]; rfl)
    rw [ht]
    cases hn : t.file.node_at t.root_page with
    | none => rw [hn] at h5; cases h5
    | some r =>
      rw [hn] at h5
      simp only [Option.map_some', Option.some.injEq, Prod.mk.injEq] at h5
      exact ⟨t, r, rfl, hn, h5.1, h5.2, by rw [h5.2]; decide⟩
  · obtain ⟨t, h1, h2, h3, h4, _⟩ := inserts_pass_two_gib _ (flood_length (key_of [7]) 7)
    exact ⟨t, h1, h2, h3, h4⟩

end BPTree
